import Mathlib



namespace MetroMPI

/-!
Metro-MPI partitioning passes of the Verilator fork: hierarchy finder and port analyzer

Shallow embedding of `src/src/V3Metro_MPI.h`: the duplicate-hierarchy finder
`HierCellsGraphVisitor` and the port analyzer `PartitionPortAnalyzer`.

* `std::string` is `String`.  The byte-level operations of the source
  (`back() == '.'`, `rfind('.')`, `find("in")`, `operator<`) agree on UTF-8 bytes and on
  characters.
* A `std::unordered_map` or `std::map` that is only read by key is a function
  (`String → Option V` where the source asks `count` or `find`).  The unordered map that is
  iterated, `hashToNodes`, is an association list read through an arbitrary iteration
  order (`HashOrder`); the ordered maps that are iterated (`m_partitionData`,
  `comm_links`) and the rank table are lists kept sorted by key.
* `int` is `Int`; a weight is a number of leaf instances and a rank a number of
  instances, so the model assumes they stay below `2^31`.
* `blake2b_128_hex` (libsodium) is a parameter `blake : String → String`.
* The AST is reduced to what the two visitors read: cells are linked (`modp()` is not
  null in the finder), and module bodies hold no nested module nodes.
-/

/-! ## The elaborated instance tree -/

/-- The `AstCell` children of a module body in visiting order, as a first-child /
next-sibling forest: `cons name modName modDead modCells next` is a cell named
`name` instantiating module `modName` (whose `dead()` flag is `modDead` and whose
body holds the cells `modCells`), followed by the remaining cells `next` of the
same body.  Nodes other than cells only forward the visitor to their children. -/
inductive AstCell where
  | nil
  | cons (name modName : String) (modDead : Bool) (modCells next : AstCell)
deriving DecidableEq, Repr

/-- The top module of the netlist handed to the `HierCellsGraphVisitor` constructor. -/
structure AstNetlist where
  topName : String
  topDead : Bool
  topCells : AstCell
deriving DecidableEq, Repr

/-- Record `HierCellsGraphVisitor::ModNode`. -/
structure ModNode where
  moduleName : String
  instanceName : String
  hierInstance : String
  hierModule : String
  hash : String
  weight : Int
deriving DecidableEq, Repr

/-- State of `HierCellsGraphVisitor` (the members read by the finder). -/
structure HierCellsGraphVisitor where
  nodeMetadata : String → Option ModNode
  edges : List (String × String)
  adjacency : String → List ModNode
  m_hier : String
  m_hierWRTModuleName : String

/-- Assignment `m[k] = v` on a map read as a function. -/
def mapSet {V : Type} (m : String → V) (k : String) (v : V) : String → V :=
  fun x => if x = k then v else m x

/-- Function `stripTrailingDot`: drops one final `'.'`, if there is one. -/
def stripTrailingDot (str : String) : String :=
  if str.data.getLast? = some '.' then String.mk str.data.dropLast else str

/-- The `ModNode childNode` built by `visit(AstCell*)` for a cell `instanceName` of
module `modName` when the visitor stands at `m_hier`, `m_hierWRTModuleName`. -/
def childNode (blake : String → String) (m_hier m_hierWRTModuleName instanceName modName : String) :
    ModNode :=
  let parentHier := stripTrailingDot m_hier
  let childHierWRTInstanceName := parentHier ++ "." ++ instanceName
  let childHierWRTModuleName := stripTrailingDot m_hierWRTModuleName ++ "." ++ modName
  { moduleName := modName
    instanceName := instanceName
    hierInstance := childHierWRTInstanceName
    hierModule := childHierWRTModuleName
    hash := blake childHierWRTModuleName
    weight := 0 }

/-- Lines 1006-1012 of `visit(AstCell*)`: record the child node, its edge and its
adjacency entry, and move `m_hier`, `m_hierWRTModuleName` down to the child. -/
def HierCellsGraphVisitor.enter (v : HierCellsGraphVisitor) (c : ModNode) :
    HierCellsGraphVisitor :=
  { nodeMetadata := mapSet v.nodeMetadata c.hierInstance (some c)
    edges := v.edges ++ [(stripTrailingDot v.m_hier, c.hierInstance)]
    adjacency := mapSet v.adjacency (stripTrailingDot v.m_hier)
      (v.adjacency (stripTrailingDot v.m_hier) ++ [c])
    m_hier := c.hierInstance
    m_hierWRTModuleName := c.hierModule }

/-- Lines 1014-1015 of `visit(AstCell*)`: restore `oldHier`, `oldModHier`. -/
def HierCellsGraphVisitor.leave (v2 v : HierCellsGraphVisitor) : HierCellsGraphVisitor :=
  { v2 with m_hier := v.m_hier, m_hierWRTModuleName := v.m_hierWRTModuleName }

/-- Method `visit(AstCell*)`, run over the cells of one module body in order; a cell of a
dead module is skipped (line 994). -/
def visitAstCell (blake : String → String) :
    AstCell → HierCellsGraphVisitor → HierCellsGraphVisitor
  | .nil, v => v
  | .cons name modName modDead modCells next, v =>
    visitAstCell blake next
      (if modDead then v
       else
        (visitAstCell blake modCells
          (v.enter (childNode blake v.m_hier v.m_hierWRTModuleName name modName))).leave v)

/-- The synthetic root entry `nodeMetadata["$root"]`. -/
def rootNode (blake : String → String) : ModNode :=
  { moduleName := "$root", instanceName := "$root", hierInstance := "$root",
    hierModule := "$root", hash := blake "$root", weight := 0 }

/-- Constructor `HierCellsGraphVisitor(AstNetlist*)` followed by `visit(AstNodeModule*)`
on the top module. -/
def HierCellsGraphVisitor.new (blake : String → String) (rootp : AstNetlist) :
    HierCellsGraphVisitor :=
  let v0 : HierCellsGraphVisitor :=
    { nodeMetadata := mapSet (fun _ => none) "$root" (some (rootNode blake))
      edges := []
      adjacency := fun _ => []
      m_hier := stripTrailingDot rootp.topName ++ "."
      m_hierWRTModuleName := "" }
  if rootp.topDead then v0
  else visitAstCell blake rootp.topCells
    { v0 with m_hier := "$root", m_hierWRTModuleName := "$root" }

/-- Expression `nodeMetadata[k].weight` (a missing entry is value-initialised to weight 0). -/
def weightOf (nodeMetadata : String → Option ModNode) (k : String) : Int :=
  match nodeMetadata k with
  | some n => n.weight
  | none => 0

/-- One turn of the `for (child : it->second)` loop of `dfs`, given the recursive call. -/
def dfsStep (rec : String → (String → Option ModNode) × List String →
      Option ((String → Option ModNode) × List String))
    (acc : Option (Int × Bool × (String → Option ModNode) × List String)) (child : ModNode) :
    Option (Int × Bool × (String → Option ModNode) × List String) :=
  match acc with
  | none => none
  | some (totalChildWeight, _, nm, visited) =>
    match rec child.hierInstance (nm, visited) with
    | none => none
    | some (nm1, visited1) =>
      some (totalChildWeight + weightOf nm1 child.hierInstance, true, nm1, visited1)

/-- Method `dfs`.  The recursion of the source is bounded by a fuel argument; `none` is
returned when the fuel runs out. -/
def dfs (adjacency : String → List ModNode) :
    Nat → String → (String → Option ModNode) × List String →
      Option ((String → Option ModNode) × List String)
  | 0, _, _ => none
  | fuel + 1, nodeHier, (nodeMetadata, visited) =>
    if nodeHier ∈ visited then some (nodeMetadata, visited) else
      match (adjacency nodeHier).foldl (dfsStep (dfs adjacency fuel))
          (some (0, false, nodeMetadata, nodeHier :: visited)) with
      | none => none
      | some (totalChildWeight, hasChild, nm, visited1) =>
        match nm nodeHier with
        | some n =>
          some (mapSet nm nodeHier
            (some { n with weight := if hasChild then totalChildWeight else 1 }), visited1)
        | none => some (nm, visited1)

/-- Method `runDFS`; the fuel is the number of recorded edges plus two. -/
def runDFS (v : HierCellsGraphVisitor) : Option HierCellsGraphVisitor :=
  match dfs v.adjacency (v.edges.length + 2) "$root" (v.nodeMetadata, []) with
  | none => none
  | some (nm, _) => some { v with nodeMetadata := nm }

/-! ### The breadth-first duplicate search -/

/-- An iteration order of the `std::unordered_map hashToNodes`: any rearrangement of its
entries. -/
structure HashOrder where
  iter : List (String × List ModNode) → List (String × List ModNode)
  perm : ∀ l, (iter l).Perm l

/-- The order in which the entries were first inserted. -/
def HashOrder.insertion : HashOrder := ⟨id, fun l => List.Perm.refl l⟩

/-- Statement `hashToNodes[child.hash].push_back(child)`. -/
def hashPush : List (String × List ModNode) → ModNode → List (String × List ModNode)
  | [], c => [(c.hash, [c])]
  | (h, ns) :: rest, c =>
    if h = c.hash then (h, ns ++ [c]) :: rest else (h, ns) :: hashPush rest c

/-- Expression `hashToNodes[h]`. -/
def hashGet : List (String × List ModNode) → String → List ModNode
  | [], _ => []
  | (h, ns) :: rest, k => if h = k then ns else hashGet rest k

/-- Loop state while one level is expanded. -/
structure BfsLevel where
  visited : List String
  hashToNodes : List (String × List ModNode)
  q : List String

/-- Body of `for (child : children)`. -/
def bfsChild (s : BfsLevel) (child : ModNode) : BfsLevel :=
  if child.hierInstance ∈ s.visited then s
  else
    { visited := child.hierInstance :: s.visited
      hashToNodes := hashPush s.hashToNodes child
      q := s.q ++ [child.hierInstance] }

/-- The `for (i < levelSize)` loop: pops the whole current level `q` and pushes the next. -/
def bfsLevel (adjacency : String → List ModNode) (q : List String) (visited : List String) :
    BfsLevel :=
  q.foldl (fun s current => (adjacency current).foldl bfsChild s) ⟨visited, [], []⟩

/-- Variables `foundAny`, `bestHash`, `maxWeight`. -/
structure Best where
  foundAny : Bool
  bestHash : String
  maxWeight : Int
deriving DecidableEq, Repr

/-- Local `currentWeightSum` of a group. -/
def weightSum (nodeMetadata : String → Option ModNode) (nodes : List ModNode) : Int :=
  nodes.foldl (fun acc node =>
    match nodeMetadata node.hierInstance with
    | some m => acc + m.weight
    | none => acc) 0

/-- Body of `for (const auto& [hash, nodes] : hashToNodes)`. -/
def selectStep (nodeMetadata : String → Option ModNode) (b : Best)
    (e : String × List ModNode) : Best :=
  if e.2.length > 1 then
    if weightSum nodeMetadata e.2 > b.maxWeight then
      { foundAny := true, bestHash := e.1, maxWeight := weightSum nodeMetadata e.2 }
    else b
  else b

/-- The group selected at one level. -/
def selectBest (nodeMetadata : String → Option ModNode) (ord : HashOrder)
    (hashToNodes : List (String × List ModNode)) : Best :=
  (ord.iter hashToNodes).foldl (selectStep nodeMetadata)
    { foundAny := false, bestHash := "", maxWeight := -1 }

/-- What the search knows when `foundAny` holds: the level counter, the winning hash with
its weight sum and `bestNodes = hashToNodes[bestHash]`. -/
structure Found where
  level : Nat
  bestHash : String
  maxWeight : Int
  bestNodes : List ModNode
deriving DecidableEq, Repr

/-- The `while (!q.empty())` loop.  Outer `none`: fuel exhausted; `some none`: the queue
ran empty (the source returns `false`); `some (some f)`: a group was found. -/
def bfsLoop (v : HierCellsGraphVisitor) (ord : HashOrder) :
    Nat → Nat → List String → List String → Option (Option Found)
  | 0, _, _, _ => none
  | fuel + 1, level, q, visited =>
    if q = [] then some none
    else
      let s := bfsLevel v.adjacency q visited
      let b := selectBest v.nodeMetadata ord s.hashToNodes
      if b.foundAny then
        some (some { level := level, bestHash := b.bestHash, maxWeight := b.maxWeight,
                     bestNodes := hashGet s.hashToNodes b.bestHash })
      else bfsLoop v ord fuel (level + 1) s.q s.visited

/-- The search part of `runBFSCheckDuplicateHashes`. -/
def bfsSearch (v : HierCellsGraphVisitor) (ord : HashOrder) : Option (Option Found) :=
  bfsLoop v ord (v.edges.length + 2) 0 ["$root"] ["$root"]

/-- Expression `s.rfind('.') != npos ? s.substr(0, s.rfind('.')) : "$root"`. -/
def parentHierOf (s : String) : String :=
  let tail := s.data.reverse.takeWhile (fun c => c != '.')
  if tail.length = s.data.length then "$root"
  else String.mk (s.data.take (s.data.length - tail.length - 1))

/-- The three reference parameters of `runBFSCheckDuplicateHashes`. -/
structure BfsOut where
  o_partitionModuleName : String
  o_partitionInstanceNames : List String
  o_parentHier : String
deriving DecidableEq, Repr

/-- The outputs written once a group is found; `bestNodes[0]` needs a non-empty group. -/
def reportFound (out : BfsOut) (f : Found) : Option BfsOut :=
  match f.bestNodes with
  | [] => none
  | n0 :: _ =>
    some { o_partitionModuleName := n0.moduleName
           o_partitionInstanceNames :=
             out.o_partitionInstanceNames ++ f.bestNodes.map (fun n => n.instanceName)
           o_parentHier := parentHierOf n0.hierInstance }

/-- Method `runBFSCheckDuplicateHashes`: the returned `bool` and the reference parameters
after the call. -/
def runBFSCheckDuplicateHashes (v : HierCellsGraphVisitor) (ord : HashOrder) (out : BfsOut) :
    Option (Bool × BfsOut) :=
  match bfsSearch v ord with
  | none => none
  | some none => some (false, out)
  | some (some f) =>
    match reportFound out f with
    | none => none
    | some o => some (true, o)

/-- The calls `runDFS(); runBFSCheckDuplicateHashes(...)` of `findAndPrintPartitionPorts`
on a freshly constructed visitor, keeping the winning group. -/
def findGroup (blake : String → String) (ord : HashOrder) (rootp : AstNetlist) :
    Option (Option Found) :=
  match runDFS (HierCellsGraphVisitor.new blake rootp) with
  | none => none
  | some v => bfsSearch v ord

/-- The same calls, with the outputs starting empty as in `findAndPrintPartitionPorts`. -/
def findPartition (blake : String → String) (ord : HashOrder) (rootp : AstNetlist) :
    Option (Bool × BfsOut) :=
  match runDFS (HierCellsGraphVisitor.new blake rootp) with
  | none => none
  | some v => runBFSCheckDuplicateHashes v ord ⟨"", [], ""⟩

/-! ## Specification notions for the finder -/

/-- The `(parentHier, childNode)` pairs pushed by `visit(AstCell*)` over a forest visited
from `m_hier = h`, `m_hierWRTModuleName = hm`, in visiting order. -/
def collect (blake : String → String) : AstCell → String → String → List (String × ModNode)
  | .nil, _, _ => []
  | .cons name modName modDead modCells next, h, hm =>
    (if modDead then [] else
      (stripTrailingDot h, childNode blake h hm name modName) ::
        collect blake modCells (childNode blake h hm name modName).hierInstance
          (childNode blake h hm name modName).hierModule)
    ++ collect blake next h hm

/-- All recorded weights are non-negative. -/
def NonNeg (nm : String → Option ModNode) : Prop :=
  ∀ k n, nm k = some n → 0 ≤ n.weight

/-- Every edge of the adjacency leads to a strictly longer path string. -/
def Lengthens (A : String → List ModNode) : Prop :=
  ∀ k c, c ∈ A k → k.length < c.hierInstance.length

/-- What one call of `dfs` may change. -/
def DfsFrame (k : String) (nm : String → Option ModNode) (vis : List String)
    (nm1 : String → Option ModNode) (vis1 : List String) : Prop :=
  vis ⊆ vis1 ∧ k ∈ vis1 ∧ (∀ j ∈ vis, nm1 j = nm j) ∧
  (∀ j ∈ vis1, j ∉ vis → k.length ≤ j.length) ∧
  (NonNeg nm → NonNeg nm1) ∧ (∀ j, (nm1 j).isSome = (nm j).isSome)

/-- Number of strings of `U` not yet in `vis`. -/
def unvisited (U vis : List String) : Nat :=
  (U.filter (fun u => decide (u ∉ vis))).length

/-- Sum of the recorded weights of a list of children. -/
def sumChildren (nm : String → Option ModNode) (cs : List ModNode) : Int :=
  (cs.map (fun c => weightOf nm c.hierInstance)).sum

/-- The weight recorded for `j` is 1 without children and the sum of the children's
recorded weights otherwise. -/
def Good (A : String → List ModNode) (nm : String → Option ModNode) (j : String) : Prop :=
  ∀ n, nm j = some n → n.weight = if (A j).isEmpty then 1 else sumChildren nm (A j)

/-- Every visited node at least as long as `L` is finished. -/
def Complete (A : String → List ModNode) (L : Nat) (nm : String → Option ModNode)
    (vis : List String) : Prop :=
  ∀ j ∈ vis, L ≤ j.length → Good A nm j ∧ ∀ c ∈ A j, c.hierInstance ∈ vis

/-- Reachability from the synthetic root through the adjacency lists. -/
inductive Reach (A : String → List ModNode) : String → Prop
  | root : Reach A "$root"
  | step {k : String} {c : ModNode} : Reach A k → c ∈ A k → Reach A c.hierInstance

/-- A name that is non-empty and has no `'.'`. -/
def nameOK (s : String) : Bool :=
  decide (s.data ≠ []) && decide ('.' ∉ s.data)

/-- Names of the cells of one module body that instantiate live modules. -/
def liveNames : AstCell → List String
  | .nil => []
  | .cons name _ modDead _ next => (if modDead then [] else [name]) ++ liveNames next

/-- Every visited instance name is non-empty, free of `'.'` and unique among its
siblings. -/
def wellNamed : AstCell → Bool
  | .nil => true
  | .cons name _ modDead modCells next =>
    (modDead || (nameOK name && decide (name ∉ liveNames next) && wellNamed modCells))
      && wellNamed next

/-- The instances at depth `d` below a module body visited from `h`, `hm` (depth 0: the
cells of the body itself), each as the `ModNode` the visitor builds for it, paired with
the cells of its own module. -/
def levelCells (blake : String → String) :
    Nat → AstCell → String → String → List (ModNode × AstCell)
  | _, .nil, _, _ => []
  | d, .cons name modName modDead modCells next, h, hm =>
    (if modDead then []
     else
      match d with
      | 0 => [(childNode blake h hm name modName, modCells)]
      | d + 1 =>
        levelCells blake d modCells (childNode blake h hm name modName).hierInstance
          (childNode blake h hm name modName).hierModule)
    ++ levelCells blake d next h hm

/-- The instances of the design at depth `d` (depth 0: the cells of the top module). -/
def instancesAt (blake : String → String) (rootp : AstNetlist) (d : Nat) : List ModNode :=
  if rootp.topDead then []
  else (levelCells blake d rootp.topCells "$root" "$root").map (fun p => p.1)

/-- String `k` is `h ++ "." ++ a`, possibly followed by further dotted components. -/
def Under (h a k : String) : Prop :=
  ∃ t : List Char, k.data = h.data ++ ('.' :: (a.data ++ t)) ∧ (t = [] ∨ ∃ t1, t = '.' :: t1)

/-- Adjacency list read off a list of pushed pairs. -/
def adjOf (es : List (String × ModNode)) (k : String) : List ModNode :=
  (es.filter (fun e => e.1 = k)).map (fun e => e.2)

/-- Number of `'.'` in a string. -/
def dots (s : String) : Nat := s.data.count '.'

/-- The association list `G` holds exactly the hash groups of `xs`. -/
def Grouped (G : List (String × List ModNode)) (xs : List ModNode) : Prop :=
  (G.map (fun e => e.1)).Nodup ∧
  (∀ k, hashGet G k = xs.filter (fun x => x.hash = k)) ∧
  (∀ k, k ∈ G.map (fun e => e.1) ↔ ∃ x ∈ xs, x.hash = k)

/-- What the search loop, entered at level `L`, establishes about the tree levels `Lv`:
either no level from `L` on repeats a hash, or the found group is the whole hash group of
the first level that does, and no qualifying group of that level outweighs it. -/
def FoundAt (nm : String → Option ModNode) (Lv : Nat → List ModNode) (L : Nat) :
    Option Found → Prop
  | none => ∀ d, L ≤ d → ((Lv d).map (fun n => n.hash)).Nodup
  | some f =>
    L ≤ f.level ∧
    (∀ d, L ≤ d → d < f.level → ((Lv d).map (fun n => n.hash)).Nodup) ∧
    f.bestNodes = (Lv f.level).filter (fun x => x.hash = f.bestHash) ∧
    2 ≤ f.bestNodes.length ∧
    f.maxWeight = weightSum nm f.bestNodes ∧
    ∀ k, 2 ≤ ((Lv f.level).filter (fun x => x.hash = k)).length →
      weightSum nm ((Lv f.level).filter (fun x => x.hash = k)) ≤ f.maxWeight

/-! ## Example designs -/

/-- Design `Top{A inst1, A inst2}`, each `A` holding one `B`. -/
def exTwoA : AstNetlist :=
  { topName := "$root", topDead := false,
    topCells := .cons "top" "Top" false
      (.cons "inst1" "A" false (.cons "b" "B" false .nil .nil)
        (.cons "inst2" "A" false (.cons "b" "B" false .nil .nil) .nil)) .nil }

/-- The group found in `exTwoA`. -/
def exTwoAFound : Found :=
  { level := 1, bestHash := "$root.Top.A", maxWeight := 2,
    bestNodes :=
      [⟨"A", "inst1", "$root.top.inst1", "$root.Top.A", "$root.Top.A", 0⟩,
       ⟨"A", "inst2", "$root.top.inst2", "$root.Top.A", "$root.Top.A", 0⟩] }

/-- A design with an instance named `a.b` beside an instance `a` that holds an instance
`b`: both have the path `$root.a.b`.  At depth 1 the instances `b` and `c` of `a` repeat a
type-path; at depth 2 the instances `q` and `r` do. -/
def exDotted : AstNetlist :=
  { topName := "$root", topDead := false,
    topCells := .cons "a.b" "T1" false
      (.cons "p" "T5" false (.cons "q" "T6" false .nil (.cons "r" "T6" false .nil .nil)) .nil)
      (.cons "a" "T2" false (.cons "b" "T3" false .nil (.cons "c" "T3" false .nil .nil))
        .nil) }

/-- The group found in `exDotted`. -/
def exDottedFound : Found :=
  { level := 2, bestHash := "$root.T1.T5.T6", maxWeight := 2,
    bestNodes :=
      [⟨"T6", "q", "$root.a.b.p.q", "$root.T1.T5.T6", "$root.T1.T5.T6", 0⟩,
       ⟨"T6", "r", "$root.a.b.p.r", "$root.T1.T5.T6", "$root.T1.T5.T6", 0⟩] }

/-- The design `exDotted` without the deeper repetition. -/
def exDottedFlat : AstNetlist :=
  { topName := "$root", topDead := false,
    topCells := .cons "a.b" "T1" false .nil
      (.cons "a" "T2" false (.cons "b" "T3" false .nil (.cons "c" "T3" false .nil .nil))
        .nil) }

/-- Leaves `x`, `y`, `z` of module `T3`. -/
def exLeaves : AstCell :=
  .cons "x" "X" false .nil (.cons "y" "Y" false .nil (.cons "z" "Z" false .nil .nil))

/-- Instance `a.b` beside instance `a`, which holds two heavy `T3` instances `b`, `c` and
two light `T4` instances `d`, `e`. -/
def exDottedHeavy : AstNetlist :=
  { topName := "$root", topDead := false,
    topCells := .cons "a.b" "T1" false .nil
      (.cons "a" "T2" false
        (.cons "b" "T3" false exLeaves (.cons "c" "T3" false exLeaves
          (.cons "d" "T4" false .nil (.cons "e" "T4" false .nil .nil)))) .nil) }

/-- The group found in `exDottedHeavy`. -/
def exDottedHeavyFound : Found :=
  { level := 1, bestHash := "$root.T2.T4", maxWeight := 2,
    bestNodes :=
      [⟨"T4", "d", "$root.a.d", "$root.T2.T4", "$root.T2.T4", 0⟩,
       ⟨"T4", "e", "$root.a.e", "$root.T2.T4", "$root.T2.T4", 0⟩] }

/-- Every visited module type name is non-empty and free of `'.'`. -/
def typesOK : AstCell → Bool
  | .nil => true
  | .cons _ modName modDead modCells next =>
    (modDead || (nameOK modName && typesOK modCells)) && typesOK next

/-- Every visited instance below a module body, in visiting order, with the chain of module
type names leading from the top module to it (`chain` is the chain of the body). -/
def typeChains (blake : String → String) :
    AstCell → String → String → List String → List (ModNode × List String)
  | .nil, _, _, _ => []
  | .cons name modName modDead modCells next, h, hm, chain =>
    (if modDead then []
     else
      (childNode blake h hm name modName, chain ++ [modName]) ::
        typeChains blake modCells (childNode blake h hm name modName).hierInstance
          (childNode blake h hm name modName).hierModule (chain ++ [modName]))
    ++ typeChains blake next h hm chain

/-- All instances of the design, each with its chain of module type names. -/
def instancesWithChain (blake : String → String) (rootp : AstNetlist) :
    List (ModNode × List String) :=
  if rootp.topDead then [] else typeChains blake rootp.topCells "$root" "$root" []

/-- The characters appended to `$root` by a chain of names. -/
def tailJoin (chain : List String) : List Char :=
  (chain.map (fun s => '.' :: s.data)).flatten

/-- A design in which module type `A.B` is instantiated in the top module and module type
`B` inside an instance of module type `A`. -/
def exTypeDots : AstNetlist :=
  { topName := "$root", topDead := false,
    topCells := .cons "x" "A.B" false .nil
      (.cons "y" "A" false (.cons "z" "B" false .nil .nil) .nil) }

/-- No visited module type name holds a `'.'`. -/
def typesNoDot : AstCell → Bool
  | .nil => true
  | .cons _ modName modDead modCells next =>
    (modDead || (decide ('.' ∉ modName.data) && typesNoDot modCells)) && typesNoDot next

/-- Every node of every group carries the key of its group as hash and satisfies `P`. -/
def GroupsOf (P : ModNode → Prop) (G : List (String × List ModNode)) : Prop :=
  ∀ e ∈ G, ∀ n ∈ e.2, n.hash = e.1 ∧ P n

/-- The instances at tree depth `d`, the synthetic root being the one instance at depth 0,
each paired with the cells of its module: the possible parents of a group found at
level `d`. -/
def instanceCellsAt (blake : String → String) (rootp : AstNetlist) :
    Nat → List (ModNode × AstCell)
  | 0 => [(rootNode blake, rootp.topCells)]
  | d + 1 => levelCells blake d rootp.topCells "$root" "$root"

/-- The child nodes the visitor builds for the cells of the module of instance `p`. -/
def childrenOf (blake : String → String) (p : ModNode × AstCell) : List ModNode :=
  (levelCells blake 0 p.2 p.1.hierInstance p.1.hierModule).map (fun c => c.1)

/-- A design whose top module holds an instance with the empty name, of a module with two
`A` instances. -/
def exEmptyName : AstNetlist :=
  { topName := "$root", topDead := false,
    topCells := .cons "" "T" false
      (.cons "x" "A" false .nil (.cons "y" "A" false .nil .nil)) .nil }

/-- The group found in `exEmptyName`. -/
def exEmptyNameFound : Found :=
  { level := 0, bestHash := "$root.T.A", maxWeight := 2,
    bestNodes :=
      [⟨"A", "x", "$root.x", "$root.T.A", "$root.T.A", 0⟩,
       ⟨"A", "y", "$root.y", "$root.T.A", "$root.T.A", 0⟩] }

/-! ## The port communication analyzer -/

/-- An expression node as the analyzer distinguishes them: a null pointer, an
`AstVarRef`, an `AstConst` (with its `prettyName()` and `toUInt()`), an `AstSelBit` with
its two operands, or any other node. -/
inductive AstNodeExpr where
  | null
  | varRef (name : String)
  | const (prettyName : String) (toUInt : Nat)
  | selBit (op1p op2p : AstNodeExpr)
  | other
deriving DecidableEq, Repr

/-- A data type node as `getDTypeWidth` distinguishes them (after `skipRefp`): a null
pointer, an `AstBasicDType` with `isRanged()`, `left()`, `right()`, or another type. -/
inductive AstNodeDType where
  | null
  | basic (isRanged : Bool) (left right : Int)
  | other
deriving DecidableEq, Repr

/-- An `AstVar`: its name, `direction().xmlKwd()`, `isIO()` and `dtypep()`. -/
structure AstVar where
  name : String
  direction : String
  isIO : Bool
  dtypep : AstNodeDType
deriving DecidableEq, Repr

/-- An `AstNodeModule` as the analyzer reads it: its name and its `AstVar` nodes in
`foreach` order. -/
structure AstNodeModule where
  name : String
  vars : List AstVar
deriving DecidableEq, Repr

/-- An `AstPin`: the port name and the connected expression. -/
structure AstPin where
  name : String
  exprp : AstNodeExpr
deriving DecidableEq, Repr

/-- An `AstCell` of the parent body with its `modp()` and its pins. -/
structure AstCellPins where
  name : String
  modp : Option AstNodeModule
  pinsp : List AstPin
deriving DecidableEq, Repr

/-- The nodes of the parent body on which `PortGatherVisitor` acts, in visiting order:
`AstAssignW`, `AstAssign`, `AstAssignDly` and `AstCell`; every other node (`AstAlways`
included) only forwards the visitor to its children. -/
inductive AstStmt where
  | assignW (lhsp rhsp : AstNodeExpr)
  | assign (lhsp rhsp : AstNodeExpr)
  | assignDly (lhsp rhsp : AstNodeExpr)
  | cell (cellp : AstCellPins)
deriving DecidableEq, Repr

/-- The parent module: an `AstNodeModule` together with the visited nodes of its body. -/
structure ParentModule extends AstNodeModule where
  body : List AstStmt
deriving DecidableEq, Repr

/-- Record `PartitionPortAnalyzer::CommunicationPartner` (`inst` is the field
`instance`). -/
structure CommunicationPartner where
  inst : String
  port : String
  mpi_process : String
  mpi_rank : Int
deriving DecidableEq, Repr

/-- Record `PartitionPortAnalyzer::Port` with its default member initialisers. -/
structure Port where
  name : String := ""
  direction : String := ""
  width : Int := 0
  active : String := "idk"
  type : String := "idk"
  other_end : String := ""
  mpi_process : String := "idk"
  mpi_rank : Int := -1
  comm_type : String := "idk"
  with_whom_is_it_communicating : List CommunicationPartner := []
deriving DecidableEq, Repr

/-- Comparison `a < b` of `std::string`: lexicographic on the characters. -/
def stringLess : List Char → List Char → Bool
  | [], [] => false
  | [], _ :: _ => true
  | _ :: _, [] => false
  | a :: as, b :: bs =>
    if a.toNat < b.toNat then true
    else if b.toNat < a.toNat then false
    else stringLess as bs

/-- Assignment `m[k] = v` on a `std::map<std::string, V>` kept as a list sorted by key. -/
def mapInsert {V : Type} (k : String) (v : V) : List (String × V) → List (String × V)
  | [] => [(k, v)]
  | (k1, v1) :: rest =>
    if k = k1 then (k, v) :: rest
    else if stringLess k.data k1.data then (k, v) :: (k1, v1) :: rest
    else (k1, v1) :: mapInsert k v rest

/-- Lookup `m.find(k)` on a `std::map<std::string, V>`. -/
def mapFind {V : Type} (m : List (String × V)) (k : String) : Option V :=
  match m.find? (fun e => e.1 = k) with
  | some e => some e.2
  | none => none

/-- Expression `m_mpiRankMap[k]` (a missing key reads as 0). -/
def rankOf (m : List (String × Int)) (k : String) : Int :=
  match mapFind m k with
  | some r => r
  | none => 0

/-- One step of insertion into a sorted list of strings. -/
def sortInsert (x : String) : List String → List String
  | [] => [x]
  | y :: ys => if stringLess y.data x.data then y :: sortInsert x ys else x :: y :: ys

/-- Call `std::sort(partitionInstances.begin(), partitionInstances.end())`. -/
def stdSort (l : List String) : List String :=
  l.foldr sortInsert []

/-- Test `s.find(sub) != std::string::npos` on character lists: `sub` starts `s`. -/
def startsWith : List Char → List Char → Bool
  | _, [] => true
  | [], _ :: _ => false
  | c :: cs, p :: ps => c == p && startsWith cs ps

/-- Test `s.find(sub) != std::string::npos` on character lists. -/
def findSub : List Char → List Char → Bool
  | [], sub => sub.isEmpty
  | c :: cs, sub => startsWith (c :: cs) sub || findSub cs sub

/-- Test `s.find(sub) != std::string::npos`. -/
def strFind (s sub : String) : Bool :=
  findSub s.data sub.data

/-- Function `getCanonicalName`. -/
def getCanonicalName : AstNodeExpr → String
  | .null => ""
  | .varRef name => name
  | .selBit (.varRef busName) (.const _ index) => busName ++ "[" ++ toString index ++ "]"
  | _ => ""

/-- Function `getDTypeWidth`. -/
def getDTypeWidth : AstNodeDType → Int
  | .null => 1
  | .basic true left right => if left > right then left - right + 1 else right - left + 1
  | .basic false _ _ => 1
  | .other => 1

/-- Function `findVarInModule`: the first variable of the module with the given name. -/
def findVarInModule (scope : AstNodeModule) (name : String) : Option AstVar :=
  scope.vars.find? (fun varp => varp.name = name)

/-- State of `PartitionPortAnalyzer`. -/
structure PartitionPortAnalyzer where
  m_parentModule : ParentModule
  m_partitionInstances : List String
  m_parentModuleName : String
  m_partitionData : List (String × List Port)
  m_wireToEndpoints : String → List (String × String)
  m_wireAliasMap : String → Option String
  m_mpiRankMap : List (String × Int)
  m_instanceToModulePtr : String → Option AstNodeModule

/-- The loop `for (instName : m_partitionInstances) m_mpiRankMap[instName] = currentRank++`
started from `currentRank`. -/
def assignRanks : List String → Int → List (String × Int) → List (String × Int)
  | [], _, m => m
  | instName :: rest, currentRank, m =>
    assignRanks rest (currentRank + 1) (mapInsert instName currentRank m)

/-- The rank table built by the constructor of `PartitionPortAnalyzer`. -/
def buildRankMap (partitionInstances : List String) : List (String × Int) :=
  assignRanks (stdSort partitionInstances) 1 (mapInsert "system" 0 [])

/-- Constructor `PartitionPortAnalyzer(parentModule, partitionInstances)`; the caller's
vector is sorted in place and referenced by `m_partitionInstances`. -/
def PartitionPortAnalyzer.new (parentModule : ParentModule) (partitionInstances : List String) :
    PartitionPortAnalyzer :=
  { m_parentModule := parentModule
    m_partitionInstances := stdSort partitionInstances
    m_parentModuleName := parentModule.name
    m_partitionData := []
    m_wireToEndpoints := fun _ => []
    m_wireAliasMap := fun _ => none
    m_mpiRankMap := buildRankMap partitionInstances
    m_instanceToModulePtr := fun _ => none }

/-- Statement `m_wireToEndpoints[wire].push_back(endpoint)`. -/
def pushEndpoint (m : String → List (String × String)) (wire : String)
    (endpoint : String × String) : String → List (String × String) :=
  mapSet m wire (m wire ++ [endpoint])

/-- The body shared by `visit(AstAssign*)` and `visit(AstAssignDly*)`: record the alias. -/
def recordAlias (a : PartitionPortAnalyzer) (lhsp rhsp : AstNodeExpr) : PartitionPortAnalyzer :=
  if getCanonicalName lhsp ≠ "" ∧ getCanonicalName rhsp ≠ "" then
    { a with
      m_wireAliasMap :=
        mapSet a.m_wireAliasMap (getCanonicalName lhsp) (some (getCanonicalName rhsp)) }
  else a

/-- Method `PortGatherVisitor::visit(AstAssignW*)`. -/
def visitAssignW (a : PartitionPortAnalyzer) (lhsp rhsp : AstNodeExpr) :
    PartitionPortAnalyzer :=
  let lhsName := getCanonicalName lhsp
  let rhsName := getCanonicalName rhsp
  let a1 := recordAlias a lhsp rhsp
  let a2 :=
    if lhsName ≠ "" then
      { a1 with
        m_wireToEndpoints :=
          pushEndpoint a1.m_wireToEndpoints lhsName (a.m_parentModule.name, "logic") }
    else a1
  if rhsName ≠ "" then
    { a2 with
      m_wireToEndpoints :=
        pushEndpoint a2.m_wireToEndpoints rhsName (a.m_parentModule.name, "logic") }
  else a2

/-- The pin loop of `visit(AstCell*)` for a cell that is not a target partition. -/
def gatherOtherPins (cellName : String) :
    List AstPin → (String → List (String × String)) → String → List (String × String)
  | [], m => m
  | pinp :: rest, m =>
    gatherOtherPins cellName rest
      (if getCanonicalName pinp.exprp ≠ "" then
        pushEndpoint m (getCanonicalName pinp.exprp) (cellName, pinp.name)
       else m)

/-- One turn of the pin loop of `visit(AstCell*)` for a target partition: the `Port`
record and the endpoint it adds, if any. -/
def gatherPort (partitionModule : AstNodeModule) (pinp : AstPin) : Port × Option String :=
  let p0 : Port := { name := pinp.name }
  let p : Port :=
    match findVarInModule partitionModule pinp.name with
    | some varp => { p0 with direction := varp.direction, width := getDTypeWidth varp.dtypep }
    | none => p0
  match pinp.exprp with
  | .varRef name => ({ p with type := "wire", other_end := name }, some name)
  | .const prettyName _ => ({ p with type := "init", other_end := prettyName, active := "No" }, none)
  | .selBit op1p op2p =>
    let busName := match op1p with
      | .varRef name => name
      | _ => ""
    let indexStr := match op2p with
      | .const _ index => toString index
      | _ => ""
    if busName ≠ "" ∧ indexStr ≠ "" then
      ({ p with type := "wire", other_end := busName ++ "[" ++ indexStr ++ "]" },
        some (busName ++ "[" ++ indexStr ++ "]"))
    else ({ p with type := "logic", other_end := "[complex selbit]", active := "Yes" }, none)
  | _ => ({ p with type := "logic", other_end := "[expression]", active := "Yes" }, none)

/-- The pin loop of `visit(AstCell*)` for a target partition. -/
def gatherPartitionPins (cellName : String) (partitionModule : AstNodeModule) :
    List AstPin → List Port × (String → List (String × String)) →
      List Port × (String → List (String × String))
  | [], acc => acc
  | pinp :: rest, (ports, m) =>
    let r := gatherPort partitionModule pinp
    gatherPartitionPins cellName partitionModule rest
      (ports ++ [r.1],
        match r.2 with
        | some wire => pushEndpoint m wire (cellName, pinp.name)
        | none => m)

/-- Method `PortGatherVisitor::visit(AstCell*)`. -/
def visitCellPins (a : PartitionPortAnalyzer) (cellp : AstCellPins) : PartitionPortAnalyzer :=
  let a1 :=
    match cellp.modp with
    | some modp =>
      { a with
        m_instanceToModulePtr := mapSet a.m_instanceToModulePtr cellp.name (some modp) }
    | none => a
  if cellp.name ∉ a.m_partitionInstances then
    { a1 with m_wireToEndpoints := gatherOtherPins cellp.name cellp.pinsp a1.m_wireToEndpoints }
  else
    match cellp.modp with
    | none => a1
    | some partitionModule =>
      let r := gatherPartitionPins cellp.name partitionModule cellp.pinsp
        ([], a1.m_wireToEndpoints)
      { a1 with m_wireToEndpoints := r.2,
                m_partitionData := mapInsert cellp.name r.1 a1.m_partitionData }

/-- Dispatch of `PortGatherVisitor` on one visited node. -/
def gatherStmt (a : PartitionPortAnalyzer) : AstStmt → PartitionPortAnalyzer
  | .assignW lhsp rhsp => visitAssignW a lhsp rhsp
  | .assign lhsp rhsp => recordAlias a lhsp rhsp
  | .assignDly lhsp rhsp => recordAlias a lhsp rhsp
  | .cell cellp => visitCellPins a cellp

/-- The `foreach` over the parent's variables at the start of `analyze()`. -/
def gatherParentPorts (parentName : String) :
    List AstVar → (String → List (String × String)) → String → List (String × String)
  | [], m => m
  | varp :: rest, m =>
    gatherParentPorts parentName rest
      (if varp.isIO ∧ varp.name ≠ "" then pushEndpoint m varp.name (parentName, varp.name)
       else m)

/-- Phase 1 of `analyze()`. -/
def phase1 (a : PartitionPortAnalyzer) : PartitionPortAnalyzer :=
  a.m_parentModule.body.foldl gatherStmt
    { a with
      m_wireToEndpoints :=
        gatherParentPorts a.m_parentModuleName a.m_parentModule.vars a.m_wireToEndpoints }

/-- Method `resolveWireChain`; `maxDepth` counts down from its default 5. -/
def resolveWireChain (m_wireAliasMap : String → Option String) :
    Nat → String → List String → String
  | 0, wireName, _ => wireName
  | maxDepth + 1, wireName, visited =>
    if wireName ∈ visited then wireName
    else
      match m_wireAliasMap wireName with
      | some rhs => resolveWireChain m_wireAliasMap maxDepth rhs (wireName :: visited)
      | none => wireName

/-- The three-way test on a direction keyword used by `getPortDirection`. -/
def directionOfKwd (dir : String) : String :=
  if strFind dir "in" then "Input"
  else if strFind dir "out" then "Output"
  else "Inout"

/-- Method `getPortDirection`. -/
def getPortDirection (a : PartitionPortAnalyzer) (instanceName portName : String) : String :=
  let case1 : Option String :=
    match mapFind a.m_partitionData instanceName with
    | some ports =>
      match ports.find? (fun p => p.name = portName) with
      | some p => some (directionOfKwd p.direction)
      | none => none
    | none => none
  match case1 with
  | some d => d
  | none =>
    let case2 : Option String :=
      match a.m_instanceToModulePtr instanceName with
      | some moduleDef =>
        match findVarInModule moduleDef portName with
        | some varp => some (directionOfKwd varp.direction)
        | none => none
      | none => none
    match case2 with
    | some d => d
    | none =>
      let case3 : Option String :=
        if instanceName = a.m_parentModuleName then
          match findVarInModule a.m_parentModule.toAstNodeModule portName with
          | some varp => some (directionOfKwd varp.direction)
          | none => none
        else none
      match case3 with
      | some d => d
      | none => if portName = "logic" then "Output" else "Unknown"

/-- The local `sourceDirection` of Step 2.2. -/
def sourceDirectionOf (sourceRawDir : String) : String :=
  if strFind sourceRawDir "in" then "Input"
  else if strFind sourceRawDir "out" then "Output"
  else if strFind sourceRawDir "inout" then "Inout"
  else "Unknown"

/-- The local `isValidConnection` of Step 2.2. -/
def isValidConnection (sourceDirection : String) (trueOutputSourceExists : Bool)
    (isParentInternalLogic : Bool) (endpointDirection : String) : Bool :=
  if sourceDirection = "Input" ∧ trueOutputSourceExists = true ∧ isParentInternalLogic = true
  then false
  else if isParentInternalLogic then true
  else if sourceDirection = "Inout" ∨ endpointDirection = "Inout" then true
  else if sourceDirection = "Input" ∧ endpointDirection = "Output" then true
  else if sourceDirection = "Output" ∧ endpointDirection = "Input" then true
  else false

/-- Step 2.2 for one endpoint of the resolved net: the partner pushed, if any. -/
def partnerOf (a : PartitionPortAnalyzer) (instName : String) (port : Port)
    (trueOutputSourceExists : Bool) (endpoint : String × String) :
    Option CommunicationPartner :=
  if endpoint.1 = instName then none
  else
    let isParentInternalLogic : Bool :=
      decide (endpoint.1 = a.m_parentModuleName ∧ endpoint.2 = "logic")
    let endpointDirection := getPortDirection a endpoint.1 endpoint.2
    if isValidConnection (sourceDirectionOf port.direction) trueOutputSourceExists
        isParentInternalLogic endpointDirection then
      let remote_port_name := if isParentInternalLogic then "logic_" ++ port.name else endpoint.2
      let partner_mpi_process :=
        if endpoint.1 ∈ a.m_partitionInstances then endpoint.1 else "system"
      some { inst := endpoint.1, port := remote_port_name, mpi_process := partner_mpi_process,
             mpi_rank := rankOf a.m_mpiRankMap partner_mpi_process }
    else none

/-- Step 2.2: the partners pushed for a port over the endpoints of its resolved net. -/
def partnersOf (a : PartitionPortAnalyzer) (instName : String) (port : Port)
    (endpoints : List (String × String)) : List CommunicationPartner :=
  let trueOutputSourceExists : Bool :=
    decide (sourceDirectionOf port.direction = "Input") &&
      endpoints.any (fun endpoint =>
        decide (endpoint.1 ≠ instName) &&
          decide (getPortDirection a endpoint.1 endpoint.2 = "Output"))
  endpoints.filterMap (partnerOf a instName port trueOutputSourceExists)

/-- Step 2.1 on the endpoint map: the endpoints `(instName, portName)` of `initialWire`
are erased there and pushed onto `finalWire`. -/
def migrateEndpoints (m : String → List (String × String)) (initialWire finalWire : String)
    (instName portName : String) : String → List (String × String) :=
  mapSet
    (mapSet m finalWire
      (m finalWire ++ (m initialWire).filter (fun e => e.1 = instName ∧ e.2 = portName)))
    initialWire ((m initialWire).filter (fun e => ¬ (e.1 = instName ∧ e.2 = portName)))

/-- Step 2.3: own process, own rank, `comm_type` and `active`. -/
def finalizePort (a : PartitionPortAnalyzer) (instName : String) (port : Port) : Port :=
  { port with
    mpi_process := instName
    mpi_rank := rankOf a.m_mpiRankMap instName
    comm_type :=
      if port.with_whom_is_it_communicating.length = 0 then "NULL"
      else if port.with_whom_is_it_communicating.length = 1 then "P2P"
      else "broadcast"
    active :=
      if port.active = "idk" then
        (if port.with_whom_is_it_communicating.isEmpty then "No" else "Yes")
      else port.active }

/-- The body of the main analysis loop for one port.  `a` is the analyzer after Phase 1: the
loop rewrites neither the names and directions in `m_partitionData` nor the other members
read here, and the endpoint map it does rewrite is threaded explicitly. -/
def analyzePort (a : PartitionPortAnalyzer) (instName : String)
    (st : Port × (String → List (String × String))) :
    Port × (String → List (String × String)) :=
  let port := st.1
  let m := st.2
  if port.type = "wire" then
    let initialWire := port.other_end
    let finalWire := resolveWireChain a.m_wireAliasMap 5 initialWire []
    let port1 : Port := if initialWire ≠ finalWire then { port with other_end := finalWire }
      else port
    let m1 := if initialWire ≠ finalWire then
        migrateEndpoints m initialWire finalWire instName port.name
      else m
    let port2 : Port :=
      { port1 with
        with_whom_is_it_communicating :=
          port1.with_whom_is_it_communicating ++
            partnersOf a instName port1 (m1 port1.other_end) }
    (finalizePort a instName port2, m1)
  else (finalizePort a instName port, m)

/-- The inner loop `for (auto& port : inst_pair.second)`. -/
def analyzePorts (a : PartitionPortAnalyzer) (instName : String) :
    List Port → (String → List (String × String)) →
      List Port × (String → List (String × String))
  | [], m => ([], m)
  | port :: rest, m =>
    let r := analyzePort a instName (port, m)
    let rs := analyzePorts a instName rest r.2
    (r.1 :: rs.1, rs.2)

/-- The outer loop `for (auto& inst_pair : m_partitionData)`. -/
def analyzeInstances (a : PartitionPortAnalyzer) :
    List (String × List Port) → (String → List (String × String)) →
      List (String × List Port) × (String → List (String × String))
  | [], m => ([], m)
  | inst_pair :: rest, m =>
    let r := analyzePorts a inst_pair.1 inst_pair.2 m
    let rs := analyzeInstances a rest r.2
    ((inst_pair.1, r.1) :: rs.1, rs.2)

/-- The main analysis loop of `analyze()`. -/
def mainLoop (a : PartitionPortAnalyzer) : PartitionPortAnalyzer :=
  let r := analyzeInstances a a.m_partitionData a.m_wireToEndpoints
  { a with m_partitionData := r.1, m_wireToEndpoints := r.2 }

/-! ### Phase 3: name disambiguation -/

/-- A pair `{&partner, &port}`: the index of the instance in `m_partitionData`, of the
port in its vector and of the partner in the port's list. -/
structure PartnerPtr where
  i : Nat
  j : Nat
  k : Nat
deriving DecidableEq, Repr

/-- Dereference `*local_port_ptr`. -/
def getPort (data : List (String × List Port)) (p : PartnerPtr) : Option Port :=
  match data.get? p.i with
  | some inst_pair => inst_pair.2.get? p.j
  | none => none

/-- Dereference `*partner_ptr`. -/
def getPartner (data : List (String × List Port)) (p : PartnerPtr) :
    Option CommunicationPartner :=
  match getPort data p with
  | some port => port.with_whom_is_it_communicating.get? p.k
  | none => none

/-- Rewrite of the `n`-th element of a list. -/
def modifyAt {α : Type} (f : α → α) : Nat → List α → List α
  | _, [] => []
  | 0, x :: xs => f x :: xs
  | n + 1, x :: xs => x :: modifyAt f n xs

/-- Assignment `partner_ptr->port = name`. -/
def setPartnerPort (data : List (String × List Port)) (p : PartnerPtr) (name : String) :
    List (String × List Port) :=
  modifyAt (fun inst_pair =>
    (inst_pair.1, modifyAt (fun port =>
      { port with
        with_whom_is_it_communicating :=
          modifyAt (fun partner => { partner with port := name }) p.k
            port.with_whom_is_it_communicating }) p.j inst_pair.2)) p.i data

/-- The key `{sender_rank, receiver_rank}` of a partner relation. -/
def linkKey (port : Port) (partner : CommunicationPartner) : Int × Int :=
  if strFind port.direction "out" then (port.mpi_rank, partner.mpi_rank)
  else (partner.mpi_rank, port.mpi_rank)

/-- Order of `std::pair<int, int>`. -/
def pairLess (x y : Int × Int) : Bool :=
  decide (x.1 < y.1) || (decide (x.1 = y.1) && decide (x.2 < y.2))

/-- Statement `comm_links[key].push_back(ptr)` on the map kept sorted by key. -/
def linksPush (key : Int × Int) (ptr : PartnerPtr) :
    List ((Int × Int) × List PartnerPtr) → List ((Int × Int) × List PartnerPtr)
  | [] => [(key, [ptr])]
  | (k1, ps) :: rest =>
    if key = k1 then (k1, ps ++ [ptr]) :: rest
    else if pairLess key k1 then (key, [ptr]) :: (k1, ps) :: rest
    else (k1, ps) :: linksPush key ptr rest

/-- All partner relations of the report in iteration order, each with its key. -/
def allRelations (data : List (String × List Port)) : List ((Int × Int) × PartnerPtr) :=
  (data.enum).flatMap (fun ie =>
    (ie.2.2.enum).flatMap (fun jp =>
      (jp.2.with_whom_is_it_communicating.enum).map (fun kq =>
        (linkKey jp.2 kq.2, { i := ie.1, j := jp.1, k := kq.1 }))))

/-- The first three nested loops of Phase 3: the map `comm_links`. -/
def buildLinks (data : List (String × List Port)) : List ((Int × Int) × List PartnerPtr) :=
  (allRelations data).foldl (fun links r => linksPush r.1 r.2 links) []

/-- The remote port name read through a relation (empty when the pointer dangles). -/
def ptrName (data : List (String × List Port)) (p : PartnerPtr) : String :=
  match getPartner data p with
  | some partner => partner.port
  | none => ""

/-- The renaming loop over one link: `partner_ptr->port += "_" + local_port_ptr->name` for
every relation whose current name is in `duplicate_names`. -/
def renameLoop (duplicate_names : List String) :
    List PartnerPtr → List (String × List Port) → List (String × List Port)
  | [], data => data
  | p :: rest, data =>
    renameLoop duplicate_names rest
      (match getPartner data p, getPort data p with
       | some partner, some local_port =>
         if partner.port ∈ duplicate_names then
           setPartnerPort data p (partner.port ++ "_" ++ local_port.name)
         else data
       | _, _ => data)

/-- The body of `for (auto const& [link, partners_with_context] : comm_links)`. -/
def disambiguateLink (data : List (String × List Port)) (partners_with_context : List PartnerPtr) :
    List (String × List Port) :=
  if partners_with_context.length ≤ 1 then data
  else
    let names := partners_with_context.map (ptrName data)
    let duplicate_names := names.filter (fun n => decide (names.count n > 1))
    if duplicate_names.isEmpty then data
    else renameLoop duplicate_names partners_with_context data

/-- Phase 3 of `analyze()` on the report. -/
def phase3 (data : List (String × List Port)) : List (String × List Port) :=
  (buildLinks data).foldl (fun d link => disambiguateLink d link.2) data

/-- Method `analyze()`. -/
def analyze (a : PartitionPortAnalyzer) : PartitionPortAnalyzer :=
  let a2 := mainLoop (phase1 a)
  { a2 with m_partitionData := phase3 a2.m_partitionData }

/-- Constructor followed by `analyze()`, as called by `findAndPrintPartitionPorts`; the
result is what `getPartitionData()` returns. -/
def analyzeReport (parentModule : ParentModule) (partitionInstances : List String) :
    List (String × List Port) :=
  (analyze (PartitionPortAnalyzer.new parentModule partitionInstances)).m_partitionData

/-! ## Example parent modules -/

/-- The `comm_type` of a port agrees with the number of its partners. -/
def Classified (p : Port) : Prop :=
  p.comm_type =
    if p.with_whom_is_it_communicating.length = 0 then "NULL"
    else if p.with_whom_is_it_communicating.length = 1 then "P2P"
    else "broadcast"

/-- Instantiated module with an input `x` and an 8-bit output `y`. -/
def exModA : AstNodeModule :=
  { name := "A", vars := [⟨"x", "in", true, .null⟩, ⟨"y", "out", true, .basic true 7 0⟩] }

/-- Parent `Top` with partitions `p1`, `p2` of module `A`, where `p1.x` is on net `x`,
`p2.y` on net `y`, and `assign w = y; assign x = w;`. -/
def exChain : ParentModule :=
  { name := "Top", vars := [⟨"w", "none", false, .null⟩],
    body := [.cell ⟨"p1", some exModA, [⟨"x", .varRef "x"⟩, ⟨"y", .varRef "y1"⟩]⟩,
             .cell ⟨"p2", some exModA, [⟨"x", .varRef "x2"⟩, ⟨"y", .varRef "y"⟩]⟩,
             .assignW (.varRef "w") (.varRef "y"),
             .assignW (.varRef "x") (.varRef "w")] }

/-- The analyzed port `y` of `p1` in `exChain`. -/
def exChainPortY : Port :=
  { name := "y", direction := "out", width := 8, active := "No", type := "wire",
    other_end := "y1", mpi_process := "p1", mpi_rank := 1, comm_type := "NULL",
    with_whom_is_it_communicating := [] }

/-- The analyzed port `x` of `p1` in `exChain`. -/
def exChainPort : Port :=
  { name := "x", direction := "in", width := 1, active := "Yes", type := "wire",
    other_end := "y", mpi_process := "p1", mpi_rank := 1, comm_type := "P2P",
    with_whom_is_it_communicating := [⟨"p2", "y", "p2", 2⟩] }

/-- Every port of the report satisfies `P`. -/
def AllPorts (P : Port → Prop) (data : List (String × List Port)) : Prop :=
  ∀ e ∈ data, ∀ p ∈ e.2, P p

/-- The pairs `(name, rank)` assigned to a list of names from a first rank on. -/
def ranked : List String → Int → List (String × Int)
  | [], _ => []
  | k :: rest, r => (k, r) :: ranked rest (r + 1)

/-- Ascending order of a list of pairwise distinct strings. -/
def Ascending (l : List String) : Prop :=
  l.Pairwise (fun a b => stringLess a.data b.data = true)

/-- Module with one input `d`. -/
def exModU : AstNodeModule := { name := "U", vars := [⟨"d", "in", true, .null⟩] }

/-- Module with one output `o`. -/
def exModB : AstNodeModule := { name := "B", vars := [⟨"o", "out", true, .null⟩] }

/-- Parent `Top` with partitions `p1`, `p2` of module `B` and two other instances `u1`,
`u2` of module `U`; the output `o` of `p1` drives net `w`, read by `u1.d` and `u2.d`. -/
def exFanout : ParentModule :=
  { name := "Top", vars := [],
    body := [.cell ⟨"p1", some exModB, [⟨"o", .varRef "w"⟩]⟩,
             .cell ⟨"p2", some exModB, [⟨"o", .varRef "w2"⟩]⟩,
             .cell ⟨"u1", some exModU, [⟨"d", .varRef "w"⟩]⟩,
             .cell ⟨"u2", some exModU, [⟨"d", .varRef "w"⟩]⟩] }

/-! ## Notions for Phase 3 and for the partner search -/

/-- The name of the local port read through a relation (empty when the pointer
dangles). -/
def localName (data : List (String × List Port)) (p : PartnerPtr) : String :=
  match getPort data p with
  | some port => port.name
  | none => ""

/-- The body of the renaming loop for one relation. -/
def renameOne (duplicate_names : List String) (data : List (String × List Port))
    (p : PartnerPtr) : List (String × List Port) :=
  match getPartner data p, getPort data p with
  | some partner, some local_port =>
    if partner.port ∈ duplicate_names then
      setPartnerPort data p (partner.port ++ "_" ++ local_port.name)
    else data
  | _, _ => data

/-- The partner a relation points to after the renaming loop has passed it. -/
def renameAt (duplicate_names : List String) (data : List (String × List Port))
    (p : PartnerPtr) : Option CommunicationPartner :=
  (getPartner data p).map (fun q =>
    if q.port ∈ duplicate_names then { q with port := q.port ++ "_" ++ localName data p }
    else q)

/-- The partner a relation of the group `g` points to after the group is disambiguated:
renamed when its remote port name occurs more than once among the names of `g`. -/
def renamedIn (data : List (String × List Port)) (g : List PartnerPtr) (p : PartnerPtr) :
    Option CommunicationPartner :=
  (getPartner data p).map (fun q =>
    if 1 < (g.map (ptrName data)).count q.port then
      { q with port := q.port ++ "_" ++ localName data p }
    else q)

/-- Lookup `comm_links[key]` on the map kept sorted by key (empty for a missing key). -/
def linksFind (links : List ((Int × Int) × List PartnerPtr)) (key : Int × Int) :
    List PartnerPtr :=
  match links.find? (fun l => decide (l.1 = key)) with
  | some l => l.2
  | none => []

/-- The representation invariant of `comm_links`: keys strictly ascending, no empty
vector. -/
def LinksOK (links : List ((Int × Int) × List PartnerPtr)) : Prop :=
  links.Pairwise (fun a b => pairLess a.1 b.1 = true) ∧ ∀ l ∈ links, l.2 ≠ []

/-- The relations of the channel group `key`, in the order in which Phase 3 meets them. -/
def channelGroup (data : List (String × List Port)) (key : Int × Int) : List PartnerPtr :=
  ((allRelations data).filter (fun r => decide (r.1 = key))).map (fun r => r.2)

/-- Number of relations of the channel group `key` whose remote port name, before
disambiguation, is `name`. -/
def nameCount (data : List (String × List Port)) (key : Int × Int) (name : String) : Nat :=
  ((channelGroup data key).map (ptrName data)).count name

/-- Module with two inputs `in0` and `in1`. -/
def exModR : AstNodeModule :=
  { name := "R", vars := [⟨"in0", "in", true, .null⟩, ⟨"in1", "in", true, .null⟩] }

/-- Module with one output `data`. -/
def exModS : AstNodeModule := { name := "S", vars := [⟨"data", "out", true, .null⟩] }

/-- Parent `Top` with partitions `p1`, `p2` of module `R` and two other instances `u1`,
`u2` of module `S`: `u1.data` drives `p1.in0` over net `n0`, `u2.data` drives `p1.in1`
over net `n1`, and `u1.data` is the only remote name reaching `p2`. -/
def exTwoData : ParentModule :=
  { name := "Top", vars := [],
    body := [.cell ⟨"p1", some exModR, [⟨"in0", .varRef "n0"⟩, ⟨"in1", .varRef "n1"⟩]⟩,
             .cell ⟨"p2", some exModR, [⟨"in0", .varRef "n0"⟩, ⟨"in1", .varRef "m1"⟩]⟩,
             .cell ⟨"u1", some exModS, [⟨"data", .varRef "n0"⟩]⟩,
             .cell ⟨"u2", some exModS, [⟨"data", .varRef "n1"⟩]⟩] }

/-- The report on `exTwoData` after the main loop, before Phase 3. -/
def exTwoDataMain : List (String × List Port) :=
  (mainLoop (phase1 (PartitionPortAnalyzer.new exTwoData ["p1", "p2"]))).m_partitionData

/-- The port `in0` of `p1` in `exTwoDataMain`. -/
def exPortIn0 : Port :=
  { name := "in0", direction := "in", width := 1, active := "Yes", type := "wire",
    other_end := "n0", mpi_process := "p1", mpi_rank := 1, comm_type := "P2P",
    with_whom_is_it_communicating := [⟨"u1", "data", "system", 0⟩] }

/-- The net reached from `wire` by following exactly `n` alias edges of `m_wireAliasMap`,
if there are that many. -/
def followAlias (m_wireAliasMap : String → Option String) : Nat → String → Option String
  | 0, wire => some wire
  | n + 1, wire =>
    match m_wireAliasMap wire with
    | some rhs => followAlias m_wireAliasMap n rhs
    | none => none

/-- Alias map of the cycle `assign a = b; assign b = a;`. -/
def exAliasCycle : String → Option String :=
  mapSet (mapSet (fun _ => none) "a" (some "b")) "b" (some "a")

/-- All lists obtained by putting `x` somewhere into `l`. -/
def insertions {α : Type} (x : α) : List α → List (List α)
  | [] => [[x]]
  | y :: ys => (x :: y :: ys) :: (insertions x ys).map (fun l => y :: l)

/-- All orders of the elements of a list. -/
def orderings {α : Type} : List α → List (List α)
  | [] => [[]]
  | x :: xs => (orderings xs).flatMap (insertions x)

/-- Every port of the report satisfies `P` together with the instance name of its entry. -/
def AllEntries (P : String → Port → Prop) (data : List (String × List Port)) : Prop :=
  ∀ e ∈ data, ∀ p ∈ e.2, P e.1 p

/-- A property of a port that does not read the remote port names of its partners. -/
def RenameStable (P : String → Port → Prop) : Prop :=
  ∀ (inst : String) (port : Port) (k : Nat) (name : String), P inst port →
    P inst
      { port with
        with_whom_is_it_communicating :=
          modifyAt (fun partner => { partner with port := name }) k
            port.with_whom_is_it_communicating }

/-- A port record as the pin loop of `visit(AstCell*)` builds it. -/
def Gathered (p : Port) : Prop :=
  ∃ (partitionModule : AstNodeModule) (pinp : AstPin), p = (gatherPort partitionModule pinp).1

/-- The members of the analyzer that Phase 1 only reads. -/
def SameConfig (a b : PartitionPortAnalyzer) : Prop :=
  b.m_partitionInstances = a.m_partitionInstances ∧ b.m_mpiRankMap = a.m_mpiRankMap ∧
    b.m_parentModuleName = a.m_parentModuleName ∧ b.m_parentModule = a.m_parentModule

/-- The local `trueOutputSourceExists` of Step 2.2 for a port of `instName` over the
endpoints of its resolved net. -/
def trueOutputSourceExists (a : PartitionPortAnalyzer) (instName : String) (port : Port)
    (endpoints : List (String × String)) : Bool :=
  decide (sourceDirectionOf port.direction = "Input") &&
    endpoints.any (fun endpoint =>
      decide (endpoint.1 ≠ instName) &&
        decide (getPortDirection a endpoint.1 endpoint.2 = "Output"))

/-- What the second loop of Step 2.2 pushes for one endpoint of the resolved net: the
partner record, or nothing when the endpoint is skipped or rejected. -/
def recordedFor (a : PartitionPortAnalyzer) (instName : String) (port : Port)
    (endpoints : List (String × String)) (endpoint : String × String) :
    Option CommunicationPartner :=
  partnerOf a instName port (trueOutputSourceExists a instName port endpoints) endpoint

/-- Module with one port `io` declared `inout`. -/
def exModIO : AstNodeModule := { name := "M", vars := [⟨"io", "inout", true, .null⟩] }

/-- Parent `Top` with partitions `p1`, `p2` of module `M`, both `inout` ports on net `bus`,
and another instance `u1` of module `U` with its input `d` on `bus`. -/
def exInout : ParentModule :=
  { name := "Top", vars := [],
    body := [.cell ⟨"p1", some exModIO, [⟨"io", .varRef "bus"⟩]⟩,
             .cell ⟨"p2", some exModIO, [⟨"io", .varRef "bus"⟩]⟩,
             .cell ⟨"u1", some exModU, [⟨"d", .varRef "bus"⟩]⟩] }

/-- Parent `Top` with partitions `p1`, `p2` of module `A`; net `n` at the input `x` of `p1`
is driven only by parent logic, `assign n = <expression>;`. -/
def exLogicOnly : ParentModule :=
  { name := "Top", vars := [],
    body := [.cell ⟨"p1", some exModA, [⟨"x", .varRef "n"⟩, ⟨"y", .varRef "y1"⟩]⟩,
             .cell ⟨"p2", some exModA, [⟨"x", .varRef "x2"⟩, ⟨"y", .varRef "y2"⟩]⟩,
             .assignW (.varRef "n") .other] }

/-- Parent `Top` with partitions `p1`, `p2` of module `A` and an instance `u1` whose
module is not resolved (`modp()` null); `u1.d` is on net `n` with the input `x` of `p1`,
`u1.e` on net `m` with the output `y` of `p1`. -/
def exUnknown : ParentModule :=
  { name := "Top", vars := [],
    body := [.cell ⟨"p1", some exModA, [⟨"x", .varRef "n"⟩, ⟨"y", .varRef "m"⟩]⟩,
             .cell ⟨"p2", some exModA, [⟨"x", .varRef "x2"⟩, ⟨"y", .varRef "y2"⟩]⟩,
             .cell ⟨"u1", none, [⟨"d", .varRef "n"⟩, ⟨"e", .varRef "m"⟩]⟩] }

/-- The analyzer on `exChain` after Phase 1. -/
def exChainGathered : PartitionPortAnalyzer :=
  phase1 (PartitionPortAnalyzer.new exChain ["p1", "p2"])

/-- The analyzer on `exUnknown` after Phase 1. -/
def exUnknownGathered : PartitionPortAnalyzer :=
  phase1 (PartitionPortAnalyzer.new exUnknown ["p1", "p2"])

/-- A gathered Input port `x`. -/
def exPortIn : Port := { name := "x", direction := "in", width := 1, type := "wire" }

/-- Parent `Top` with partitions `p1`, `p2` of module `A` whose input `x` is tied to an
expression that is neither a net, a constant nor a bit-select. -/
def exExpr : ParentModule :=
  { name := "Top", vars := [],
    body := [.cell ⟨"p1", some exModA, [⟨"x", .other⟩, ⟨"y", .varRef "y1"⟩]⟩,
             .cell ⟨"p2", some exModA, [⟨"x", .other⟩, ⟨"y", .varRef "y2"⟩]⟩] }

/-- The `active` flag a finished port has for its connection type and partner count. -/
def ActiveByType (p : Port) : Prop :=
  (p.type = "wire" ∧
    p.active = if p.with_whom_is_it_communicating.length = 0 then "No" else "Yes") ∨
  (p.type = "init" ∧ p.active = "No" ∧ p.with_whom_is_it_communicating.length = 0) ∨
  (p.type = "logic" ∧ p.active = "Yes" ∧ p.with_whom_is_it_communicating.length = 0)

/-! ## Notions for the main loop and Phase 1 -/

/-- A port record without the remote port names of its partners. -/
def eraseNames (port : Port) : Port :=
  { port with
    with_whom_is_it_communicating :=
      port.with_whom_is_it_communicating.map (fun q => { q with port := "" }) }

/-- A report without the remote port names of the partners. -/
def eraseReport (data : List (String × List Port)) : List (String × List Port) :=
  data.map (fun e => (e.1, e.2.map eraseNames))

/-- The endpoint map when the main loop reaches the port that follows the ports `ps1` of
instance `instName`, the instances `pre` being done. -/
def mapBefore (a : PartitionPortAnalyzer) (pre : List (String × List Port)) (instName : String)
    (ps1 : List Port) (m : String → List (String × String)) : String → List (String × String) :=
  (analyzePorts a instName ps1 (analyzeInstances a pre m).2).2

/-- The `(instance, port name)` pairs of the ports of a report, in order. -/
def ownPairs (data : List (String × List Port)) : List (String × String) :=
  data.flatMap (fun e => e.2.map (fun p => (e.1, p.name)))

/-- The analyzer after the constructor and Phase 1 of `analyze()`. -/
def afterPhase1 (parentModule : ParentModule) (partitionInstances : List String) :
    PartitionPortAnalyzer :=
  phase1 (PartitionPortAnalyzer.new parentModule partitionInstances)

/-- The endpoint map right after Step 2.1 for the gathered port `p0` of `instName`, which
follows the ports `ps1` of that instance and the instances `pre`. -/
def mapAfterStep21 (a : PartitionPortAnalyzer) (pre : List (String × List Port))
    (instName : String) (ps1 : List Port) (p0 : Port) : String → List (String × String) :=
  (analyzePort a instName (p0, mapBefore a pre instName ps1 a.m_wireToEndpoints)).2

/-- The endpoint list of the resolved net of `p0` as Step 2.2 reads it. -/
def resolvedEndpoints (a : PartitionPortAnalyzer) (pre : List (String × List Port))
    (instName : String) (ps1 : List Port) (p0 : Port) : List (String × String) :=
  mapAfterStep21 a pre instName ps1 p0 (resolveWireChain a.m_wireAliasMap 5 p0.other_end [])

/-- The gathered port `x` of `p1` in `exUnknown`. -/
def exUnknownX : Port :=
  { name := "x", direction := "in", width := 1, type := "wire", other_end := "n" }

/-- The gathered port `y` of `p1` in `exUnknown`. -/
def exUnknownY : Port :=
  { name := "y", direction := "out", width := 8, type := "wire", other_end := "m" }

/-- The gathered ports of `p2` in `exUnknown`. -/
def exUnknownP2 : List Port :=
  [{ name := "x", direction := "in", width := 1, type := "wire", other_end := "x2" },
   { name := "y", direction := "out", width := 8, type := "wire", other_end := "y2" }]

/-- A node the builder has recorded: an entry of `nodeMetadata` or of an adjacency list. -/
def Recorded (v : HierCellsGraphVisitor) (n : ModNode) : Prop :=
  (∃ k, v.nodeMetadata k = some n) ∨ ∃ k, n ∈ v.adjacency k

/-- The alias edges along `ws` lead from each net to the next, and the last net has no
outgoing alias. -/
def IsChain (m_wireAliasMap : String → Option String) : List String → Prop
  | [] => False
  | [w] => m_wireAliasMap w = none
  | w :: w1 :: rest => m_wireAliasMap w = some w1 ∧ IsChain m_wireAliasMap (w1 :: rest)

/-- Alias map of the chain `w0 → w1 → … → w7`. -/
def exAliasLong : String → Option String := fun w =>
  if w = "w0" then some "w1" else if w = "w1" then some "w2" else if w = "w2" then some "w3"
  else if w = "w3" then some "w4" else if w = "w4" then some "w5"
  else if w = "w5" then some "w6" else if w = "w6" then some "w7" else none

/-- The connection expressions for which the pin loop of `visit(AstCell*)` records a net
or a constant: a variable reference, a constant, and a bit-select of a named bus by a
constant index. -/
def handledExpr : AstNodeExpr → Bool
  | .varRef _ => true
  | .const _ _ => true
  | .selBit (.varRef busName) (.const _ _) => decide (busName ≠ "")
  | _ => false

/-- The alias edge an assignment records: for each of the three assignment nodes, the
canonical names of its two sides when neither is empty. -/
def aliasOf : AstStmt → Option (String × String)
  | .assignW lhsp rhsp =>
    if getCanonicalName lhsp ≠ "" ∧ getCanonicalName rhsp ≠ "" then
      some (getCanonicalName lhsp, getCanonicalName rhsp)
    else none
  | .assign lhsp rhsp =>
    if getCanonicalName lhsp ≠ "" ∧ getCanonicalName rhsp ≠ "" then
      some (getCanonicalName lhsp, getCanonicalName rhsp)
    else none
  | .assignDly lhsp rhsp =>
    if getCanonicalName lhsp ≠ "" ∧ getCanonicalName rhsp ≠ "" then
      some (getCanonicalName lhsp, getCanonicalName rhsp)
    else none
  | .cell _ => none

/-- A connection to a net with a non-empty name: a variable reference, or a bit-select of
a bus by a constant index. -/
def namedNet : AstNodeExpr → Bool
  | .varRef name => decide (name ≠ "")
  | .selBit (.varRef busName) (.const _ _) => decide (busName ≠ "")
  | _ => false

/-- Parent `Top` whose only assignment is procedural, `a = b;` inside an `always`. -/
def exProc : ParentModule :=
  { name := "Top", vars := [], body := [.assign (.varRef "a") (.varRef "b")] }

/-- Parent `Top` with a partition instance `p1` whose module is not resolved. -/
def exUnresolved : ParentModule :=
  { name := "Top", vars := [],
    body := [.cell ⟨"p1", none, [⟨"x", .varRef "n"⟩]⟩,
             .cell ⟨"p2", some exModA, [⟨"x", .varRef "n"⟩, ⟨"y", .varRef "y2"⟩]⟩] }

/-- Every wire-connected port of the partition data has its own endpoint on the endpoint
list of its net. -/
def OwnRecorded (a : PartitionPortAnalyzer) : Prop :=
  ∀ e ∈ a.m_partitionData, ∀ p ∈ e.2, p.type = "wire" →
    (e.1, p.name) ∈ a.m_wireToEndpoints p.other_end

/-- Module with one input `x`. -/
def exModX : AstNodeModule := { name := "X", vars := [⟨"x", "in", true, .null⟩] }

/-- Parent `Top` in which the partition instance `p1` has three pins of the same name `x`,
on the nets `w0`, `w5` and `w0`, with the aliases `w0 → w1 → … → w5 → w6`. -/
def exTriple : ParentModule :=
  { name := "Top", vars := [],
    body := [.cell ⟨"p1", some exModX,
               [⟨"x", .varRef "w0"⟩, ⟨"x", .varRef "w5"⟩, ⟨"x", .varRef "w0"⟩]⟩,
             .cell ⟨"p2", some exModX, [⟨"x", .varRef "v"⟩]⟩,
             .assign (.varRef "w0") (.varRef "w1"), .assign (.varRef "w1") (.varRef "w2"),
             .assign (.varRef "w2") (.varRef "w3"), .assign (.varRef "w3") (.varRef "w4"),
             .assign (.varRef "w4") (.varRef "w5"), .assign (.varRef "w5") (.varRef "w6")] }

/-- A gathered Input port `x` on net `w`. -/
def exPortOn (w : String) : Port :=
  { name := "x", direction := "in", width := 1, type := "wire", other_end := w }

/-- A gathered Output port `y` (8 bits) on net `w`. -/
def exPortOutOn (w : String) : Port :=
  { name := "y", direction := "out", width := 8, type := "wire", other_end := w }

/-! ## The JSON report -/

/-- The four digits written by `std::hex << std::setw(4) << std::setfill('0')` for a value
below 65536. -/
def hex4 (v : Nat) : List Char :=
  [Nat.digitChar (v / 4096 % 16), Nat.digitChar (v / 256 % 16), Nat.digitChar (v / 16 % 16),
    Nat.digitChar (v % 16)]

/-- The `switch` of `jsonEscape` on one character. -/
def jsonEscapeChar (c : Char) : List Char :=
  if c = '"' then ['\\', '"']
  else if c = '\\' then ['\\', '\\']
  else if c = '\x08' then ['\\', 'b']
  else if c = '\x0c' then ['\\', 'f']
  else if c = '\n' then ['\\', 'n']
  else if c = '\r' then ['\\', 'r']
  else if c = '\t' then ['\\', 't']
  else if c.toNat ≤ 0x1f then '\\' :: 'u' :: hex4 c.toNat
  else [c]

/-- Method `jsonEscape`. -/
def jsonEscape (s : String) : String :=
  String.mk (s.data.flatMap jsonEscapeChar)

/-- The characters `writeJsonReport` writes for one partner object. -/
def jsonPartner (q : CommunicationPartner) : List Char :=
  "\x7b".data ++ "\"instance\": \"".data ++ (jsonEscape q.inst).data ++ "\", ".data ++
  "\"port\": \"".data ++ (jsonEscape q.port).data ++ "\", ".data ++
  "\"mpi_process\": \"".data ++ (jsonEscape q.mpi_process).data ++ "\", ".data ++
  "\"mpi_rank\": ".data ++ (toString q.mpi_rank).data ++ "\x7d".data

/-- The loop over `with_whom_is_it_communicating`: the objects, separated by `", "`. -/
def jsonPartners : List CommunicationPartner → List Char
  | [] => []
  | q :: rest =>
    jsonPartner q ++ (if rest.isEmpty then [] else ", ".data) ++ jsonPartners rest

/-- The characters written for one port object, up to its closing brace. -/
def jsonPort (port : Port) : List Char :=
  "      \x7b\n".data ++
  "        \"port_name\": \"".data ++ (jsonEscape port.name).data ++ "\",\n".data ++
  "        \"direction\": \"".data ++ (jsonEscape port.direction).data ++ "\",\n".data ++
  "        \"width\": ".data ++ (toString port.width).data ++ ",\n".data ++
  "        \"active\": \"".data ++ (jsonEscape port.active).data ++ "\",\n".data ++
  "        \"type\": \"".data ++ (jsonEscape port.type).data ++ "\",\n".data ++
  "        \"connecting_wire\": \"".data ++ (jsonEscape port.other_end).data ++ "\",\n".data ++
  "        \"mpi_process\": \"".data ++ (jsonEscape port.mpi_process).data ++ "\",\n".data ++
  "        \"mpi_rank\": ".data ++ (toString port.mpi_rank).data ++ ",\n".data ++
  "        \"Comm\": \"".data ++ (jsonEscape port.comm_type).data ++ "\",\n".data ++
  "        \"with_whom_is_it_communicating\": [".data ++
  jsonPartners port.with_whom_is_it_communicating ++ "]\n".data ++
  "      \x7d".data

/-- The loop over the ports of one instance: each object, a comma unless it is the last,
and a line break. -/
def jsonPorts : List Port → List Char
  | [] => []
  | port :: rest =>
    jsonPort port ++ (if rest.isEmpty then [] else ",".data) ++ "\n".data ++ jsonPorts rest

/-- The loop over `m_partitionData`. -/
def jsonInstances : List (String × List Port) → List Char
  | [] => []
  | e :: rest =>
    "    \"".data ++ (jsonEscape e.1).data ++ "\": [\n".data ++ jsonPorts e.2 ++
      "    ]".data ++ (if rest.isEmpty then [] else ",".data) ++ "\n".data ++
      jsonInstances rest

/-- Method `writeJsonReport`: the text written to the file once it is open. -/
def writeJsonReport (m_partitionData : List (String × List Port)) : String :=
  String.mk ("\x7b\n".data ++ "  \"partitions\": \x7b\n".data ++
    jsonInstances m_partitionData ++ "  \x7d\n".data ++ "\x7d\n".data)

/-- The character an escape letter after a backslash stands for in a JSON string. -/
def simpleEscape (e : Char) : Option Char :=
  if e = '"' then some '"'
  else if e = '\\' then some '\\'
  else if e = '/' then some '/'
  else if e = 'b' then some '\x08'
  else if e = 'f' then some '\x0c'
  else if e = 'n' then some '\n'
  else if e = 'r' then some '\r'
  else if e = 't' then some '\t'
  else none

/-- The value of a hexadecimal digit. -/
def hexVal (c : Char) : Option Nat :=
  if '0'.toNat ≤ c.toNat ∧ c.toNat ≤ '9'.toNat then some (c.toNat - '0'.toNat)
  else if 'a'.toNat ≤ c.toNat ∧ c.toNat ≤ 'f'.toNat then some (c.toNat - 'a'.toNat + 10)
  else if 'A'.toNat ≤ c.toNat ∧ c.toNat ≤ 'F'.toNat then some (c.toNat - 'A'.toNat + 10)
  else none

/-- The value of four hexadecimal digits. -/
def hexVal4 (h1 h2 h3 h4 : Char) : Option Nat :=
  match hexVal h1, hexVal h2, hexVal h3, hexVal h4 with
  | some a, some b, some c, some d => some (((a * 16 + b) * 16 + c) * 16 + d)
  | _, _, _, _ => none

/-- JSON string decoding: reads the body of a JSON string up to its closing quotation
mark and returns the decoded characters and the text after the mark; `none` when the text
is no JSON string body (an unknown escape, a raw control character, no closing mark). -/
def jsonUnescape : List Char → Option (List Char × List Char)
  | [] => none
  | c :: rest =>
    if c = '"' then some ([], rest)
    else if c = '\\' then
      match rest with
      | [] => none
      | e :: rest2 =>
        if e = 'u' then
          match rest2 with
          | h1 :: h2 :: h3 :: h4 :: rest3 =>
            match hexVal4 h1 h2 h3 h4, jsonUnescape rest3 with
            | some v, some (s, r) => some (Char.ofNat v :: s, r)
            | _, _ => none
          | _ => none
        else
          match simpleEscape e, jsonUnescape rest2 with
          | some ch, some (s, r) => some (ch :: s, r)
          | _, _ => none
    else if c.toNat < 0x20 then none
    else
      match jsonUnescape rest with
      | some (s, r) => some (c :: s, r)
      | none => none

/-- The value of a string of decimal digits. -/
def digitsVal (l : List Char) : Nat :=
  l.foldl (fun acc c => acc * 10 + (c.toNat - 48)) 0

/-! ## Example reports -/

/-- A port with two partners whose strings hold a quotation mark and a control character. -/
def exJsonPort (name : String) : Port :=
  { name := name, direction := "Output", width := 8, active := "Yes", type := "logic",
    other_end := "top.w[3]", mpi_process := "partition_0", mpi_rank := 1,
    comm_type := "P2P",
    with_whom_is_it_communicating :=
      [⟨"u\"2", "in", "partition_1", 2⟩, ⟨"System", "\x01", "system", -1⟩] }

/-- A report whose first port name holds a line break. -/
def exJsonA : List (String × List Port) :=
  [("p1", [exJsonPort "a\nb", {}]), ("p2", [])]

/-- The same report with a backslash and the letter `n` in place of the line break. -/
def exJsonB : List (String × List Port) :=
  [("p1", [exJsonPort "a\\nb", {}]), ("p2", [])]

/-! ## Notions for the remaining claims -/

/-- A text is the body of a JSON string: scanning from the left, a backslash only starts
one of the escapes `\" \\ \/ \b \f \n \r \t` or `\u` with four hexadecimal digits, and
outside an escape there is no quotation mark and no character below 0x20. -/
def escapedOK : List Char → Bool
  | [] => true
  | c :: rest =>
    if c = '\\' then
      match rest with
      | [] => false
      | e :: rest2 =>
        if e = 'u' then
          match rest2 with
          | h1 :: h2 :: h3 :: h4 :: rest3 => (hexVal4 h1 h2 h3 h4).isSome && escapedOK rest3
          | _ => false
        else (simpleEscape e).isSome && escapedOK rest2
    else if c = '"' then false
    else if c.toNat < 0x20 then false
    else escapedOK rest

/-- Every key of the report map is one of the names in `names`. -/
def KeysIn (names : List String) (data : List (String × List Port)) : Prop :=
  ∀ e ∈ data, e.1 ∈ names

/-- A port record of instance `inst` as the pin loop builds it for a pin of a cell of that
name in `body`. -/
def GatheredIn (body : List AstStmt) (inst : String) (p : Port) : Prop :=
  ∃ (cellp : AstCellPins) (partitionModule : AstNodeModule) (pinp : AstPin),
    AstStmt.cell cellp ∈ body ∧ cellp.name = inst ∧ cellp.modp = some partitionModule ∧
      pinp ∈ cellp.pinsp ∧ p = (gatherPort partitionModule pinp).1

/-- The width the pin loop records for a port named `name` of a module: the width of the
declaration `findVarInModule` finds, or the default 0 of `Port::width` when it finds
none. -/
def declaredWidth (partitionModule : AstNodeModule) (name : String) : Int :=
  match findVarInModule partitionModule name with
  | some varp => getDTypeWidth varp.dtypep
  | none => 0

/-- Parent `Top` with partitions `p1`, `p2` of module `A`; the pin `z` of `p1` names no
variable of `A`. -/
def exNoDecl : ParentModule :=
  { name := "Top", vars := [],
    body := [.cell ⟨"p1", some exModA, [⟨"z", .varRef "n"⟩, ⟨"y", .varRef "y1"⟩]⟩,
             .cell ⟨"p2", some exModA, [⟨"x", .varRef "n"⟩, ⟨"y", .varRef "y2"⟩]⟩] }

/-- Number of leaf instances in the forest of cells of a module body: a cell of a live
module counts as one leaf when its own body holds no leaf instance, and otherwise as the
leaves below it; cells of dead modules are not instances of the elaborated design. -/
def leafCount : AstCell → Nat
  | .nil => 0
  | .cons _ _ modDead modCells next =>
    (if modDead then 0 else max 1 (leafCount modCells)) + leafCount next

/-- Number of leaf instances in the subtree of an instance whose module body holds the
cells `F`, the instance itself counted when it is a leaf. -/
def subtreeLeaves (F : AstCell) : Int :=
  max 1 (leafCount F : Int)

/-- Instance `a.b` beside instance `a`, which holds three `T3` instances `b`, `c`, `d`. -/
def exDottedThree : AstNetlist :=
  { topName := "$root", topDead := false,
    topCells := .cons "a.b" "T1" false .nil
      (.cons "a" "T2" false
        (.cons "b" "T3" false .nil (.cons "c" "T3" false .nil
          (.cons "d" "T3" false .nil .nil))) .nil) }

/-- Modules and parent for a net read by two continuous assignments: partition `p1` drives
net `w` from its output `o`, and the parent holds `assign x = w; assign y = w;`. -/
def exTwoAssign : ParentModule :=
  { name := "Top", vars := [],
    body := [.cell ⟨"p1", some exModB, [⟨"o", .varRef "w"⟩]⟩,
             .cell ⟨"p2", some exModB, [⟨"o", .varRef "w2"⟩]⟩,
             .assignW (.varRef "x") (.varRef "w"),
             .assignW (.varRef "y") (.varRef "w")] }

/-- Port `a` of instance `A` lists `(B, b)` among its partners in the report `data`. -/
def listsPartner (data : List (String × List Port)) (A a B b : String) : Bool :=
  data.any (fun e => decide (e.1 = A) &&
    e.2.any (fun p => decide (p.name = a) &&
      p.with_whom_is_it_communicating.any (fun q => decide (q.inst = B) && decide (q.port = b))))

/-- The parent `exChain` with the two partitions exchanged: the Output `y` of `p1` is on net
`y`, the Input `x` of `p2` on net `x`, and `assign w = y; assign x = w;`. -/
def exChainSwapped : ParentModule :=
  { name := "Top", vars := [⟨"w", "none", false, .null⟩],
    body := [.cell ⟨"p1", some exModA, [⟨"x", .varRef "x1"⟩, ⟨"y", .varRef "y"⟩]⟩,
             .cell ⟨"p2", some exModA, [⟨"x", .varRef "x"⟩, ⟨"y", .varRef "y2"⟩]⟩,
             .assignW (.varRef "w") (.varRef "y"),
             .assignW (.varRef "x") (.varRef "w")] }

/-- Module with a port `r` whose direction keyword is `ref` and an output `y`. -/
def exModRef : AstNodeModule :=
  { name := "R", vars := [⟨"r", "ref", true, .null⟩, ⟨"y", "out", true, .null⟩] }

/-- Parent `Top` with partitions `p1`, `p2` of module `R`; the port `r` of `p1` and the
output `y` of `p2` share net `n`. -/
def exRef : ParentModule :=
  { name := "Top", vars := [],
    body := [.cell ⟨"p1", some exModRef, [⟨"r", .varRef "n"⟩, ⟨"y", .varRef "y1"⟩]⟩,
             .cell ⟨"p2", some exModRef, [⟨"r", .varRef "r2"⟩, ⟨"y", .varRef "n"⟩]⟩] }

/-! ## The graph recorded by the visitor -/

theorem visitAstCell_dead (blake : String → String) (name modName : String)
    (modCells next : AstCell) (v : HierCellsGraphVisitor) :
    visitAstCell blake (.cons name modName true modCells next) v = visitAstCell blake next v := by
  simp [visitAstCell]

theorem visitAstCell_live (blake : String → String) (name modName : String)
    (modCells next : AstCell) (v : HierCellsGraphVisitor) :
    visitAstCell blake (.cons name modName false modCells next) v =
      visitAstCell blake next
        ((visitAstCell blake modCells
          (v.enter (childNode blake v.m_hier v.m_hierWRTModuleName name modName))).leave v) := by
  simp [visitAstCell]

theorem visitAstCell_hier (blake : String → String) (F : AstCell) :
    ∀ v : HierCellsGraphVisitor,
      (visitAstCell blake F v).m_hier = v.m_hier ∧
      (visitAstCell blake F v).m_hierWRTModuleName = v.m_hierWRTModuleName := by
  induction F with
  | nil => intro v; simp [visitAstCell]
  | cons name modName modDead modCells next _ ihn =>
    intro v
    cases modDead with
    | true => rw [visitAstCell_dead]; exact ihn v
    | false =>
      rw [visitAstCell_live]
      have h := ihn ((visitAstCell blake modCells
          (v.enter (childNode blake v.m_hier v.m_hierWRTModuleName name modName))).leave v)
      simpa [HierCellsGraphVisitor.leave] using h

theorem visitAstCell_adjacency (blake : String → String) (F : AstCell) :
    ∀ (v : HierCellsGraphVisitor) (k : String),
      (visitAstCell blake F v).adjacency k =
        v.adjacency k ++
          ((collect blake F v.m_hier v.m_hierWRTModuleName).filter (fun e => e.1 = k)).map
            (fun e => e.2) := by
  induction F with
  | nil => intro v k; simp [visitAstCell, collect]
  | cons name modName modDead modCells next ihc ihn =>
    intro v k
    cases modDead with
    | true => rw [visitAstCell_dead]; simpa [collect] using ihn v k
    | false =>
      rw [visitAstCell_live, ihn]
      simp only [collect, Bool.false_eq_true, if_false, HierCellsGraphVisitor.leave, ihc,
        HierCellsGraphVisitor.enter, List.filter_append, List.map_append, List.filter_cons,
        mapSet]
      by_cases hk : stripTrailingDot v.m_hier = k
      · subst hk; simp
      · have hk2 : ¬ k = stripTrailingDot v.m_hier := fun h => hk h.symm
        simp [hk, hk2]

theorem visitAstCell_edges (blake : String → String) (F : AstCell) :
    ∀ (v : HierCellsGraphVisitor),
      (visitAstCell blake F v).edges =
        v.edges ++ (collect blake F v.m_hier v.m_hierWRTModuleName).map
          (fun e => (e.1, e.2.hierInstance)) := by
  induction F with
  | nil => intro v; simp [visitAstCell, collect]
  | cons name modName modDead modCells next ihc ihn =>
    intro v
    cases modDead with
    | true => rw [visitAstCell_dead]; simpa [collect] using ihn v
    | false =>
      rw [visitAstCell_live, ihn]
      simp [collect, HierCellsGraphVisitor.leave, ihc, HierCellsGraphVisitor.enter]

/-- Every recorded node satisfies a property that all freshly built child nodes have. -/
theorem visitAstCell_nodeMetadata (blake : String → String) (P : ModNode → Prop)
    (hP : ∀ h hm name modName, P (childNode blake h hm name modName)) (F : AstCell) :
    ∀ (v : HierCellsGraphVisitor), (∀ k n, v.nodeMetadata k = some n → P n) →
      ∀ k n, (visitAstCell blake F v).nodeMetadata k = some n → P n := by
  induction F with
  | nil => intro v hv; simpa [visitAstCell] using hv
  | cons name modName modDead modCells next ihc ihn =>
    intro v hv
    cases modDead with
    | true => rw [visitAstCell_dead]; exact ihn v hv
    | false =>
      rw [visitAstCell_live]
      apply ihn
      simp only [HierCellsGraphVisitor.leave]
      apply ihc
      intro k n hk
      simp only [HierCellsGraphVisitor.enter, mapSet] at hk
      by_cases hkk : k = (childNode blake v.m_hier v.m_hierWRTModuleName name modName).hierInstance
      · simp only [hkk, if_true, Option.some.injEq] at hk
        rw [← hk]; exact hP _ _ _ _
      · simp only [hkk, if_false] at hk
        exact hv k n hk

/-- Recorded entries are never removed, and every visited cell has one. -/
theorem visitAstCell_isSome (blake : String → String) (F : AstCell) :
    ∀ (v : HierCellsGraphVisitor),
      (∀ k, (v.nodeMetadata k).isSome → ((visitAstCell blake F v).nodeMetadata k).isSome) ∧
      (∀ e ∈ collect blake F v.m_hier v.m_hierWRTModuleName,
        ((visitAstCell blake F v).nodeMetadata e.2.hierInstance).isSome) := by
  induction F with
  | nil => intro v; simp [visitAstCell, collect]
  | cons name modName modDead modCells next ihc ihn =>
    intro v
    cases modDead with
    | true =>
      rw [visitAstCell_dead]
      simpa [collect] using ihn v
    | false =>
      rw [visitAstCell_live]
      have hn := ihn ((visitAstCell blake modCells
          (v.enter (childNode blake v.m_hier v.m_hierWRTModuleName name modName))).leave v)
      have hc := ihc (v.enter (childNode blake v.m_hier v.m_hierWRTModuleName name modName))
      simp only [HierCellsGraphVisitor.leave] at hn
      have henter : ∀ k, (v.nodeMetadata k).isSome →
          ((v.enter (childNode blake v.m_hier v.m_hierWRTModuleName name
            modName)).nodeMetadata k).isSome := by
        intro k hk
        simp only [HierCellsGraphVisitor.enter, mapSet]
        split
        · rfl
        · exact hk
      refine ⟨fun k hk => hn.1 k (hc.1 k (henter k hk)), ?_⟩
      intro e he
      simp only [collect, Bool.false_eq_true, if_false, List.cons_append, List.mem_cons,
        List.mem_append] at he
      rcases he with rfl | he | he
      · apply hn.1
        apply hc.1
        simp [HierCellsGraphVisitor.enter, mapSet]
      · apply hn.1
        exact hc.2 e (by simpa [HierCellsGraphVisitor.enter] using he)
      · exact hn.2 e he

/-! ## Depth-first weights on an arbitrary recorded graph -/

theorem weightOf_nonneg {nm : String → Option ModNode} (h : NonNeg nm) (k : String) :
    0 ≤ weightOf nm k := by
  unfold weightOf
  cases hk : nm k with
  | none => simp
  | some n => simpa using h k n hk

theorem dfs_succ (A : String → List ModNode) (fuel : Nat) (k : String)
    (nm : String → Option ModNode) (vis : List String) :
    dfs A (fuel + 1) k (nm, vis) =
      if k ∈ vis then some (nm, vis) else
        match (A k).foldl (dfsStep (dfs A fuel)) (some (0, false, nm, k :: vis)) with
        | none => none
        | some (totalChildWeight, hasChild, nm1, visited1) =>
          match nm1 k with
          | some n =>
            some (mapSet nm1 k
              (some { n with weight := if hasChild then totalChildWeight else 1 }), visited1)
          | none => some (nm1, visited1) := by
  rfl

theorem foldl_dfsStep_none (r : String → (String → Option ModNode) × List String →
      Option ((String → Option ModNode) × List String)) (cs : List ModNode) :
    cs.foldl (dfsStep r) none = none := by
  induction cs with
  | nil => rfl
  | cons c cs ih => simpa [List.foldl_cons, dfsStep] using ih

theorem dfs_loop_frame (A : String → List ModNode) (fuel : Nat) (L : Nat)
    (ih : ∀ k nm vis nm1 vis1, dfs A fuel k (nm, vis) = some (nm1, vis1) →
      DfsFrame k nm vis nm1 vis1) :
    ∀ (cs : List ModNode) (t : Int) (b : Bool) (nm : String → Option ModNode)
      (vis : List String) (t1 : Int) (b1 : Bool) (nm1 : String → Option ModNode)
      (vis1 : List String),
      (∀ c ∈ cs, L < c.hierInstance.length) →
      cs.foldl (dfsStep (dfs A fuel)) (some (t, b, nm, vis)) = some (t1, b1, nm1, vis1) →
      vis ⊆ vis1 ∧ (∀ c ∈ cs, c.hierInstance ∈ vis1) ∧ (∀ j ∈ vis, nm1 j = nm j) ∧
      (∀ j ∈ vis1, j ∉ vis → L < j.length) ∧
      (NonNeg nm → 0 ≤ t → NonNeg nm1 ∧ 0 ≤ t1) ∧ (∀ j, (nm1 j).isSome = (nm j).isSome) ∧
      b1 = (b || !cs.isEmpty) := by
  intro cs
  induction cs with
  | nil =>
    intro t b nm vis t1 b1 nm1 vis1 _ h
    simp only [List.foldl_nil, Option.some.injEq, Prod.mk.injEq] at h
    obtain ⟨rfl, rfl, rfl, rfl⟩ := h
    exact ⟨fun _ hx => hx, fun c hc => absurd hc (List.not_mem_nil c), fun _ _ => rfl,
      fun j hj hn => absurd hj hn, fun h1 h2 => ⟨h1, h2⟩, fun _ => rfl, by simp⟩
  | cons c cs ihc =>
    intro t b nm vis t1 b1 nm1 vis1 hL h
    rw [List.foldl_cons] at h
    cases hc : dfs A fuel c.hierInstance (nm, vis) with
    | none =>
      simp only [dfsStep, hc] at h
      rw [foldl_dfsStep_none] at h
      exact absurd h (by simp)
    | some r =>
      obtain ⟨nm2, vis2⟩ := r
      simp only [dfsStep, hc] at h
      obtain ⟨f1, f2, f3, f4, f5, f6⟩ := ih _ _ _ _ _ hc
      obtain ⟨g1, g2, g3, g4, g5, g6, g7⟩ :=
        ihc _ _ _ _ _ _ _ _ (fun x hx => hL x (List.mem_cons_of_mem _ hx)) h
      refine ⟨fun x hx => g1 (f1 hx), ?_, ?_, ?_, ?_, ?_, ?_⟩
      · intro x hx
        rcases List.mem_cons.1 hx with rfl | hx
        · exact g1 f2
        · exact g2 x hx
      · intro j hj
        rw [g3 j (f1 hj), f3 j hj]
      · intro j hj hn
        by_cases h2 : j ∈ vis2
        · exact lt_of_lt_of_le (hL c (List.mem_cons_self _ _)) (f4 j h2 hn)
        · exact g4 j hj h2
      · intro hnn ht
        exact g5 (f5 hnn) (add_nonneg ht (weightOf_nonneg (f5 hnn) _))
      · intro j
        rw [g6 j, f6 j]
      · rw [g7]; simp

theorem dfs_frame (A : String → List ModNode) (hlen : Lengthens A) :
    ∀ (fuel : Nat) (k : String) (nm : String → Option ModNode) (vis : List String)
      (nm1 : String → Option ModNode) (vis1 : List String),
      dfs A fuel k (nm, vis) = some (nm1, vis1) → DfsFrame k nm vis nm1 vis1 := by
  intro fuel
  induction fuel with
  | zero => intro k nm vis nm1 vis1 h; simp [dfs] at h
  | succ fuel ih =>
    intro k nm vis nm1 vis1 h
    rw [dfs_succ] at h
    by_cases hk : k ∈ vis
    · simp only [hk, if_true, Option.some.injEq, Prod.mk.injEq] at h
      obtain ⟨rfl, rfl⟩ := h
      exact ⟨fun _ hx => hx, hk, fun _ _ => rfl, fun j hj hn => absurd hj hn, fun h => h,
        fun _ => rfl⟩
    · simp only [hk, if_false] at h
      cases hf : (A k).foldl (dfsStep (dfs A fuel)) (some (0, false, nm, k :: vis)) with
      | none => simp [hf] at h
      | some r =>
        obtain ⟨t, b, nm2, vis2⟩ := r
        simp only [hf] at h
        obtain ⟨g1, g2, g3, g4, g5, g6, g7⟩ :=
          dfs_loop_frame A fuel k.length ih (A k) 0 false nm (k :: vis) t b nm2 vis2
            (fun c hc => hlen k c hc) hf
        have hkin : k ∈ vis2 := g1 (List.mem_cons_self _ _)
        have hvis : vis ⊆ vis2 := fun x hx => g1 (List.mem_cons_of_mem _ hx)
        have hlenj : ∀ j ∈ vis2, j ∉ vis → k.length ≤ j.length := by
          intro j hj hn
          by_cases hjk : j = k
          · rw [hjk]
          · exact le_of_lt (g4 j hj (by simp [hjk, hn]))
        cases hn : nm2 k with
        | none =>
          simp only [hn, Option.some.injEq, Prod.mk.injEq] at h
          obtain ⟨rfl, rfl⟩ := h
          exact ⟨hvis, hkin, fun j hj => g3 j (List.mem_cons_of_mem _ hj), hlenj,
            fun hnn => (g5 hnn (le_refl 0)).1, g6⟩
        | some n =>
          simp only [hn, Option.some.injEq, Prod.mk.injEq] at h
          obtain ⟨rfl, rfl⟩ := h
          refine ⟨hvis, hkin, ?_, hlenj, ?_, ?_⟩
          · intro j hj
            have hjk : j ≠ k := fun e => hk (e ▸ hj)
            simp only [mapSet, hjk, if_false]
            exact g3 j (List.mem_cons_of_mem _ hj)
          · intro hnn j m hm
            obtain ⟨h1, h2⟩ := g5 hnn (le_refl 0)
            by_cases hjk : j = k
            · simp only [mapSet, hjk, if_true, Option.some.injEq] at hm
              rw [← hm]
              by_cases hb : b = true
              · simpa [hb] using h2
              · simp [hb]
            · simp only [mapSet, hjk, if_false] at hm
              exact h1 j m hm
          · intro j
            by_cases hjk : j = k
            · simp only [mapSet, hjk, if_true, Option.isSome_some]
              rw [← g6 k, hn]; rfl
            · simp only [mapSet, hjk, if_false]
              exact g6 j

theorem unvisited_mono (U : List String) {vis vis1 : List String} (h : vis ⊆ vis1) :
    unvisited U vis1 ≤ unvisited U vis := by
  unfold unvisited
  apply List.Sublist.length_le
  apply List.monotone_filter_right
  intro a ha
  simp only [decide_eq_true_eq] at ha ⊢
  exact fun hx => ha (h hx)

theorem unvisited_cons (u : String) (U vis : List String) :
    unvisited (u :: U) vis = (if u ∈ vis then 0 else 1) + unvisited U vis := by
  unfold unvisited
  by_cases h : u ∈ vis
  · simp [List.filter_cons, h]
  · simp [List.filter_cons, h]; omega

theorem unvisited_cons_lt (k : String) (vis : List String) :
    ∀ U : List String, k ∈ U → k ∉ vis → unvisited U (k :: vis) < unvisited U vis := by
  intro U
  induction U with
  | nil => intro h; simp at h
  | cons u U ih =>
    intro hk hn
    have hmono : unvisited U (k :: vis) ≤ unvisited U vis :=
      unvisited_mono U (fun x hx => List.mem_cons_of_mem _ hx)
    rw [unvisited_cons, unvisited_cons]
    by_cases huk : u = k
    · subst huk
      simp only [List.mem_cons, true_or, if_true, hn, if_false]
      omega
    · have hk2 : k ∈ U := by
        rcases List.mem_cons.1 hk with h | h
        · exact absurd h.symm huk
        · exact h
      have := ih hk2 hn
      by_cases huv : u ∈ vis
      · simp only [List.mem_cons, huk, huv, or_true, if_true]; omega
      · simp only [List.mem_cons, huk, huv, or_self, if_false]; omega

theorem dfs_loop_total (A : String → List ModNode) (hlen : Lengthens A) (U : List String)
    (fuel : Nat)
    (ih : ∀ k nm vis, k ∈ U → unvisited U vis < fuel → ∃ r, dfs A fuel k (nm, vis) = some r) :
    ∀ (cs : List ModNode) (t : Int) (b : Bool) (nm : String → Option ModNode)
      (vis : List String),
      (∀ c ∈ cs, c.hierInstance ∈ U) → unvisited U vis < fuel →
      ∃ r, cs.foldl (dfsStep (dfs A fuel)) (some (t, b, nm, vis)) = some r := by
  intro cs
  induction cs with
  | nil => intro t b nm vis _ _; exact ⟨_, rfl⟩
  | cons c cs ihc =>
    intro t b nm vis hU hf
    obtain ⟨⟨nm2, vis2⟩, hr⟩ := ih c.hierInstance nm vis (hU c (List.mem_cons_self _ _)) hf
    rw [List.foldl_cons]
    simp only [dfsStep, hr]
    have hfr := dfs_frame A hlen fuel _ _ _ _ _ hr
    exact ihc _ _ _ _ (fun x hx => hU x (List.mem_cons_of_mem _ hx))
      (lt_of_le_of_lt (unvisited_mono U hfr.1) hf)

theorem dfs_total (A : String → List ModNode) (hlen : Lengthens A) (U : List String)
    (hU : ∀ k c, c ∈ A k → c.hierInstance ∈ U) :
    ∀ (fuel : Nat) (k : String) (nm : String → Option ModNode) (vis : List String),
      k ∈ U → unvisited U vis < fuel → ∃ r, dfs A fuel k (nm, vis) = some r := by
  intro fuel
  induction fuel with
  | zero => intro k nm vis _ h; omega
  | succ fuel ih =>
    intro k nm vis hk hf
    rw [dfs_succ]
    by_cases hkv : k ∈ vis
    · simp [hkv]
    · simp only [hkv, if_false]
      have hlt : unvisited U (k :: vis) < fuel := by
        have := unvisited_cons_lt k vis U hk hkv
        omega
      obtain ⟨⟨t, b, nm2, vis2⟩, hr⟩ :=
        dfs_loop_total A hlen U fuel ih (A k) 0 false nm (k :: vis) (fun c hc => hU k c hc) hlt
      rw [hr]
      cases hn : nm2 k with
      | none => simp only [hn]; exact ⟨_, rfl⟩
      | some n => simp only [hn]; exact ⟨_, rfl⟩

theorem sumChildren_congr {nm nm1 : String → Option ModNode} (cs : List ModNode)
    (h : ∀ c ∈ cs, nm1 c.hierInstance = nm c.hierInstance) :
    sumChildren nm1 cs = sumChildren nm cs := by
  unfold sumChildren
  congr 1
  apply List.map_congr_left
  intro c hc
  simp [weightOf, h c hc]

theorem Good_congr {A : String → List ModNode} {nm nm1 : String → Option ModNode} {j : String}
    (hj : nm1 j = nm j) (hc : ∀ c ∈ A j, nm1 c.hierInstance = nm c.hierInstance)
    (h : Good A nm j) : Good A nm1 j := by
  intro n hn
  rw [hj] at hn
  rw [h n hn, sumChildren_congr (A j) hc]

theorem dfs_loop_complete (A : String → List ModNode) (hlen : Lengthens A) (fuel : Nat)
    (k : String)
    (ih : ∀ k nm vis nm1 vis1, dfs A fuel k (nm, vis) = some (nm1, vis1) →
      Complete A k.length nm vis → Complete A k.length nm1 vis1) :
    ∀ (cs : List ModNode) (t : Int) (b : Bool) (nm : String → Option ModNode)
      (vis : List String) (t1 : Int) (b1 : Bool) (nm1 : String → Option ModNode)
      (vis1 : List String),
      (∀ c ∈ cs, k.length < c.hierInstance.length) →
      cs.foldl (dfsStep (dfs A fuel)) (some (t, b, nm, vis)) = some (t1, b1, nm1, vis1) →
      (∀ j ∈ vis, k.length ≤ j.length → j ≠ k →
        Good A nm j ∧ ∀ c ∈ A j, c.hierInstance ∈ vis) →
      (∀ j ∈ vis1, k.length ≤ j.length → j ≠ k →
        Good A nm1 j ∧ ∀ c ∈ A j, c.hierInstance ∈ vis1) ∧
      t1 = t + sumChildren nm1 cs := by
  intro cs
  induction cs with
  | nil =>
    intro t b nm vis t1 b1 nm1 vis1 _ h hinv
    simp only [List.foldl_nil, Option.some.injEq, Prod.mk.injEq] at h
    obtain ⟨rfl, rfl, rfl, rfl⟩ := h
    exact ⟨hinv, by simp [sumChildren]⟩
  | cons c cs ihc =>
    intro t b nm vis t1 b1 nm1 vis1 hL h hinv
    rw [List.foldl_cons] at h
    cases hc : dfs A fuel c.hierInstance (nm, vis) with
    | none =>
      simp only [dfsStep, hc] at h
      rw [foldl_dfsStep_none] at h
      exact absurd h (by simp)
    | some r =>
      obtain ⟨nm2, vis2⟩ := r
      simp only [dfsStep, hc] at h
      have hcl : k.length < c.hierInstance.length := hL c (List.mem_cons_self _ _)
      obtain ⟨f1, f2, f3, f4, _, _⟩ := dfs_frame A hlen fuel _ _ _ _ _ hc
      have hpre : Complete A c.hierInstance.length nm vis := by
        intro j hj hjl
        exact hinv j hj (by omega) (fun e => by rw [e] at hjl; omega)
      have hpost := ih _ _ _ _ _ hc hpre
      have hinv2 : ∀ j ∈ vis2, k.length ≤ j.length → j ≠ k →
          Good A nm2 j ∧ ∀ c ∈ A j, c.hierInstance ∈ vis2 := by
        intro j hj hjl hjk
        by_cases hlj : c.hierInstance.length ≤ j.length
        · exact hpost j hj hlj
        · have hjv : j ∈ vis := by
            by_contra hn
            exact hlj (f4 j hj hn)
          obtain ⟨hg, hch⟩ := hinv j hjv hjl hjk
          exact ⟨Good_congr (f3 j hjv) (fun x hx => f3 _ (hch x hx)) hg,
            fun x hx => f1 (hch x hx)⟩
      obtain ⟨r1, r2⟩ := ihc _ _ _ _ _ _ _ _
        (fun x hx => hL x (List.mem_cons_of_mem _ hx)) h hinv2
      refine ⟨r1, ?_⟩
      obtain ⟨_, _, g3, _⟩ := dfs_loop_frame A fuel k.length
        (fun k nm vis nm1 vis1 h => dfs_frame A hlen fuel k nm vis nm1 vis1 h)
        cs _ _ _ _ _ _ _ _ (fun x hx => hL x (List.mem_cons_of_mem _ hx)) h
      rw [r2]
      simp only [sumChildren, List.map_cons, List.sum_cons]
      have : weightOf nm1 c.hierInstance = weightOf nm2 c.hierInstance := by
        simp [weightOf, g3 _ f2]
      rw [this]; ring

theorem dfs_complete (A : String → List ModNode) (hlen : Lengthens A) :
    ∀ (fuel : Nat) (k : String) (nm : String → Option ModNode) (vis : List String)
      (nm1 : String → Option ModNode) (vis1 : List String),
      dfs A fuel k (nm, vis) = some (nm1, vis1) →
      Complete A k.length nm vis → Complete A k.length nm1 vis1 := by
  intro fuel
  induction fuel with
  | zero => intro k nm vis nm1 vis1 h; simp [dfs] at h
  | succ fuel ih =>
    intro k nm vis nm1 vis1 h hpre
    rw [dfs_succ] at h
    by_cases hk : k ∈ vis
    · simp only [hk, if_true, Option.some.injEq, Prod.mk.injEq] at h
      obtain ⟨rfl, rfl⟩ := h
      exact hpre
    · simp only [hk, if_false] at h
      cases hf : (A k).foldl (dfsStep (dfs A fuel)) (some (0, false, nm, k :: vis)) with
      | none => simp [hf] at h
      | some r =>
        obtain ⟨t, b, nm2, vis2⟩ := r
        simp only [hf] at h
        have hinv0 : ∀ j ∈ k :: vis, k.length ≤ j.length → j ≠ k →
            Good A nm j ∧ ∀ c ∈ A j, c.hierInstance ∈ k :: vis := by
          intro j hj hjl hjk
          have hjv : j ∈ vis := by
            rcases List.mem_cons.1 hj with e | e
            · exact absurd e hjk
            · exact e
          obtain ⟨hg, hch⟩ := hpre j hjv hjl
          exact ⟨hg, fun x hx => List.mem_cons_of_mem _ (hch x hx)⟩
        obtain ⟨r1, r2⟩ := dfs_loop_complete A hlen fuel k ih (A k) 0 false nm (k :: vis)
          t b nm2 vis2 (fun c hc => hlen k c hc) hf hinv0
        obtain ⟨_, g2, _, _, _, _, g7⟩ := dfs_loop_frame A fuel k.length
          (fun k nm vis nm1 vis1 h => dfs_frame A hlen fuel k nm vis nm1 vis1 h)
          (A k) 0 false nm (k :: vis) t b nm2 vis2 (fun c hc => hlen k c hc) hf
        have hne : ∀ j, k.length ≤ j.length → ∀ c ∈ A j, c.hierInstance ≠ k := by
          intro j hjl c hc e
          have := hlen j c hc
          rw [e] at this
          omega
        cases hn : nm2 k with
        | none =>
          simp only [hn, Option.some.injEq, Prod.mk.injEq] at h
          obtain ⟨rfl, rfl⟩ := h
          intro j hj hjl
          by_cases hjk : j = k
          · subst hjk
            exact ⟨fun n hn2 => by rw [hn] at hn2; exact absurd hn2 (by simp), g2⟩
          · exact r1 j hj hjl hjk
        | some n =>
          simp only [hn, Option.some.injEq, Prod.mk.injEq] at h
          obtain ⟨rfl, rfl⟩ := h
          intro j hj hjl
          have hsame : ∀ c ∈ A j, mapSet nm2 k (some { n with
              weight := if b = true then t else 1 }) c.hierInstance = nm2 c.hierInstance := by
            intro c hc
            simp [mapSet, hne j hjl c hc]
          by_cases hjk : j = k
          · subst hjk
            refine ⟨?_, g2⟩
            intro m hm
            simp only [mapSet, if_true, Option.some.injEq] at hm
            rw [← hm, sumChildren_congr (A j) hsame]
            simp only [zero_add] at r2
            rw [g7, r2]
            cases hA : (A j).isEmpty <;> simp [hA]
          · obtain ⟨hg, hch⟩ := r1 j hj hjl hjk
            exact ⟨Good_congr (by simp [mapSet, hjk]) hsame hg, hch⟩

/-! ## The outcome of `runDFS` -/

theorem collect_shape (blake : String → String) (F : AstCell) :
    ∀ (h hm : String), ∀ e ∈ collect blake F h hm,
      ∃ h1 hm1 name modName,
        e = (stripTrailingDot h1, childNode blake h1 hm1 name modName) := by
  induction F with
  | nil => intro h hm e he; simp [collect] at he
  | cons name modName modDead modCells next ihc ihn =>
    intro h hm e he
    cases modDead with
    | true =>
      simp only [collect, if_true, List.nil_append] at he
      exact ihn h hm e he
    | false =>
      simp only [collect, Bool.false_eq_true, if_false, List.cons_append, List.mem_cons,
        List.mem_append] at he
      rcases he with rfl | he | he
      · exact ⟨h, hm, name, modName, rfl⟩
      · exact ihc _ _ e he
      · exact ihn h hm e he

theorem childNode_length (blake : String → String) (h hm name modName : String) :
    (stripTrailingDot h).length < (childNode blake h hm name modName).hierInstance.length := by
  simp only [childNode, String.length_append]
  have : (".").length = 1 := by decide
  omega

/-- The visitor state right after construction. -/
theorem new_adjacency (blake : String → String) (rootp : AstNetlist) (k : String) :
    (HierCellsGraphVisitor.new blake rootp).adjacency k =
      if rootp.topDead then []
      else ((collect blake rootp.topCells "$root" "$root").filter (fun e => e.1 = k)).map
        (fun e => e.2) := by
  unfold HierCellsGraphVisitor.new
  cases rootp.topDead with
  | true => simp
  | false => simp [visitAstCell_adjacency]

theorem new_edges (blake : String → String) (rootp : AstNetlist) :
    (HierCellsGraphVisitor.new blake rootp).edges =
      if rootp.topDead then []
      else (collect blake rootp.topCells "$root" "$root").map
        (fun e => (e.1, e.2.hierInstance)) := by
  unfold HierCellsGraphVisitor.new
  cases rootp.topDead with
  | true => simp
  | false => simp [visitAstCell_edges]

theorem new_mem_adjacency (blake : String → String) (rootp : AstNetlist) (k : String)
    (c : ModNode) (h : c ∈ (HierCellsGraphVisitor.new blake rootp).adjacency k) :
    rootp.topDead = false ∧ (k, c) ∈ collect blake rootp.topCells "$root" "$root" := by
  rw [new_adjacency] at h
  cases hd : rootp.topDead with
  | true => simp [hd] at h
  | false =>
    simp only [hd, Bool.false_eq_true, if_false, List.mem_map, List.mem_filter,
      decide_eq_true_eq] at h
    obtain ⟨e, ⟨he, rfl⟩, rfl⟩ := h
    exact ⟨rfl, he⟩

theorem new_lengthens (blake : String → String) (rootp : AstNetlist) :
    Lengthens (HierCellsGraphVisitor.new blake rootp).adjacency := by
  intro k c hc
  obtain ⟨_, he⟩ := new_mem_adjacency blake rootp k c hc
  obtain ⟨h1, hm1, name, modName, heq⟩ := collect_shape blake _ _ _ _ he
  simp only [Prod.mk.injEq] at heq
  rw [heq.1, heq.2]
  exact childNode_length blake h1 hm1 name modName

theorem new_universe (blake : String → String) (rootp : AstNetlist) (k : String)
    (c : ModNode) (h : c ∈ (HierCellsGraphVisitor.new blake rootp).adjacency k) :
    c.hierInstance ∈ "$root" :: (HierCellsGraphVisitor.new blake rootp).edges.map
      (fun e => e.2) := by
  obtain ⟨hd, he⟩ := new_mem_adjacency blake rootp k c h
  rw [new_edges, hd]
  simp only [Bool.false_eq_true, if_false, List.map_map, List.mem_cons, List.mem_map]
  exact Or.inr ⟨(k, c), he, rfl⟩

theorem new_weights (blake : String → String) (rootp : AstNetlist) (k : String) (n : ModNode)
    (h : (HierCellsGraphVisitor.new blake rootp).nodeMetadata k = some n) : n.weight = 0 := by
  unfold HierCellsGraphVisitor.new at h
  have h0 : ∀ k n, mapSet (fun _ => (none : Option ModNode)) "$root" (some (rootNode blake)) k
      = some n → n.weight = 0 := by
    intro k n hk
    simp only [mapSet] at hk
    split at hk
    · simp only [Option.some.injEq] at hk
      rw [← hk]; rfl
    · exact absurd hk (by simp)
  cases hd : rootp.topDead with
  | true =>
    simp only [hd, if_true] at h
    exact h0 k n h
  | false =>
    simp only [hd, Bool.false_eq_true, if_false] at h
    exact visitAstCell_nodeMetadata blake (fun n => n.weight = 0) (fun _ _ _ _ => rfl) _ _
      (by simpa using h0) k n h

theorem new_isSome (blake : String → String) (rootp : AstNetlist) :
    ((HierCellsGraphVisitor.new blake rootp).nodeMetadata "$root").isSome ∧
    ∀ k c, c ∈ (HierCellsGraphVisitor.new blake rootp).adjacency k →
      ((HierCellsGraphVisitor.new blake rootp).nodeMetadata c.hierInstance).isSome := by
  constructor
  · unfold HierCellsGraphVisitor.new
    cases rootp.topDead with
    | true => simp [mapSet]
    | false =>
      simp only [Bool.false_eq_true, if_false]
      apply (visitAstCell_isSome blake _ _).1
      simp [mapSet]
  · intro k c hc
    obtain ⟨hd, he⟩ := new_mem_adjacency blake rootp k c hc
    unfold HierCellsGraphVisitor.new
    simp only [hd, Bool.false_eq_true, if_false]
    exact (visitAstCell_isSome blake _ _).2 (k, c) (by simpa using he)

/-- The outcome of `runDFS` on a state whose adjacency lengthens paths and whose edge list
names every child. -/
theorem runDFS_spec (v : HierCellsGraphVisitor) (hlen : Lengthens v.adjacency)
    (hU : ∀ k c, c ∈ v.adjacency k → c.hierInstance ∈ "$root" :: v.edges.map (fun e => e.2)) :
    ∃ nm vis, runDFS v = some { v with nodeMetadata := nm } ∧
      DfsFrame "$root" v.nodeMetadata [] nm vis ∧ Complete v.adjacency 5 nm vis := by
  have hfuel : unvisited ("$root" :: v.edges.map (fun e => e.2)) [] < v.edges.length + 2 := by
    unfold unvisited
    have := List.length_filter_le (fun u => decide (u ∉ ([] : List String)))
      ("$root" :: v.edges.map (fun e => e.2))
    simp only [List.length_cons, List.length_map] at this
    omega
  obtain ⟨⟨nm, vis⟩, hr⟩ := dfs_total v.adjacency hlen _ hU (v.edges.length + 2) "$root"
    v.nodeMetadata [] (List.mem_cons_self _ _) hfuel
  refine ⟨nm, vis, ?_, dfs_frame v.adjacency hlen _ _ _ _ _ _ hr, ?_⟩
  · simp [runDFS, hr]
  · have := dfs_complete v.adjacency hlen _ _ _ _ _ _ hr
      (fun j hj _ => absurd hj (List.not_mem_nil j))
    exact this

theorem reach_visited (A : String → List ModNode) (hlen : Lengthens A)
    (nm : String → Option ModNode) (vis : List String) (hroot : "$root" ∈ vis)
    (hc : Complete A 5 nm vis) : ∀ k, Reach A k → k ∈ vis ∧ 5 ≤ k.length := by
  intro k hk
  induction hk with
  | root => exact ⟨hroot, by decide⟩
  | step _ hmem ih =>
    obtain ⟨h1, h2⟩ := ih
    refine ⟨(hc _ h1 h2).2 _ hmem, ?_⟩
    have := hlen _ _ hmem
    omega

/-- Outcome of `runDFS` on a freshly constructed visitor. -/
theorem runDFS_new (blake : String → String) (rootp : AstNetlist) :
    ∃ nm, runDFS (HierCellsGraphVisitor.new blake rootp) =
        some { HierCellsGraphVisitor.new blake rootp with nodeMetadata := nm } ∧
      NonNeg nm ∧
      ∀ k, Reach (HierCellsGraphVisitor.new blake rootp).adjacency k →
        ∃ n, nm k = some n ∧
          n.weight = if ((HierCellsGraphVisitor.new blake rootp).adjacency k).isEmpty then 1
            else sumChildren nm ((HierCellsGraphVisitor.new blake rootp).adjacency k) := by
  obtain ⟨nm, vis, h1, h2, h3⟩ := runDFS_spec (HierCellsGraphVisitor.new blake rootp)
    (new_lengthens blake rootp) (new_universe blake rootp)
  obtain ⟨_, f2, _, _, f5, f6⟩ := h2
  refine ⟨nm, h1, ?_, ?_⟩
  · apply f5
    intro k n hk
    rw [new_weights blake rootp k n hk]
  · intro k hk
    obtain ⟨hv, hl⟩ := reach_visited _ (new_lengthens blake rootp) nm vis f2 h3 k hk
    have hsome : (nm k).isSome := by
      rw [f6]
      cases hk with
      | root => exact (new_isSome blake rootp).1
      | step _ hmem => exact (new_isSome blake rootp).2 _ _ hmem
    obtain ⟨n, hn⟩ := Option.isSome_iff_exists.1 hsome
    exact ⟨n, hn, (h3 k hv hl).1 n hn⟩

/-! ## Well-named instance trees -/

theorem dot_split : ∀ (a b t t1 : List Char), '.' ∉ a → '.' ∉ b →
    (t = [] ∨ ∃ u, t = '.' :: u) → (t1 = [] ∨ ∃ u, t1 = '.' :: u) →
    a ++ t = b ++ t1 → a = b ∧ t = t1 := by
  intro a
  induction a with
  | nil =>
    intro b t t1 _ hb ht _ h
    cases b with
    | nil => exact ⟨rfl, by simpa using h⟩
    | cons y b =>
      simp only [List.nil_append, List.cons_append] at h
      rcases ht with rfl | ⟨u, rfl⟩
      · simp at h
      · simp only [List.cons.injEq] at h
        exact absurd (h.1 ▸ List.mem_cons_self _ _) hb
  | cons x a ih =>
    intro b t t1 ha hb ht ht1 h
    cases b with
    | nil =>
      simp only [List.nil_append, List.cons_append] at h
      rcases ht1 with rfl | ⟨u, rfl⟩
      · simp at h
      · simp only [List.cons.injEq] at h
        exact absurd (h.1 ▸ List.mem_cons_self _ _) ha
    | cons y b =>
      simp only [List.cons_append, List.cons.injEq] at h
      obtain ⟨h1, h2⟩ := h
      obtain ⟨r1, r2⟩ := ih b t t1 (fun hx => ha (List.mem_cons_of_mem _ hx))
        (fun hx => hb (List.mem_cons_of_mem _ hx)) ht ht1 h2
      exact ⟨by rw [h1, r1], r2⟩

theorem nameOK_iff (s : String) : nameOK s = true ↔ s.data ≠ [] ∧ '.' ∉ s.data := by
  simp [nameOK]

theorem Under_unique {h a b k : String} (ha : nameOK a = true) (hb : nameOK b = true)
    (h1 : Under h a k) (h2 : Under h b k) : a = b := by
  obtain ⟨t, e1, ht⟩ := h1
  obtain ⟨t1, e2, ht1⟩ := h2
  rw [e1] at e2
  have e3 : a.data ++ t = b.data ++ t1 := by
    have := List.append_cancel_left e2
    simpa using this
  exact String.ext (dot_split _ _ _ _ ((nameOK_iff a).1 ha).2 ((nameOK_iff b).1 hb).2 ht ht1
    e3).1

theorem Under_ne {h a k : String} (h1 : Under h a k) : k ≠ h := by
  obtain ⟨t, e1, _⟩ := h1
  intro e
  rw [e] at e1
  have := congrArg List.length e1
  simp at this

theorem Under_child (h a : String) : Under h a (h ++ "." ++ a) :=
  ⟨[], by simp [String.data_append], Or.inl rfl⟩

theorem Under_trans {h a b k : String} (h1 : Under (h ++ "." ++ a) b k) : Under h a k := by
  obtain ⟨t, e1, _⟩ := h1
  refine ⟨'.' :: (b.data ++ t), ?_, Or.inr ⟨_, rfl⟩⟩
  rw [e1]
  simp [String.data_append]

theorem strip_self {s : String} (h : s.data.getLast? ≠ some '.') : stripTrailingDot s = s := by
  simp [stripTrailingDot, h]

theorem strip_child (x a : String) (ha : nameOK a = true) :
    stripTrailingDot (x ++ "." ++ a) = x ++ "." ++ a := by
  apply strip_self
  obtain ⟨hne, hdot⟩ := (nameOK_iff a).1 ha
  simp only [String.data_append]
  rw [List.getLast?_append_of_ne_nil _ hne]
  intro h
  exact hdot (List.mem_of_getLast?_eq_some h)

theorem strip_root : stripTrailingDot "$root" = "$root" := by decide

theorem childNode_hier (blake : String → String) {h : String} (hs : stripTrailingDot h = h)
    (hm name modName : String) :
    (childNode blake h hm name modName).hierInstance = h ++ "." ++ name := by
  simp [childNode, hs]

theorem liveNames_ok : ∀ (F : AstCell), wellNamed F = true → ∀ b ∈ liveNames F,
    nameOK b = true := by
  intro F
  induction F with
  | nil => intro _ b hb; simp [liveNames] at hb
  | cons name modName modDead modCells next _ ihn =>
    intro hw b hb
    simp only [wellNamed, Bool.and_eq_true, Bool.or_eq_true] at hw
    cases modDead with
    | true =>
      simp only [liveNames, if_true, List.nil_append] at hb
      exact ihn hw.2 b hb
    | false =>
      simp only [liveNames, Bool.false_eq_true, if_false, List.singleton_append,
        List.mem_cons] at hb
      rcases hb with rfl | hb
      · rcases hw.1 with h | h
        · exact absurd h (by simp)
        · exact h.1.1
      · exact ihn hw.2 b hb

/-- The three facts `wellNamed` gives at a live cell. -/
theorem wellNamed_live {name modName : String} {modCells next : AstCell}
    (hw : wellNamed (.cons name modName false modCells next) = true) :
    nameOK name = true ∧ name ∉ liveNames next ∧ wellNamed modCells = true ∧
      wellNamed next = true := by
  simp only [wellNamed, Bool.and_eq_true, Bool.or_eq_true, Bool.false_eq_true, false_or,
    decide_eq_true_eq] at hw
  exact ⟨hw.1.1.1, hw.1.1.2, hw.1.2, hw.2⟩

theorem wellNamed_dead {name modName : String} {modCells next : AstCell}
    (hw : wellNamed (.cons name modName true modCells next) = true) :
    wellNamed next = true := by
  simp only [wellNamed, Bool.true_or, Bool.true_and] at hw
  exact hw

/-! ## The recorded graph of a well-named tree -/

theorem collect_live (blake : String → String) (name modName : String)
    (modCells next : AstCell) (h hm : String) :
    collect blake (.cons name modName false modCells next) h hm =
      (stripTrailingDot h, childNode blake h hm name modName) ::
        (collect blake modCells (childNode blake h hm name modName).hierInstance
          (childNode blake h hm name modName).hierModule ++ collect blake next h hm) := by
  simp [collect]

theorem collect_dead (blake : String → String) (name modName : String)
    (modCells next : AstCell) (h hm : String) :
    collect blake (.cons name modName true modCells next) h hm = collect blake next h hm := by
  simp [collect]

theorem levelCells_dead (blake : String → String) (d : Nat) (name modName : String)
    (modCells next : AstCell) (h hm : String) :
    levelCells blake d (.cons name modName true modCells next) h hm =
      levelCells blake d next h hm := by
  simp [levelCells]

theorem levelCells_zero (blake : String → String) (name modName : String)
    (modCells next : AstCell) (h hm : String) :
    levelCells blake 0 (.cons name modName false modCells next) h hm =
      (childNode blake h hm name modName, modCells) :: levelCells blake 0 next h hm := by
  simp [levelCells]

theorem levelCells_succ (blake : String → String) (d : Nat) (name modName : String)
    (modCells next : AstCell) (h hm : String) :
    levelCells blake (d + 1) (.cons name modName false modCells next) h hm =
      levelCells blake d modCells (childNode blake h hm name modName).hierInstance
          (childNode blake h hm name modName).hierModule
        ++ levelCells blake (d + 1) next h hm := by
  simp [levelCells]

theorem liveNames_live (name modName : String) (modCells next : AstCell) :
    liveNames (.cons name modName false modCells next) = name :: liveNames next := by
  simp [liveNames]

theorem liveNames_dead (name modName : String) (modCells next : AstCell) :
    liveNames (.cons name modName true modCells next) = liveNames next := by
  simp [liveNames]

/-- Parent keys pushed below a well-named body are the body's own path or lie under one
of its live cells. -/
theorem collect_keys (blake : String → String) (F : AstCell) :
    ∀ (h hm : String), wellNamed F = true → stripTrailingDot h = h →
      ∀ e ∈ collect blake F h hm, e.1 = h ∨ ∃ a ∈ liveNames F, Under h a e.1 := by
  induction F with
  | nil => intro h hm _ _ e he; simp [collect] at he
  | cons name modName modDead modCells next ihc ihn =>
    intro h hm hw hs e he
    cases modDead with
    | true =>
      rw [collect_dead] at he
      rw [liveNames_dead]
      exact ihn h hm (wellNamed_dead hw) hs e he
    | false =>
      obtain ⟨hok, _, hws, hwn⟩ := wellNamed_live hw
      have hch := childNode_hier blake hs hm name modName
      rw [collect_live] at he
      rw [liveNames_live]
      rcases List.mem_cons.1 he with rfl | he
      · exact Or.inl hs
      · rcases List.mem_append.1 he with he | he
        · right
          refine ⟨name, List.mem_cons_self _ _, ?_⟩
          have hsc : stripTrailingDot (childNode blake h hm name modName).hierInstance =
              (childNode blake h hm name modName).hierInstance := by
            rw [hch]; exact strip_child _ _ hok
          rcases ihc _ _ hws hsc e he with h1 | ⟨b, _, hb⟩
          · rw [h1, hch]; exact Under_child h name
          · rw [hch] at hb; exact Under_trans hb
        · rcases ihn h hm hwn hs e he with h1 | ⟨b, hb, hu⟩
          · exact Or.inl h1
          · exact Or.inr ⟨b, List.mem_cons_of_mem _ hb, hu⟩

/-- Instances below a well-named body lie under one of its live cells; their own paths
carry no trailing dot and their module bodies are well-named. -/
theorem level_keys (blake : String → String) (F : AstCell) :
    ∀ (d : Nat) (h hm : String), wellNamed F = true → stripTrailingDot h = h →
      ∀ p ∈ levelCells blake d F h hm,
        (∃ a ∈ liveNames F, Under h a p.1.hierInstance) ∧
        stripTrailingDot p.1.hierInstance = p.1.hierInstance ∧ wellNamed p.2 = true := by
  induction F with
  | nil => intro d h hm _ _ p hp; simp [levelCells] at hp
  | cons name modName modDead modCells next ihc ihn =>
    intro d h hm hw hs p hp
    cases modDead with
    | true =>
      rw [levelCells_dead] at hp
      rw [liveNames_dead]
      exact ihn d h hm (wellNamed_dead hw) hs p hp
    | false =>
      obtain ⟨hok, _, hws, hwn⟩ := wellNamed_live hw
      have hch := childNode_hier blake hs hm name modName
      have hsc : stripTrailingDot (childNode blake h hm name modName).hierInstance =
          (childNode blake h hm name modName).hierInstance := by
        rw [hch]; exact strip_child _ _ hok
      rw [liveNames_live]
      have hnext : p ∈ levelCells blake d next h hm →
          (∃ a ∈ name :: liveNames next, Under h a p.1.hierInstance) ∧
          stripTrailingDot p.1.hierInstance = p.1.hierInstance ∧ wellNamed p.2 = true := by
        intro hp
        obtain ⟨⟨b, hb, hu⟩, r2, r3⟩ := ihn d h hm hwn hs p hp
        exact ⟨⟨b, List.mem_cons_of_mem _ hb, hu⟩, r2, r3⟩
      cases d with
      | zero =>
        rw [levelCells_zero] at hp
        rcases List.mem_cons.1 hp with rfl | hp
        · exact ⟨⟨name, List.mem_cons_self _ _, by rw [hch]; exact Under_child h name⟩, hsc,
            hws⟩
        · exact hnext hp
      | succ d =>
        rw [levelCells_succ] at hp
        rcases List.mem_append.1 hp with hp | hp
        · obtain ⟨⟨b, _, hu⟩, r2, r3⟩ := ihc d _ _ hws hsc p hp
          rw [hch] at hu
          exact ⟨⟨name, List.mem_cons_self _ _, Under_trans hu⟩, r2, r3⟩
        · exact hnext hp

theorem adjOf_append (es fs : List (String × ModNode)) (k : String) :
    adjOf (es ++ fs) k = adjOf es k ++ adjOf fs k := by
  simp [adjOf]

theorem adjOf_cons_ne {e : String × ModNode} (es : List (String × ModNode)) {k : String}
    (h : e.1 ≠ k) : adjOf (e :: es) k = adjOf es k := by
  simp [adjOf, List.filter_cons, h]

theorem adjOf_cons_eq {e : String × ModNode} (es : List (String × ModNode)) {k : String}
    (h : e.1 = k) : adjOf (e :: es) k = e.2 :: adjOf es k := by
  simp [adjOf, List.filter_cons, h]

theorem adjOf_nil_of (es : List (String × ModNode)) (k : String) (h : ∀ e ∈ es, e.1 ≠ k) :
    adjOf es k = [] := by
  simp only [adjOf, List.map_eq_nil_iff, List.filter_eq_nil_iff, decide_eq_true_eq]
  exact h

/-- In a well-named body the adjacency list of every instance is the list of the cells of
its module, and the list of the body's own path is the list of its cells. -/
theorem adj_tree (blake : String → String) (F : AstCell) :
    ∀ (h hm : String), wellNamed F = true → stripTrailingDot h = h →
      adjOf (collect blake F h hm) h = (levelCells blake 0 F h hm).map (fun p => p.1) ∧
      ∀ d, ∀ p ∈ levelCells blake d F h hm,
        adjOf (collect blake F h hm) p.1.hierInstance =
          (levelCells blake 0 p.2 p.1.hierInstance p.1.hierModule).map (fun p => p.1) := by
  induction F with
  | nil =>
    intro h hm _ _
    exact ⟨by simp [collect, levelCells, adjOf], fun d p hp => by simp [levelCells] at hp⟩
  | cons name modName modDead modCells next ihc ihn =>
    intro h hm hw hs
    cases modDead with
    | true =>
      simp only [collect_dead, levelCells_dead]
      exact ihn h hm (wellNamed_dead hw) hs
    | false =>
      obtain ⟨hok, hnot, hws, hwn⟩ := wellNamed_live hw
      have hch := childNode_hier blake hs hm name modName
      have hsc : stripTrailingDot (childNode blake h hm name modName).hierInstance =
          (childNode blake h hm name modName).hierInstance := by
        rw [hch]; exact strip_child _ _ hok
      obtain ⟨ic1, ic2⟩ := ihc _ (childNode blake h hm name modName).hierModule hws hsc
      obtain ⟨in1, in2⟩ := ihn h hm hwn hs
      have hUc : Under h name (childNode blake h hm name modName).hierInstance := by
        rw [hch]; exact Under_child h name
      -- keys pushed below the first cell lie under it
      have hsubkeys : ∀ e ∈ collect blake modCells
          (childNode blake h hm name modName).hierInstance
          (childNode blake h hm name modName).hierModule, Under h name e.1 := by
        intro e he
        rcases collect_keys blake modCells _ _ hws hsc e he with h1 | ⟨b, _, hb⟩
        · rw [h1]; exact hUc
        · rw [hch] at hb; exact Under_trans hb
      -- keys pushed by the later cells are the body path or lie under another cell
      have hnextkeys : ∀ k, Under h name k →
          adjOf (collect blake next h hm) k = [] := by
        intro k hk
        apply adjOf_nil_of
        intro e he hek
        rcases collect_keys blake next h hm hwn hs e he with h1 | ⟨b, hb, hu⟩
        · exact Under_ne hk (hek ▸ h1)
        · rw [hek] at hu
          have := Under_unique (liveNames_ok next hwn b hb) hok hu hk
          exact hnot (this ▸ hb)
      have hsubnil : ∀ k, (k = h ∨ ∃ b ∈ liveNames next, Under h b k) →
          adjOf (collect blake modCells (childNode blake h hm name modName).hierInstance
            (childNode blake h hm name modName).hierModule) k = [] := by
        intro k hk
        apply adjOf_nil_of
        intro e he hek
        have hu := hsubkeys e he
        rw [hek] at hu
        rcases hk with h1 | ⟨b, hb, hb2⟩
        · exact Under_ne hu h1
        · have := Under_unique (liveNames_ok next hwn b hb) hok hb2 hu
          exact hnot (this ▸ hb)
      rw [collect_live]
      constructor
      · rw [adjOf_cons_eq _ hs, adjOf_append, hsubnil h (Or.inl rfl), in1, levelCells_zero]
        simp
      · intro d p hp
        have hnextcase : p ∈ levelCells blake d next h hm →
            adjOf ((stripTrailingDot h, childNode blake h hm name modName) ::
              (collect blake modCells (childNode blake h hm name modName).hierInstance
                (childNode blake h hm name modName).hierModule ++ collect blake next h hm))
              p.1.hierInstance =
            (levelCells blake 0 p.2 p.1.hierInstance p.1.hierModule).map (fun p => p.1) := by
          intro hp
          obtain ⟨⟨b, hb, hu⟩, _, _⟩ := level_keys blake next d h hm hwn hs p hp
          rw [adjOf_cons_ne _ (by rw [hs]; exact fun e => Under_ne hu e.symm), adjOf_append,
            hsubnil _ (Or.inr ⟨b, hb, hu⟩), in2 d p hp]
          simp
        cases d with
        | zero =>
          rw [levelCells_zero] at hp
          rcases List.mem_cons.1 hp with rfl | hp
          · rw [adjOf_cons_ne _ (by rw [hs]; exact fun e => Under_ne hUc e.symm), adjOf_append,
              hnextkeys _ hUc, ic1]
            simp
          · exact hnextcase hp
        | succ d =>
          rw [levelCells_succ] at hp
          rcases List.mem_append.1 hp with hp | hp
          · obtain ⟨⟨b, _, hu⟩, _, _⟩ := level_keys blake modCells d _ _ hws hsc p hp
            rw [hch] at hu
            have hu2 : Under h name p.1.hierInstance := Under_trans hu
            rw [adjOf_cons_ne _ (by rw [hs]; exact fun e => Under_ne hu2 e.symm), adjOf_append,
              hnextkeys _ hu2, ic2 d p hp]
            simp
          · exact hnextcase hp

/-- Expanding the instances at depth `d` through an adjacency that lists, for every
instance, the cells of its module yields the instances at depth `d + 1`. -/
theorem level_step (blake : String → String) (A : String → List ModNode) (F : AstCell) :
    ∀ (d : Nat) (h hm : String),
      (∀ e, ∀ p ∈ levelCells blake e F h hm, A p.1.hierInstance =
        (levelCells blake 0 p.2 p.1.hierInstance p.1.hierModule).map (fun p => p.1)) →
      (levelCells blake d F h hm).flatMap (fun p => A p.1.hierInstance) =
        (levelCells blake (d + 1) F h hm).map (fun p => p.1) := by
  induction F with
  | nil => intro d h hm _; simp [levelCells]
  | cons name modName modDead modCells next ihc ihn =>
    intro d h hm hA
    cases modDead with
    | true =>
      simp only [levelCells_dead] at hA ⊢
      exact ihn d h hm hA
    | false =>
      have hAn : ∀ e, ∀ p ∈ levelCells blake e next h hm, A p.1.hierInstance =
          (levelCells blake 0 p.2 p.1.hierInstance p.1.hierModule).map (fun p => p.1) := by
        intro e p hp
        apply hA e p
        cases e with
        | zero => rw [levelCells_zero]; exact List.mem_cons_of_mem _ hp
        | succ e => rw [levelCells_succ]; exact List.mem_append_right _ hp
      have hAc : ∀ e, ∀ p ∈ levelCells blake e modCells
          (childNode blake h hm name modName).hierInstance
          (childNode blake h hm name modName).hierModule, A p.1.hierInstance =
          (levelCells blake 0 p.2 p.1.hierInstance p.1.hierModule).map (fun p => p.1) := by
        intro e p hp
        apply hA (e + 1) p
        rw [levelCells_succ]; exact List.mem_append_left _ hp
      rw [levelCells_succ, List.map_append, ← ihn d h hm hAn]
      cases d with
      | zero =>
        rw [levelCells_zero, List.flatMap_cons]
        congr 1
        exact hA 0 _ (by rw [levelCells_zero]; exact List.mem_cons_self _ _)
      | succ d =>
        rw [levelCells_succ, List.flatMap_append, ihc d _ _ hAc]

/-- Instance paths at one depth of a well-named body are pairwise distinct. -/
theorem level_nodup (blake : String → String) (F : AstCell) :
    ∀ (d : Nat) (h hm : String), wellNamed F = true → stripTrailingDot h = h →
      ((levelCells blake d F h hm).map (fun p => p.1.hierInstance)).Nodup := by
  induction F with
  | nil => intro d h hm _ _; simp [levelCells]
  | cons name modName modDead modCells next ihc ihn =>
    intro d h hm hw hs
    cases modDead with
    | true =>
      rw [levelCells_dead]
      exact ihn d h hm (wellNamed_dead hw) hs
    | false =>
      obtain ⟨hok, hnot, hws, hwn⟩ := wellNamed_live hw
      have hch := childNode_hier blake hs hm name modName
      have hsc : stripTrailingDot (childNode blake h hm name modName).hierInstance =
          (childNode blake h hm name modName).hierInstance := by
        rw [hch]; exact strip_child _ _ hok
      have hdisj : ∀ k, Under h name k →
          k ∉ (levelCells blake d next h hm).map (fun p => p.1.hierInstance) := by
        intro k hk hmem
        obtain ⟨p, hp, rfl⟩ := List.mem_map.1 hmem
        obtain ⟨⟨b, hb, hu⟩, _, _⟩ := level_keys blake next d h hm hwn hs p hp
        have := Under_unique (liveNames_ok next hwn b hb) hok hu hk
        exact hnot (this ▸ hb)
      cases d with
      | zero =>
        rw [levelCells_zero, List.map_cons, List.nodup_cons]
        exact ⟨hdisj _ (by rw [hch]; exact Under_child h name), ihn 0 h hm hwn hs⟩
      | succ d =>
        rw [levelCells_succ, List.map_append]
        apply List.Nodup.append (ihc d _ _ hws hsc) (ihn (d + 1) h hm hwn hs)
        intro k hk1 hk2
        obtain ⟨p, hp, rfl⟩ := List.mem_map.1 hk1
        obtain ⟨⟨b, _, hu⟩, _, _⟩ := level_keys blake modCells d _ _ hws hsc p hp
        rw [hch] at hu
        exact hdisj _ (Under_trans hu) hk2

theorem dots_child (h name : String) (hok : nameOK name = true) :
    dots (h ++ "." ++ name) = dots h + 1 := by
  have hz : List.count '.' name.data = 0 :=
    List.count_eq_zero.2 ((nameOK_iff name).1 hok).2
  have h1 : (".").data = ['.'] := rfl
  simp [dots, String.data_append, hz, h1]

/-- An instance path at depth `d` of a well-named body has `d + 1` more dots than the path
of the body. -/
theorem level_dots (blake : String → String) (F : AstCell) :
    ∀ (d : Nat) (h hm : String), wellNamed F = true → stripTrailingDot h = h →
      ∀ p ∈ levelCells blake d F h hm, dots p.1.hierInstance = dots h + d + 1 := by
  induction F with
  | nil => intro d h hm _ _ p hp; simp [levelCells] at hp
  | cons name modName modDead modCells next ihc ihn =>
    intro d h hm hw hs p hp
    cases modDead with
    | true =>
      rw [levelCells_dead] at hp
      exact ihn d h hm (wellNamed_dead hw) hs p hp
    | false =>
      obtain ⟨hok, _, hws, hwn⟩ := wellNamed_live hw
      have hch := childNode_hier blake hs hm name modName
      have hsc : stripTrailingDot (childNode blake h hm name modName).hierInstance =
          (childNode blake h hm name modName).hierInstance := by
        rw [hch]; exact strip_child _ _ hok
      cases d with
      | zero =>
        rw [levelCells_zero] at hp
        rcases List.mem_cons.1 hp with rfl | hp
        · rw [hch, dots_child h name hok]
        · exact ihn 0 h hm hwn hs p hp
      | succ d =>
        rw [levelCells_succ] at hp
        rcases List.mem_append.1 hp with hp | hp
        · rw [ihc d _ _ hws hsc p hp, hch, dots_child h name hok]
          omega
        · exact ihn (d + 1) h hm hwn hs p hp

/-- A non-empty depth `d` needs more than `d` visited cells. -/
theorem level_size (blake : String → String) (F : AstCell) :
    ∀ (d : Nat) (h hm : String), levelCells blake d F h hm ≠ [] →
      d < (collect blake F h hm).length := by
  induction F with
  | nil => intro d h hm hne; simp [levelCells] at hne
  | cons name modName modDead modCells next ihc ihn =>
    intro d h hm hne
    cases modDead with
    | true =>
      rw [levelCells_dead] at hne
      rw [collect_dead]
      exact ihn d h hm hne
    | false =>
      rw [collect_live, List.length_cons, List.length_append]
      cases d with
      | zero => omega
      | succ d =>
        rw [levelCells_succ] at hne
        by_cases h1 : levelCells blake d modCells
            (childNode blake h hm name modName).hierInstance
            (childNode blake h hm name modName).hierModule = []
        · have h2 : levelCells blake (d + 1) next h hm ≠ [] := by
            intro h2; exact hne (by rw [h1, h2]; rfl)
          have := ihn (d + 1) h hm h2
          omega
        · have := ihc d _ _ h1
          omega

/-! ## One level of the breadth-first search -/

theorem foldl_flatMap_bfs (A : String → List ModNode) (q : List String) :
    ∀ s : BfsLevel, q.foldl (fun s current => (A current).foldl bfsChild s) s =
      (q.flatMap A).foldl bfsChild s := by
  induction q with
  | nil => intro s; rfl
  | cons c q ih =>
    intro s
    rw [List.foldl_cons, List.flatMap_cons, List.foldl_append, ih]

theorem foldl_bfsChild_fresh : ∀ (xs : List ModNode) (s : BfsLevel),
    (xs.map (fun n => n.hierInstance)).Nodup → (∀ x ∈ xs, x.hierInstance ∉ s.visited) →
    xs.foldl bfsChild s =
      { visited := (xs.map (fun n => n.hierInstance)).reverse ++ s.visited
        hashToNodes := xs.foldl hashPush s.hashToNodes
        q := s.q ++ xs.map (fun n => n.hierInstance) } := by
  intro xs
  induction xs with
  | nil => intro s _ _; simp
  | cons x xs ih =>
    intro s hnd hfresh
    rw [List.map_cons, List.nodup_cons] at hnd
    have hx : x.hierInstance ∉ s.visited := hfresh x (List.mem_cons_self _ _)
    rw [List.foldl_cons]
    have hstep : bfsChild s x = { visited := x.hierInstance :: s.visited
                                  hashToNodes := hashPush s.hashToNodes x
                                  q := s.q ++ [x.hierInstance] } := by
      simp [bfsChild, hx]
    rw [hstep, ih _ hnd.2]
    · simp
    · intro y hy hmem
      rcases List.mem_cons.1 hmem with h | h
      · exact hnd.1 (h ▸ List.mem_map_of_mem (fun n => n.hierInstance) hy)
      · exact hfresh y (List.mem_cons_of_mem _ hy) h

theorem hashGet_hashPush (c : ModNode) (k : String) : ∀ G : List (String × List ModNode),
    hashGet (hashPush G c) k = if c.hash = k then hashGet G k ++ [c] else hashGet G k := by
  intro G
  induction G with
  | nil =>
    by_cases h : c.hash = k <;> simp [hashPush, hashGet, h]
  | cons e G ih =>
    obtain ⟨h, ns⟩ := e
    by_cases h1 : h = c.hash
    · subst h1
      by_cases h2 : c.hash = k <;> simp [hashPush, hashGet, h2]
    · by_cases h2 : h = k
      · subst h2
        have h3 : ¬ c.hash = h := fun e => h1 e.symm
        simp [hashPush, hashGet, h1, h3]
      · simp [hashPush, hashGet, h1, h2, ih]

theorem keys_hashPush (c : ModNode) : ∀ G : List (String × List ModNode),
    (hashPush G c).map (fun e => e.1) =
      if c.hash ∈ G.map (fun e => e.1) then G.map (fun e => e.1)
      else G.map (fun e => e.1) ++ [c.hash] := by
  intro G
  induction G with
  | nil => simp [hashPush]
  | cons e G ih =>
    obtain ⟨h, ns⟩ := e
    by_cases h1 : h = c.hash
    · subst h1; simp [hashPush]
    · have h3 : ¬ c.hash = h := fun e => h1 e.symm
      simp only [hashPush, h1, if_false, List.map_cons, ih, List.mem_cons, h3, false_or]
      split <;> simp

theorem hashGet_of_mem : ∀ (G : List (String × List ModNode)),
    (G.map (fun e => e.1)).Nodup → ∀ e ∈ G, hashGet G e.1 = e.2 := by
  intro G
  induction G with
  | nil => intro _ e he; simp at he
  | cons g G ih =>
    intro hnd e he
    rw [List.map_cons, List.nodup_cons] at hnd
    rcases List.mem_cons.1 he with rfl | he2
    · obtain ⟨h, ns⟩ := e; simp [hashGet]
    · clear he
      obtain ⟨h, ns⟩ := g
      have hne : h ≠ e.1 := by
        intro h1
        exact hnd.1 (h1 ▸ List.mem_map_of_mem (fun e => e.1) he2)
      simp only [hashGet, hne, if_false]
      exact ih hnd.2 e he2

theorem grouped_push {G : List (String × List ModNode)} {xs : List ModNode} (c : ModNode)
    (h : Grouped G xs) : Grouped (hashPush G c) (xs ++ [c]) := by
  obtain ⟨h1, h2, h3⟩ := h
  refine ⟨?_, ?_, ?_⟩
  · rw [keys_hashPush]
    split
    · exact h1
    · rename_i hn
      rw [List.nodup_append]
      refine ⟨h1, by simp, ?_⟩
      intro a ha hb
      simp only [List.mem_singleton] at hb
      exact hn (hb ▸ ha)
  · intro k
    rw [hashGet_hashPush, h2 k, List.filter_append]
    by_cases hk : c.hash = k <;> simp [hk, List.filter_cons]
  · intro k
    rw [keys_hashPush]
    have : k ∈ (if c.hash ∈ G.map (fun e => e.1) then G.map (fun e => e.1)
        else G.map (fun e => e.1) ++ [c.hash]) ↔ (k ∈ G.map (fun e => e.1) ∨ k = c.hash) := by
      split
      · rename_i hin
        constructor
        · exact fun h => Or.inl h
        · rintro (h | h)
          · exact h
          · exact h ▸ hin
      · simp
    rw [this, h3 k]
    constructor
    · rintro (⟨x, hx, rfl⟩ | rfl)
      · exact ⟨x, List.mem_append_left _ hx, rfl⟩
      · exact ⟨c, by simp, rfl⟩
    · rintro ⟨x, hx, rfl⟩
      rcases List.mem_append.1 hx with hx | hx
      · exact Or.inl ⟨x, hx, rfl⟩
      · simp only [List.mem_singleton] at hx
        exact Or.inr (by rw [hx])

theorem grouped_foldl : ∀ (ys : List ModNode) (G : List (String × List ModNode))
    (xs : List ModNode), Grouped G xs → Grouped (ys.foldl hashPush G) (xs ++ ys) := by
  intro ys
  induction ys with
  | nil => intro G xs h; simpa using h
  | cons y ys ih =>
    intro G xs h
    have := ih _ _ (grouped_push y h)
    simpa using this

theorem grouped_level (xs : List ModNode) : Grouped (xs.foldl hashPush []) xs := by
  have := grouped_foldl xs [] [] ⟨by simp, by simp [hashGet], by simp⟩
  simpa using this

theorem count_map_hash (k : String) : ∀ xs : List ModNode,
    (xs.map (fun n => n.hash)).count k = (xs.filter (fun x => x.hash = k)).length := by
  intro xs
  induction xs with
  | nil => rfl
  | cons x xs ih =>
    by_cases h : x.hash = k
    · simp [List.filter_cons, h, ih]
    · have h2 : ¬ (x.hash == k) = true := by simpa using h
      simp [List.filter_cons, h, ih, List.count_cons, h2]

/-- The hashes of `xs` are pairwise distinct exactly when no hash group has two members. -/
theorem nodup_hash_iff (xs : List ModNode) :
    (xs.map (fun n => n.hash)).Nodup ↔
      ∀ k, (xs.filter (fun x => x.hash = k)).length ≤ 1 := by
  rw [List.nodup_iff_count_le_one]
  constructor
  · intro h k; rw [← count_map_hash]; exact h k
  · intro h k; rw [count_map_hash]; exact h k

theorem weightSum_foldl (nm : String → Option ModNode) : ∀ (ns : List ModNode) (a : Int),
    ns.foldl (fun acc node =>
      match nm node.hierInstance with
      | some m => acc + m.weight
      | none => acc) a = a + sumChildren nm ns := by
  intro ns
  induction ns with
  | nil => intro a; simp [sumChildren]
  | cons n ns ih =>
    intro a
    rw [List.foldl_cons, ih]
    simp only [sumChildren, List.map_cons, List.sum_cons, weightOf]
    cases nm n.hierInstance
    · simp
    · simp; ring

theorem weightSum_eq (nm : String → Option ModNode) (ns : List ModNode) :
    weightSum nm ns = sumChildren nm ns := by
  unfold weightSum
  rw [weightSum_foldl]; simp

theorem weightSum_nonneg {nm : String → Option ModNode} (h : NonNeg nm) (ns : List ModNode) :
    0 ≤ weightSum nm ns := by
  rw [weightSum_eq]
  unfold sumChildren
  apply List.sum_nonneg
  intro x hx
  obtain ⟨c, _, rfl⟩ := List.mem_map.1 hx
  exact weightOf_nonneg h _

/-- Outcome of the selection loop over any list of entries. -/
theorem select_foldl (nm : String → Option ModNode) :
    ∀ (L : List (String × List ModNode)) (b0 : Best),
      (∀ e ∈ L, 1 < e.2.length → weightSum nm e.2 ≤
        (L.foldl (selectStep nm) b0).maxWeight) ∧
      b0.maxWeight ≤ (L.foldl (selectStep nm) b0).maxWeight ∧
      (L.foldl (selectStep nm) b0 = b0 ∨
        ((L.foldl (selectStep nm) b0).foundAny = true ∧
          ∃ e ∈ L, 1 < e.2.length ∧ e.1 = (L.foldl (selectStep nm) b0).bestHash ∧
            (L.foldl (selectStep nm) b0).maxWeight = weightSum nm e.2)) := by
  intro L
  induction L with
  | nil => intro b0; simp
  | cons e L ih =>
    intro b0
    rw [List.foldl_cons]
    obtain ⟨i1, i2, i3⟩ := ih (selectStep nm b0 e)
    have hmono : b0.maxWeight ≤ (selectStep nm b0 e).maxWeight := by
      unfold selectStep
      split
      · split
        · rename_i h; exact le_of_lt h
        · exact le_refl _
      · exact le_refl _
    refine ⟨?_, le_trans hmono i2, ?_⟩
    · intro x hx hlen
      rcases List.mem_cons.1 hx with rfl | hx
      · refine le_trans ?_ i2
        unfold selectStep
        simp only [gt_iff_lt, hlen, if_true]
        split
        · exact le_refl _
        · rename_i h; exact not_lt.1 h
      · exact i1 x hx hlen
    · rcases i3 with h | ⟨h1, x, hx, h2, h3, h4⟩
      · rw [h]
        unfold selectStep
        split
        · split
          · right
            rename_i hlen _
            exact ⟨rfl, e, List.mem_cons_self _ _, hlen, rfl, rfl⟩
          · exact Or.inl rfl
        · exact Or.inl rfl
      · exact Or.inr ⟨h1, x, List.mem_cons_of_mem _ hx, h2, h3, h4⟩

/-- Outcome of `selectBest` over the groups of one level. -/
theorem selectBest_spec (nm : String → Option ModNode) (hnn : NonNeg nm) (ord : HashOrder)
    (G : List (String × List ModNode)) :
    ((selectBest nm ord G).foundAny = true ↔ ∃ e ∈ G, 1 < e.2.length) ∧
    ((selectBest nm ord G).foundAny = true →
      ∃ e ∈ G, 1 < e.2.length ∧ e.1 = (selectBest nm ord G).bestHash ∧
        (selectBest nm ord G).maxWeight = weightSum nm e.2) ∧
    (∀ e ∈ G, 1 < e.2.length → weightSum nm e.2 ≤ (selectBest nm ord G).maxWeight) := by
  have hmem : ∀ e, e ∈ ord.iter G ↔ e ∈ G := fun e => (ord.perm G).mem_iff
  obtain ⟨s1, _, s3⟩ := select_foldl nm (ord.iter G)
    { foundAny := false, bestHash := "", maxWeight := -1 }
  have hfound : (selectBest nm ord G).foundAny = true →
      ∃ e ∈ G, 1 < e.2.length ∧ e.1 = (selectBest nm ord G).bestHash ∧
        (selectBest nm ord G).maxWeight = weightSum nm e.2 := by
    intro hf
    rcases s3 with h | ⟨_, e, he, h2, h3, h4⟩
    · unfold selectBest at hf
      rw [h] at hf
      exact absurd hf (by simp)
    · exact ⟨e, (hmem e).1 he, h2, h3, h4⟩
  refine ⟨⟨fun hf => ?_, fun hex => ?_⟩, hfound, fun e he hlen => s1 e ((hmem e).2 he) hlen⟩
  · obtain ⟨e, he, h2, _, _⟩ := hfound hf
    exact ⟨e, he, h2⟩
  · obtain ⟨e, he, hlen⟩ := hex
    have h1 := s1 e ((hmem e).2 he) hlen
    have h0 := weightSum_nonneg hnn e.2
    rcases s3 with h | ⟨hf, _⟩
    · rw [h] at h1
      simp only at h1
      omega
    · exact hf

/-! ## The breadth-first search loop -/

theorem FoundAt_pred {nm : String → Option ModNode} {Lv : Nat → List ModNode} {L : Nat}
    (h0 : ((Lv L).map (fun n => n.hash)).Nodup) :
    ∀ r, FoundAt nm Lv (L + 1) r → FoundAt nm Lv L r := by
  intro r hr
  cases r with
  | none =>
    intro d hd
    by_cases h : d = L
    · rw [h]; exact h0
    · exact hr d (by omega)
  | some f =>
    obtain ⟨h1, h2, h3⟩ := hr
    refine ⟨by omega, ?_, h3⟩
    intro d hd hlt
    by_cases h : d = L
    · rw [h]; exact h0
    · exact h2 d (by omega) hlt

theorem levels_empty (A : String → List ModNode) (Lv : Nat → List ModNode)
    (hstep : ∀ d, (Lv d).flatMap (fun n => A n.hierInstance) = Lv (d + 1)) (L : Nat)
    (h : Lv L = []) : ∀ d, L ≤ d → Lv d = [] := by
  intro d hd
  induction d with
  | zero =>
    have : L = 0 := by omega
    rw [← this]; exact h
  | succ d ih =>
    by_cases hL : L = d + 1
    · rw [← hL]; exact h
    · rw [← hstep d, ih (by omega)]; rfl

/-- The search loop on a graph whose levels are the lists `Lv`. -/
theorem bfsLoop_spec (v : HierCellsGraphVisitor) (ord : HashOrder) (Lv : Nat → List ModNode)
    (E : Nat)
    (hstep : ∀ d, (Lv d).flatMap (fun n => v.adjacency n.hierInstance) = Lv (d + 1))
    (hnodup : ∀ d, ((Lv d).map (fun n => n.hierInstance)).Nodup)
    (hdots : ∀ d, ∀ n ∈ Lv d, dots n.hierInstance = d + 1)
    (hsize : ∀ d, Lv d ≠ [] → d < E)
    (hnn : NonNeg v.nodeMetadata) :
    ∀ (fuel L : Nat) (q vis : List String),
      q.flatMap v.adjacency = Lv L → (∀ k ∈ vis, dots k ≤ L) → (q ≠ [] → L ≤ E) →
      E + 2 ≤ fuel + L → L ≤ E + 1 →
      ∃ r, bfsLoop v ord fuel L q vis = some r ∧ FoundAt v.nodeMetadata Lv L r := by
  intro fuel
  induction fuel with
  | zero => intro L q vis _ _ _ h1 h2; omega
  | succ fuel ih =>
    intro L q vis hq hvis hqE hfuel hLE
    by_cases hqn : q = []
    · refine ⟨none, by simp [bfsLoop, hqn], ?_⟩
      intro d hd
      have hL : Lv L = [] := by rw [← hq, hqn]; rfl
      rw [levels_empty v.adjacency Lv hstep L hL d hd]
      exact List.nodup_nil
    · have hfresh : ∀ x ∈ Lv L, x.hierInstance ∉ vis := by
        intro x hx hmem
        have h1 := hdots L x hx
        have h2 := hvis _ hmem
        omega
      have hlevel : bfsLevel v.adjacency q vis =
          { visited := ((Lv L).map (fun n => n.hierInstance)).reverse ++ vis
            hashToNodes := (Lv L).foldl hashPush []
            q := (Lv L).map (fun n => n.hierInstance) } := by
        unfold bfsLevel
        rw [foldl_flatMap_bfs, hq, foldl_bfsChild_fresh _ _ (hnodup L) hfresh]
        simp
      obtain ⟨g1, g2, g3⟩ := grouped_level (Lv L)
      obtain ⟨s1, s2, s3⟩ := selectBest_spec v.nodeMetadata hnn ord ((Lv L).foldl hashPush [])
      by_cases hf : (selectBest v.nodeMetadata ord ((Lv L).foldl hashPush [])).foundAny = true
      · refine ⟨some { level := L
                       bestHash := (selectBest v.nodeMetadata ord
                         ((Lv L).foldl hashPush [])).bestHash
                       maxWeight := (selectBest v.nodeMetadata ord
                         ((Lv L).foldl hashPush [])).maxWeight
                       bestNodes := hashGet ((Lv L).foldl hashPush [])
                         (selectBest v.nodeMetadata ord ((Lv L).foldl hashPush [])).bestHash },
          by simp [bfsLoop, hqn, hlevel, hf], ?_⟩
        obtain ⟨e, he, hlen, hkey, hw⟩ := s2 hf
        have hget := hashGet_of_mem _ g1 e he
        rw [hkey] at hget
        unfold FoundAt
        dsimp only
        refine ⟨le_refl _, fun d h1 h2 => by omega, g2 _, ?_, ?_, ?_⟩
        · rw [hget]; omega
        · rw [hget]; exact hw
        · intro k hk
          have hin : k ∈ ((Lv L).foldl hashPush []).map (fun e => e.1) := by
            rw [g3]
            cases hfl : (Lv L).filter (fun x => x.hash = k) with
            | nil => rw [hfl] at hk; simp at hk
            | cons x xs =>
              have hx : x ∈ (Lv L).filter (fun x => x.hash = k) := by
                rw [hfl]; exact List.mem_cons_self _ _
              rw [List.mem_filter] at hx
              exact ⟨x, hx.1, by simpa using hx.2⟩
          obtain ⟨e2, he2, hk2⟩ := List.mem_map.1 hin
          have hget2 := hashGet_of_mem _ g1 e2 he2
          rw [hk2, g2 k] at hget2
          rw [hget2]
          exact s3 e2 he2 (by rw [← hget2]; omega)
      · have hnone : ∀ e ∈ (Lv L).foldl hashPush [], ¬ 1 < e.2.length := by
          intro e he hlen
          exact hf (s1.2 ⟨e, he, hlen⟩)
        have hnd : ((Lv L).map (fun n => n.hash)).Nodup := by
          rw [nodup_hash_iff]
          intro k
          by_cases hin : k ∈ ((Lv L).foldl hashPush []).map (fun e => e.1)
          · obtain ⟨e2, he2, hk2⟩ := List.mem_map.1 hin
            have hget2 := hashGet_of_mem _ g1 e2 he2
            rw [hk2, g2 k] at hget2
            rw [hget2]
            exact not_lt.1 (hnone e2 he2)
          · rw [g3] at hin
            have : (Lv L).filter (fun x => x.hash = k) = [] := by
              rw [List.filter_eq_nil_iff]
              intro x hx hxk
              exact hin ⟨x, hx, by simpa using hxk⟩
            rw [this]; simp
        have hq2 : ((Lv L).map (fun n => n.hierInstance)).flatMap v.adjacency = Lv (L + 1) := by
          rw [List.flatMap_map]; exact hstep L
        have hvis2 : ∀ k ∈ ((Lv L).map (fun n => n.hierInstance)).reverse ++ vis,
            dots k ≤ L + 1 := by
          intro k hk
          rcases List.mem_append.1 hk with hk | hk
          · rw [List.mem_reverse] at hk
            obtain ⟨n, hn, rfl⟩ := List.mem_map.1 hk
            rw [hdots L n hn]
          · exact Nat.le_succ_of_le (hvis k hk)
        have hqE2 : (Lv L).map (fun n => n.hierInstance) ≠ [] → L + 1 ≤ E := by
          intro hne
          have : Lv L ≠ [] := fun h => hne (by rw [h]; rfl)
          exact hsize L this
        obtain ⟨r, hr, hfa⟩ := ih (L + 1) _ _ hq2 hvis2 hqE2 (by omega)
          (by have := hqE hqn; omega)
        refine ⟨r, ?_, FoundAt_pred hnd r hfa⟩
        simp only [bfsLoop, hqn, if_false, hlevel]
        simp only [hf, Bool.false_eq_true, if_false]
        exact hr

/-! ## The finder on a well-named design -/

theorem dots_root : dots "$root" = 0 := by decide

theorem new_adjacency_adjOf (blake : String → String) (rootp : AstNetlist)
    (hd : rootp.topDead = false) (k : String) :
    (HierCellsGraphVisitor.new blake rootp).adjacency k =
      adjOf (collect blake rootp.topCells "$root" "$root") k := by
  rw [new_adjacency, hd]
  simp [adjOf]

/-- On a well-named design the recorded graph has the depth levels of the instance tree. -/
theorem new_levels (blake : String → String) (rootp : AstNetlist)
    (hw : wellNamed rootp.topCells = true) :
    (["$root"].flatMap (HierCellsGraphVisitor.new blake rootp).adjacency =
      instancesAt blake rootp 0) ∧
    (∀ d, (instancesAt blake rootp d).flatMap
      (fun n => (HierCellsGraphVisitor.new blake rootp).adjacency n.hierInstance) =
        instancesAt blake rootp (d + 1)) ∧
    (∀ d, ((instancesAt blake rootp d).map (fun n => n.hierInstance)).Nodup) ∧
    (∀ d, ∀ n ∈ instancesAt blake rootp d, dots n.hierInstance = d + 1) ∧
    (∀ d, instancesAt blake rootp d ≠ [] →
      d < (HierCellsGraphVisitor.new blake rootp).edges.length) := by
  cases hd : rootp.topDead with
  | true =>
    have hA : ∀ k, (HierCellsGraphVisitor.new blake rootp).adjacency k = [] := by
      intro k; rw [new_adjacency, hd]; rfl
    have hL : ∀ d, instancesAt blake rootp d = [] := by
      intro d; simp [instancesAt, hd]
    refine ⟨by simp [hA, hL], fun d => by simp [hL], fun d => by simp [hL],
      fun d n hn => by simp [hL] at hn, fun d hne => absurd (hL d) hne⟩
  | false =>
    obtain ⟨a1, a2⟩ := adj_tree blake rootp.topCells "$root" "$root" hw strip_root
    have hL : ∀ d, instancesAt blake rootp d =
        (levelCells blake d rootp.topCells "$root" "$root").map (fun p => p.1) := by
      intro d; simp [instancesAt, hd]
    refine ⟨?_, ?_, ?_, ?_, ?_⟩
    · rw [List.flatMap_singleton, new_adjacency_adjOf blake rootp hd, a1, hL]
    · intro d
      rw [hL, hL, List.flatMap_map]
      apply level_step
      intro e p hp
      rw [new_adjacency_adjOf blake rootp hd]
      exact a2 e p hp
    · intro d
      rw [hL, List.map_map]
      exact level_nodup blake rootp.topCells d "$root" "$root" hw strip_root
    · intro d n hn
      rw [hL] at hn
      obtain ⟨p, hp, rfl⟩ := List.mem_map.1 hn
      rw [level_dots blake rootp.topCells d "$root" "$root" hw strip_root p hp, dots_root]
      omega
    · intro d hne
      rw [new_edges, hd]
      simp only [Bool.false_eq_true, if_false, List.length_map]
      apply level_size blake rootp.topCells d "$root" "$root"
      intro h
      exact hne (by rw [hL, h]; rfl)

/-- Outcome of the finder on a well-named design. -/
theorem findGroup_spec (blake : String → String) (ord : HashOrder) (rootp : AstNetlist)
    (hw : wellNamed rootp.topCells = true) :
    ∃ nm r, runDFS (HierCellsGraphVisitor.new blake rootp) =
        some { HierCellsGraphVisitor.new blake rootp with nodeMetadata := nm } ∧
      findGroup blake ord rootp = some r ∧ FoundAt nm (instancesAt blake rootp) 0 r := by
  obtain ⟨nm, hrun, hnn, _⟩ := runDFS_new blake rootp
  obtain ⟨l0, l1, l2, l3, l4⟩ := new_levels blake rootp hw
  obtain ⟨r, hr, hfa⟩ := bfsLoop_spec
    { HierCellsGraphVisitor.new blake rootp with nodeMetadata := nm } ord
    (instancesAt blake rootp) (HierCellsGraphVisitor.new blake rootp).edges.length
    l1 l2 l3 l4 hnn ((HierCellsGraphVisitor.new blake rootp).edges.length + 2) 0
    ["$root"] ["$root"] l0
    (by intro k hk; simp only [List.mem_singleton] at hk; rw [hk, dots_root])
    (fun _ => Nat.zero_le _) (le_refl _) (Nat.zero_le _)
  refine ⟨nm, r, hrun, ?_, hfa⟩
  simp only [findGroup, hrun, bfsSearch]
  exact hr

/-! ## Claims on the hierarchy finder -/

/-- C1 (amended): on a design whose visited instance names are non-empty, free of `'.'` and
unique among siblings, a group reported at level `d` is the whole group of its fingerprint
at depth `d`, has at least two members, and no depth shallower than `d` holds two
instances with equal fingerprints. -/
theorem C1_shallowest_level (blake : String → String) (ord : HashOrder) (rootp : AstNetlist)
    (hw : wellNamed rootp.topCells = true) (f : Found)
    (hf : findGroup blake ord rootp = some (some f)) :
    (∀ d, d < f.level → ((instancesAt blake rootp d).map (fun n => n.hash)).Nodup) ∧
    f.bestNodes = (instancesAt blake rootp f.level).filter (fun x => x.hash = f.bestHash) ∧
    2 ≤ f.bestNodes.length := by
  obtain ⟨nm, r, _, hr, hfa⟩ := findGroup_spec blake ord rootp hw
  rw [hf] at hr
  simp only [Option.some.injEq] at hr
  subst hr
  obtain ⟨_, h2, h3, h4, _⟩ := hfa
  exact ⟨fun d hd => h2 d (Nat.zero_le _) hd, h3, h4⟩

/-- C1 (witness): the design `Top{A inst1, A inst2}`. -/
theorem C1_shallowest_level_witness :
    wellNamed exTwoA.topCells = true ∧
    findGroup id HashOrder.insertion exTwoA = some (some exTwoAFound) ∧
    (∀ d, d < exTwoAFound.level → ((instancesAt id exTwoA d).map (fun n => n.hash)).Nodup) ∧
    exTwoAFound.bestNodes =
      (instancesAt id exTwoA exTwoAFound.level).filter
        (fun x => x.hash = exTwoAFound.bestHash) ∧
    2 ≤ exTwoAFound.bestNodes.length :=
  ⟨by decide, by decide,
    C1_shallowest_level id HashOrder.insertion exTwoA (by decide) exTwoAFound (by decide)⟩

/-- C1 (counterexample): in `exDotted` the finder reports a group at level 2 although the
instances `b` and `c` at depth 1 have equal fingerprints; `b` is skipped because its path
`$root.a.b` is already marked visited for the sibling instance `a.b`. -/
theorem C1_counterexample :
    findGroup id HashOrder.insertion exDotted = some (some exDottedFound) ∧
    exDottedFound.level = 2 ∧
    ¬ ((instancesAt id exDotted 1).map (fun n => n.hash)).Nodup := by
  decide

/-- C2 (amended): on a design whose visited instance names are non-empty, free of `'.'` and
unique among siblings, `runBFSCheckDuplicateHashes` returns, and it returns `false` exactly
when at every depth the instances have pairwise distinct fingerprints. -/
theorem C2_no_candidate_iff (blake : String → String) (ord : HashOrder) (rootp : AstNetlist)
    (hw : wellNamed rootp.topCells = true) :
    ∃ b out, findPartition blake ord rootp = some (b, out) ∧
      (b = false ↔ ∀ d, ((instancesAt blake rootp d).map (fun n => n.hash)).Nodup) := by
  obtain ⟨nm, r, hrun, hr, hfa⟩ := findGroup_spec blake ord rootp hw
  simp only [findGroup, hrun] at hr
  cases r with
  | none =>
    refine ⟨false, ⟨"", [], ""⟩, ?_, ?_⟩
    · simp [findPartition, hrun, runBFSCheckDuplicateHashes, hr]
    · exact ⟨fun _ d => hfa d (Nat.zero_le _), fun _ => rfl⟩
  | some f =>
    obtain ⟨_, _, h3, h4, _⟩ := hfa
    cases hb : f.bestNodes with
    | nil => rw [hb] at h4; simp at h4
    | cons n0 ns =>
      refine ⟨true, { o_partitionModuleName := n0.moduleName
                      o_partitionInstanceNames :=
                        [] ++ (n0 :: ns).map (fun n => n.instanceName)
                      o_parentHier := parentHierOf n0.hierInstance }, ?_, ?_⟩
      · simp only [findPartition, hrun, runBFSCheckDuplicateHashes, hr, reportFound, hb]
      · constructor
        · intro h; exact absurd h (by simp)
        · intro hall
          exfalso
          have h5 := (nodup_hash_iff _).1 (hall f.level) f.bestHash
          rw [← h3] at h5
          omega

/-- C2 (witness): the design `Top{A inst1, A inst2}`. -/
theorem C2_no_candidate_iff_witness :
    wellNamed exTwoA.topCells = true ∧
    ∃ b out, findPartition id HashOrder.insertion exTwoA = some (b, out) ∧
      (b = false ↔ ∀ d, ((instancesAt id exTwoA d).map (fun n => n.hash)).Nodup) :=
  ⟨by decide, C2_no_candidate_iff id HashOrder.insertion exTwoA (by decide)⟩

/-- C2 (counterexample): in `exDottedFlat` the instances `b` and `c` at depth 1 have equal
fingerprints, yet `runBFSCheckDuplicateHashes` returns `false`. -/
theorem C2_counterexample :
    findPartition id HashOrder.insertion exDottedFlat = some (false, ⟨"", [], ""⟩) ∧
    ¬ ((instancesAt id exDottedFlat 1).map (fun n => n.hash)).Nodup := by
  decide

/-- C3 (amended): on a design whose visited instance names are non-empty, free of `'.'` and
unique among siblings, the weight sum (over the weights left by `runDFS`) of the reported
group is the reported maximum and is at least the weight sum of every fingerprint group
with two or more members at the same depth. -/
theorem C3_heaviest_group (blake : String → String) (ord : HashOrder) (rootp : AstNetlist)
    (hw : wellNamed rootp.topCells = true) (v : HierCellsGraphVisitor)
    (hv : runDFS (HierCellsGraphVisitor.new blake rootp) = some v) (f : Found)
    (hf : findGroup blake ord rootp = some (some f)) :
    f.maxWeight = weightSum v.nodeMetadata f.bestNodes ∧
    ∀ k, 2 ≤ ((instancesAt blake rootp f.level).filter (fun x => x.hash = k)).length →
      weightSum v.nodeMetadata ((instancesAt blake rootp f.level).filter
        (fun x => x.hash = k)) ≤ weightSum v.nodeMetadata f.bestNodes := by
  obtain ⟨nm, r, hrun, hr, hfa⟩ := findGroup_spec blake ord rootp hw
  rw [hf] at hr
  simp only [Option.some.injEq] at hr
  subst hr
  rw [hv] at hrun
  simp only [Option.some.injEq] at hrun
  subst hrun
  obtain ⟨_, _, _, _, h5, h6⟩ := hfa
  exact ⟨h5, fun k hk => h5 ▸ h6 k hk⟩

/-- C6: after `runDFS` on a freshly built graph, every node reachable from `$root` through
the adjacency lists has a recorded weight, which is 1 when its adjacency list is empty and
the sum of the recorded weights of the listed children otherwise. -/
theorem C6_dfs_weights (blake : String → String) (rootp : AstNetlist) :
    ∃ v, runDFS (HierCellsGraphVisitor.new blake rootp) = some v ∧
      v.adjacency = (HierCellsGraphVisitor.new blake rootp).adjacency ∧
      ∀ k, Reach v.adjacency k →
        ∃ n, v.nodeMetadata k = some n ∧
          n.weight = if (v.adjacency k).isEmpty then 1
            else ((v.adjacency k).map (fun c => weightOf v.nodeMetadata c.hierInstance)).sum := by
  obtain ⟨nm, hrun, _, h⟩ := runDFS_new blake rootp
  exact ⟨_, hrun, rfl, h⟩

theorem tailJoin_shape (chain : List String) :
    tailJoin chain = [] ∨ ∃ u, tailJoin chain = '.' :: u := by
  cases chain with
  | nil => exact Or.inl rfl
  | cons s chain => exact Or.inr ⟨_, by simp [tailJoin]; rfl⟩

theorem tailJoin_inj : ∀ (c1 c2 : List String), (∀ s ∈ c1, nameOK s = true) →
    (∀ s ∈ c2, nameOK s = true) → tailJoin c1 = tailJoin c2 → c1 = c2 := by
  intro c1
  induction c1 with
  | nil =>
    intro c2 _ _ h
    cases c2 with
    | nil => rfl
    | cons t c2 => simp [tailJoin] at h
  | cons s c1 ih =>
    intro c2 h1 h2 h
    cases c2 with
    | nil => simp [tailJoin] at h
    | cons t c2 =>
      have h3 : s.data ++ tailJoin c1 = t.data ++ tailJoin c2 := by
        simpa [tailJoin] using h
      obtain ⟨e1, e2⟩ := dot_split _ _ _ _
        ((nameOK_iff s).1 (h1 s (List.mem_cons_self _ _))).2
        ((nameOK_iff t).1 (h2 t (List.mem_cons_self _ _))).2
        (tailJoin_shape c1) (tailJoin_shape c2) h3
      rw [String.ext e1, ih c2 (fun x hx => h1 x (List.mem_cons_of_mem _ hx))
        (fun x hx => h2 x (List.mem_cons_of_mem _ hx)) e2]

theorem tailJoin_append (chain : List String) (s : String) :
    tailJoin (chain ++ [s]) = tailJoin chain ++ '.' :: s.data := by
  simp [tailJoin]

theorem typesOK_live {name modName : String} {modCells next : AstCell}
    (hw : typesOK (.cons name modName false modCells next) = true) :
    nameOK modName = true ∧ typesOK modCells = true ∧ typesOK next = true := by
  simp only [typesOK, Bool.and_eq_true, Bool.or_eq_true, Bool.false_eq_true, false_or] at hw
  exact ⟨hw.1.1, hw.1.2, hw.2⟩

theorem typesOK_dead {name modName : String} {modCells next : AstCell}
    (hw : typesOK (.cons name modName true modCells next) = true) :
    typesOK next = true := by
  simp only [typesOK, Bool.true_or, Bool.true_and] at hw
  exact hw

theorem childNode_hierModule (blake : String → String) (h : String) {hm : String}
    (hs : stripTrailingDot hm = hm) (name modName : String) :
    (childNode blake h hm name modName).hierModule = hm ++ "." ++ modName := by
  simp [childNode, hs]

/-- With sound type names, the type-path of every instance is `$root` followed by its
chain of type names, and its fingerprint is the hash of that string. -/
theorem typeChains_path (blake : String → String) (F : AstCell) :
    ∀ (h hm : String) (chain : List String), typesOK F = true →
      stripTrailingDot hm = hm → hm.data = ("$root").data ++ tailJoin chain →
      (∀ s ∈ chain, nameOK s = true) →
      ∀ p ∈ typeChains blake F h hm chain,
        p.1.hierModule.data = ("$root").data ++ tailJoin p.2 ∧
        p.1.hash = blake p.1.hierModule ∧ ∀ s ∈ p.2, nameOK s = true := by
  induction F with
  | nil => intro h hm chain _ _ _ _ p hp; simp [typeChains] at hp
  | cons name modName modDead modCells next ihc ihn =>
    intro h hm chain hw hs hd hch p hp
    cases modDead with
    | true =>
      simp only [typeChains, if_true, List.nil_append] at hp
      exact ihn h hm chain (typesOK_dead hw) hs hd hch p hp
    | false =>
      obtain ⟨hok, hws, hwn⟩ := typesOK_live hw
      have hcm := childNode_hierModule blake h hs name modName
      have hcd : (childNode blake h hm name modName).hierModule.data =
          ("$root").data ++ tailJoin (chain ++ [modName]) := by
        rw [hcm, tailJoin_append, ← List.append_assoc, ← hd]
        simp [String.data_append]
      have hch2 : ∀ s ∈ chain ++ [modName], nameOK s = true := by
        intro s hs2
        rcases List.mem_append.1 hs2 with h1 | h1
        · exact hch s h1
        · simp only [List.mem_singleton] at h1
          rw [h1]; exact hok
      simp only [typeChains, Bool.false_eq_true, if_false, List.cons_append, List.mem_cons,
        List.mem_append] at hp
      rcases hp with rfl | hp | hp
      · exact ⟨hcd, rfl, hch2⟩
      · exact ihc _ _ _ hws (by rw [hcm]; exact strip_child _ _ hok) hcd hch2 p hp
      · exact ihn h hm chain hwn hs hd hch p hp

/-- C7 (amended): when every visited module type name is non-empty and free of `'.'` and the
hash is injective, two instances have equal fingerprints exactly when their chains of
module type names are equal, whatever the instance names. -/
theorem C7_fingerprint_iff_chain (blake : String → String) (hinj : Function.Injective blake)
    (rootp : AstNetlist) (ht : typesOK rootp.topCells = true)
    (p1 p2 : ModNode × List String) (h1 : p1 ∈ instancesWithChain blake rootp)
    (h2 : p2 ∈ instancesWithChain blake rootp) :
    p1.1.hash = p2.1.hash ↔ p1.2 = p2.2 := by
  unfold instancesWithChain at h1 h2
  cases hd : rootp.topDead with
  | true => simp [hd] at h1
  | false =>
    simp only [hd, Bool.false_eq_true, if_false] at h1 h2
    have hbase : ("$root").data = ("$root").data ++ tailJoin [] := by simp [tailJoin]
    obtain ⟨a1, a2, a3⟩ := typeChains_path blake rootp.topCells "$root" "$root" [] ht
      strip_root hbase (by simp) p1 h1
    obtain ⟨b1, b2, b3⟩ := typeChains_path blake rootp.topCells "$root" "$root" [] ht
      strip_root hbase (by simp) p2 h2
    constructor
    · intro h
      rw [a2, b2] at h
      have h3 := hinj h
      rw [String.ext_iff, a1, b1] at h3
      exact tailJoin_inj _ _ a3 b3 (List.append_cancel_left h3)
    · intro h
      rw [a2, b2]
      congr 1
      apply String.ext
      rw [a1, b1, h]

/-- C7 (witness): the instances `inst1` and `inst2` of `Top{A inst1, A inst2}`. -/
theorem C7_fingerprint_iff_chain_witness :
    Function.Injective (id : String → String) ∧ typesOK exTwoA.topCells = true ∧
    ((childNode id "$root.top" "$root.Top" "inst1" "A").hash =
        (childNode id "$root.top" "$root.Top" "inst2" "A").hash ↔
      ["Top", "A"] = ["Top", "A"]) :=
  ⟨Function.injective_id, by decide,
    C7_fingerprint_iff_chain id Function.injective_id exTwoA (by decide)
      (childNode id "$root.top" "$root.Top" "inst1" "A", ["Top", "A"])
      (childNode id "$root.top" "$root.Top" "inst2" "A", ["Top", "A"])
      (by decide) (by decide)⟩

/-- C7 (counterexample): with the injective hash `id`, instance `x` of module type `A.B` and
instance `z` of module type `B` inside module type `A` have the same fingerprint but
different chains of module type names. -/
theorem C7_counterexample :
    Function.Injective (id : String → String) ∧
    (childNode id "$root" "$root" "x" "A.B", ["A.B"]) ∈ instancesWithChain id exTypeDots ∧
    (childNode id "$root.y" "$root.A" "z" "B", ["A", "B"]) ∈
      instancesWithChain id exTypeDots ∧
    (childNode id "$root" "$root" "x" "A.B").hash =
      (childNode id "$root.y" "$root.A" "z" "B").hash ∧
    ["A.B"] ≠ ["A", "B"] :=
  ⟨Function.injective_id, by decide, by decide, by decide, by decide⟩

theorem groupsOf_push (P : ModNode → Prop) (c : ModNode) (hc : P c) :
    ∀ G : List (String × List ModNode), GroupsOf P G → GroupsOf P (hashPush G c) := by
  intro G
  induction G with
  | nil =>
    intro _ e he n hn
    simp only [hashPush, List.mem_singleton] at he
    subst he
    simp only [List.mem_singleton] at hn
    subst hn
    exact ⟨rfl, hc⟩
  | cons g G ih =>
    intro hG e he n hn
    obtain ⟨h, ns⟩ := g
    by_cases h1 : h = c.hash
    · simp only [hashPush, h1, if_true, List.mem_cons] at he
      rcases he with rfl | he
      · simp only [List.mem_append, List.mem_singleton] at hn
        rcases hn with hn | rfl
        · have := hG (h, ns) (List.mem_cons_self _ _) n hn
          exact ⟨by rw [this.1, h1], this.2⟩
        · exact ⟨rfl, hc⟩
      · exact hG e (List.mem_cons_of_mem _ he) n hn
    · simp only [hashPush, h1, if_false, List.mem_cons] at he
      rcases he with rfl | he
      · exact hG (h, ns) (List.mem_cons_self _ _) n hn
      · exact ih (fun e he => hG e (List.mem_cons_of_mem _ he)) e he n hn

theorem groupsOf_children (P : ModNode → Prop) : ∀ (cs : List ModNode) (s : BfsLevel),
    (∀ c ∈ cs, P c) → GroupsOf P s.hashToNodes →
    GroupsOf P (cs.foldl bfsChild s).hashToNodes := by
  intro cs
  induction cs with
  | nil => intro s _ h; exact h
  | cons c cs ih =>
    intro s hP h
    rw [List.foldl_cons]
    apply ih _ (fun x hx => hP x (List.mem_cons_of_mem _ hx))
    unfold bfsChild
    split
    · exact h
    · exact groupsOf_push P c (hP c (List.mem_cons_self _ _)) _ h

theorem groupsOf_level (A : String → List ModNode) (q vis : List String) :
    GroupsOf (fun n => ∃ k, n ∈ A k) (bfsLevel A q vis).hashToNodes := by
  unfold bfsLevel
  rw [foldl_flatMap_bfs]
  apply groupsOf_children
  · intro c hc
    obtain ⟨k, _, hk⟩ := List.mem_flatMap.1 hc
    exact ⟨k, hk⟩
  · intro e he; simp at he

theorem mem_hashGet : ∀ (G : List (String × List ModNode)) (k : String) (n : ModNode),
    n ∈ hashGet G k → ∃ e ∈ G, e.1 = k ∧ n ∈ e.2 := by
  intro G
  induction G with
  | nil => intro k n hn; simp [hashGet] at hn
  | cons g G ih =>
    intro k n hn
    obtain ⟨h, ns⟩ := g
    by_cases h1 : h = k
    · simp only [hashGet, h1, if_true] at hn
      exact ⟨(h, ns), List.mem_cons_self _ _, h1, hn⟩
    · simp only [hashGet, h1, if_false] at hn
      obtain ⟨e, he, r⟩ := ih k n hn
      exact ⟨e, List.mem_cons_of_mem _ he, r⟩

/-- Whatever the graph, every member of a found group carries the winning hash and comes
from an adjacency list. -/
theorem bfsLoop_members (v : HierCellsGraphVisitor) (ord : HashOrder) :
    ∀ (fuel L : Nat) (q vis : List String) (f : Found),
      bfsLoop v ord fuel L q vis = some (some f) →
      ∀ n ∈ f.bestNodes, n.hash = f.bestHash ∧ ∃ k, n ∈ v.adjacency k := by
  intro fuel
  induction fuel with
  | zero => intro L q vis f h; simp [bfsLoop] at h
  | succ fuel ih =>
    intro L q vis f h n hn
    simp only [bfsLoop] at h
    by_cases hq : q = []
    · simp [hq] at h
    · simp only [hq, if_false] at h
      by_cases hf : (selectBest v.nodeMetadata ord
          (bfsLevel v.adjacency q vis).hashToNodes).foundAny = true
      · simp only [hf, if_true, Option.some.injEq] at h
        subst h
        obtain ⟨e, he, hk, hmem⟩ := mem_hashGet _ _ n hn
        have := groupsOf_level v.adjacency q vis e he n hmem
        exact ⟨by rw [this.1, hk], this.2⟩
      · simp only [hf, Bool.false_eq_true, if_false] at h
        exact ih _ _ _ f h n hn

theorem last_component (a b m1 m2 : List Char) (h1 : '.' ∉ m1) (h2 : '.' ∉ m2)
    (h : a ++ '.' :: m1 = b ++ '.' :: m2) : a = b ∧ m1 = m2 := by
  have hr := congrArg List.reverse h
  simp only [List.reverse_append, List.reverse_cons, List.append_assoc,
    List.singleton_append] at hr
  obtain ⟨e1, e2⟩ := dot_split m1.reverse m2.reverse ('.' :: a.reverse) ('.' :: b.reverse)
    (by simpa using h1) (by simpa using h2) (Or.inr ⟨_, rfl⟩) (Or.inr ⟨_, rfl⟩) hr
  simp only [List.cons.injEq, true_and] at e2
  exact ⟨List.reverse_injective e2, List.reverse_injective e1⟩

theorem typesNoDot_live {name modName : String} {modCells next : AstCell}
    (hw : typesNoDot (.cons name modName false modCells next) = true) :
    '.' ∉ modName.data ∧ typesNoDot modCells = true ∧ typesNoDot next = true := by
  simp only [typesNoDot, Bool.and_eq_true, Bool.or_eq_true, Bool.false_eq_true, false_or,
    decide_eq_true_eq] at hw
  exact ⟨hw.1.1, hw.1.2, hw.2⟩

theorem typesNoDot_dead {name modName : String} {modCells next : AstCell}
    (hw : typesNoDot (.cons name modName true modCells next) = true) :
    typesNoDot next = true := by
  simp only [typesNoDot, Bool.true_or, Bool.true_and] at hw
  exact hw

theorem collect_types (blake : String → String) (F : AstCell) :
    ∀ (h hm : String), typesNoDot F = true → ∀ e ∈ collect blake F h hm,
      ∃ h1 hm1 name modName,
        e.2 = childNode blake h1 hm1 name modName ∧ '.' ∉ modName.data := by
  induction F with
  | nil => intro h hm _ e he; simp [collect] at he
  | cons name modName modDead modCells next ihc ihn =>
    intro h hm ht e he
    cases modDead with
    | true =>
      rw [collect_dead] at he
      exact ihn h hm (typesNoDot_dead ht) e he
    | false =>
      obtain ⟨t1, t2, t3⟩ := typesNoDot_live ht
      rw [collect_live] at he
      rcases List.mem_cons.1 he with rfl | he
      · exact ⟨h, hm, name, modName, rfl, t1⟩
      · rcases List.mem_append.1 he with he | he
        · exact ihc _ _ t2 e he
        · exact ihn h hm t3 e he

/-- Two recorded nodes with dot-free type names and equal hashes have the same type. -/
theorem same_type (blake : String → String) (hinj : Function.Injective blake)
    (h1 hm1 name1 mod1 h2 hm2 name2 mod2 : String) (d1 : '.' ∉ mod1.data)
    (d2 : '.' ∉ mod2.data)
    (h : (childNode blake h1 hm1 name1 mod1).hash = (childNode blake h2 hm2 name2 mod2).hash) :
    mod1 = mod2 := by
  have h3 := hinj h
  rw [String.ext_iff] at h3
  simp only [String.data_append] at h3
  rw [List.append_assoc, List.append_assoc] at h3
  exact String.ext (last_component _ _ _ _ d1 d2 h3).2

/-- C5: when no visited module type name holds a `'.'` and the hash is injective, every
member of the winning group has the reported partition module type. -/
theorem C5_common_module_type (blake : String → String) (hinj : Function.Injective blake)
    (ord : HashOrder) (rootp : AstNetlist) (ht : typesNoDot rootp.topCells = true)
    (f : Found) (hf : findGroup blake ord rootp = some (some f)) (b : Bool) (out : BfsOut)
    (hp : findPartition blake ord rootp = some (b, out)) :
    ∀ n ∈ f.bestNodes, n.moduleName = out.o_partitionModuleName := by
  obtain ⟨nm, hrun, _, _⟩ := runDFS_new blake rootp
  simp only [findGroup, hrun, bfsSearch] at hf
  have hmem := bfsLoop_members _ ord _ _ _ _ f hf
  simp only [findPartition, hrun, runBFSCheckDuplicateHashes, bfsSearch, hf] at hp
  have hnode : ∀ n ∈ f.bestNodes, ∃ h1 hm1 name modName,
      n = childNode blake h1 hm1 name modName ∧ '.' ∉ modName.data := by
    intro n hn
    obtain ⟨_, k, hk⟩ := hmem n hn
    obtain ⟨_, he⟩ := new_mem_adjacency blake rootp k n hk
    exact collect_types blake _ _ _ ht (k, n) he
  cases hb : f.bestNodes with
  | nil => simp [reportFound, hb] at hp
  | cons n0 ns =>
    simp only [reportFound, hb, Option.some.injEq, Prod.mk.injEq] at hp
    obtain ⟨_, rfl⟩ := hp
    intro n hn
    have hn0 : n0 ∈ f.bestNodes := by rw [hb]; exact List.mem_cons_self _ _
    have hn1 : n ∈ f.bestNodes := by rw [hb]; exact hn
    obtain ⟨a1, a2, a3, a4, rfl, da⟩ := hnode n hn1
    obtain ⟨b1, b2, b3, b4, rfl, db⟩ := hnode n0 hn0
    have hh : (childNode blake a1 a2 a3 a4).hash = (childNode blake b1 b2 b3 b4).hash := by
      rw [(hmem _ hn1).1, (hmem _ hn0).1]
    exact same_type blake hinj _ _ _ _ _ _ _ _ da db hh

/-- C5 (witness): the design `Top{A inst1, A inst2}`. -/
theorem C5_common_module_type_witness :
    Function.Injective (id : String → String) ∧ typesNoDot exTwoA.topCells = true ∧
    findGroup id HashOrder.insertion exTwoA = some (some exTwoAFound) ∧
    findPartition id HashOrder.insertion exTwoA =
      some (true, ⟨"A", ["inst1", "inst2"], "$root.top"⟩) ∧
    ∀ n ∈ exTwoAFound.bestNodes, n.moduleName = "A" :=
  ⟨Function.injective_id, by decide, by decide, by decide,
    C5_common_module_type id Function.injective_id HashOrder.insertion exTwoA (by decide)
      exTwoAFound (by decide) true ⟨"A", ["inst1", "inst2"], "$root.top"⟩ (by decide)⟩

theorem levelCells_succ_eq (blake : String → String) (F : AstCell) :
    ∀ (d : Nat) (h hm : String),
      levelCells blake (d + 1) F h hm =
        (levelCells blake d F h hm).flatMap
          (fun p => levelCells blake 0 p.2 p.1.hierInstance p.1.hierModule) := by
  induction F with
  | nil => intro d h hm; simp [levelCells]
  | cons name modName modDead modCells next ihc ihn =>
    intro d h hm
    cases modDead with
    | true => simp only [levelCells_dead]; exact ihn d h hm
    | false =>
      rw [levelCells_succ, ihn d h hm]
      cases d with
      | zero => rw [levelCells_zero, List.flatMap_cons]
      | succ d => rw [levelCells_succ, List.flatMap_append, ihc d]

theorem level_types (blake : String → String) (F : AstCell) :
    ∀ (d : Nat) (h hm : String), typesOK F = true → stripTrailingDot hm = hm →
      ∀ p ∈ levelCells blake d F h hm,
        typesOK p.2 = true ∧ stripTrailingDot p.1.hierModule = p.1.hierModule ∧
        p.1.hash = blake p.1.hierModule := by
  induction F with
  | nil => intro d h hm _ _ p hp; simp [levelCells] at hp
  | cons name modName modDead modCells next ihc ihn =>
    intro d h hm hw hs p hp
    cases modDead with
    | true =>
      rw [levelCells_dead] at hp
      exact ihn d h hm (typesOK_dead hw) hs p hp
    | false =>
      obtain ⟨hok, hws, hwn⟩ := typesOK_live hw
      have hcm := childNode_hierModule blake h hs name modName
      have hsc : stripTrailingDot (childNode blake h hm name modName).hierModule =
          (childNode blake h hm name modName).hierModule := by
        rw [hcm]; exact strip_child _ _ hok
      cases d with
      | zero =>
        rw [levelCells_zero] at hp
        rcases List.mem_cons.1 hp with rfl | hp
        · exact ⟨hws, hsc, rfl⟩
        · exact ihn 0 h hm hwn hs p hp
      | succ d =>
        rw [levelCells_succ] at hp
        rcases List.mem_append.1 hp with hp | hp
        · exact ihc d _ _ hws hsc p hp
        · exact ihn (d + 1) h hm hwn hs p hp

theorem children_shape (blake : String → String) (F : AstCell) :
    ∀ (h hm : String), wellNamed F = true → typesOK F = true →
      ∀ q ∈ levelCells blake 0 F h hm, ∃ name modName,
        q.1 = childNode blake h hm name modName ∧ nameOK name = true ∧
          nameOK modName = true := by
  induction F with
  | nil => intro h hm _ _ q hq; simp [levelCells] at hq
  | cons name modName modDead modCells next _ ihn =>
    intro h hm hw ht q hq
    cases modDead with
    | true =>
      rw [levelCells_dead] at hq
      exact ihn h hm (wellNamed_dead hw) (typesOK_dead ht) q hq
    | false =>
      obtain ⟨hok, _, _, hwn⟩ := wellNamed_live hw
      obtain ⟨tok, _, twn⟩ := typesOK_live ht
      rw [levelCells_zero] at hq
      rcases List.mem_cons.1 hq with rfl | hq
      · exact ⟨name, modName, rfl, hok, tok⟩
      · exact ihn h hm hwn twn q hq

theorem takeWhile_append_stop (p : Char → Bool) (a : Char) (ha : p a = false) :
    ∀ (l r : List Char), (∀ c ∈ l, p c = true) → (l ++ a :: r).takeWhile p = l := by
  intro l
  induction l with
  | nil => intro r _; simp [List.takeWhile, ha]
  | cons c l ih =>
    intro r hl
    rw [List.cons_append, List.takeWhile_cons, hl c (List.mem_cons_self _ _)]
    simp only [if_true]
    rw [ih r (fun x hx => hl x (List.mem_cons_of_mem _ hx))]

theorem parentHierOf_child (x name : String) (hdot : '.' ∉ name.data) :
    parentHierOf (x ++ "." ++ name) = x := by
  have hd : (x ++ "." ++ name).data = x.data ++ '.' :: name.data := by
    simp [String.data_append]
  have htw : ((x ++ "." ++ name).data.reverse.takeWhile (fun c => c != '.')) =
      name.data.reverse := by
    rw [hd, List.reverse_append, List.reverse_cons, List.append_assoc, List.singleton_append]
    apply takeWhile_append_stop _ _ (by decide)
    intro c hc
    rw [List.mem_reverse] at hc
    simp only [bne_iff_ne, ne_eq]
    intro e
    exact hdot (e ▸ hc)
  unfold parentHierOf
  simp only [htw, List.length_reverse]
  rw [hd]
  have hlen : ¬ name.data.length = (x.data ++ '.' :: name.data).length := by
    simp only [List.length_append, List.length_cons]; omega
  simp only [hlen, if_false]
  apply String.ext
  simp only [List.length_append, List.length_cons]
  have : x.data.length + (name.data.length + 1) - name.data.length - 1 = x.data.length := by
    omega
  rw [this, List.take_left]

theorem instancesAt_eq_children (blake : String → String) (rootp : AstNetlist)
    (hd : rootp.topDead = false) (d : Nat) :
    instancesAt blake rootp d = (instanceCellsAt blake rootp d).flatMap (childrenOf blake) := by
  unfold instancesAt childrenOf
  simp only [hd, Bool.false_eq_true, if_false]
  cases d with
  | zero => simp [instanceCellsAt, rootNode]
  | succ d =>
    simp only [instanceCellsAt]
    rw [levelCells_succ_eq, List.map_flatMap]

/-- Facts about every possible parent in a design with sound instance and type names. -/
theorem parent_facts (blake : String → String) (rootp : AstNetlist)
    (hw : wellNamed rootp.topCells = true) (ht : typesOK rootp.topCells = true) (d : Nat) :
    ∀ p ∈ instanceCellsAt blake rootp d,
      wellNamed p.2 = true ∧ typesOK p.2 = true ∧
      stripTrailingDot p.1.hierInstance = p.1.hierInstance ∧
      stripTrailingDot p.1.hierModule = p.1.hierModule ∧ p.1.hash = blake p.1.hierModule := by
  intro p hp
  cases d with
  | zero =>
    simp only [instanceCellsAt, List.mem_singleton] at hp
    subst hp
    exact ⟨hw, ht, strip_root, strip_root, rfl⟩
  | succ d =>
    simp only [instanceCellsAt] at hp
    obtain ⟨_, k2, k3⟩ := level_keys blake rootp.topCells d "$root" "$root" hw strip_root p hp
    obtain ⟨t1, t2, t3⟩ := level_types blake rootp.topCells d "$root" "$root" ht strip_root
      p hp
    exact ⟨k3, t1, k2, t2, t3⟩

/-- C4 (amended): when every visited instance name and module type name is non-empty and
free of `'.'`, instance names are unique among siblings and the hash is injective, all
members of the winning group are cells of the module of one parent instance at the depth
above them, and the reported `o_parentHier` is the instance path of that parent. -/
theorem C4_shared_parent (blake : String → String) (hinj : Function.Injective blake)
    (ord : HashOrder) (rootp : AstNetlist) (hw : wellNamed rootp.topCells = true)
    (ht : typesOK rootp.topCells = true) (f : Found)
    (hf : findGroup blake ord rootp = some (some f)) (b : Bool) (out : BfsOut)
    (hp : findPartition blake ord rootp = some (b, out)) :
    ∃ p ∈ instanceCellsAt blake rootp f.level,
      out.o_parentHier = p.1.hierInstance ∧ ∀ n ∈ f.bestNodes, n ∈ childrenOf blake p := by
  obtain ⟨nm, r, hrun, hr, hfa⟩ := findGroup_spec blake ord rootp hw
  rw [hf] at hr
  simp only [Option.some.injEq] at hr
  subst hr
  obtain ⟨_, hnd, hbest, hlen, _⟩ := hfa
  simp only [findGroup, hrun] at hf
  simp only [findPartition, hrun, runBFSCheckDuplicateHashes, hf] at hp
  have hd : rootp.topDead = false := by
    cases hd : rootp.topDead with
    | false => rfl
    | true =>
      rw [hbest] at hlen
      simp [instancesAt, hd] at hlen
  -- every member is a child of some parent and carries the winning hash
  have hmem : ∀ n ∈ f.bestNodes, n.hash = f.bestHash ∧
      ∃ p ∈ instanceCellsAt blake rootp f.level, n ∈ childrenOf blake p := by
    intro n hn
    rw [hbest, List.mem_filter] at hn
    refine ⟨by simpa using hn.2, ?_⟩
    have h1 := hn.1
    rw [instancesAt_eq_children blake rootp hd] at h1
    exact List.mem_flatMap.1 h1
  have hshape : ∀ p ∈ instanceCellsAt blake rootp f.level, ∀ n ∈ childrenOf blake p,
      ∃ name modName, n = childNode blake p.1.hierInstance p.1.hierModule name modName ∧
        nameOK name = true ∧ nameOK modName = true ∧
        n.hierInstance = p.1.hierInstance ++ "." ++ name ∧
        n.hierModule = p.1.hierModule ++ "." ++ modName := by
    intro p hp n hn
    obtain ⟨f1, f2, f3, f4, _⟩ := parent_facts blake rootp hw ht f.level p hp
    obtain ⟨q, hq, rfl⟩ := List.mem_map.1 hn
    obtain ⟨name, modName, e, o1, o2⟩ := children_shape blake p.2 _ _ f1 f2 q hq
    refine ⟨name, modName, e, o1, o2, ?_, ?_⟩
    · rw [e]; exact childNode_hier blake f3 _ _ _
    · rw [e]; exact childNode_hierModule blake _ f4 _ _
  cases hb : f.bestNodes with
  | nil => rw [hb] at hlen; simp at hlen
  | cons n0 ns =>
    simp only [reportFound, hb, Option.some.injEq, Prod.mk.injEq] at hp
    obtain ⟨_, rfl⟩ := hp
    have hn0 : n0 ∈ f.bestNodes := by rw [hb]; exact List.mem_cons_self _ _
    obtain ⟨hh0, p0, hp0, hc0⟩ := hmem n0 hn0
    obtain ⟨name0, mod0, _, o1, o2, e1, e2⟩ := hshape p0 hp0 n0 hc0
    refine ⟨p0, hp0, ?_, ?_⟩
    · simp only
      rw [e1]
      exact parentHierOf_child _ _ ((nameOK_iff name0).1 o1).2
    · intro n hn
      have hn1 : n ∈ f.bestNodes := by rw [hb]; exact hn
      obtain ⟨hh, p, hp, hc⟩ := hmem n hn1
      obtain ⟨name, modN, en, q1, q2, g1, g2⟩ := hshape p hp n hc
      have hhm : n.hierModule = n0.hierModule := by
        have h1 : n.hash = blake n.hierModule := by rw [en]; rfl
        have h2 : n0.hash = blake n0.hierModule := by
          obtain ⟨_, _, e0, _⟩ := hshape p0 hp0 n0 hc0
          rw [e0]; rfl
        apply hinj
        rw [← h1, ← h2, hh, hh0]
      rw [g2, e2, String.ext_iff] at hhm
      simp only [String.data_append] at hhm
      rw [List.append_assoc, List.append_assoc] at hhm
      have hpm : p.1.hierModule = p0.1.hierModule :=
        String.ext (last_component _ _ _ _ ((nameOK_iff modN).1 q2).2
          ((nameOK_iff mod0).1 o2).2 hhm).1
      have hph : p.1.hash = p0.1.hash := by
        rw [(parent_facts blake rootp hw ht f.level p hp).2.2.2.2,
          (parent_facts blake rootp hw ht f.level p0 hp0).2.2.2.2, hpm]
      have hpp : p = p0 := by
        cases hl : f.level with
        | zero =>
          rw [hl] at hp hp0
          simp only [instanceCellsAt, List.mem_singleton] at hp hp0
          rw [hp, hp0]
        | succ L =>
          rw [hl] at hp hp0
          simp only [instanceCellsAt] at hp hp0
          have hnodup := hnd L (Nat.zero_le _) (by omega)
          simp only [instancesAt, hd, Bool.false_eq_true, if_false, List.map_map] at hnodup
          exact List.inj_on_of_nodup_map hnodup hp hp0 hph
      rw [← hpp]; exact hc

/-- C4 (witness): the design `Top{A inst1, A inst2}`. -/
theorem C4_shared_parent_witness :
    Function.Injective (id : String → String) ∧ wellNamed exTwoA.topCells = true ∧
    typesOK exTwoA.topCells = true ∧
    findGroup id HashOrder.insertion exTwoA = some (some exTwoAFound) ∧
    findPartition id HashOrder.insertion exTwoA =
      some (true, ⟨"A", ["inst1", "inst2"], "$root.top"⟩) ∧
    ∃ p ∈ instanceCellsAt id exTwoA exTwoAFound.level,
      "$root.top" = p.1.hierInstance ∧ ∀ n ∈ exTwoAFound.bestNodes, n ∈ childrenOf id p :=
  ⟨Function.injective_id, by decide, by decide, by decide, by decide,
    C4_shared_parent id Function.injective_id HashOrder.insertion exTwoA (by decide)
      (by decide) exTwoAFound (by decide) true ⟨"A", ["inst1", "inst2"], "$root.top"⟩
      (by decide)⟩

/-- C4 (counterexample): in `exEmptyName` no name holds a `'.'`; the winning group is
`x`, `y`, the two cells of the module of the instance with the empty name, whose instance
path is `$root.`; the reported parent path is `$root`. -/
theorem C4_counterexample :
    Function.Injective (id : String → String) ∧
    findGroup id HashOrder.insertion exEmptyName = some (some exEmptyNameFound) ∧
    findPartition id HashOrder.insertion exEmptyName =
      some (true, ⟨"A", ["x", "y"], "$root"⟩) ∧
    instanceCellsAt id exEmptyName 1 =
      [(⟨"T", "", "$root.", "$root.T", "$root.T", 0⟩,
        .cons "x" "A" false .nil (.cons "y" "A" false .nil .nil))] ∧
    childrenOf id (⟨"T", "", "$root.", "$root.T", "$root.T", 0⟩,
        .cons "x" "A" false .nil (.cons "y" "A" false .nil .nil)) =
      exEmptyNameFound.bestNodes ∧
    "$root" ≠ "$root." :=
  ⟨Function.injective_id, by decide, by decide, by decide, by decide, by decide⟩

/-- C3 (witness): the design `Top{A inst1, A inst2}`. -/
theorem C3_heaviest_group_witness :
    wellNamed exTwoA.topCells = true ∧
    ∃ v, runDFS (HierCellsGraphVisitor.new id exTwoA) = some v ∧
      findGroup id HashOrder.insertion exTwoA = some (some exTwoAFound) ∧
      exTwoAFound.maxWeight = weightSum v.nodeMetadata exTwoAFound.bestNodes ∧
      ∀ k, 2 ≤ ((instancesAt id exTwoA exTwoAFound.level).filter
          (fun x => x.hash = k)).length →
        weightSum v.nodeMetadata ((instancesAt id exTwoA exTwoAFound.level).filter
          (fun x => x.hash = k)) ≤ weightSum v.nodeMetadata exTwoAFound.bestNodes := by
  obtain ⟨nm, hrun, _, _⟩ := runDFS_new id exTwoA
  exact ⟨by decide, _, hrun, by decide,
    C3_heaviest_group id HashOrder.insertion exTwoA (by decide) _ hrun exTwoAFound
      (by decide)⟩

/-- C3 (counterexample): in `exDottedHeavy` the reported group `d`, `e` has weight sum 2,
while the fingerprint group of `b` and `c` at the same depth has two members and weight
sum 6; `b` never enters a group because its path `$root.a.b` is already marked visited. -/
theorem C3_counterexample :
    findGroup id HashOrder.insertion exDottedHeavy = some (some exDottedHeavyFound) ∧
    (runDFS (HierCellsGraphVisitor.new id exDottedHeavy)).map
      (fun v =>
        (weightSum v.nodeMetadata exDottedHeavyFound.bestNodes,
          ((instancesAt id exDottedHeavy exDottedHeavyFound.level).filter
            (fun x => x.hash = "$root.T2.T3")).length,
          weightSum v.nodeMetadata ((instancesAt id exDottedHeavy
            exDottedHeavyFound.level).filter (fun x => x.hash = "$root.T2.T3")))) =
      some (2, 2, 6) := by
  decide

/-! ## Claims on the port analyzer -/

theorem mem_modifyAt {α : Type} (f : α → α) : ∀ (n : Nat) (l : List α) (x : α),
    x ∈ modifyAt f n l → x ∈ l ∨ ∃ y ∈ l, x = f y := by
  intro n l
  induction l generalizing n with
  | nil => intro x hx; simp [modifyAt] at hx
  | cons a l ih =>
    intro x hx
    cases n with
    | zero =>
      simp only [modifyAt, List.mem_cons] at hx
      rcases hx with rfl | hx
      · exact Or.inr ⟨a, List.mem_cons_self _ _, rfl⟩
      · exact Or.inl (List.mem_cons_of_mem _ hx)
    | succ n =>
      simp only [modifyAt, List.mem_cons] at hx
      rcases hx with rfl | hx
      · exact Or.inl (List.mem_cons_self _ _)
      · rcases ih n x hx with h | ⟨y, hy, rfl⟩
        · exact Or.inl (List.mem_cons_of_mem _ h)
        · exact Or.inr ⟨y, List.mem_cons_of_mem _ hy, rfl⟩

theorem length_modifyAt {α : Type} (f : α → α) : ∀ (n : Nat) (l : List α),
    (modifyAt f n l).length = l.length := by
  intro n l
  induction l generalizing n with
  | nil => simp [modifyAt]
  | cons a l ih =>
    cases n with
    | zero => simp [modifyAt]
    | succ n => simp [modifyAt, ih]

theorem setPartnerPort_classified (data : List (String × List Port)) (ptr : PartnerPtr)
    (name : String) (h : AllPorts Classified data) :
    AllPorts Classified (setPartnerPort data ptr name) := by
  intro e he p hp
  unfold setPartnerPort at he
  rcases mem_modifyAt _ _ _ _ he with h1 | ⟨e0, he0, rfl⟩
  · exact h e h1 p hp
  · simp only at hp
    rcases mem_modifyAt _ _ _ _ hp with h2 | ⟨p0, hp0, rfl⟩
    · exact h e0 he0 p h2
    · have := h e0 he0 p0 hp0
      unfold Classified at this ⊢
      simp only [length_modifyAt]
      exact this

theorem renameLoop_classified (dups : List String) : ∀ (ptrs : List PartnerPtr)
    (data : List (String × List Port)), AllPorts Classified data →
    AllPorts Classified (renameLoop dups ptrs data) := by
  intro ptrs
  induction ptrs with
  | nil => intro data h; exact h
  | cons p rest ih =>
    intro data h
    simp only [renameLoop]
    apply ih
    cases getPartner data p with
    | none => exact h
    | some partner =>
      cases getPort data p with
      | none => exact h
      | some local_port =>
        simp only
        split
        · exact setPartnerPort_classified _ _ _ h
        · exact h

theorem disambiguateLink_classified (data : List (String × List Port))
    (ptrs : List PartnerPtr) (h : AllPorts Classified data) :
    AllPorts Classified (disambiguateLink data ptrs) := by
  unfold disambiguateLink
  split
  · exact h
  · simp only
    split
    · exact h
    · exact renameLoop_classified _ _ _ h

theorem phase3_classified (data : List (String × List Port))
    (h : AllPorts Classified data) : AllPorts Classified (phase3 data) := by
  unfold phase3
  generalize buildLinks data = links
  induction links generalizing data with
  | nil => exact h
  | cons l links ih =>
    rw [List.foldl_cons]
    exact ih _ (disambiguateLink_classified _ _ h)

theorem finalizePort_classified (a : PartitionPortAnalyzer) (instName : String) (port : Port) :
    Classified (finalizePort a instName port) := by
  unfold Classified finalizePort
  rfl

theorem analyzePort_classified (a : PartitionPortAnalyzer) (instName : String)
    (st : Port × (String → List (String × String))) :
    Classified (analyzePort a instName st).1 := by
  unfold analyzePort
  simp only
  split
  · exact finalizePort_classified _ _ _
  · exact finalizePort_classified _ _ _

theorem analyzePorts_classified (a : PartitionPortAnalyzer) (instName : String) :
    ∀ (ports : List Port) (m : String → List (String × String)),
      ∀ p ∈ (analyzePorts a instName ports m).1, Classified p := by
  intro ports
  induction ports with
  | nil => intro m p hp; simp [analyzePorts] at hp
  | cons port rest ih =>
    intro m p hp
    simp only [analyzePorts, List.mem_cons] at hp
    rcases hp with rfl | hp
    · exact analyzePort_classified _ _ _
    · exact ih _ p hp

theorem analyzeInstances_classified (a : PartitionPortAnalyzer) :
    ∀ (data : List (String × List Port)) (m : String → List (String × String)),
      AllPorts Classified (analyzeInstances a data m).1 := by
  intro data
  induction data with
  | nil => intro m e he; simp [analyzeInstances] at he
  | cons inst_pair rest ih =>
    intro m e he p hp
    simp only [analyzeInstances, List.mem_cons] at he
    rcases he with rfl | he
    · exact analyzePorts_classified _ _ _ _ p hp
    · exact ih _ e he p hp

/-- C8: after `analyze()`, every port of the report (whatever its connection type) has
`comm_type` `"NULL"` exactly when it has no partner, `"P2P"` exactly when it has one, and
`"broadcast"` exactly when it has two or more. -/
theorem C8_comm_type_by_partner_count (parentModule : ParentModule)
    (partitionInstances : List String) (e : String × List Port)
    (he : e ∈ analyzeReport parentModule partitionInstances) (p : Port) (hp : p ∈ e.2) :
    (p.comm_type = "NULL" ↔ p.with_whom_is_it_communicating.length = 0) ∧
    (p.comm_type = "P2P" ↔ p.with_whom_is_it_communicating.length = 1) ∧
    (p.comm_type = "broadcast" ↔ 2 ≤ p.with_whom_is_it_communicating.length) := by
  have h : Classified p := by
    unfold analyzeReport analyze at he
    simp only at he
    exact phase3_classified _ (analyzeInstances_classified _ _ _) e he p hp
  unfold Classified at h
  rw [h]
  by_cases h0 : p.with_whom_is_it_communicating.length = 0
  · rw [if_pos h0]
    exact ⟨⟨fun _ => h0, fun _ => rfl⟩,
      ⟨fun h => absurd h (by decide), fun h => by omega⟩,
      ⟨fun h => absurd h (by decide), fun h => by omega⟩⟩
  · rw [if_neg h0]
    by_cases h1 : p.with_whom_is_it_communicating.length = 1
    · rw [if_pos h1]
      exact ⟨⟨fun h => absurd h (by decide), fun h => by omega⟩,
        ⟨fun _ => h1, fun _ => rfl⟩,
        ⟨fun h => absurd h (by decide), fun h => by omega⟩⟩
    · rw [if_neg h1]
      exact ⟨⟨fun h => absurd h (by decide), fun h => by omega⟩,
        ⟨fun h => absurd h (by decide), fun h => by omega⟩,
        ⟨fun _ => by omega, fun _ => rfl⟩⟩

/-- C8 (witness): port `x` of `p1` in `exChain`, which has one partner and is `"P2P"`. -/
theorem C8_comm_type_by_partner_count_witness :
    ("p1", [exChainPort, exChainPortY]) ∈ analyzeReport exChain ["p2", "p1"] ∧
    ((exChainPort.comm_type = "NULL" ↔
        exChainPort.with_whom_is_it_communicating.length = 0) ∧
      (exChainPort.comm_type = "P2P" ↔
        exChainPort.with_whom_is_it_communicating.length = 1) ∧
      (exChainPort.comm_type = "broadcast" ↔
        2 ≤ exChainPort.with_whom_is_it_communicating.length)) :=
  ⟨by decide,
    C8_comm_type_by_partner_count exChain ["p2", "p1"] ("p1", [exChainPort, exChainPortY])
      (by decide) exChainPort (by decide)⟩

theorem char_eq_of_toNat {a b : Char} (h : a.toNat = b.toNat) : a = b := by
  apply Char.ext
  apply UInt32.ext
  exact h

theorem stringLess_asymm : ∀ (a b : List Char), stringLess a b = true →
    stringLess b a = false := by
  intro a
  induction a with
  | nil =>
    intro b _
    cases b <;> simp [stringLess]
  | cons x a ih =>
    intro b h
    cases b with
    | nil => simp [stringLess] at h
    | cons y b =>
      simp only [stringLess] at h ⊢
      by_cases h1 : x.toNat < y.toNat
      · have h2 : ¬ y.toNat < x.toNat := by omega
        simp [h1, h2]
      · by_cases h2 : y.toNat < x.toNat
        · simp [h1, h2] at h
        · simp only [h1, h2, if_false] at h ⊢
          exact ih b h

theorem stringLess_trans : ∀ (a b c : List Char), stringLess a b = true →
    stringLess b c = true → stringLess a c = true := by
  intro a
  induction a with
  | nil =>
    intro b c h1 h2
    cases b with
    | nil => simp [stringLess] at h1
    | cons y b =>
      cases c with
      | nil => simp [stringLess] at h2
      | cons z c => simp [stringLess]
  | cons x a ih =>
    intro b c h1 h2
    cases b with
    | nil => simp [stringLess] at h1
    | cons y b =>
      cases c with
      | nil => simp [stringLess] at h2
      | cons z c =>
        simp only [stringLess] at h1 h2 ⊢
        by_cases p1 : x.toNat < y.toNat
        · by_cases p2 : y.toNat < z.toNat
          · have : x.toNat < z.toNat := by omega
            simp [this]
          · by_cases p3 : z.toNat < y.toNat
            · simp [p2, p3] at h2
            · have : x.toNat < z.toNat := by omega
              simp [this]
        · by_cases p4 : y.toNat < x.toNat
          · simp [p1, p4] at h1
          · simp only [p1, p4, if_false] at h1
            have hxy : x.toNat = y.toNat := by omega
            by_cases p2 : y.toNat < z.toNat
            · have : x.toNat < z.toNat := by omega
              simp [this]
            · by_cases p3 : z.toNat < y.toNat
              · simp [p2, p3] at h2
              · simp only [p2, p3, if_false] at h2
                have q1 : ¬ x.toNat < z.toNat := by omega
                have q2 : ¬ z.toNat < x.toNat := by omega
                simp only [q1, q2, if_false]
                exact ih b c h1 h2

theorem stringLess_total : ∀ (a b : List Char), stringLess a b = false →
    stringLess b a = false → a = b := by
  intro a
  induction a with
  | nil =>
    intro b h1 _
    cases b with
    | nil => rfl
    | cons y b => simp [stringLess] at h1
  | cons x a ih =>
    intro b h1 h2
    cases b with
    | nil => simp [stringLess] at h2
    | cons y b =>
      simp only [stringLess] at h1 h2
      by_cases p1 : x.toNat < y.toNat
      · simp [p1] at h1
      · by_cases p2 : y.toNat < x.toNat
        · simp [p2] at h2
        · simp only [p1, p2, if_false] at h1 h2
          have hxy : x = y := char_eq_of_toNat (by omega)
          rw [hxy, ih b h1 h2]

theorem sortInsert_perm (x : String) : ∀ l : List String, (sortInsert x l).Perm (x :: l) := by
  intro l
  induction l with
  | nil => exact List.Perm.refl _
  | cons y ys ih =>
    simp only [sortInsert]
    split
    · exact (List.Perm.cons y ih).trans (List.Perm.swap x y ys)
    · exact List.Perm.refl _

theorem stdSort_perm : ∀ l : List String, (stdSort l).Perm l := by
  intro l
  induction l with
  | nil => exact List.Perm.refl _
  | cons x l ih =>
    simp only [stdSort, List.foldr_cons]
    exact (sortInsert_perm x _).trans (List.Perm.cons x ih)

theorem sortInsert_ascending (x : String) : ∀ l : List String, x ∉ l → Ascending l →
    Ascending (sortInsert x l) := by
  intro l
  induction l with
  | nil => intro _ _; simp [sortInsert, Ascending]
  | cons y ys ih =>
    intro hx hl
    unfold Ascending at hl ⊢
    rw [List.pairwise_cons] at hl
    simp only [sortInsert]
    have hxy : x ≠ y := fun e => hx (e ▸ List.mem_cons_self _ _)
    have hxys : x ∉ ys := fun e => hx (List.mem_cons_of_mem _ e)
    split
    · rename_i hlt
      rw [List.pairwise_cons]
      refine ⟨?_, ih hxys hl.2⟩
      intro z hz
      rcases List.mem_cons.1 ((List.Perm.mem_iff (sortInsert_perm x ys)).1 hz) with h | h
      · rw [h]; exact hlt
      · exact hl.1 z h
    · rename_i hnlt
      have hlt : stringLess x.data y.data = true := by
        by_contra hcon
        have h1 : stringLess x.data y.data = false := by simpa using hcon
        have h2 : stringLess y.data x.data = false := by simpa using hnlt
        exact hxy (String.ext (stringLess_total _ _ h1 h2))
      rw [List.pairwise_cons]
      refine ⟨?_, List.pairwise_cons.2 hl⟩
      intro z hz
      rcases List.mem_cons.1 hz with rfl | hz
      · exact hlt
      · exact stringLess_trans _ _ _ hlt (hl.1 z hz)

theorem stdSort_ascending : ∀ l : List String, l.Nodup → Ascending (stdSort l) := by
  intro l
  induction l with
  | nil => intro _; simp [stdSort, Ascending]
  | cons x l ih =>
    intro hnd
    rw [List.nodup_cons] at hnd
    simp only [stdSort, List.foldr_cons]
    apply sortInsert_ascending
    · intro h
      exact hnd.1 ((List.Perm.mem_iff (stdSort_perm l)).1 h)
    · exact ih hnd.2

theorem mapFind_mapInsert {V : Type} (k : String) (v : V) (k1 : String) :
    ∀ m : List (String × V),
      mapFind (mapInsert k v m) k1 = if k1 = k then some v else mapFind m k1 := by
  intro m
  induction m with
  | nil =>
    by_cases h : k1 = k
    · simp [mapInsert, mapFind, h]
    · have h2 : ¬ k = k1 := fun e => h e.symm
      simp [mapInsert, mapFind, h, h2]
  | cons e m ih =>
    obtain ⟨k2, v2⟩ := e
    simp only [mapInsert]
    by_cases h1 : k = k2
    · subst h1
      by_cases h : k1 = k
      · simp [mapFind, h]
      · have h2 : ¬ k = k1 := fun e => h e.symm
        simp [mapFind, h, h2]
    · simp only [h1, if_false]
      split
      · by_cases h : k1 = k
        · simp [mapFind, h]
        · have h2 : ¬ k = k1 := fun e => h e.symm
          simp [mapFind, h, h2, List.find?_cons]
      · by_cases h : k2 = k1
        · have h3 : ¬ k1 = k := fun e => h1 (e ▸ h.symm)
          simp [mapFind, h, h3, List.find?_cons]
        · have := ih
          simp only [mapFind, List.find?_cons, h, decide_False] at this ⊢
          exact this

theorem mapInsert_perm {V : Type} (k : String) (v : V) : ∀ m : List (String × V),
    k ∉ m.map (fun e => e.1) → (mapInsert k v m).Perm ((k, v) :: m) := by
  intro m
  induction m with
  | nil => intro _; exact List.Perm.refl _
  | cons e m ih =>
    intro hk
    obtain ⟨k2, v2⟩ := e
    simp only [List.map_cons, List.mem_cons, not_or] at hk
    simp only [mapInsert, hk.1, if_false]
    split
    · exact List.Perm.refl _
    · exact (List.Perm.cons _ (ih hk.2)).trans (List.Perm.swap _ _ _)

theorem assignRanks_perm : ∀ (s : List String) (r : Int) (m : List (String × Int)),
    s.Nodup → (∀ k ∈ s, k ∉ m.map (fun e => e.1)) →
    (assignRanks s r m).Perm (ranked s r ++ m) := by
  intro s
  induction s with
  | nil => intro r m _ _; exact List.Perm.refl _
  | cons k s ih =>
    intro r m hnd hdis
    rw [List.nodup_cons] at hnd
    simp only [assignRanks, ranked]
    have hp := mapInsert_perm k r m (hdis k (List.mem_cons_self _ _))
    have h2 : ∀ x ∈ s, x ∉ (mapInsert k r m).map (fun e => e.1) := by
      intro x hx hmem
      have := (List.Perm.mem_iff (hp.map (fun e => e.1))).1 hmem
      simp only [List.map_cons, List.mem_cons] at this
      rcases this with h | h
      · exact hnd.1 (h ▸ hx)
      · exact hdis x (List.mem_cons_of_mem _ hx) h
    refine (ih (r + 1) _ hnd.2 h2).trans ?_
    refine (List.Perm.append_left _ hp).trans ?_
    exact List.perm_middle

theorem rankOf_assignRanks_other : ∀ (s : List String) (r : Int) (m : List (String × Int))
    (k : String), k ∉ s → rankOf (assignRanks s r m) k = rankOf m k := by
  intro s
  induction s with
  | nil => intro r m k _; rfl
  | cons x s ih =>
    intro r m k hk
    simp only [List.mem_cons, not_or] at hk
    simp only [assignRanks]
    rw [ih _ _ _ hk.2]
    simp only [rankOf, mapFind_mapInsert, hk.1, if_false]

theorem rankOf_assignRanks : ∀ (s : List String) (r : Int) (m : List (String × Int)),
    s.Nodup → ∀ (i : Nat) (h : i < s.length),
      rankOf (assignRanks s r m) (s.get ⟨i, h⟩) = r + i := by
  intro s
  induction s with
  | nil => intro r m _ i h; simp at h
  | cons x s ih =>
    intro r m hnd i h
    rw [List.nodup_cons] at hnd
    simp only [assignRanks]
    cases i with
    | zero =>
      simp only [List.get_eq_getElem, List.getElem_cons_zero]
      rw [rankOf_assignRanks_other _ _ _ _ hnd.1]
      simp [rankOf, mapFind_mapInsert]
    | succ i =>
      simp only [List.get_eq_getElem, List.getElem_cons_succ]
      have := ih (r + 1) (mapInsert x r m) hnd.2 i (by simpa using h)
      simp only [List.get_eq_getElem] at this
      rw [this]
      push_cast
      ring

theorem ranked_keys : ∀ (s : List String) (r : Int), (ranked s r).map (fun e => e.1) = s := by
  intro s
  induction s with
  | nil => intro r; rfl
  | cons k s ih => intro r; simp [ranked, ih]

theorem ranked_values : ∀ (s : List String) (r : Int),
    (ranked s r).map (fun e => e.2) =
      (List.range s.length).map (fun (i : Nat) => r + (i : Int)) := by
  intro s
  induction s with
  | nil => intro r; rfl
  | cons k s ih =>
    intro r
    rw [List.length_cons, List.range_succ_eq_map]
    simp only [ranked, List.map_cons, ih, List.map_map]
    have h0 : r + ((0 : Nat) : Int) = r := by simp
    rw [h0]
    congr 1
    apply List.map_congr_left
    intro i _
    simp only [Function.comp]
    push_cast
    ring

/-- C9 (amended): for pairwise distinct partition instance names none of which is
`"system"`, the keys of the rank table are `"system"` and the names, each once; its ranks
are `0, …, N`, each once; `"system"` has rank 0; and the `i`-th name in ascending order
(counting from 0) has rank `i + 1`. -/
theorem C9_rank_table (names : List String) (hnd : names.Nodup) (hsys : "system" ∉ names) :
    ((buildRankMap names).map (fun e => e.1)).Perm ("system" :: names) ∧
    ((buildRankMap names).map (fun e => e.2)).Perm
      ((List.range (names.length + 1)).map (fun (i : Nat) => (i : Int))) ∧
    rankOf (buildRankMap names) "system" = 0 ∧
    (stdSort names).Perm names ∧ Ascending (stdSort names) ∧
    ∀ (i : Nat) (h : i < (stdSort names).length),
      rankOf (buildRankMap names) ((stdSort names).get ⟨i, h⟩) = (i : Int) + 1 := by
  have hp := stdSort_perm names
  have hnd2 : (stdSort names).Nodup := (List.Perm.nodup_iff hp).2 hnd
  have hsys2 : "system" ∉ stdSort names := fun h => hsys ((List.Perm.mem_iff hp).1 h)
  have hm0 : mapInsert "system" (0 : Int) [] = [("system", 0)] := rfl
  have hperm := assignRanks_perm (stdSort names) 1 (mapInsert "system" 0 []) hnd2
    (by
      intro k hk hmem
      rw [hm0] at hmem
      simp only [List.map_cons, List.map_nil, List.mem_singleton] at hmem
      exact hsys2 (hmem ▸ hk))
  refine ⟨?_, ?_, ?_, hp, stdSort_ascending names hnd, ?_⟩
  · have h1 := hperm.map (fun e => e.1)
    rw [List.map_append, ranked_keys, hm0] at h1
    refine h1.trans ?_
    simp only [List.map_cons, List.map_nil]
    exact (List.perm_append_comm).trans (List.Perm.cons _ hp)
  · have h1 := hperm.map (fun e => e.2)
    rw [List.map_append, ranked_values, hm0] at h1
    refine h1.trans ?_
    rw [List.range_succ_eq_map, hp.length_eq]
    simp only [List.map_cons, List.map_nil, List.map_map]
    refine (List.perm_append_comm).trans ?_
    simp only [List.singleton_append, Nat.cast_zero]
    apply List.Perm.cons
    apply List.Perm.of_eq
    apply List.map_congr_left
    intro i _
    simp only [Function.comp]
    push_cast
    ring
  · unfold buildRankMap
    rw [rankOf_assignRanks_other _ _ _ _ hsys2]
    rfl
  · intro i h
    unfold buildRankMap
    rw [rankOf_assignRanks _ _ _ hnd2 i h]
    ring

/-- C9 (witness): the partition names `p2`, `p1`. -/
theorem C9_rank_table_witness :
    (["p2", "p1"] : List String).Nodup ∧ "system" ∉ (["p2", "p1"] : List String) ∧
    (((buildRankMap ["p2", "p1"]).map (fun e => e.1)).Perm ("system" :: ["p2", "p1"]) ∧
    ((buildRankMap ["p2", "p1"]).map (fun e => e.2)).Perm
      ((List.range ((["p2", "p1"] : List String).length + 1)).map
        (fun (i : Nat) => (i : Int))) ∧
    rankOf (buildRankMap ["p2", "p1"]) "system" = 0 ∧
    (stdSort ["p2", "p1"]).Perm ["p2", "p1"] ∧ Ascending (stdSort ["p2", "p1"]) ∧
    ∀ (i : Nat) (h : i < (stdSort ["p2", "p1"]).length),
      rankOf (buildRankMap ["p2", "p1"]) ((stdSort ["p2", "p1"]).get ⟨i, h⟩) =
        (i : Int) + 1) :=
  ⟨by decide, by decide, C9_rank_table ["p2", "p1"] (by decide) (by decide)⟩

/-- C9 (counterexample): the pairwise distinct partition names `system`, `a` give a rank
table with only the two keys `a` and `system`, in which `"system"` has rank 2. -/
theorem C9_counterexample :
    (["system", "a"] : List String).Nodup ∧
    buildRankMap ["system", "a"] = [("a", 1), ("system", 2)] ∧
    rankOf (buildRankMap ["system", "a"]) "system" = 2 := by
  decide

/-- C10 (the code at the failing input): in `exFanout` the two partner relations of port
`o` of `p1` both lie in the channel from rank 1 to rank 0 and both carry the remote port
name `d_o` after `analyze()`. -/
theorem C10_duplicate_remote_names :
    (analyzeReport exFanout ["p1", "p2"]).map
      (fun e => (e.1, e.2.map (fun p =>
        (p.name, p.with_whom_is_it_communicating.map (fun q => (q.inst, q.port)))))) =
      [("p1", [("o", [("u1", "d_o"), ("u2", "d_o")])]), ("p2", [("o", [])])] ∧
    (analyzeReport exFanout ["p1", "p2"]).map
      (fun e => e.2.map (fun p => p.with_whom_is_it_communicating.map (fun q => linkKey p q))) =
      [[[((1 : Int), (0 : Int)), ((1 : Int), (0 : Int))]], [[]]] := by
  decide

/-! ## Phase 3 relation by relation -/

theorem get?_modifyAt {α : Type} (f : α → α) : ∀ (n : Nat) (l : List α) (m : Nat),
    (modifyAt f n l).get? m = if m = n then (l.get? m).map f else l.get? m := by
  intro n l
  induction l generalizing n with
  | nil => intro m; cases n <;> simp [modifyAt]
  | cons a l ih =>
    intro m
    cases n with
    | zero =>
      cases m with
      | zero => simp [modifyAt]
      | succ m => simp [modifyAt]
    | succ n =>
      cases m with
      | zero => simp [modifyAt]
      | succ m =>
        simp only [modifyAt, List.get?_cons_succ, ih n m, Nat.succ.injEq]

theorem getPort_setPartnerPort (data : List (String × List Port)) (p : PartnerPtr)
    (name : String) (p2 : PartnerPtr) :
    getPort (setPartnerPort data p name) p2 =
      if p2.i = p.i ∧ p2.j = p.j then
        (getPort data p2).map (fun port =>
          { port with
            with_whom_is_it_communicating :=
              modifyAt (fun partner => { partner with port := name }) p.k
                port.with_whom_is_it_communicating })
      else getPort data p2 := by
  unfold getPort setPartnerPort
  rw [get?_modifyAt]
  by_cases hi : p2.i = p.i
  · rw [if_pos hi]
    cases hd : data.get? p2.i with
    | none => simp
    | some inst_pair =>
      simp only [Option.map_some', get?_modifyAt]
      by_cases hj : p2.j = p.j
      · rw [if_pos hj, if_pos ⟨hi, hj⟩]
      · rw [if_neg hj, if_neg (fun h => hj h.2)]
  · rw [if_neg hi, if_neg (fun h => hi h.1)]

theorem localName_setPartnerPort (data : List (String × List Port)) (p : PartnerPtr)
    (name : String) (p2 : PartnerPtr) :
    localName (setPartnerPort data p name) p2 = localName data p2 := by
  unfold localName
  rw [getPort_setPartnerPort]
  by_cases h : p2.i = p.i ∧ p2.j = p.j
  · rw [if_pos h]
    cases getPort data p2 <;> rfl
  · rw [if_neg h]

theorem getPartner_setPartnerPort (data : List (String × List Port)) (p : PartnerPtr)
    (name : String) (p2 : PartnerPtr) :
    getPartner (setPartnerPort data p name) p2 =
      if p2 = p then (getPartner data p2).map (fun q => { q with port := name })
      else getPartner data p2 := by
  unfold getPartner
  rw [getPort_setPartnerPort]
  by_cases hij : p2.i = p.i ∧ p2.j = p.j
  · rw [if_pos hij]
    cases hg : getPort data p2 with
    | none =>
      simp only [Option.map_none']
      split <;> rfl
    | some port =>
      simp only [Option.map_some', get?_modifyAt]
      by_cases hk : p2.k = p.k
      · have hpp : p2 = p := by
          cases p2; cases p
          simp only at hij hk
          simp only [PartnerPtr.mk.injEq]
          exact ⟨hij.1, hij.2, hk⟩
        rw [if_pos hk, if_pos hpp]
      · have hpp : ¬ p2 = p := fun h => hk (by rw [h])
        rw [if_neg hk, if_neg hpp]
  · have hpp : ¬ p2 = p := fun h => hij (by rw [h]; exact ⟨rfl, rfl⟩)
    rw [if_neg hij, if_neg hpp]

theorem getPartner_some_getPort (data : List (String × List Port)) (p : PartnerPtr)
    (q : CommunicationPartner) (h : getPartner data p = some q) :
    ∃ port, getPort data p = some port := by
  unfold getPartner at h
  cases hg : getPort data p with
  | none => rw [hg] at h; exact absurd h (by simp)
  | some port => exact ⟨port, rfl⟩

theorem renameOne_spec (dn : List String) (data : List (String × List Port))
    (p : PartnerPtr) :
    (∀ p2, localName (renameOne dn data p) p2 = localName data p2) ∧
    (∀ p2, p2 ≠ p → getPartner (renameOne dn data p) p2 = getPartner data p2) ∧
    getPartner (renameOne dn data p) p = renameAt dn data p := by
  unfold renameOne renameAt
  cases hq : getPartner data p with
  | none => exact ⟨fun _ => rfl, fun _ _ => rfl, by rw [hq]; rfl⟩
  | some q =>
    obtain ⟨port, hport⟩ := getPartner_some_getPort data p q hq
    rw [hport]
    simp only [Option.map_some']
    by_cases hin : q.port ∈ dn
    · rw [if_pos hin, if_pos hin]
      refine ⟨fun p2 => localName_setPartnerPort _ _ _ _, ?_, ?_⟩
      · intro p2 hne
        rw [getPartner_setPartnerPort, if_neg hne]
      · rw [getPartner_setPartnerPort, if_pos rfl, hq]
        simp only [Option.map_some', localName, hport]
    · rw [if_neg hin, if_neg hin]
      exact ⟨fun _ => rfl, fun _ _ => rfl, hq⟩

theorem renameAt_congr (dn : List String) (d1 d2 : List (String × List Port))
    (p : PartnerPtr) (h1 : getPartner d1 p = getPartner d2 p)
    (h2 : localName d1 p = localName d2 p) : renameAt dn d1 p = renameAt dn d2 p := by
  unfold renameAt
  rw [h1, h2]

theorem renameLoop_spec (dn : List String) : ∀ (ps : List PartnerPtr)
    (data : List (String × List Port)),
    (∀ p2, localName (renameLoop dn ps data) p2 = localName data p2) ∧
    (∀ p2, p2 ∉ ps → getPartner (renameLoop dn ps data) p2 = getPartner data p2) ∧
    (ps.Nodup → ∀ p2 ∈ ps, getPartner (renameLoop dn ps data) p2 = renameAt dn data p2) := by
  intro ps
  induction ps with
  | nil =>
    intro data
    exact ⟨fun _ => rfl, fun _ _ => rfl, fun _ p2 h => absurd h (List.not_mem_nil _)⟩
  | cons p rest ih =>
    intro data
    have hstep : renameLoop dn (p :: rest) data = renameLoop dn rest (renameOne dn data p) := rfl
    rw [hstep]
    obtain ⟨a1, a2, a3⟩ := renameOne_spec dn data p
    obtain ⟨b1, b2, b3⟩ := ih (renameOne dn data p)
    refine ⟨fun p2 => (b1 p2).trans (a1 p2), ?_, ?_⟩
    · intro p2 hp2
      simp only [List.mem_cons, not_or] at hp2
      rw [b2 p2 hp2.2, a2 p2 hp2.1]
    · intro hnd p2 hp2
      rw [List.nodup_cons] at hnd
      simp only [List.mem_cons] at hp2
      rcases hp2 with rfl | hp2
      · rw [b2 p2 hnd.1, a3]
      · have hne : p2 ≠ p := fun h => hnd.1 (h ▸ hp2)
        rw [b3 hnd.2 p2 hp2]
        exact renameAt_congr dn _ _ p2 (a2 p2 hne) (a1 p2)

theorem ptrName_of_getPartner (data : List (String × List Port)) (p : PartnerPtr)
    (q : CommunicationPartner) (h : getPartner data p = some q) : ptrName data p = q.port := by
  unfold ptrName
  rw [h]

theorem disambiguateLink_spec (data : List (String × List Port)) (g : List PartnerPtr) :
    (∀ p2, localName (disambiguateLink data g) p2 = localName data p2) ∧
    (∀ p2, p2 ∉ g → getPartner (disambiguateLink data g) p2 = getPartner data p2) ∧
    (g.Nodup → ∀ p2 ∈ g, getPartner (disambiguateLink data g) p2 = renamedIn data g p2) := by
  have hkeep : ∀ p2 ∈ g, (∀ n ∈ g.map (ptrName data), ¬ 1 < (g.map (ptrName data)).count n) →
      getPartner data p2 = renamedIn data g p2 := by
    intro p2 hp2 hall
    unfold renamedIn
    cases hq : getPartner data p2 with
    | none => rfl
    | some q =>
      simp only [Option.map_some']
      have hmem : q.port ∈ g.map (ptrName data) :=
        List.mem_map.2 ⟨p2, hp2, ptrName_of_getPartner data p2 q hq⟩
      rw [if_neg (hall _ hmem)]
  unfold disambiguateLink
  by_cases hlen : g.length ≤ 1
  · rw [if_pos hlen]
    refine ⟨fun _ => rfl, fun _ _ => rfl, ?_⟩
    intro _ p2 hp2
    apply hkeep p2 hp2
    intro n _ hc
    have := List.count_le_length n (g.map (ptrName data))
    rw [List.length_map] at this
    omega
  · rw [if_neg hlen]
    simp only
    by_cases hemp : (List.filter (fun n => decide (List.count n (g.map (ptrName data)) > 1))
        (g.map (ptrName data))).isEmpty = true
    · rw [if_pos hemp]
      refine ⟨fun _ => rfl, fun _ _ => rfl, ?_⟩
      intro _ p2 hp2
      apply hkeep p2 hp2
      intro n hn hc
      rw [List.isEmpty_iff] at hemp
      have : n ∈ List.filter (fun n => decide (List.count n (g.map (ptrName data)) > 1))
          (g.map (ptrName data)) := by
        rw [List.mem_filter]
        exact ⟨hn, by simpa using hc⟩
      rw [hemp] at this
      exact absurd this (List.not_mem_nil _)
    · rw [if_neg hemp]
      obtain ⟨b1, b2, b3⟩ := renameLoop_spec
        (List.filter (fun n => decide (List.count n (g.map (ptrName data)) > 1))
          (g.map (ptrName data))) g data
      refine ⟨b1, b2, ?_⟩
      intro hnd p2 hp2
      rw [b3 hnd p2 hp2]
      unfold renameAt renamedIn
      cases hq : getPartner data p2 with
      | none => rfl
      | some q =>
        simp only [Option.map_some']
        have hmem : q.port ∈ g.map (ptrName data) :=
          List.mem_map.2 ⟨p2, hp2, ptrName_of_getPartner data p2 q hq⟩
        by_cases hc : 1 < (g.map (ptrName data)).count q.port
        · rw [if_pos hc, if_pos]
          rw [List.mem_filter]
          exact ⟨hmem, by simpa using hc⟩
        · rw [if_neg hc, if_neg]
          rw [List.mem_filter]
          intro h
          exact hc (by simpa using h.2)

theorem renamedIn_congr (d1 d2 : List (String × List Port)) (g : List PartnerPtr)
    (p : PartnerPtr) (h1 : ∀ p2 ∈ g, getPartner d1 p2 = getPartner d2 p2)
    (h2 : localName d1 p = localName d2 p) (hp : p ∈ g) :
    renamedIn d1 g p = renamedIn d2 g p := by
  have hn : g.map (ptrName d1) = g.map (ptrName d2) := by
    apply List.map_congr_left
    intro p2 hp2
    unfold ptrName
    rw [h1 p2 hp2]
  unfold renamedIn
  rw [h1 p hp, hn, h2]

/-- Disambiguating pairwise disjoint groups one after the other renames in each group as
if it were alone, and touches nothing outside the groups. -/
theorem foldl_disambiguateLink : ∀ (gs : List (List PartnerPtr))
    (data : List (String × List Port)),
    (∀ g ∈ gs, g.Nodup) → gs.Pairwise (fun g1 g2 => ∀ p ∈ g1, p ∉ g2) →
    (∀ p2, localName (gs.foldl disambiguateLink data) p2 = localName data p2) ∧
    (∀ p2, (∀ g ∈ gs, p2 ∉ g) →
      getPartner (gs.foldl disambiguateLink data) p2 = getPartner data p2) ∧
    (∀ g ∈ gs, ∀ p2 ∈ g,
      getPartner (gs.foldl disambiguateLink data) p2 = renamedIn data g p2) := by
  intro gs
  induction gs with
  | nil =>
    intro data _ _
    exact ⟨fun _ => rfl, fun _ _ => rfl, fun g hg => absurd hg (List.not_mem_nil _)⟩
  | cons g0 gs ih =>
    intro data hnd hpw
    rw [List.foldl_cons]
    rw [List.pairwise_cons] at hpw
    obtain ⟨a1, a2, a3⟩ := disambiguateLink_spec data g0
    obtain ⟨b1, b2, b3⟩ := ih (disambiguateLink data g0)
      (fun g hg => hnd g (List.mem_cons_of_mem _ hg)) hpw.2
    refine ⟨fun p2 => (b1 p2).trans (a1 p2), ?_, ?_⟩
    · intro p2 hout
      rw [b2 p2 (fun g hg => hout g (List.mem_cons_of_mem _ hg)),
        a2 p2 (hout g0 (List.mem_cons_self _ _))]
    · intro g hg p2 hp2
      simp only [List.mem_cons] at hg
      rcases hg with rfl | hg
      · rw [b2 p2 (fun g2 hg2 => hpw.1 g2 hg2 p2 hp2)]
        exact a3 (hnd g (List.mem_cons_self _ _)) p2 hp2
      · rw [b3 g hg p2 hp2]
        have hdis : ∀ p3 ∈ g, p3 ∉ g0 := fun p3 hp3 h0 => hpw.1 g hg p3 h0 hp3
        exact renamedIn_congr _ _ g p2 (fun p3 hp3 => a2 p3 (hdis p3 hp3)) (a1 p2) hp2

/-! ## The map `comm_links` -/

theorem pairLess_irrefl (x : Int × Int) : pairLess x x = false := by
  simp [pairLess]

theorem pairLess_trans (x y z : Int × Int) (h1 : pairLess x y = true)
    (h2 : pairLess y z = true) : pairLess x z = true := by
  simp only [pairLess, Bool.or_eq_true, Bool.and_eq_true, decide_eq_true_eq] at h1 h2 ⊢
  omega

theorem pairLess_total (x y : Int × Int) (hne : x ≠ y) (h : pairLess x y = false) :
    pairLess y x = true := by
  have hxy : ¬ (x.1 = y.1 ∧ x.2 = y.2) := fun h => hne (Prod.ext h.1 h.2)
  simp only [pairLess, Bool.or_eq_false_iff, Bool.and_eq_false_iff, decide_eq_false_iff_not,
    Bool.or_eq_true, Bool.and_eq_true, decide_eq_true_eq] at h ⊢
  omega

theorem mem_linksPush (key : Int × Int) (ptr : PartnerPtr) :
    ∀ (links : List ((Int × Int) × List PartnerPtr)) (l : (Int × Int) × List PartnerPtr),
      l ∈ linksPush key ptr links → (l.1 = key ∧ l.2 ≠ []) ∨ l ∈ links := by
  intro links
  induction links with
  | nil =>
    intro l hl
    simp only [linksPush, List.mem_singleton] at hl
    subst hl
    exact Or.inl ⟨rfl, by simp⟩
  | cons l0 rest ih =>
    intro l hl
    obtain ⟨k1, ps⟩ := l0
    simp only [linksPush] at hl
    split at hl
    · rename_i hk
      simp only [List.mem_cons] at hl
      rcases hl with rfl | hl
      · exact Or.inl ⟨hk.symm, by simp⟩
      · exact Or.inr (List.mem_cons_of_mem _ hl)
    · split at hl
      · simp only [List.mem_cons] at hl
        rcases hl with rfl | rfl | hl
        · exact Or.inl ⟨rfl, by simp⟩
        · exact Or.inr (List.mem_cons_self _ _)
        · exact Or.inr (List.mem_cons_of_mem _ hl)
      · simp only [List.mem_cons] at hl
        rcases hl with rfl | hl
        · exact Or.inr (List.mem_cons_self _ _)
        · rcases ih l hl with h | h
          · exact Or.inl h
          · exact Or.inr (List.mem_cons_of_mem _ h)

theorem linksPush_ok (key : Int × Int) (ptr : PartnerPtr) :
    ∀ (links : List ((Int × Int) × List PartnerPtr)), LinksOK links →
      LinksOK (linksPush key ptr links) := by
  intro links
  induction links with
  | nil =>
    intro _
    exact ⟨List.pairwise_singleton _ _, fun l hl => by
      simp only [linksPush, List.mem_singleton] at hl
      subst hl
      simp⟩
  | cons l0 rest ih =>
    intro hok
    obtain ⟨k1, ps⟩ := l0
    obtain ⟨hs, hne⟩ := hok
    rw [List.pairwise_cons] at hs
    refine ⟨?_, ?_⟩
    · simp only [linksPush]
      split
      · rw [List.pairwise_cons]
        exact ⟨hs.1, hs.2⟩
      · rename_i hk
        split
        · rename_i hlt
          rw [List.pairwise_cons, List.pairwise_cons]
          refine ⟨?_, hs.1, hs.2⟩
          intro l hl
          simp only [List.mem_cons] at hl
          rcases hl with rfl | hl
          · exact hlt
          · exact pairLess_trans _ _ _ hlt (hs.1 l hl)
        · rename_i hlt
          rw [List.pairwise_cons]
          refine ⟨?_, (ih ⟨hs.2, fun l hl => hne l (List.mem_cons_of_mem _ hl)⟩).1⟩
          intro l hl
          rcases mem_linksPush key ptr rest l hl with h | h
          · rw [h.1]
            exact pairLess_total key k1 hk (by simpa using hlt)
          · exact hs.1 l h
    · intro l hl
      rcases mem_linksPush key ptr _ l hl with h | h
      · exact h.2
      · exact hne l h

theorem linksFind_of_lt (key : Int × Int) :
    ∀ (links : List ((Int × Int) × List PartnerPtr)),
      (∀ l ∈ links, pairLess key l.1 = true) → linksFind links key = [] := by
  intro links h
  unfold linksFind
  have : links.find? (fun l => decide (l.1 = key)) = none := by
    rw [List.find?_eq_none]
    intro l hl
    simp only [decide_eq_true_eq]
    intro he
    have := h l hl
    rw [he, pairLess_irrefl] at this
    exact absurd this (by decide)
  rw [this]

theorem linksFind_linksPush (key : Int × Int) (ptr : PartnerPtr) (k : Int × Int) :
    ∀ (links : List ((Int × Int) × List PartnerPtr)), LinksOK links →
      linksFind (linksPush key ptr links) k =
        if k = key then linksFind links k ++ [ptr] else linksFind links k := by
  intro links
  induction links with
  | nil =>
    intro _
    by_cases hk : k = key
    · subst hk
      simp [linksPush, linksFind]
    · have hk2 : ¬ key = k := fun h => hk h.symm
      simp [linksPush, linksFind, hk, hk2]
  | cons l0 rest ih =>
    intro hok
    obtain ⟨k1, ps⟩ := l0
    obtain ⟨hs, hne⟩ := hok
    rw [List.pairwise_cons] at hs
    simp only [linksPush]
    by_cases h1 : key = k1
    · rw [if_pos h1]
      subst h1
      by_cases hk : k = key
      · subst hk
        simp [linksFind]
      · have hk2 : ¬ key = k := fun h => hk h.symm
        simp [linksFind, hk, hk2, List.find?_cons]
    · rw [if_neg h1]
      by_cases hlt : pairLess key k1 = true
      · rw [if_pos hlt]
        by_cases hk : k = key
        · subst hk
          have hnil : linksFind ((k1, ps) :: rest) k = [] := by
            apply linksFind_of_lt
            intro l hl
            simp only [List.mem_cons] at hl
            rcases hl with rfl | hl
            · exact hlt
            · exact pairLess_trans _ _ _ hlt (hs.1 l hl)
          rw [if_pos rfl, hnil]
          simp [linksFind]
        · have hk2 : ¬ key = k := fun h => hk h.symm
          rw [if_neg hk]
          simp [linksFind, hk2, List.find?_cons]
      · rw [if_neg hlt]
        have hrec := ih ⟨hs.2, fun l hl => hne l (List.mem_cons_of_mem _ hl)⟩
        by_cases hk1 : k1 = k
        · have hk : ¬ k = key := fun h => h1 (h ▸ hk1.symm)
          rw [if_neg hk]
          simp [linksFind, hk1, List.find?_cons]
        · unfold linksFind at hrec ⊢
          simp only [List.find?_cons, hk1, decide_False]
          exact hrec

theorem linksFind_mem : ∀ (links : List ((Int × Int) × List PartnerPtr)), LinksOK links →
    ∀ l ∈ links, linksFind links l.1 = l.2 := by
  intro links
  induction links with
  | nil => intro _ l hl; exact absurd hl (List.not_mem_nil _)
  | cons l0 rest ih =>
    intro hok l hl
    obtain ⟨hs, hne⟩ := hok
    rw [List.pairwise_cons] at hs
    simp only [List.mem_cons] at hl
    rcases hl with rfl | hl
    · simp [linksFind]
    · have hk : ¬ l0.1 = l.1 := by
        intro he
        have := hs.1 l hl
        rw [he, pairLess_irrefl] at this
        exact absurd this (by decide)
      have := ih ⟨hs.2, fun l hl => hne l (List.mem_cons_of_mem _ hl)⟩ l hl
      unfold linksFind at this ⊢
      simp only [List.find?_cons, hk, decide_False]
      exact this

theorem linksFind_ne_nil (links : List ((Int × Int) × List PartnerPtr)) (k : Int × Int)
    (h : linksFind links k ≠ []) : ∃ l ∈ links, l.1 = k ∧ l.2 = linksFind links k := by
  unfold linksFind at h ⊢
  cases hf : links.find? (fun l => decide (l.1 = k)) with
  | none => rw [hf] at h; exact absurd rfl h
  | some l =>
    have h1 := List.find?_some hf
    simp only [decide_eq_true_eq] at h1
    exact ⟨l, List.mem_of_find?_eq_some hf, h1, rfl⟩

theorem foldl_linksPush : ∀ (rs : List ((Int × Int) × PartnerPtr))
    (links : List ((Int × Int) × List PartnerPtr)), LinksOK links →
    LinksOK (rs.foldl (fun links r => linksPush r.1 r.2 links) links) ∧
    ∀ k, linksFind (rs.foldl (fun links r => linksPush r.1 r.2 links) links) k =
      linksFind links k ++ (rs.filter (fun r => decide (r.1 = k))).map (fun r => r.2) := by
  intro rs
  induction rs with
  | nil => intro links hok; exact ⟨hok, fun k => by simp⟩
  | cons r rs ih =>
    intro links hok
    rw [List.foldl_cons]
    obtain ⟨h1, h2⟩ := ih (linksPush r.1 r.2 links) (linksPush_ok _ _ _ hok)
    refine ⟨h1, ?_⟩
    intro k
    rw [h2 k, linksFind_linksPush _ _ _ _ hok]
    by_cases hk : k = r.1
    · subst hk
      simp [List.filter_cons]
    · have hk2 : ¬ r.1 = k := fun h => hk h.symm
      simp [List.filter_cons, hk, hk2]

theorem buildLinks_spec (data : List (String × List Port)) :
    LinksOK (buildLinks data) ∧
    ∀ k, linksFind (buildLinks data) k = channelGroup data k := by
  unfold buildLinks channelGroup
  have h := foldl_linksPush (allRelations data) []
    ⟨List.Pairwise.nil, fun l hl => absurd hl (List.not_mem_nil _)⟩
  refine ⟨h.1, ?_⟩
  intro k
  rw [h.2 k]
  simp [linksFind]

theorem nodup_enum_flatMap {α β : Type} (l : List α) (f : Nat × α → List β) (idx : β → Nat)
    (h1 : ∀ x ∈ l.enum, (f x).Nodup) (h2 : ∀ x ∈ l.enum, ∀ b ∈ f x, idx b = x.1) :
    (l.enum.flatMap f).Nodup := by
  rw [List.nodup_flatMap]
  refine ⟨h1, ?_⟩
  have hfst : l.enum.Pairwise (fun a b => a.1 ≠ b.1) := by
    have := List.nodup_enum_map_fst l
    unfold List.Nodup at this
    rw [List.pairwise_map] at this
    exact this
  refine List.Pairwise.imp_of_mem ?_ hfst
  intro a b ha hb hne
  intro x hxa hxb
  exact hne ((h2 a ha x hxa).symm.trans (h2 b hb x hxb))

theorem allRelations_nodup (data : List (String × List Port)) :
    ((allRelations data).map (fun r => r.2)).Nodup := by
  unfold allRelations
  rw [List.map_flatMap]
  apply nodup_enum_flatMap data _ PartnerPtr.i
  · intro ie _
    rw [List.map_flatMap]
    apply nodup_enum_flatMap ie.2.2 _ PartnerPtr.j
    · intro jp _
      rw [List.map_map, List.map_eq_flatMap]
      apply nodup_enum_flatMap jp.2.with_whom_is_it_communicating _ PartnerPtr.k
      · intro kq _
        exact List.nodup_singleton _
      · intro kq _ b hb
        simp only [Function.comp, List.mem_singleton] at hb
        rw [hb]
    · intro jp _ b hb
      simp only [List.mem_map] at hb
      obtain ⟨r, hr, rfl⟩ := hb
      obtain ⟨kq, _, rfl⟩ := hr
      rfl
  · intro ie _ b hb
    simp only [List.mem_map, List.mem_flatMap] at hb
    obtain ⟨r, ⟨jp, _, hr⟩, rfl⟩ := hb
    obtain ⟨kq, _, rfl⟩ := hr
    rfl

theorem mem_allRelations (data : List (String × List Port)) (key : Int × Int)
    (p : PartnerPtr) :
    (key, p) ∈ allRelations data ↔
      ∃ port partner, getPort data p = some port ∧ getPartner data p = some partner ∧
        key = linkKey port partner := by
  unfold allRelations
  simp only [List.mem_flatMap, List.mem_map]
  constructor
  · rintro ⟨ie, hie, jp, hjp, kq, hkq, heq⟩
    rw [List.mem_enum_iff_getElem?] at hie hjp hkq
    simp only [Prod.mk.injEq] at heq
    obtain ⟨hk, hp⟩ := heq
    subst hp
    have hport : getPort data ⟨ie.1, jp.1, kq.1⟩ = some jp.2 := by
      simp only [getPort, List.get?_eq_getElem?, hie, hjp]
    refine ⟨jp.2, kq.2, hport, ?_, hk.symm⟩
    simp only [getPartner, hport, List.get?_eq_getElem?, hkq]
  · rintro ⟨port, partner, hport, hpartner, hk⟩
    have hpartner2 := hpartner
    unfold getPartner at hpartner2
    rw [hport] at hpartner2
    simp only [List.get?_eq_getElem?] at hpartner2
    unfold getPort at hport
    simp only [List.get?_eq_getElem?] at hport
    cases hd : data[p.i]? with
    | none => rw [hd] at hport; exact absurd hport (by simp)
    | some inst_pair =>
      rw [hd] at hport
      simp only at hport
      refine ⟨(p.i, inst_pair), ?_, (p.j, port), ?_, (p.k, partner), ?_, ?_⟩
      · rw [List.mem_enum_iff_getElem?]; exact hd
      · rw [List.mem_enum_iff_getElem?]; exact hport
      · rw [List.mem_enum_iff_getElem?]; exact hpartner2
      · rw [hk]

theorem mem_channelGroup (data : List (String × List Port)) (key : Int × Int)
    (p : PartnerPtr) : p ∈ channelGroup data key ↔ (key, p) ∈ allRelations data := by
  unfold channelGroup
  simp only [List.mem_map, List.mem_filter, decide_eq_true_eq]
  constructor
  · rintro ⟨r, ⟨hr, hk⟩, hp⟩
    have : r = (key, p) := Prod.ext hk hp
    rw [← this]
    exact hr
  · intro h
    exact ⟨(key, p), ⟨h, rfl⟩, rfl⟩

theorem channelGroup_nodup (data : List (String × List Port)) (key : Int × Int) :
    (channelGroup data key).Nodup := by
  unfold channelGroup
  exact List.Nodup.sublist (List.Sublist.map _ (List.filter_sublist _))
    (allRelations_nodup data)

theorem channelGroup_disjoint (data : List (String × List Port)) (k1 k2 : Int × Int)
    (hne : k1 ≠ k2) : ∀ p ∈ channelGroup data k1, p ∉ channelGroup data k2 := by
  intro p h1 h2
  rw [mem_channelGroup, mem_allRelations] at h1 h2
  obtain ⟨port1, partner1, a1, a2, a3⟩ := h1
  obtain ⟨port2, partner2, b1, b2, b3⟩ := h2
  rw [a1] at b1
  rw [a2] at b2
  simp only [Option.some.injEq] at b1 b2
  subst b1 b2
  exact hne (a3.trans b3.symm)

/-! ## Claims on name disambiguation and wire chains -/

/-- Phase 3 relation by relation: a relation of the report is renamed exactly when its
remote port name occurs more than once in its channel group. -/
theorem phase3_spec (data : List (String × List Port)) (p : PartnerPtr) (port : Port)
    (partner : CommunicationPartner) (hport : getPort data p = some port)
    (hpartner : getPartner data p = some partner) :
    getPartner (phase3 data) p =
      renamedIn data (channelGroup data (linkKey port partner)) p := by
  obtain ⟨hok, hfind⟩ := buildLinks_spec data
  have hgroup : ∀ l ∈ buildLinks data, l.2 = channelGroup data l.1 := by
    intro l hl
    rw [← linksFind_mem _ hok l hl, hfind]
  have hfold : phase3 data = ((buildLinks data).map (fun l => l.2)).foldl disambiguateLink data := by
    unfold phase3
    rw [List.foldl_map]
  have hnd : ∀ g ∈ (buildLinks data).map (fun l => l.2), g.Nodup := by
    intro g hg
    rw [List.mem_map] at hg
    obtain ⟨l, hl, rfl⟩ := hg
    rw [hgroup l hl]
    exact channelGroup_nodup data l.1
  have hpw : ((buildLinks data).map (fun l => l.2)).Pairwise
      (fun g1 g2 => ∀ p ∈ g1, p ∉ g2) := by
    rw [List.pairwise_map]
    refine List.Pairwise.imp_of_mem ?_ hok.1
    intro a b ha hb hlt
    have hne : a.1 ≠ b.1 := by
      intro he
      rw [he, pairLess_irrefl] at hlt
      exact absurd hlt (by decide)
    rw [hgroup a ha, hgroup b hb]
    exact channelGroup_disjoint data a.1 b.1 hne
  have hmem : p ∈ channelGroup data (linkKey port partner) := by
    rw [mem_channelGroup, mem_allRelations]
    exact ⟨port, partner, hport, hpartner, rfl⟩
  have hne : linksFind (buildLinks data) (linkKey port partner) ≠ [] := by
    rw [hfind]
    exact List.ne_nil_of_mem hmem
  obtain ⟨l, hl, _, hl2⟩ := linksFind_ne_nil _ _ hne
  rw [hfind] at hl2
  rw [hfold]
  have := (foldl_disambiguateLink _ data hnd hpw).2.2 l.2 (List.mem_map.2 ⟨l, hl, rfl⟩) p
    (by rw [hl2]; exact hmem)
  rw [this, hl2]

/-- C11: in Phase 3 of `analyze()`, which is `phase3` applied to the report of the main
loop, every partner relation of the report (`p` points to `partner` in the list of `port`)
whose remote port name before disambiguation is used by more than one relation of its
channel group (same sender and receiver rank) is renamed to
`<old remote port name>_<local port name>`, and every relation whose name occurs once in
its group keeps it; nothing else of the partner changes. -/
theorem C11_disambiguation (data : List (String × List Port)) (p : PartnerPtr) (port : Port)
    (partner : CommunicationPartner) (hport : getPort data p = some port)
    (hpartner : getPartner data p = some partner) :
    getPartner (phase3 data) p =
      some (if 1 < nameCount data (linkKey port partner) partner.port then
        { partner with port := partner.port ++ "_" ++ port.name }
      else partner) := by
  rw [phase3_spec data p port partner hport hpartner]
  unfold renamedIn nameCount
  rw [hpartner]
  simp only [Option.map_some', localName, hport]

/-- C11 (witness): in `exTwoData` the channel from the system (rank 0) to `p1` (rank 1)
holds two relations both named `data`, with local ports `in0` and `in1`; the first becomes
`data_in0` (and the second `data_in1`), while `in0` of `p2`, alone with that name in its
channel, is kept. -/
theorem C11_disambiguation_witness :
    getPort exTwoDataMain ⟨0, 0, 0⟩ = some exPortIn0 ∧
    getPartner exTwoDataMain ⟨0, 0, 0⟩ = some ⟨"u1", "data", "system", 0⟩ ∧
    getPartner (phase3 exTwoDataMain) ⟨0, 0, 0⟩ =
      some (if 1 < nameCount exTwoDataMain
          (linkKey exPortIn0 ⟨"u1", "data", "system", 0⟩) "data" then
        { inst := "u1", port := "data" ++ "_" ++ exPortIn0.name, mpi_process := "system",
          mpi_rank := 0 }
      else ⟨"u1", "data", "system", 0⟩) ∧
    nameCount exTwoDataMain (0, 1) "data" = 2 ∧
    (analyzeReport exTwoData ["p1", "p2"]).map
        (fun e => (e.1, e.2.map (fun q => (q.name, q.with_whom_is_it_communicating.map
          (fun r => (r.inst, r.port)))))) =
      [("p1", [("in0", [("u1", "data_in0")]), ("in1", [("u2", "data_in1")])]),
       ("p2", [("in0", [("u1", "data")]), ("in1", [])])] :=
  ⟨by decide, by decide,
    C11_disambiguation exTwoDataMain ⟨0, 0, 0⟩ exPortIn0 ⟨"u1", "data", "system", 0⟩
      (by decide) (by decide),
    by decide, by decide⟩

theorem resolveWireChain_hops (m_wireAliasMap : String → Option String) :
    ∀ (maxDepth : Nat) (wireName : String) (visited : List String),
      ∃ n, n ≤ maxDepth ∧
        followAlias m_wireAliasMap n wireName =
          some (resolveWireChain m_wireAliasMap maxDepth wireName visited) := by
  intro maxDepth
  induction maxDepth with
  | zero => intro wireName visited; exact ⟨0, Nat.le_refl _, rfl⟩
  | succ d ih =>
    intro wireName visited
    unfold resolveWireChain
    by_cases hv : wireName ∈ visited
    · rw [if_pos hv]
      exact ⟨0, Nat.zero_le _, rfl⟩
    · rw [if_neg hv]
      cases hm : m_wireAliasMap wireName with
      | none => exact ⟨0, Nat.zero_le _, rfl⟩
      | some rhs =>
        obtain ⟨n, hn, hf⟩ := ih rhs (wireName :: visited)
        refine ⟨n + 1, Nat.succ_le_succ hn, ?_⟩
        simp only [followAlias, hm]
        exact hf

/-- C12: for every alias map, cyclic ones included, every starting net and every set of
nets already visited, `resolveWireChain` with the default depth 5 returns a net (the
function is total), and that net is reached from the starting net by following `n` alias
edges for some `n ≤ 5`; on the cycle `a → b → a` it returns `a` from `a`. -/
theorem C12_resolveWireChain_bounded (m_wireAliasMap : String → Option String)
    (wireName : String) (visited : List String) :
    (∃ n, n ≤ 5 ∧
      followAlias m_wireAliasMap n wireName =
        some (resolveWireChain m_wireAliasMap 5 wireName visited)) ∧
    resolveWireChain exAliasCycle 5 "a" [] = "a" ∧
    followAlias exAliasCycle 2 "a" = some "a" :=
  ⟨resolveWireChain_hops m_wireAliasMap 5 wireName visited, by decide, by decide⟩

theorem mem_insertions {α : Type} (x : α) : ∀ (a b : List α),
    a ++ x :: b ∈ insertions x (a ++ b) := by
  intro a
  induction a with
  | nil =>
    intro b
    cases b with
    | nil => simp [insertions]
    | cons y ys => simp [insertions]
  | cons y a ih =>
    intro b
    simp only [List.cons_append, insertions, List.mem_cons, List.mem_map]
    exact Or.inr ⟨_, ih b, rfl⟩

theorem mem_orderings {α : Type} : ∀ (l l2 : List α), l2.Perm l → l2 ∈ orderings l := by
  intro l
  induction l with
  | nil =>
    intro l2 h
    rw [List.Perm.eq_nil h]
    simp [orderings]
  | cons x xs ih =>
    intro l2 h
    have hx : x ∈ l2 := (List.Perm.mem_iff h).2 (List.mem_cons_self _ _)
    obtain ⟨a, b, rfl⟩ := List.append_of_mem hx
    have h2 : (a ++ b).Perm xs :=
      List.Perm.cons_inv ((List.perm_middle.symm).trans h)
    simp only [orderings, List.mem_flatMap]
    exact ⟨a ++ b, ih _ h2, mem_insertions x a b⟩

/-- C13: in the parent `exChain` (partitions `p1` and `p2`; the Input port `x` of `p1` on
net `x`, the Output port `y` of `p2` on net `y`, and `assign w = y; assign x = w;`), with
the four statements of the parent body in any order, `analyze()` reports for `p1.x`
exactly one partner, remote instance `p2` and remote port `y`, classified `"P2P"`, on the
resolved net `y`; net `w` is no partner. -/
theorem C13_chain_scenario (body : List AstStmt) (h : body.Perm exChain.body) :
    mapFind (analyzeReport { exChain with body := body } ["p1", "p2"]) "p1" =
      some [exChainPort, exChainPortY] ∧
    exChainPort.name = "x" ∧
    exChainPort.with_whom_is_it_communicating = [⟨"p2", "y", "p2", 2⟩] ∧
    exChainPort.comm_type = "P2P" := by
  have hall : ∀ b ∈ orderings exChain.body,
      mapFind (analyzeReport { exChain with body := b } ["p1", "p2"]) "p1" =
        some [exChainPort, exChainPortY] := by
    decide
  exact ⟨hall body (mem_orderings _ _ h), rfl, rfl, rfl⟩

/-- C13 (witness): the statements in the order in which `exChain` lists them. -/
theorem C13_chain_scenario_witness :
    mapFind (analyzeReport { exChain with body := exChain.body } ["p1", "p2"]) "p1" =
      some [exChainPort, exChainPortY] ∧
    exChainPort.name = "x" ∧
    exChainPort.with_whom_is_it_communicating = [⟨"p2", "y", "p2", 2⟩] ∧
    exChainPort.comm_type = "P2P" :=
  C13_chain_scenario exChain.body (List.Perm.refl _)

/-! ## Properties kept by every phase of `analyze()` -/

theorem setPartnerPort_keeps (P : String → Port → Prop) (hP : RenameStable P)
    (data : List (String × List Port)) (ptr : PartnerPtr) (name : String)
    (h : AllEntries P data) : AllEntries P (setPartnerPort data ptr name) := by
  intro e he p hp
  unfold setPartnerPort at he
  rcases mem_modifyAt _ _ _ _ he with h1 | ⟨e0, he0, rfl⟩
  · exact h e h1 p hp
  · simp only at hp
    rcases mem_modifyAt _ _ _ _ hp with h2 | ⟨p0, hp0, rfl⟩
    · exact h e0 he0 p h2
    · exact hP _ _ _ _ (h e0 he0 p0 hp0)

theorem renameLoop_keeps (P : String → Port → Prop) (hP : RenameStable P)
    (dups : List String) : ∀ (ptrs : List PartnerPtr) (data : List (String × List Port)),
    AllEntries P data → AllEntries P (renameLoop dups ptrs data) := by
  intro ptrs
  induction ptrs with
  | nil => intro data h; exact h
  | cons p rest ih =>
    intro data h
    simp only [renameLoop]
    apply ih
    cases getPartner data p with
    | none => exact h
    | some partner =>
      cases getPort data p with
      | none => exact h
      | some local_port =>
        simp only
        split
        · exact setPartnerPort_keeps P hP _ _ _ h
        · exact h

theorem phase3_keeps (P : String → Port → Prop) (hP : RenameStable P)
    (data : List (String × List Port)) (h : AllEntries P data) :
    AllEntries P (phase3 data) := by
  unfold phase3
  generalize buildLinks data = links
  induction links generalizing data with
  | nil => exact h
  | cons l links ih =>
    rw [List.foldl_cons]
    apply ih
    unfold disambiguateLink
    split
    · exact h
    · simp only
      split
      · exact h
      · exact renameLoop_keeps P hP _ _ _ h

theorem analyzeInstances_entries (a : PartitionPortAnalyzer) (P : String → Port → Prop)
    (Q : Port → Prop)
    (h : ∀ (inst : String) (p : Port) (m : String → List (String × String)), Q p →
      P inst (analyzePort a inst (p, m)).1) :
    ∀ (data : List (String × List Port)) (m : String → List (String × String)),
      AllPorts Q data → AllEntries P (analyzeInstances a data m).1 := by
  have hports : ∀ (inst : String) (ports : List Port) (m : String → List (String × String)),
      (∀ p ∈ ports, Q p) → ∀ p ∈ (analyzePorts a inst ports m).1, P inst p := by
    intro inst ports
    induction ports with
    | nil => intro m _ p hp; simp [analyzePorts] at hp
    | cons port rest ih =>
      intro m hq p hp
      simp only [analyzePorts, List.mem_cons] at hp
      rcases hp with rfl | hp
      · exact h _ _ _ (hq port (List.mem_cons_self _ _))
      · exact ih _ (fun x hx => hq x (List.mem_cons_of_mem _ hx)) p hp
  intro data
  induction data with
  | nil => intro m _ e he; simp [analyzeInstances] at he
  | cons inst_pair rest ih =>
    intro m hq e he p hp
    simp only [analyzeInstances, List.mem_cons] at he
    rcases he with rfl | he
    · exact hports _ _ _ (hq inst_pair (List.mem_cons_self _ _)) p hp
    · exact ih _ (fun x hx => hq x (List.mem_cons_of_mem _ hx)) e he p hp

theorem mem_mapInsert {V : Type} (k : String) (v : V) : ∀ (m : List (String × V))
    (e : String × V), e ∈ mapInsert k v m → e = (k, v) ∨ e ∈ m := by
  intro m
  induction m with
  | nil => intro e he; simp only [mapInsert, List.mem_singleton] at he; exact Or.inl he
  | cons e0 m ih =>
    intro e he
    obtain ⟨k1, v1⟩ := e0
    simp only [mapInsert] at he
    split at he
    · simp only [List.mem_cons] at he
      rcases he with h | h
      · exact Or.inl h
      · exact Or.inr (List.mem_cons_of_mem _ h)
    · split at he
      · simp only [List.mem_cons] at he
        rcases he with h | h | h
        · exact Or.inl h
        · exact Or.inr (h ▸ List.mem_cons_self _ _)
        · exact Or.inr (List.mem_cons_of_mem _ h)
      · simp only [List.mem_cons] at he
        rcases he with h | h
        · exact Or.inr (h ▸ List.mem_cons_self _ _)
        · rcases ih e h with h2 | h2
          · exact Or.inl h2
          · exact Or.inr (List.mem_cons_of_mem _ h2)

theorem gatherPartitionPins_ports (cellName : String) (partitionModule : AstNodeModule) :
    ∀ (pins : List AstPin) (acc : List Port × (String → List (String × String))),
      (gatherPartitionPins cellName partitionModule pins acc).1 =
        acc.1 ++ pins.map (fun pinp => (gatherPort partitionModule pinp).1) := by
  intro pins
  induction pins with
  | nil => intro acc; simp [gatherPartitionPins]
  | cons pinp rest ih =>
    intro acc
    obtain ⟨ports, m⟩ := acc
    simp only [gatherPartitionPins, ih, List.map_cons, List.append_assoc,
      List.singleton_append]

theorem recordAlias_data (a : PartitionPortAnalyzer) (lhsp rhsp : AstNodeExpr) :
    (recordAlias a lhsp rhsp).m_partitionData = a.m_partitionData ∧
      SameConfig a (recordAlias a lhsp rhsp) := by
  unfold recordAlias SameConfig
  split <;> exact ⟨rfl, rfl, rfl, rfl, rfl⟩

theorem visitAssignW_data (a : PartitionPortAnalyzer) (lhsp rhsp : AstNodeExpr) :
    (visitAssignW a lhsp rhsp).m_partitionData = a.m_partitionData ∧
      SameConfig a (visitAssignW a lhsp rhsp) := by
  have h := recordAlias_data a lhsp rhsp
  unfold SameConfig at h ⊢
  unfold visitAssignW
  simp only
  split <;> split <;> exact h

theorem visitCellPins_config (a : PartitionPortAnalyzer) (cellp : AstCellPins) :
    SameConfig a (visitCellPins a cellp) := by
  unfold visitCellPins SameConfig
  simp only
  split
  · cases cellp.modp <;> exact ⟨rfl, rfl, rfl, rfl⟩
  · cases cellp.modp <;> exact ⟨rfl, rfl, rfl, rfl⟩

theorem visitCellPins_gathered (a : PartitionPortAnalyzer) (cellp : AstCellPins)
    (h : AllPorts Gathered a.m_partitionData) :
    AllPorts Gathered (visitCellPins a cellp).m_partitionData := by
  unfold visitCellPins
  simp only
  split
  · cases cellp.modp <;> exact h
  · cases hm : cellp.modp with
    | none => exact h
    | some partitionModule =>
      simp only
      intro e he p hp
      rcases mem_mapInsert _ _ _ e he with rfl | he2
      · simp only [gatherPartitionPins_ports, List.nil_append, List.mem_map] at hp
        obtain ⟨pinp, _, rfl⟩ := hp
        exact ⟨partitionModule, pinp, rfl⟩
      · exact h e he2 p hp

theorem gatherStmt_config (a : PartitionPortAnalyzer) (s : AstStmt) :
    SameConfig a (gatherStmt a s) := by
  cases s with
  | assignW l r => exact (visitAssignW_data a l r).2
  | assign l r => exact (recordAlias_data a l r).2
  | assignDly l r => exact (recordAlias_data a l r).2
  | cell c => exact visitCellPins_config a c

theorem gatherStmt_gathered (a : PartitionPortAnalyzer) (s : AstStmt)
    (h : AllPorts Gathered a.m_partitionData) :
    AllPorts Gathered (gatherStmt a s).m_partitionData := by
  cases s with
  | assignW l r => simp only [gatherStmt]; rw [(visitAssignW_data a l r).1]; exact h
  | assign l r => simp only [gatherStmt]; rw [(recordAlias_data a l r).1]; exact h
  | assignDly l r => simp only [gatherStmt]; rw [(recordAlias_data a l r).1]; exact h
  | cell c => exact visitCellPins_gathered a c h

theorem foldl_gatherStmt (stmts : List AstStmt) : ∀ (a : PartitionPortAnalyzer),
    AllPorts Gathered a.m_partitionData →
    AllPorts Gathered (stmts.foldl gatherStmt a).m_partitionData ∧
      SameConfig a (stmts.foldl gatherStmt a) := by
  induction stmts with
  | nil => intro a h; exact ⟨h, rfl, rfl, rfl, rfl⟩
  | cons s rest ih =>
    intro a h
    rw [List.foldl_cons]
    obtain ⟨h1, h2⟩ := ih (gatherStmt a s) (gatherStmt_gathered a s h)
    have h3 := gatherStmt_config a s
    unfold SameConfig at h2 h3 ⊢
    exact ⟨h1, h2.1.trans h3.1, h2.2.1.trans h3.2.1, h2.2.2.1.trans h3.2.2.1,
      h2.2.2.2.trans h3.2.2.2⟩

theorem phase1_new (parentModule : ParentModule) (partitionInstances : List String) :
    AllPorts Gathered
        (phase1 (PartitionPortAnalyzer.new parentModule partitionInstances)).m_partitionData ∧
      SameConfig (PartitionPortAnalyzer.new parentModule partitionInstances)
        (phase1 (PartitionPortAnalyzer.new parentModule partitionInstances)) := by
  unfold phase1
  have h := foldl_gatherStmt
    (PartitionPortAnalyzer.new parentModule partitionInstances).m_parentModule.body
    { PartitionPortAnalyzer.new parentModule partitionInstances with
      m_wireToEndpoints :=
        gatherParentPorts
          (PartitionPortAnalyzer.new parentModule partitionInstances).m_parentModuleName
          (PartitionPortAnalyzer.new parentModule partitionInstances).m_parentModule.vars
          (PartitionPortAnalyzer.new parentModule partitionInstances).m_wireToEndpoints }
    (by intro e he; simp [PartitionPortAnalyzer.new] at he)
  exact h

/-- The shape of a gathered port record: no partner yet, and its connection type decides
its initial `active`. -/
theorem gathered_shape (p : Port) (h : Gathered p) :
    p.with_whom_is_it_communicating = [] ∧
    ((p.type = "wire" ∧ p.active = "idk") ∨ (p.type = "init" ∧ p.active = "No") ∨
      (p.type = "logic" ∧ p.active = "Yes")) := by
  obtain ⟨partitionModule, pinp, rfl⟩ := h
  unfold gatherPort
  simp only
  cases findVarInModule partitionModule pinp.name <;> cases pinp.exprp <;>
    first
    | exact ⟨rfl, Or.inl ⟨rfl, rfl⟩⟩
    | exact ⟨rfl, Or.inr (Or.inl ⟨rfl, rfl⟩)⟩
    | exact ⟨rfl, Or.inr (Or.inr ⟨rfl, rfl⟩)⟩
    | (simp only; split
       · exact ⟨rfl, Or.inl ⟨rfl, rfl⟩⟩
       · exact ⟨rfl, Or.inr (Or.inr ⟨rfl, rfl⟩)⟩)

theorem analyzePort_wire (a : PartitionPortAnalyzer) (instName : String) (p : Port)
    (m : String → List (String × String)) (hw : p.type = "wire") :
    ∃ (port1 : Port) (endpoints : List (String × String)),
      port1.name = p.name ∧ port1.direction = p.direction ∧ port1.type = p.type ∧
      port1.active = p.active ∧
      port1.with_whom_is_it_communicating = p.with_whom_is_it_communicating ∧
      (analyzePort a instName (p, m)).1 =
        finalizePort a instName
          { port1 with
            with_whom_is_it_communicating :=
              port1.with_whom_is_it_communicating ++ partnersOf a instName port1 endpoints } := by
  unfold analyzePort
  simp only
  rw [if_pos hw]
  by_cases hr : p.other_end = resolveWireChain a.m_wireAliasMap 5 p.other_end []
  · exact ⟨_, _, by rw [if_neg (not_not.2 hr)], by rw [if_neg (not_not.2 hr)],
      by rw [if_neg (not_not.2 hr)], by rw [if_neg (not_not.2 hr)],
      by rw [if_neg (not_not.2 hr)], rfl⟩
  · exact ⟨_, _, by rw [if_pos hr], by rw [if_pos hr], by rw [if_pos hr], by rw [if_pos hr],
      by rw [if_pos hr], rfl⟩

/-- What the main loop makes of a gathered port: type kept, `active` decided for a wire,
and partners only for a wire, each pushed by Step 2.2 for one endpoint. -/
theorem analyzePort_gathered (a : PartitionPortAnalyzer) (instName : String) (p : Port)
    (m : String → List (String × String)) (h : Gathered p) :
    (analyzePort a instName (p, m)).1.type = p.type ∧
    (analyzePort a instName (p, m)).1.name = p.name ∧
    (analyzePort a instName (p, m)).1.active =
      (if p.active = "idk" then
        (if (analyzePort a instName (p, m)).1.with_whom_is_it_communicating.isEmpty then "No"
         else "Yes")
       else p.active) ∧
    (p.type ≠ "wire" → (analyzePort a instName (p, m)).1.with_whom_is_it_communicating = []) ∧
    ∀ q ∈ (analyzePort a instName (p, m)).1.with_whom_is_it_communicating,
      ∃ (port1 : Port) (tos : Bool) (endpoint : String × String),
        port1.name = p.name ∧ port1.direction = p.direction ∧
          partnerOf a instName port1 tos endpoint = some q := by
  have hs := (gathered_shape p h).1
  by_cases hw : p.type = "wire"
  · obtain ⟨port1, endpoints, h1, h2, h3, h4, h5, h6⟩ := analyzePort_wire a instName p m hw
    rw [h6]
    simp only [finalizePort, h5, hs, List.nil_append, h3, h4, h1]
    refine ⟨trivial, trivial, trivial, fun hne => absurd hw hne, ?_⟩
    intro q hq
    unfold partnersOf at hq
    simp only [List.mem_filterMap] at hq
    obtain ⟨endpoint, _, hq2⟩ := hq
    exact ⟨port1, _, endpoint, h1, h2, hq2⟩
  · unfold analyzePort
    simp only
    rw [if_neg hw]
    simp only [finalizePort, hs]
    refine ⟨trivial, trivial, trivial, fun _ => trivial, ?_⟩
    intro q hq
    simp at hq

/-! ## Step 2.2: which endpoints become partners -/

theorem partnersOf_eq_filterMap (a : PartitionPortAnalyzer) (instName : String) (port : Port)
    (endpoints : List (String × String)) :
    partnersOf a instName port endpoints =
      endpoints.filterMap (recordedFor a instName port endpoints) := rfl

theorem startsWith_append : ∀ (l p q : List Char), startsWith l (p ++ q) = true →
    startsWith l p = true := by
  intro l p
  induction p generalizing l with
  | nil => intro q _; cases l <;> rfl
  | cons c p ih =>
    intro q h
    cases l with
    | nil => simp [startsWith] at h
    | cons d l =>
      simp only [List.cons_append, startsWith, Bool.and_eq_true] at h ⊢
      exact ⟨h.1, ih l q h.2⟩

theorem findSub_append : ∀ (l p q : List Char), p ++ q ≠ [] → findSub l (p ++ q) = true →
    findSub l p = true := by
  intro l p q hne
  induction l with
  | nil =>
    intro h
    simp only [findSub, List.isEmpty_eq_true] at h
    exact absurd h hne
  | cons c cs ih =>
    intro h
    simp only [findSub, Bool.or_eq_true] at h ⊢
    rcases h with h | h
    · exact Or.inl (startsWith_append _ _ _ h)
    · exact Or.inr (ih h)

/-- The local direction of Step 2.2 is never `"Inout"`: a keyword containing `inout`
contains `in`, which is tested first. -/
theorem sourceDirectionOf_ne_inout (dir : String) : sourceDirectionOf dir ≠ "Inout" := by
  unfold sourceDirectionOf
  by_cases h1 : strFind dir "in" = true
  · rw [if_pos h1]; decide
  · rw [if_neg h1]
    by_cases h2 : strFind dir "out" = true
    · rw [if_pos h2]; decide
    · rw [if_neg h2]
      by_cases h3 : strFind dir "inout" = true
      · exfalso
        apply h1
        unfold strFind at h3 ⊢
        exact findSub_append dir.data "in".data "out".data (by decide) h3
      · rw [if_neg h3]; decide

theorem directionOfKwd_ne_unknown (dir : String) : directionOfKwd dir ≠ "Unknown" := by
  unfold directionOfKwd
  split
  · decide
  · split <;> decide

/-- An endpoint of direction `"Unknown"` is not named `logic`. -/
theorem getPortDirection_unknown (a : PartitionPortAnalyzer) (instanceName portName : String)
    (h : getPortDirection a instanceName portName = "Unknown") : portName ≠ "logic" := by
  intro hl
  unfold getPortDirection at h
  simp only at h
  split at h
  · rename_i d hd
    split at hd
    · split at hd
      · simp only [Option.some.injEq] at hd
        exact directionOfKwd_ne_unknown _ (hd.trans h)
      · exact absurd hd (by simp)
    · exact absurd hd (by simp)
  · split at h
    · rename_i d hd
      split at hd
      · split at hd
        · simp only [Option.some.injEq] at hd
          exact directionOfKwd_ne_unknown _ (hd.trans h)
        · exact absurd hd (by simp)
      · exact absurd hd (by simp)
    · split at h
      · rename_i d hd
        split at hd
        · split at hd
          · simp only [Option.some.injEq] at hd
            exact directionOfKwd_ne_unknown _ (hd.trans h)
          · exact absurd hd (by simp)
        · exact absurd hd (by simp)
      · rw [if_pos hl] at h
        exact absurd h (by decide)

/-- For an Input port, the parent's `logic` endpoint on the resolved net is itself counted
by the first loop of Step 2.2 whenever the parent is another instance and `logic` resolves
to `"Output"`, so the second loop rejects it. -/
theorem logic_suppressed (a : PartitionPortAnalyzer) (instName : String) (port : Port)
    (endpoints : List (String × String))
    (hin : sourceDirectionOf port.direction = "Input")
    (hmem : (a.m_parentModuleName, "logic") ∈ endpoints)
    (hne : a.m_parentModuleName ≠ instName)
    (hdir : getPortDirection a a.m_parentModuleName "logic" = "Output") :
    recordedFor a instName port endpoints (a.m_parentModuleName, "logic") = none := by
  have htos : trueOutputSourceExists a instName port endpoints = true := by
    unfold trueOutputSourceExists
    simp only [Bool.and_eq_true, decide_eq_true_eq, List.any_eq_true]
    exact ⟨hin, (a.m_parentModuleName, "logic"), hmem, hne, hdir⟩
  unfold recordedFor partnerOf
  rw [htos, if_neg hne]
  simp [isValidConnection, hin]

/-- C14 (failing input): in `exLogicOnly` the resolved net `n` of the Input port `x` of
`p1` carries only the port itself and the parent's `logic` endpoint, no endpoint of
another instance is a port, and yet `analyze()` reports `p1.x` without any partner
(`"NULL"`, not active): the `logic` endpoint counts as the Output driver that suppresses
it. -/
theorem C14_logic_only_input :
    (phase1 (PartitionPortAnalyzer.new exLogicOnly ["p1", "p2"])).m_wireToEndpoints "n" =
      [("p1", "x"), ("Top", "logic")] ∧
    trueOutputSourceExists (phase1 (PartitionPortAnalyzer.new exLogicOnly ["p1", "p2"])) "p1"
      { name := "x", direction := "in" } [("p1", "x"), ("Top", "logic")] = true ∧
    mapFind (analyzeReport exLogicOnly ["p1", "p2"]) "p1" =
      some [{ name := "x", direction := "in", width := 1, active := "No", type := "wire",
              other_end := "n", mpi_process := "p1", mpi_rank := 1, comm_type := "NULL",
              with_whom_is_it_communicating := [] },
            { name := "y", direction := "out", width := 8, active := "No", type := "wire",
              other_end := "y1", mpi_process := "p1", mpi_rank := 1, comm_type := "NULL",
              with_whom_is_it_communicating := [] }] := by
  decide

/-- C15 (failing input): in `exInout` the ports `io` of `p1` and `p2` are declared `inout`
and share net `bus` with the input `d` of `u1`; both directions are normalised to
`"Input"`, every pairing is rejected as Input to Input, and `analyze()` reports both
ports without any partner. -/
theorem C15_inout_rejected :
    sourceDirectionOf "inout" = "Input" ∧
    getPortDirection (phase1 (PartitionPortAnalyzer.new exInout ["p1", "p2"])) "p2" "io" =
      "Input" ∧
    (phase1 (PartitionPortAnalyzer.new exInout ["p1", "p2"])).m_wireToEndpoints "bus" =
      [("p1", "io"), ("p2", "io"), ("u1", "d")] ∧
    analyzeReport exInout ["p1", "p2"] =
      [("p1", [{ name := "io", direction := "inout", width := 1, active := "No",
                 type := "wire", other_end := "bus", mpi_process := "p1", mpi_rank := 1,
                 comm_type := "NULL", with_whom_is_it_communicating := [] }]),
       ("p2", [{ name := "io", direction := "inout", width := 1, active := "No",
                 type := "wire", other_end := "bus", mpi_process := "p2", mpi_rank := 2,
                 comm_type := "NULL", with_whom_is_it_communicating := [] }])] := by
  decide

/-- C16: for a port of `instName` and an endpoint of another instance on its resolved net
that is not the parent's `logic` endpoint and whose direction is not `"Inout"` (the local
direction never is), Step 2.2 records the endpoint as a partner, under its own instance
and port name, if and only if the port is Input and the endpoint Output, or the port is
Output and the endpoint Input; so Input to Input and Output to Output are never
recorded. -/
theorem C16_direction_compatibility (a : PartitionPortAnalyzer) (instName : String)
    (port : Port) (endpoints : List (String × String)) (endpoint : String × String)
    (hmem : endpoint ∈ endpoints) (hother : endpoint.1 ≠ instName)
    (hlogic : ¬ (endpoint.1 = a.m_parentModuleName ∧ endpoint.2 = "logic"))
    (hd : getPortDirection a endpoint.1 endpoint.2 ≠ "Inout") :
    ((∃ q, recordedFor a instName port endpoints endpoint = some q ∧
        q ∈ partnersOf a instName port endpoints ∧
        q.inst = endpoint.1 ∧ q.port = endpoint.2) ↔
      ((sourceDirectionOf port.direction = "Input" ∧
          getPortDirection a endpoint.1 endpoint.2 = "Output") ∨
        (sourceDirectionOf port.direction = "Output" ∧
          getPortDirection a endpoint.1 endpoint.2 = "Input"))) ∧
    ((recordedFor a instName port endpoints endpoint = none) ↔
      ¬ ((sourceDirectionOf port.direction = "Input" ∧
          getPortDirection a endpoint.1 endpoint.2 = "Output") ∨
        (sourceDirectionOf port.direction = "Output" ∧
          getPortDirection a endpoint.1 endpoint.2 = "Input"))) := by
  have hs := sourceDirectionOf_ne_inout port.direction
  have hmemq : ∀ q, recordedFor a instName port endpoints endpoint = some q →
      q ∈ partnersOf a instName port endpoints := by
    intro q hq
    rw [partnersOf_eq_filterMap, List.mem_filterMap]
    exact ⟨endpoint, hmem, hq⟩
  have hval : isValidConnection (sourceDirectionOf port.direction)
      (trueOutputSourceExists a instName port endpoints) false
      (getPortDirection a endpoint.1 endpoint.2) =
      decide ((sourceDirectionOf port.direction = "Input" ∧
          getPortDirection a endpoint.1 endpoint.2 = "Output") ∨
        (sourceDirectionOf port.direction = "Output" ∧
          getPortDirection a endpoint.1 endpoint.2 = "Input")) := by
    unfold isValidConnection
    by_cases c1 : sourceDirectionOf port.direction = "Input" ∧
        getPortDirection a endpoint.1 endpoint.2 = "Output"
    · simp [c1, hs, hd]
    · by_cases c2 : sourceDirectionOf port.direction = "Output" ∧
          getPortDirection a endpoint.1 endpoint.2 = "Input"
      · simp [c2, hs, hd]
      · simp [c1, c2, hs, hd]
  have hrec : recordedFor a instName port endpoints endpoint =
      if (sourceDirectionOf port.direction = "Input" ∧
          getPortDirection a endpoint.1 endpoint.2 = "Output") ∨
        (sourceDirectionOf port.direction = "Output" ∧
          getPortDirection a endpoint.1 endpoint.2 = "Input") then
        some { inst := endpoint.1, port := endpoint.2,
               mpi_process :=
                 if endpoint.1 ∈ a.m_partitionInstances then endpoint.1 else "system",
               mpi_rank := rankOf a.m_mpiRankMap
                 (if endpoint.1 ∈ a.m_partitionInstances then endpoint.1 else "system") }
      else none := by
    unfold recordedFor partnerOf
    rw [if_neg hother]
    simp only [decide_eq_false hlogic, hval, decide_eq_true_eq]
    simp
  constructor
  · constructor
    · rintro ⟨q, hq, _⟩
      by_contra hc
      rw [hrec, if_neg hc] at hq
      exact absurd hq (by simp)
    · intro hc
      have hq := hrec
      rw [if_pos hc] at hq
      exact ⟨_, hq, hmemq _ hq, rfl, rfl⟩
  · constructor
    · intro hn hc
      rw [hrec, if_pos hc] at hn
      exact absurd hn (by simp)
    · intro hc
      rw [hrec, if_neg hc]

/-- C16 (witness): the Input port `x` of `p1` in `exChain` and the Output endpoint `p2.y`
on its resolved net. -/
theorem C16_direction_compatibility_witness :
    ((∃ q, recordedFor exChainGathered "p1" exPortIn
          [("p2", "y"), ("Top", "logic"), ("p1", "x")] ("p2", "y") = some q ∧
        q ∈ partnersOf exChainGathered "p1" exPortIn
          [("p2", "y"), ("Top", "logic"), ("p1", "x")] ∧
        q.inst = "p2" ∧ q.port = "y") ↔
      ((sourceDirectionOf exPortIn.direction = "Input" ∧
          getPortDirection exChainGathered "p2" "y" = "Output") ∨
        (sourceDirectionOf exPortIn.direction = "Output" ∧
          getPortDirection exChainGathered "p2" "y" = "Input"))) ∧
    ((recordedFor exChainGathered "p1" exPortIn
          [("p2", "y"), ("Top", "logic"), ("p1", "x")] ("p2", "y") = none) ↔
      ¬ ((sourceDirectionOf exPortIn.direction = "Input" ∧
          getPortDirection exChainGathered "p2" "y" = "Output") ∨
        (sourceDirectionOf exPortIn.direction = "Output" ∧
          getPortDirection exChainGathered "p2" "y" = "Input"))) :=
  C16_direction_compatibility exChainGathered "p1" exPortIn
    [("p2", "y"), ("Top", "logic"), ("p1", "x")] ("p2", "y")
    (by decide) (by decide) (by decide) (by decide)

/-- C17 (amended): an endpoint whose direction no lookup rule resolves (direction
`"Unknown"`) is never recorded as a partner by Step 2.2, whatever the port and the other
endpoints of the net. -/
theorem C17_unknown_never_recorded (a : PartitionPortAnalyzer) (instName : String)
    (port : Port) (endpoints : List (String × String)) (endpoint : String × String)
    (hd : getPortDirection a endpoint.1 endpoint.2 = "Unknown") :
    recordedFor a instName port endpoints endpoint = none := by
  have hs := sourceDirectionOf_ne_inout port.direction
  have hl : ¬ (endpoint.1 = a.m_parentModuleName ∧ endpoint.2 = "logic") :=
    fun h => getPortDirection_unknown a _ _ hd h.2
  unfold recordedFor partnerOf
  by_cases h1 : endpoint.1 = instName
  · rw [if_pos h1]
  · rw [if_neg h1]
    simp only [decide_eq_false hl, hd]
    have hv : isValidConnection (sourceDirectionOf port.direction)
        (trueOutputSourceExists a instName port endpoints) false "Unknown" = false := by
      unfold isValidConnection
      simp [hs]
    rw [hv]
    simp

/-- C17 (witness): the endpoint `u1.d` of the unresolved instance `u1` on the net of the
Input port `x` of `p1` in `exUnknown`. -/
theorem C17_unknown_never_recorded_witness :
    getPortDirection exUnknownGathered "u1" "d" = "Unknown" ∧
    recordedFor exUnknownGathered "p1" exPortIn [("p1", "x"), ("u1", "d")] ("u1", "d") =
      none :=
  ⟨by decide,
    C17_unknown_never_recorded exUnknownGathered "p1" exPortIn [("p1", "x"), ("u1", "d")]
      ("u1", "d") (by decide)⟩

/-- C17 (counterexample): in `exUnknown` the endpoints `u1.d` and `u1.e` of another
instance are on the resolved nets `n` and `m` of the ports `x` and `y` of `p1`, their
direction is `"Unknown"`, and `analyze()` records neither as a partner. -/
theorem C17_counterexample :
    exUnknownGathered.m_wireToEndpoints "n" = [("p1", "x"), ("u1", "d")] ∧
    exUnknownGathered.m_wireToEndpoints "m" = [("p1", "y"), ("u1", "e")] ∧
    getPortDirection exUnknownGathered "u1" "d" = "Unknown" ∧
    getPortDirection exUnknownGathered "u1" "e" = "Unknown" ∧
    mapFind (analyzeReport exUnknown ["p1", "p2"]) "p1" =
      some [{ name := "x", direction := "in", width := 1, active := "No", type := "wire",
              other_end := "n", mpi_process := "p1", mpi_rank := 1, comm_type := "NULL",
              with_whom_is_it_communicating := [] },
            { name := "y", direction := "out", width := 8, active := "No", type := "wire",
              other_end := "m", mpi_process := "p1", mpi_rank := 1, comm_type := "NULL",
              with_whom_is_it_communicating := [] }] := by
  decide

/-! ## Claims on the finished report -/

theorem analyze_entries (parentModule : ParentModule) (partitionInstances : List String)
    (P : String → Port → Prop) (hs : RenameStable P)
    (h : ∀ (inst : String) (p : Port) (m : String → List (String × String)), Gathered p →
      P inst
        (analyzePort (phase1 (PartitionPortAnalyzer.new parentModule partitionInstances)) inst
          (p, m)).1) :
    AllEntries P (analyzeReport parentModule partitionInstances) := by
  unfold analyzeReport analyze mainLoop
  simp only
  exact phase3_keeps P hs _
    (analyzeInstances_entries _ P Gathered h _ _ (phase1_new parentModule partitionInstances).1)

theorem partnerOf_some (a : PartitionPortAnalyzer) (instName : String) (port : Port)
    (tos : Bool) (endpoint : String × String) (q : CommunicationPartner)
    (h : partnerOf a instName port tos endpoint = some q) :
    endpoint.1 ≠ instName ∧ q.inst = endpoint.1 ∧
    q.mpi_process = (if endpoint.1 ∈ a.m_partitionInstances then endpoint.1 else "system") ∧
    q.mpi_rank = rankOf a.m_mpiRankMap q.mpi_process := by
  unfold partnerOf at h
  by_cases h1 : endpoint.1 = instName
  · rw [if_pos h1] at h
    exact absurd h (by simp)
  · rw [if_neg h1] at h
    simp only at h
    split at h
    · simp only [Option.some.injEq] at h
      subst h
      exact ⟨h1, rfl, rfl, rfl⟩
    · exact absurd h (by simp)

theorem assignRanks_ge : ∀ (s : List String) (r : Int) (m : List (String × Int)) (x : String),
    x ∈ s → r ≤ rankOf (assignRanks s r m) x := by
  intro s
  induction s with
  | nil => intro r m x hx; simp at hx
  | cons y s ih =>
    intro r m x hx
    simp only [assignRanks]
    by_cases hs : x ∈ s
    · have := ih (r + 1) (mapInsert y r m) x hs
      omega
    · have hxy : x = y := by
        simp only [List.mem_cons] at hx
        rcases hx with h | h
        · exact h
        · exact absurd h hs
      subst hxy
      rw [rankOf_assignRanks_other _ _ _ _ hs]
      simp [rankOf, mapFind_mapInsert]

theorem rank_partition_pos (partitionInstances : List String) (x : String)
    (hx : x ∈ partitionInstances) : 1 ≤ rankOf (buildRankMap partitionInstances) x := by
  unfold buildRankMap
  exact assignRanks_ge _ _ _ _ ((List.Perm.mem_iff (stdSort_perm partitionInstances)).2 hx)

theorem rank_system (partitionInstances : List String) (hsys : "system" ∉ partitionInstances) :
    rankOf (buildRankMap partitionInstances) "system" = 0 := by
  unfold buildRankMap
  rw [rankOf_assignRanks_other _ _ _ _
    (fun h => hsys ((List.Perm.mem_iff (stdSort_perm partitionInstances)).1 h))]
  rfl

/-- C18: every partner in the report of `analyze()` has process identity `"system"` when
its remote instance is not one of the partition instance names and the remote instance
name otherwise, and its rank is the rank-table entry of that process identity; when no
partition is named `"system"`, the partner rank is 0 exactly for non-partition remotes. -/
theorem C18_partner_process_and_rank (parentModule : ParentModule)
    (partitionInstances : List String) (e : String × List Port)
    (he : e ∈ analyzeReport parentModule partitionInstances) (p : Port) (hp : p ∈ e.2)
    (q : CommunicationPartner) (hq : q ∈ p.with_whom_is_it_communicating) :
    q.mpi_process = (if q.inst ∈ partitionInstances then q.inst else "system") ∧
    q.mpi_rank = rankOf (buildRankMap partitionInstances) q.mpi_process ∧
    ("system" ∉ partitionInstances → (q.mpi_rank = 0 ↔ q.inst ∉ partitionInstances)) := by
  have hall := analyze_entries parentModule partitionInstances
    (fun _ port => ∀ q ∈ port.with_whom_is_it_communicating,
      q.mpi_process = (if q.inst ∈ partitionInstances then q.inst else "system") ∧
      q.mpi_rank = rankOf (buildRankMap partitionInstances) q.mpi_process)
    (by
      intro inst port k name hP q hq
      simp only at hq
      rcases mem_modifyAt _ _ _ _ hq with h | ⟨y, hy, rfl⟩
      · exact hP q h
      · exact hP y hy)
    (by
      intro inst p0 m hg q hq
      obtain ⟨port1, tos, endpoint, _, _, hsome⟩ :=
        (analyzePort_gathered _ inst p0 m hg).2.2.2.2 q hq
      obtain ⟨_, h2, h3, h4⟩ := partnerOf_some _ _ _ _ _ _ hsome
      obtain ⟨c1, c2, _, _⟩ := (phase1_new parentModule partitionInstances).2
      rw [c2] at h4
      rw [c1] at h3
      refine ⟨?_, h4⟩
      rw [h3, h2]
      have hmem : endpoint.1 ∈ (PartitionPortAnalyzer.new parentModule
          partitionInstances).m_partitionInstances ↔ endpoint.1 ∈ partitionInstances :=
        List.Perm.mem_iff (stdSort_perm partitionInstances)
      by_cases hin : endpoint.1 ∈ partitionInstances
      · rw [if_pos hin, if_pos (hmem.2 hin)]
      · rw [if_neg hin, if_neg (fun h => hin (hmem.1 h))])
  obtain ⟨h1, h2⟩ := hall e he p hp q hq
  refine ⟨h1, h2, ?_⟩
  intro hsys
  by_cases hin : q.inst ∈ partitionInstances
  · rw [if_pos hin] at h1
    have := rank_partition_pos partitionInstances q.inst hin
    rw [h1] at h2
    constructor
    · intro h0; omega
    · intro hn; exact absurd hin hn
  · rw [if_neg hin] at h1
    rw [h1, rank_system partitionInstances hsys] at h2
    exact ⟨fun _ => hin, fun _ => h2⟩

/-- C18 (witness): the partner `p2.y` of port `x` of `p1` in `exChain`, process `p2`,
rank 2. -/
theorem C18_partner_process_and_rank_witness :
    (("p2" : String) = (if "p2" ∈ ["p2", "p1"] then "p2" else "system")) ∧
    (2 : Int) = rankOf (buildRankMap ["p2", "p1"]) "p2" ∧
    ("system" ∉ ["p2", "p1"] → ((2 : Int) = 0 ↔ "p2" ∉ ["p2", "p1"])) :=
  C18_partner_process_and_rank exChain ["p2", "p1"] ("p1", [exChainPort, exChainPortY])
    (by decide) exChainPort (by decide) ⟨"p2", "y", "p2", 2⟩ (by decide)

/-- C19: in the report of `analyze()`, no partner of a port has the port's own instance
name (the key of its entry) as remote instance. -/
theorem C19_no_self_partner (parentModule : ParentModule)
    (partitionInstances : List String) (e : String × List Port)
    (he : e ∈ analyzeReport parentModule partitionInstances) (p : Port) (hp : p ∈ e.2)
    (q : CommunicationPartner) (hq : q ∈ p.with_whom_is_it_communicating) :
    q.inst ≠ e.1 := by
  have hall := analyze_entries parentModule partitionInstances
    (fun inst port => ∀ q ∈ port.with_whom_is_it_communicating, q.inst ≠ inst)
    (by
      intro inst port k name hP q hq
      simp only at hq
      rcases mem_modifyAt _ _ _ _ hq with h | ⟨y, hy, rfl⟩
      · exact hP q h
      · exact hP y hy)
    (by
      intro inst p0 m hg q hq
      obtain ⟨port1, tos, endpoint, _, _, hsome⟩ :=
        (analyzePort_gathered _ inst p0 m hg).2.2.2.2 q hq
      obtain ⟨h1, h2, _, _⟩ := partnerOf_some _ _ _ _ _ _ hsome
      rw [h2]
      exact h1)
  exact hall e he p hp q hq

/-- C19 (witness): the partner `p2.y` of port `x` of `p1` in `exChain`. -/
theorem C19_no_self_partner_witness : ("p2" : String) ≠ "p1" :=
  C19_no_self_partner exChain ["p2", "p1"] ("p1", [exChainPort, exChainPortY])
    (by decide) exChainPort (by decide) ⟨"p2", "y", "p2", 2⟩ (by decide)

theorem analyze_activeByType (parentModule : ParentModule) (partitionInstances : List String) :
    AllEntries (fun _ p => ActiveByType p) (analyzeReport parentModule partitionInstances) := by
  apply analyze_entries
  · intro inst port k name hP
    unfold ActiveByType at hP ⊢
    simp only [length_modifyAt]
    exact hP
  · intro inst p0 m hg
    obtain ⟨h1, _, h3, h4, _⟩ := analyzePort_gathered
      (phase1 (PartitionPortAnalyzer.new parentModule partitionInstances)) inst p0 m hg
    obtain ⟨_, hshape⟩ := gathered_shape p0 hg
    unfold ActiveByType
    rw [h1, h3]
    rcases hshape with ⟨ht, ha⟩ | ⟨ht, ha⟩ | ⟨ht, ha⟩
    · refine Or.inl ⟨ht, ?_⟩
      rw [if_pos ha]
      cases (analyzePort (phase1 (PartitionPortAnalyzer.new parentModule partitionInstances))
        inst (p0, m)).1.with_whom_is_it_communicating with
      | nil => rfl
      | cons q qs => rfl
    · have hne : p0.type ≠ "wire" := by rw [ht]; decide
      have hidk : ¬ p0.active = "idk" := by rw [ha]; decide
      refine Or.inr (Or.inl ⟨ht, ?_, ?_⟩)
      · rw [if_neg hidk, ha]
      · rw [h4 hne]; rfl
    · have hne : p0.type ≠ "wire" := by rw [ht]; decide
      have hidk : ¬ p0.active = "idk" := by rw [ha]; decide
      refine Or.inr (Or.inr ⟨ht, ?_, ?_⟩)
      · rw [if_neg hidk, ha]
      · rw [h4 hne]; rfl

/-- C20 (amended): after `analyze()`, a port whose connection is a net (type `"wire"`) or a
constant (type `"init"`) has `active` `"Yes"` if it has at least one partner and `"No"`
otherwise, and a constant-tied port is always `"No"`; a port tied to any other expression
(type `"logic"`) is `"Yes"` and has no partner; there is no other connection type. -/
theorem C20_active_flag (parentModule : ParentModule) (partitionInstances : List String)
    (e : String × List Port) (he : e ∈ analyzeReport parentModule partitionInstances)
    (p : Port) (hp : p ∈ e.2) :
    (p.type = "wire" ∨ p.type = "init" ∨ p.type = "logic") ∧
    (p.type ≠ "logic" →
      p.active = if 1 ≤ p.with_whom_is_it_communicating.length then "Yes" else "No") ∧
    (p.type = "init" → p.active = "No") ∧
    (p.type = "logic" → p.active = "Yes" ∧ p.with_whom_is_it_communicating = []) := by
  have h := analyze_activeByType parentModule partitionInstances e he p hp
  simp only at h
  unfold ActiveByType at h
  rcases h with ⟨ht, ha⟩ | ⟨ht, ha, hl⟩ | ⟨ht, ha, hl⟩
  · refine ⟨Or.inl ht, ?_, ?_, ?_⟩
    · intro _
      rw [ha]
      by_cases h0 : p.with_whom_is_it_communicating.length = 0
      · rw [if_pos h0, if_neg (by omega)]
      · rw [if_neg h0, if_pos (by omega)]
    · intro h; rw [ht] at h; exact absurd h (by decide)
    · intro h; rw [ht] at h; exact absurd h (by decide)
  · refine ⟨Or.inr (Or.inl ht), ?_, fun _ => ha, ?_⟩
    · intro _
      rw [ha, if_neg (by omega)]
    · intro h; rw [ht] at h; exact absurd h (by decide)
  · refine ⟨Or.inr (Or.inr ht), ?_, ?_, ?_⟩
    · intro h; exact absurd ht h
    · intro h; rw [ht] at h; exact absurd h (by decide)
    · intro _; exact ⟨ha, List.length_eq_zero.1 hl⟩

/-- C20 (witness): port `x` of `p1` in `exChain`, a net connection with one partner. -/
theorem C20_active_flag_witness :
    (exChainPort.type = "wire" ∨ exChainPort.type = "init" ∨ exChainPort.type = "logic") ∧
    (exChainPort.type ≠ "logic" →
      exChainPort.active =
        if 1 ≤ exChainPort.with_whom_is_it_communicating.length then "Yes" else "No") ∧
    (exChainPort.type = "init" → exChainPort.active = "No") ∧
    (exChainPort.type = "logic" →
      exChainPort.active = "Yes" ∧ exChainPort.with_whom_is_it_communicating = []) :=
  C20_active_flag exChain ["p2", "p1"] ("p1", [exChainPort, exChainPortY]) (by decide)
    exChainPort (by decide)

/-- C20 (counterexample): in `exExpr` the port `x` of `p1` is tied to an expression; the
report gives it no partner and `active` `"Yes"`, so `active` does not follow the partner
count for every port. -/
theorem C20_counterexample :
    ¬ (∀ e ∈ analyzeReport exExpr ["p1", "p2"], ∀ p ∈ e.2,
        p.active = if 1 ≤ p.with_whom_is_it_communicating.length then "Yes" else "No") := by
  decide

/-! ## Phase 3 changes remote port names only -/

theorem map_modifyAt {α β : Type} (f : α → α) (g : α → β) (hfg : ∀ x, g (f x) = g x) :
    ∀ (n : Nat) (l : List α), (modifyAt f n l).map g = l.map g := by
  intro n l
  induction l generalizing n with
  | nil => simp [modifyAt]
  | cons a l ih =>
    cases n with
    | zero => simp [modifyAt, hfg]
    | succ n => simp [modifyAt, ih]

theorem eraseReport_setPartnerPort (data : List (String × List Port)) (p : PartnerPtr)
    (name : String) : eraseReport (setPartnerPort data p name) = eraseReport data := by
  unfold eraseReport setPartnerPort
  apply map_modifyAt
  intro e
  simp only [Prod.mk.injEq, true_and]
  apply map_modifyAt
  intro port
  unfold eraseNames
  simp only [Port.mk.injEq, true_and]
  apply map_modifyAt
  intro q
  rfl

theorem eraseReport_renameLoop (dn : List String) : ∀ (ps : List PartnerPtr)
    (data : List (String × List Port)),
    eraseReport (renameLoop dn ps data) = eraseReport data := by
  intro ps
  induction ps with
  | nil => intro data; rfl
  | cons p rest ih =>
    intro data
    have hstep : renameLoop dn (p :: rest) data = renameLoop dn rest (renameOne dn data p) := rfl
    rw [hstep, ih]
    unfold renameOne
    cases getPartner data p with
    | none => rfl
    | some partner =>
      cases getPort data p with
      | none => rfl
      | some local_port =>
        simp only
        split
        · exact eraseReport_setPartnerPort _ _ _
        · rfl

theorem eraseReport_phase3 (data : List (String × List Port)) :
    eraseReport (phase3 data) = eraseReport data := by
  unfold phase3
  generalize buildLinks data = links
  induction links generalizing data with
  | nil => rfl
  | cons l links ih =>
    rw [List.foldl_cons, ih]
    unfold disambiguateLink
    split
    · rfl
    · simp only
      split
      · rfl
      · exact eraseReport_renameLoop _ _ _

theorem getPort_eraseReport (data : List (String × List Port)) (p : PartnerPtr) :
    getPort (eraseReport data) p = (getPort data p).map eraseNames := by
  unfold getPort eraseReport
  simp only [List.get?_eq_getElem?, List.getElem?_map]
  cases data[p.i]? with
  | none => rfl
  | some e =>
    simp only [Option.map_some', List.getElem?_map]

/-- A port of the report after Phase 3 is the port before Phase 3 up to the remote port
names of its partners. -/
theorem getPort_phase3 (data : List (String × List Port)) (p : PartnerPtr) :
    (getPort (phase3 data) p).map eraseNames = (getPort data p).map eraseNames := by
  rw [← getPort_eraseReport, ← getPort_eraseReport, eraseReport_phase3]

theorem eraseNames_of_no_partner (port port2 : Port)
    (h : eraseNames port2 = eraseNames port) (h0 : port.with_whom_is_it_communicating = []) :
    port2 = port := by
  unfold eraseNames at h
  rw [h0] at h
  simp only [List.map_nil, Port.mk.injEq, List.map_eq_nil_iff] at h
  obtain ⟨e1, e2, e3, e4, e5, e6, e7, e8, e9, e10⟩ := h
  cases port
  cases port2
  simp only at e1 e2 e3 e4 e5 e6 e7 e8 e9 e10 h0
  simp only [Port.mk.injEq]
  exact ⟨e1, e2, e3, e4, e5, e6, e7, e8, e9, e10.trans h0.symm⟩

/-! ## The main loop port by port -/

theorem analyzePorts_append (a : PartitionPortAnalyzer) (instName : String) :
    ∀ (ps1 ps2 : List Port) (m : String → List (String × String)),
      analyzePorts a instName (ps1 ++ ps2) m =
        ((analyzePorts a instName ps1 m).1 ++
            (analyzePorts a instName ps2 (analyzePorts a instName ps1 m).2).1,
          (analyzePorts a instName ps2 (analyzePorts a instName ps1 m).2).2) := by
  intro ps1
  induction ps1 with
  | nil => intro ps2 m; simp [analyzePorts]
  | cons p ps1 ih =>
    intro ps2 m
    have h1 : analyzePorts a instName (p :: (ps1 ++ ps2)) m =
        ((analyzePort a instName (p, m)).1 ::
            (analyzePorts a instName (ps1 ++ ps2) (analyzePort a instName (p, m)).2).1,
          (analyzePorts a instName (ps1 ++ ps2) (analyzePort a instName (p, m)).2).2) := rfl
    have h2 : analyzePorts a instName (p :: ps1) m =
        ((analyzePort a instName (p, m)).1 ::
            (analyzePorts a instName ps1 (analyzePort a instName (p, m)).2).1,
          (analyzePorts a instName ps1 (analyzePort a instName (p, m)).2).2) := rfl
    rw [List.cons_append, h1, h2, ih]
    rfl

theorem analyzePorts_length (a : PartitionPortAnalyzer) (instName : String) :
    ∀ (ps : List Port) (m : String → List (String × String)),
      (analyzePorts a instName ps m).1.length = ps.length := by
  intro ps
  induction ps with
  | nil => intro m; rfl
  | cons p ps ih => intro m; simp only [analyzePorts, List.length_cons, ih]

theorem analyzeInstances_append (a : PartitionPortAnalyzer) :
    ∀ (d1 d2 : List (String × List Port)) (m : String → List (String × String)),
      analyzeInstances a (d1 ++ d2) m =
        ((analyzeInstances a d1 m).1 ++ (analyzeInstances a d2 (analyzeInstances a d1 m).2).1,
          (analyzeInstances a d2 (analyzeInstances a d1 m).2).2) := by
  intro d1
  induction d1 with
  | nil => intro d2 m; simp [analyzeInstances]
  | cons e d1 ih =>
    intro d2 m
    have h1 : analyzeInstances a (e :: (d1 ++ d2)) m =
        ((e.1, (analyzePorts a e.1 e.2 m).1) ::
            (analyzeInstances a (d1 ++ d2) (analyzePorts a e.1 e.2 m).2).1,
          (analyzeInstances a (d1 ++ d2) (analyzePorts a e.1 e.2 m).2).2) := rfl
    have h2 : analyzeInstances a (e :: d1) m =
        ((e.1, (analyzePorts a e.1 e.2 m).1) ::
            (analyzeInstances a d1 (analyzePorts a e.1 e.2 m).2).1,
          (analyzeInstances a d1 (analyzePorts a e.1 e.2 m).2).2) := rfl
    rw [List.cons_append, h1, h2, ih]
    rfl

theorem analyzeInstances_length (a : PartitionPortAnalyzer) :
    ∀ (d : List (String × List Port)) (m : String → List (String × String)),
      (analyzeInstances a d m).1.length = d.length := by
  intro d
  induction d with
  | nil => intro m; rfl
  | cons e d ih => intro m; simp only [analyzeInstances, List.length_cons, ih]

/-- The main loop at one port: the port at that place of its result is what the loop body
makes of the gathered port on the endpoint map reached there. -/
theorem analyzeInstances_getPort (a : PartitionPortAnalyzer)
    (pre post : List (String × List Port)) (instName : String) (ps1 ps2 : List Port)
    (p0 : Port) (m : String → List (String × String)) (k : Nat) :
    getPort (analyzeInstances a (pre ++ (instName, ps1 ++ p0 :: ps2) :: post) m).1
        ⟨pre.length, ps1.length, k⟩ =
      some (analyzePort a instName (p0, mapBefore a pre instName ps1 m)).1 := by
  unfold getPort mapBefore
  rw [analyzeInstances_append]
  simp only [List.get?_eq_getElem?]
  have hlen := analyzeInstances_length a pre m
  rw [List.getElem?_append_right (by omega)]
  simp only [hlen, Nat.sub_self, analyzeInstances, List.getElem?_cons_zero]
  rw [analyzePorts_append]
  have hlen2 := analyzePorts_length a instName ps1 (analyzeInstances a pre m).2
  rw [List.getElem?_append_right (by omega)]
  simp only [hlen2, Nat.sub_self, analyzePorts, List.getElem?_cons_zero]

theorem analyzeReport_eq (parentModule : ParentModule) (partitionInstances : List String) :
    analyzeReport parentModule partitionInstances =
      phase3 (analyzeInstances (phase1 (PartitionPortAnalyzer.new parentModule partitionInstances))
        (phase1 (PartitionPortAnalyzer.new parentModule partitionInstances)).m_partitionData
        (phase1 (PartitionPortAnalyzer.new parentModule
          partitionInstances)).m_wireToEndpoints).1 := rfl

/-- The loop body on a wire-connected port, with Step 2.1 and Step 2.2 spelled out. -/
theorem analyzePort_wire_eq (a : PartitionPortAnalyzer) (instName : String) (p : Port)
    (m : String → List (String × String)) (hw : p.type = "wire") :
    (analyzePort a instName (p, m)).2 =
      (if p.other_end ≠ resolveWireChain a.m_wireAliasMap 5 p.other_end [] then
        migrateEndpoints m p.other_end (resolveWireChain a.m_wireAliasMap 5 p.other_end [])
          instName p.name
       else m) ∧
    (analyzePort a instName (p, m)).1 =
      finalizePort a instName
        { p with
          other_end := resolveWireChain a.m_wireAliasMap 5 p.other_end []
          with_whom_is_it_communicating :=
            p.with_whom_is_it_communicating ++
              partnersOf a instName
                { p with other_end := resolveWireChain a.m_wireAliasMap 5 p.other_end [] }
                ((analyzePort a instName (p, m)).2
                  (resolveWireChain a.m_wireAliasMap 5 p.other_end [])) } := by
  unfold analyzePort
  simp only
  rw [if_pos hw]
  by_cases hr : p.other_end = resolveWireChain a.m_wireAliasMap 5 p.other_end []
  · simp only [if_neg (not_not.2 hr)]
    refine ⟨trivial, ?_⟩
    rw [← hr]
  · simp only [if_pos hr]
    exact ⟨trivial, trivial⟩

theorem partnersOf_direction (a : PartitionPortAnalyzer) (instName : String) (p q : Port)
    (endpoints : List (String × String)) (hd : p.direction = q.direction)
    (hn : p.name = q.name) :
    partnersOf a instName p endpoints = partnersOf a instName q endpoints := by
  unfold partnersOf partnerOf
  simp only [hd, hn]

theorem partnersOf_nil_of_input (a : PartitionPortAnalyzer) (instName : String) (p : Port)
    (endpoints : List (String × String)) (hin : sourceDirectionOf p.direction = "Input")
    (hnet : ∀ e ∈ endpoints, e.1 ≠ instName →
      ¬ (e.1 = a.m_parentModuleName ∧ e.2 = "logic") ∧
      getPortDirection a e.1 e.2 ≠ "Output" ∧ getPortDirection a e.1 e.2 ≠ "Inout") :
    partnersOf a instName p endpoints = [] := by
  rw [partnersOf_eq_filterMap, List.filterMap_eq_nil_iff]
  intro e he
  unfold recordedFor partnerOf
  by_cases h1 : e.1 = instName
  · rw [if_pos h1]
  · rw [if_neg h1]
    obtain ⟨hl, ho, hio⟩ := hnet e he h1
    simp only [decide_eq_false hl]
    have hv : isValidConnection (sourceDirectionOf p.direction)
        (trueOutputSourceExists a instName p endpoints) false
        (getPortDirection a e.1 e.2) = false := by
      unfold isValidConnection
      simp [hin, ho, hio]
    rw [hv]
    simp

/-! ## Claims on partner search, scenario and gathering -/

/-- The report of `analyze()` at a port is what the loop body made of the gathered port,
up to the remote port names of its partners. -/
theorem analyzeReport_getPort (parentModule : ParentModule) (partitionInstances : List String)
    (pre post : List (String × List Port)) (instName : String) (ps1 ps2 : List Port)
    (p0 : Port)
    (hdata : (afterPhase1 parentModule partitionInstances).m_partitionData =
      pre ++ (instName, ps1 ++ p0 :: ps2) :: post) :
    ∃ port, getPort (analyzeReport parentModule partitionInstances)
        ⟨pre.length, ps1.length, 0⟩ = some port ∧
      eraseNames port =
        eraseNames (analyzePort (afterPhase1 parentModule partitionInstances) instName
          (p0, mapBefore (afterPhase1 parentModule partitionInstances) pre instName ps1
            (afterPhase1 parentModule partitionInstances).m_wireToEndpoints)).1 := by
  have h1 := getPort_phase3
    (analyzeInstances (afterPhase1 parentModule partitionInstances)
      (afterPhase1 parentModule partitionInstances).m_partitionData
      (afterPhase1 parentModule partitionInstances).m_wireToEndpoints).1
    ⟨pre.length, ps1.length, 0⟩
  rw [hdata, analyzeInstances_getPort] at h1
  rw [analyzeReport_eq]
  unfold afterPhase1 at hdata h1 ⊢
  rw [hdata]
  cases hg : getPort (phase3 (analyzeInstances
      (phase1 (PartitionPortAnalyzer.new parentModule partitionInstances))
      (pre ++ (instName, ps1 ++ p0 :: ps2) :: post)
      (phase1 (PartitionPortAnalyzer.new parentModule partitionInstances)).m_wireToEndpoints).1)
      ⟨pre.length, ps1.length, 0⟩ with
  | none => rw [hg] at h1; exact absurd h1 (by simp)
  | some port =>
    rw [hg] at h1
    simp only [Option.map_some', Option.some.injEq] at h1
    exact ⟨port, rfl, h1⟩

theorem gathered_of_data (parentModule : ParentModule) (partitionInstances : List String)
    (pre post : List (String × List Port)) (instName : String) (ps1 ps2 : List Port)
    (p0 : Port)
    (hdata : (afterPhase1 parentModule partitionInstances).m_partitionData =
      pre ++ (instName, ps1 ++ p0 :: ps2) :: post) : Gathered p0 := by
  have h := (phase1_new parentModule partitionInstances).1
  unfold afterPhase1 at hdata
  rw [hdata] at h
  exact h (instName, ps1 ++ p0 :: ps2) (by simp) p0 (by simp)

/-- C21: a wire-connected Input port of a partition instance (the gathered port `p0` of
`instName`, anywhere in the partition data) whose resolved net, as Step 2.2 reads it,
carries no parent-logic endpoint and no endpoint of another instance of direction Output
or Inout, is reported by `analyze()` with `comm_type` `"NULL"`, no partner and `active`
`"No"`. -/
theorem C21_input_without_driver (parentModule : ParentModule)
    (partitionInstances : List String) (pre post : List (String × List Port))
    (instName : String) (ps1 ps2 : List Port) (p0 : Port)
    (hdata : (afterPhase1 parentModule partitionInstances).m_partitionData =
      pre ++ (instName, ps1 ++ p0 :: ps2) :: post)
    (hw : p0.type = "wire") (hin : sourceDirectionOf p0.direction = "Input")
    (hnet : ∀ e ∈ resolvedEndpoints (afterPhase1 parentModule partitionInstances) pre
        instName ps1 p0, e.1 ≠ instName →
      ¬ (e.1 = (afterPhase1 parentModule partitionInstances).m_parentModuleName ∧
          e.2 = "logic") ∧
      getPortDirection (afterPhase1 parentModule partitionInstances) e.1 e.2 ≠ "Output" ∧
      getPortDirection (afterPhase1 parentModule partitionInstances) e.1 e.2 ≠ "Inout") :
    ∃ port, getPort (analyzeReport parentModule partitionInstances)
        ⟨pre.length, ps1.length, 0⟩ = some port ∧
      port.name = p0.name ∧ port.comm_type = "NULL" ∧
      port.with_whom_is_it_communicating = [] ∧ port.active = "No" := by
  obtain ⟨port, hget, hport⟩ := analyzeReport_getPort parentModule partitionInstances pre post
    instName ps1 ps2 p0 hdata
  have hg := gathered_of_data parentModule partitionInstances pre post instName ps1 ps2 p0 hdata
  obtain ⟨hnil, hshape⟩ := gathered_shape p0 hg
  have hidk : p0.active = "idk" := by
    rcases hshape with ⟨_, h⟩ | ⟨h, _⟩ | ⟨h, _⟩
    · exact h
    · rw [hw] at h; exact absurd h (by decide)
    · rw [hw] at h; exact absurd h (by decide)
  obtain ⟨_, h1⟩ := analyzePort_wire_eq (afterPhase1 parentModule partitionInstances) instName
    p0 (mapBefore (afterPhase1 parentModule partitionInstances) pre instName ps1
      (afterPhase1 parentModule partitionInstances).m_wireToEndpoints) hw
  have hp : partnersOf (afterPhase1 parentModule partitionInstances) instName
      { p0 with
        other_end :=
          resolveWireChain (afterPhase1 parentModule partitionInstances).m_wireAliasMap 5
            p0.other_end [] }
      (resolvedEndpoints (afterPhase1 parentModule partitionInstances) pre instName ps1 p0) =
      [] :=
    partnersOf_nil_of_input _ _ _ _ hin hnet
  unfold resolvedEndpoints mapAfterStep21 at hp
  rw [hp, hnil] at h1
  rw [h1] at hport
  have hfin := eraseNames_of_no_partner _ port hport (by simp [finalizePort])
  refine ⟨port, hget, ?_, ?_, ?_, ?_⟩ <;> rw [hfin] <;> simp [finalizePort, hidk]

/-- C21 (witness): the Input port `x` of `p1` in `exUnknown`; its net `n` carries only the
port itself and the endpoint `u1.d` of unknown direction. -/
theorem C21_input_without_driver_witness :
    ∃ port, getPort (analyzeReport exUnknown ["p1", "p2"])
        ⟨([] : List (String × List Port)).length, ([] : List Port).length, 0⟩ = some port ∧
      port.name = exUnknownX.name ∧ port.comm_type = "NULL" ∧
      port.with_whom_is_it_communicating = [] ∧ port.active = "No" :=
  C21_input_without_driver exUnknown ["p1", "p2"] [] [("p2", exUnknownP2)] "p1" []
    [exUnknownY] exUnknownX (by decide) (by decide) (by decide) (by decide)

/-- C22: for the design `exTwoA` (the root holds instance `top` of `Top`, which holds
`inst1` and `inst2` of type `A`, each holding one instance `b` of type `B`), whatever the
hash function and the iteration order of the hash map, `runDFS` followed by
`runBFSCheckDuplicateHashes` returns `true` with module type `A`, instance names
`inst1`, `inst2` and the path `$root.top` of the `Top` instance as parent; the two `B`
instances, one level deeper, share the type-path `$root.Top.A.B` and are not selected. -/
theorem C22_two_A_scenario (blake : String → String) (ord : HashOrder) :
    findPartition blake ord exTwoA = some (true, ⟨"A", ["inst1", "inst2"], "$root.top"⟩) ∧
    (instancesAt blake exTwoA 2).map (fun n => (n.instanceName, n.hierModule)) =
      [("b", "$root.Top.A.B"), ("b", "$root.Top.A.B")] := by
  have h0 : instancesAt blake exTwoA 0 =
      [⟨"Top", "top", "$root.top", "$root.Top", blake "$root.Top", 0⟩] := by rfl
  have h1 : instancesAt blake exTwoA 1 =
      [⟨"A", "inst1", "$root.top.inst1", "$root.Top.A", blake "$root.Top.A", 0⟩,
       ⟨"A", "inst2", "$root.top.inst2", "$root.Top.A", blake "$root.Top.A", 0⟩] := by rfl
  have hdup : ¬ ((instancesAt blake exTwoA 1).map (fun n => n.hash)).Nodup := by
    rw [h1]
    simp
  obtain ⟨nm, r, hrun, hr, hfa⟩ := findGroup_spec blake ord exTwoA (by decide)
  refine ⟨?_, by rfl⟩
  cases r with
  | none => exact absurd (hfa 1 (Nat.zero_le _)) hdup
  | some f =>
    obtain ⟨_, hlt, hbest, hlen, _⟩ := hfa
    have hlev : f.level = 1 := by
      by_contra hne
      by_cases h2 : 1 < f.level
      · exact hdup (hlt 1 (Nat.zero_le _) h2)
      · have hz : f.level = 0 := by omega
        rw [hz, h0] at hbest
        rw [hbest] at hlen
        have := List.length_filter_le (fun x => decide (x.hash = f.bestHash))
          [(⟨"Top", "top", "$root.top", "$root.Top", blake "$root.Top", 0⟩ : ModNode)]
        simp only [List.length_singleton] at this
        omega
    rw [hlev, h1] at hbest
    have hnodes : f.bestNodes =
        [⟨"A", "inst1", "$root.top.inst1", "$root.Top.A", blake "$root.Top.A", 0⟩,
         ⟨"A", "inst2", "$root.top.inst2", "$root.Top.A", blake "$root.Top.A", 0⟩] := by
      by_cases hh : blake "$root.Top.A" = f.bestHash
      · rw [hbest]
        simp [List.filter_cons, hh]
      · rw [hbest] at hlen
        simp [List.filter_cons, hh] at hlen
    simp only [findGroup, hrun] at hr
    simp only [findPartition, hrun, runBFSCheckDuplicateHashes, hr, reportFound, hnodes]
    rfl

theorem recorded_hash (blake : String → String) (rootp : AstNetlist) (n : ModNode)
    (h : Recorded (HierCellsGraphVisitor.new blake rootp) n) : n.hash = blake n.hierModule := by
  rcases h with ⟨k, hk⟩ | ⟨k, hk⟩
  · unfold HierCellsGraphVisitor.new at hk
    have h0 : ∀ k n, mapSet (fun _ => (none : Option ModNode)) "$root" (some (rootNode blake)) k
        = some n → n.hash = blake n.hierModule := by
      intro k n hk
      simp only [mapSet] at hk
      split at hk
      · simp only [Option.some.injEq] at hk
        rw [← hk]; rfl
      · exact absurd hk (by simp)
    cases hd : rootp.topDead with
    | true =>
      simp only [hd, if_true] at hk
      exact h0 k n hk
    | false =>
      simp only [hd, Bool.false_eq_true, if_false] at hk
      exact visitAstCell_nodeMetadata blake (fun n => n.hash = blake n.hierModule)
        (fun _ _ _ _ => rfl) _ _ (by simpa using h0) k n hk
  · obtain ⟨_, he⟩ := new_mem_adjacency blake rootp k n hk
    obtain ⟨h1, hm1, name, modName, heq⟩ := collect_shape blake _ _ _ _ he
    simp only [Prod.mk.injEq] at heq
    rw [heq.2]
    rfl

/-- C25: the fingerprint of every node the builder records is the hash of its type-path
string and of nothing else: two recorded nodes with equal type-path strings have equal
fingerprints, and under an injective hash two recorded nodes with distinct type-path
strings have distinct fingerprints. -/
theorem C25_fingerprint_of_type_path (blake : String → String) (rootp : AstNetlist)
    (n1 n2 : ModNode) (h1 : Recorded (HierCellsGraphVisitor.new blake rootp) n1)
    (h2 : Recorded (HierCellsGraphVisitor.new blake rootp) n2) :
    n1.hash = blake n1.hierModule ∧
    (n1.hierModule = n2.hierModule → n1.hash = n2.hash) ∧
    (Function.Injective blake → n1.hierModule ≠ n2.hierModule → n1.hash ≠ n2.hash) := by
  have e1 := recorded_hash blake rootp n1 h1
  have e2 := recorded_hash blake rootp n2 h2
  refine ⟨e1, ?_, ?_⟩
  · intro h; rw [e1, e2, h]
  · intro hinj hne heq
    rw [e1, e2] at heq
    exact hne (hinj heq)

/-- C25 (witness): the nodes of `inst1` and `inst2` in `exTwoA`, under the identity as
hash. -/
theorem C25_fingerprint_of_type_path_witness :
    ("$root.Top.A" : String) = id "$root.Top.A" ∧
    (("$root.Top.A" : String) = "$root.Top.A" → ("$root.Top.A" : String) = "$root.Top.A") ∧
    (Function.Injective (id : String → String) →
      ("$root.Top.A" : String) ≠ "$root.Top.A" → ("$root.Top.A" : String) ≠ "$root.Top.A") :=
  C25_fingerprint_of_type_path id exTwoA
    ⟨"A", "inst1", "$root.top.inst1", "$root.Top.A", "$root.Top.A", 0⟩
    ⟨"A", "inst2", "$root.top.inst2", "$root.Top.A", "$root.Top.A", 0⟩
    (Or.inl ⟨"$root.top.inst1", by decide⟩) (Or.inr ⟨"$root.top", by decide⟩)

theorem resolveWireChain_chain (m_wireAliasMap : String → Option String) :
    ∀ (maxDepth : Nat) (w : String) (rest visited : List String),
      IsChain m_wireAliasMap (w :: rest) → (w :: rest).Nodup →
      (∀ x ∈ w :: rest, x ∉ visited) →
      (w :: rest)[min rest.length maxDepth]? =
        some (resolveWireChain m_wireAliasMap maxDepth w visited) := by
  intro maxDepth
  induction maxDepth with
  | zero =>
    intro w rest visited _ _ _
    simp [resolveWireChain]
  | succ d ih =>
    intro w rest visited hc hnd hv
    unfold resolveWireChain
    rw [if_neg (hv w (List.mem_cons_self _ _))]
    cases rest with
    | nil =>
      simp only [IsChain] at hc
      simp [hc]
    | cons w1 rest1 =>
      simp only [IsChain] at hc
      rw [hc.1]
      simp only
      rw [List.nodup_cons] at hnd
      have := ih w1 rest1 (w :: visited) hc.2 hnd.2 (by
        intro x hx
        simp only [List.mem_cons, not_or]
        exact ⟨fun h => hnd.1 (h ▸ hx), hv x (List.mem_cons_of_mem _ hx)⟩)
      rw [← this]
      have hmin : min (w1 :: rest1).length (d + 1) = min rest1.length d + 1 := by
        simp only [List.length_cons]
        omega
      rw [hmin, List.getElem?_cons_succ]

/-- C26: for every alias map and every chain `w0 → w1 → … → wk` of alias edges over
pairwise distinct nets whose last net has no outgoing alias, `resolveWireChain(w0)` with
the default depth and no net visited returns the net at position `min k 5` of the chain:
the terminal net when `k ≤ 5`, the net five hops from `w0` otherwise. -/
theorem C26_chain_result (m_wireAliasMap : String → Option String) (w0 : String)
    (rest : List String) (hc : IsChain m_wireAliasMap (w0 :: rest))
    (hnd : (w0 :: rest).Nodup) :
    (w0 :: rest)[min rest.length 5]? = some (resolveWireChain m_wireAliasMap 5 w0 []) ∧
    (rest.length ≤ 5 →
      resolveWireChain m_wireAliasMap 5 w0 [] = (w0 :: rest).getLast (List.cons_ne_nil _ _)) := by
  have h := resolveWireChain_chain m_wireAliasMap 5 w0 rest [] hc hnd
    (fun _ _ => List.not_mem_nil _)
  refine ⟨h, ?_⟩
  intro hle
  rw [Nat.min_eq_left hle] at h
  rw [List.getLast_eq_getElem]
  have hlt : rest.length < (w0 :: rest).length := by simp
  rw [List.getElem?_eq_getElem hlt] at h
  simp only [Option.some.injEq] at h
  rw [← h]
  simp

/-- C26 (witness): the chain `w0 → … → w7` of `exAliasLong`, longer than five hops, on
which the result is `w5`. -/
theorem C26_chain_result_witness :
    ("w0" :: ["w1", "w2", "w3", "w4", "w5", "w6", "w7"])[min
        ["w1", "w2", "w3", "w4", "w5", "w6", "w7"].length 5]? =
      some (resolveWireChain exAliasLong 5 "w0" []) ∧
    (["w1", "w2", "w3", "w4", "w5", "w6", "w7"].length ≤ 5 →
      resolveWireChain exAliasLong 5 "w0" [] =
        ("w0" :: ["w1", "w2", "w3", "w4", "w5", "w6", "w7"]).getLast
          (List.cons_ne_nil _ _)) :=
  C26_chain_result exAliasLong "w0" ["w1", "w2", "w3", "w4", "w5", "w6", "w7"]
    (by simp only [IsChain]; decide) (by decide)

/-- C27 (failing input): the declared direction `inout`.  Both normalisations give
`"Input"` for `in` and `"Output"` for `out`, but also `"Input"` for `inout`, because the
test for the substring `in` comes first; the local normalisation of Step 2.2 never yields
`"Inout"`. -/
theorem C27_inout_normalised_as_input :
    sourceDirectionOf "in" = "Input" ∧ sourceDirectionOf "out" = "Output" ∧
    directionOfKwd "in" = "Input" ∧ directionOfKwd "out" = "Output" ∧
    sourceDirectionOf "inout" = "Input" ∧ directionOfKwd "inout" = "Input" ∧
    getPortDirection (phase1 (PartitionPortAnalyzer.new exInout ["p1", "p2"])) "p1" "io" =
      "Input" ∧
    ∀ dir, sourceDirectionOf dir ≠ "Inout" :=
  ⟨by decide, by decide, by decide, by decide, by decide, by decide, by decide,
    sourceDirectionOf_ne_inout⟩

theorem gatherPort_unhandled (partitionModule : AstNodeModule) (pinp : AstPin)
    (h : handledExpr pinp.exprp = false) :
    (gatherPort partitionModule pinp).1.name = pinp.name ∧
    (gatherPort partitionModule pinp).1.type = "logic" ∧
    (gatherPort partitionModule pinp).1.active = "Yes" ∧
    ((gatherPort partitionModule pinp).1.other_end = "[expression]" ∨
      (gatherPort partitionModule pinp).1.other_end = "[complex selbit]") ∧
    (gatherPort partitionModule pinp).1.direction =
      (match findVarInModule partitionModule pinp.name with
       | some varp => varp.direction
       | none => "") ∧
    (gatherPort partitionModule pinp).2 = none := by
  obtain ⟨pname, e⟩ := pinp
  simp only at h
  cases hf : findVarInModule partitionModule pname <;> cases e with
  | null => simp [gatherPort, hf]
  | varRef n => exact absurd h (by simp [handledExpr])
  | const s v => exact absurd h (by simp [handledExpr])
  | other => simp [gatherPort, hf]
  | selBit op1 op2 =>
    cases op1 <;> cases op2 <;> simp_all [gatherPort, handledExpr]

/-- C23 (amended): the gathering pass is total, and for a partition instance whose module
is resolved it records one port per pin; a pin whose connected expression is not a
variable reference, a constant or a bit-select of a named bus by a constant index is
recorded with type `"logic"`, `active` `"Yes"`, the placeholder `[expression]` or
`[complex selbit]` as connection and no endpoint, and with the direction keyword declared
for the port in the module (empty when the module declares no such port). -/
theorem C23_unhandled_expression (a : PartitionPortAnalyzer) (cellp : AstCellPins)
    (partitionModule : AstNodeModule) (hpart : cellp.name ∈ a.m_partitionInstances)
    (hmod : cellp.modp = some partitionModule) :
    mapFind (visitCellPins a cellp).m_partitionData cellp.name =
      some (cellp.pinsp.map (fun pinp => (gatherPort partitionModule pinp).1)) ∧
    ∀ pinp ∈ cellp.pinsp, handledExpr pinp.exprp = false →
      (gatherPort partitionModule pinp).1.name = pinp.name ∧
      (gatherPort partitionModule pinp).1.type = "logic" ∧
      (gatherPort partitionModule pinp).1.active = "Yes" ∧
      ((gatherPort partitionModule pinp).1.other_end = "[expression]" ∨
        (gatherPort partitionModule pinp).1.other_end = "[complex selbit]") ∧
      (gatherPort partitionModule pinp).1.direction =
        (match findVarInModule partitionModule pinp.name with
         | some varp => varp.direction
         | none => "") ∧
      (gatherPort partitionModule pinp).2 = none := by
  refine ⟨?_, fun pinp _ h => gatherPort_unhandled partitionModule pinp h⟩
  unfold visitCellPins
  simp only [hmod]
  rw [if_neg (not_not.2 hpart)]
  simp only [mapFind_mapInsert, if_true, gatherPartitionPins_ports, List.nil_append]

/-- C23 (witness): the cell `p1` of `exExpr`, whose pin `x` is tied to an expression. -/
theorem C23_unhandled_expression_witness :
    mapFind (visitCellPins (PartitionPortAnalyzer.new exExpr ["p1", "p2"])
        ⟨"p1", some exModA, [⟨"x", .other⟩, ⟨"y", .varRef "y1"⟩]⟩).m_partitionData "p1" =
      some ([⟨"x", .other⟩, ⟨"y", .varRef "y1"⟩].map
        (fun pinp => (gatherPort exModA pinp).1)) ∧
    ∀ pinp ∈ [(⟨"x", .other⟩ : AstPin), ⟨"y", .varRef "y1"⟩], handledExpr pinp.exprp = false →
      (gatherPort exModA pinp).1.name = pinp.name ∧
      (gatherPort exModA pinp).1.type = "logic" ∧
      (gatherPort exModA pinp).1.active = "Yes" ∧
      ((gatherPort exModA pinp).1.other_end = "[expression]" ∨
        (gatherPort exModA pinp).1.other_end = "[complex selbit]") ∧
      (gatherPort exModA pinp).1.direction =
        (match findVarInModule exModA pinp.name with
         | some varp => varp.direction
         | none => "") ∧
      (gatherPort exModA pinp).2 = none :=
  C23_unhandled_expression (PartitionPortAnalyzer.new exExpr ["p1", "p2"])
    ⟨"p1", some exModA, [⟨"x", .other⟩, ⟨"y", .varRef "y1"⟩]⟩ exModA (by decide) rfl

/-- C23 (counterexample): the pin `x` of `p1` in `exExpr` is tied to an unhandled
expression; the port is recorded, and reported by `analyze()`, with the declared direction
`in`, which Step 2.2 would normalise to `"Input"`, not with an unknown direction. -/
theorem C23_counterexample :
    handledExpr AstNodeExpr.other = false ∧
    (gatherPort exModA ⟨"x", .other⟩).1 =
      { name := "x", direction := "in", width := 1, active := "Yes", type := "logic",
        other_end := "[expression]" } ∧
    sourceDirectionOf (gatherPort exModA ⟨"x", .other⟩).1.direction = "Input" ∧
    (analyzeReport exExpr ["p1", "p2"]).map
        (fun e => (e.1, e.2.map (fun p => (p.name, p.direction, p.type, p.active)))) =
      [("p1", [("x", "in", "logic", "Yes"), ("y", "out", "wire", "No")]),
       ("p2", [("x", "in", "logic", "Yes"), ("y", "out", "wire", "No")])] := by
  decide

/-! ## Phase 1: endpoints and aliases -/

theorem mem_pushEndpoint_old (m : String → List (String × String)) (wire : String)
    (endpoint e : String × String) (w : String) (h : e ∈ m w) :
    e ∈ pushEndpoint m wire endpoint w := by
  unfold pushEndpoint mapSet
  split
  · rename_i hw
    rw [← hw]
    exact List.mem_append_left _ h
  · exact h

theorem mem_pushEndpoint_new (m : String → List (String × String)) (wire : String)
    (endpoint : String × String) : endpoint ∈ pushEndpoint m wire endpoint wire := by
  unfold pushEndpoint mapSet
  rw [if_pos rfl]
  exact List.mem_append_right _ (List.mem_singleton.2 rfl)

theorem gatherOtherPins_spec (cellName : String) : ∀ (pins : List AstPin)
    (m : String → List (String × String)),
    (∀ e w, e ∈ m w → e ∈ gatherOtherPins cellName pins m w) ∧
    ∀ pinp ∈ pins, getCanonicalName pinp.exprp ≠ "" →
      (cellName, pinp.name) ∈ gatherOtherPins cellName pins m (getCanonicalName pinp.exprp) := by
  intro pins
  induction pins with
  | nil => intro m; exact ⟨fun _ _ h => h, fun _ h => absurd h (List.not_mem_nil _)⟩
  | cons p rest ih =>
    intro m
    simp only [gatherOtherPins]
    have hstep : ∀ e w, e ∈ m w →
        e ∈ (if getCanonicalName p.exprp ≠ "" then
          pushEndpoint m (getCanonicalName p.exprp) (cellName, p.name) else m) w := by
      intro e w h
      split
      · exact mem_pushEndpoint_old _ _ _ _ _ h
      · exact h
    obtain ⟨i1, i2⟩ := ih (if getCanonicalName p.exprp ≠ "" then
      pushEndpoint m (getCanonicalName p.exprp) (cellName, p.name) else m)
    refine ⟨fun e w h => i1 e w (hstep e w h), ?_⟩
    intro pinp hp hne
    simp only [List.mem_cons] at hp
    rcases hp with rfl | hp
    · apply i1
      rw [if_pos hne]
      exact mem_pushEndpoint_new _ _ _
    · exact i2 pinp hp hne

theorem toDigitsCore_ne_nil (base : Nat) : ∀ (fuel n : Nat) (ds : List Char), ds ≠ [] →
    Nat.toDigitsCore base fuel n ds ≠ [] := by
  intro fuel
  induction fuel with
  | zero => intro n ds h; simpa [Nat.toDigitsCore] using h
  | succ f ih =>
    intro n ds _
    simp only [Nat.toDigitsCore]
    split
    · simp
    · exact ih _ _ (by simp)

theorem toString_nat_ne_empty (n : Nat) : toString n ≠ "" := by
  intro h
  have h1 : (toString n).data = [] := by rw [h]
  have h2 : (toString n).data = Nat.toDigits 10 n := rfl
  rw [h2] at h1
  unfold Nat.toDigits at h1
  simp only [Nat.toDigitsCore] at h1
  split at h1
  · simp at h1
  · exact toDigitsCore_ne_nil 10 _ _ _ (by simp) h1

theorem append_ne_empty (a b : String) (h : b ≠ "") : a ++ b ≠ "" := by
  intro he
  have h1 : (a ++ b).data = [] := by rw [he]
  rw [String.data_append, List.append_eq_nil] at h1
  exact h (String.ext h1.2)

theorem gatherPort_namedNet (partitionModule : AstNodeModule) (pinp : AstPin)
    (h : namedNet pinp.exprp = true) :
    (gatherPort partitionModule pinp).2 = some (getCanonicalName pinp.exprp) ∧
      getCanonicalName pinp.exprp ≠ "" := by
  obtain ⟨pname, e⟩ := pinp
  simp only at h
  cases hf : findVarInModule partitionModule pname <;> cases e with
  | null => exact absurd h (by simp [namedNet])
  | varRef n => simp_all [gatherPort, namedNet, getCanonicalName]
  | const s v => exact absurd h (by simp [namedNet])
  | other => exact absurd h (by simp [namedNet])
  | selBit op1 op2 =>
    cases op1 <;> cases op2 <;>
      simp_all [gatherPort, namedNet, getCanonicalName, toString_nat_ne_empty]
    all_goals exact append_ne_empty _ _ (by decide)

theorem gatherPartitionPins_spec (cellName : String) (partitionModule : AstNodeModule) :
    ∀ (pins : List AstPin) (acc : List Port × (String → List (String × String))),
    (∀ e w, e ∈ acc.2 w → e ∈ (gatherPartitionPins cellName partitionModule pins acc).2 w) ∧
    ∀ pinp ∈ pins, namedNet pinp.exprp = true →
      (cellName, pinp.name) ∈
        (gatherPartitionPins cellName partitionModule pins acc).2
          (getCanonicalName pinp.exprp) := by
  intro pins
  induction pins with
  | nil => intro acc; exact ⟨fun _ _ h => h, fun _ h => absurd h (List.not_mem_nil _)⟩
  | cons p rest ih =>
    intro acc
    obtain ⟨ports, m⟩ := acc
    simp only [gatherPartitionPins]
    have hstep : ∀ e w, e ∈ m w →
        e ∈ (match (gatherPort partitionModule p).2 with
          | some wire => pushEndpoint m wire (cellName, p.name)
          | none => m) w := by
      intro e w h
      cases (gatherPort partitionModule p).2 with
      | some wire => exact mem_pushEndpoint_old _ _ _ _ _ h
      | none => exact h
    obtain ⟨i1, i2⟩ := ih (ports ++ [(gatherPort partitionModule p).1],
      match (gatherPort partitionModule p).2 with
      | some wire => pushEndpoint m wire (cellName, p.name)
      | none => m)
    refine ⟨fun e w h => i1 e w (hstep e w h), ?_⟩
    intro pinp hp hn
    simp only [List.mem_cons] at hp
    rcases hp with rfl | hp
    · apply i1
      simp only [(gatherPort_namedNet partitionModule pinp hn).1]
      exact mem_pushEndpoint_new _ _ _
    · exact i2 pinp hp hn

theorem gatherParentPorts_spec (parentName : String) : ∀ (vars : List AstVar)
    (m : String → List (String × String)),
    (∀ e w, e ∈ m w → e ∈ gatherParentPorts parentName vars m w) ∧
    ∀ varp ∈ vars, varp.isIO = true → varp.name ≠ "" →
      (parentName, varp.name) ∈ gatherParentPorts parentName vars m varp.name := by
  intro vars
  induction vars with
  | nil => intro m; exact ⟨fun _ _ h => h, fun _ h => absurd h (List.not_mem_nil _)⟩
  | cons v rest ih =>
    intro m
    simp only [gatherParentPorts]
    have hstep : ∀ e w, e ∈ m w →
        e ∈ (if v.isIO = true ∧ v.name ≠ "" then pushEndpoint m v.name (parentName, v.name)
          else m) w := by
      intro e w h
      split
      · exact mem_pushEndpoint_old _ _ _ _ _ h
      · exact h
    obtain ⟨i1, i2⟩ := ih (if v.isIO = true ∧ v.name ≠ "" then
      pushEndpoint m v.name (parentName, v.name) else m)
    refine ⟨fun e w h => i1 e w (hstep e w h), ?_⟩
    intro varp hp hio hne
    simp only [List.mem_cons] at hp
    rcases hp with rfl | hp
    · apply i1
      rw [if_pos ⟨hio, hne⟩]
      exact mem_pushEndpoint_new _ _ _
    · exact i2 varp hp hio hne

theorem recordAlias_endpoints (a : PartitionPortAnalyzer) (lhsp rhsp : AstNodeExpr) :
    (recordAlias a lhsp rhsp).m_wireToEndpoints = a.m_wireToEndpoints := by
  unfold recordAlias
  split <;> rfl

theorem recordAlias_alias (a : PartitionPortAnalyzer) (lhsp rhsp : AstNodeExpr) :
    (recordAlias a lhsp rhsp).m_wireAliasMap =
      if getCanonicalName lhsp ≠ "" ∧ getCanonicalName rhsp ≠ "" then
        mapSet a.m_wireAliasMap (getCanonicalName lhsp) (some (getCanonicalName rhsp))
      else a.m_wireAliasMap := by
  unfold recordAlias
  split <;> rfl

theorem visitAssignW_alias (a : PartitionPortAnalyzer) (lhsp rhsp : AstNodeExpr) :
    (visitAssignW a lhsp rhsp).m_wireAliasMap = (recordAlias a lhsp rhsp).m_wireAliasMap := by
  unfold visitAssignW
  simp only
  split <;> split <;> rfl

theorem visitAssignW_endpoints (a : PartitionPortAnalyzer) (lhsp rhsp : AstNodeExpr) :
    (∀ e w, e ∈ a.m_wireToEndpoints w → e ∈ (visitAssignW a lhsp rhsp).m_wireToEndpoints w) ∧
    (getCanonicalName lhsp ≠ "" →
      (a.m_parentModule.name, "logic") ∈
        (visitAssignW a lhsp rhsp).m_wireToEndpoints (getCanonicalName lhsp)) ∧
    (getCanonicalName rhsp ≠ "" →
      (a.m_parentModule.name, "logic") ∈
        (visitAssignW a lhsp rhsp).m_wireToEndpoints (getCanonicalName rhsp)) := by
  have h0 := recordAlias_endpoints a lhsp rhsp
  unfold visitAssignW
  simp only
  by_cases hl : getCanonicalName lhsp ≠ "" <;> by_cases hr : getCanonicalName rhsp ≠ ""
  · rw [if_pos hl, if_pos hr]
    simp only [h0]
    refine ⟨fun e w h => mem_pushEndpoint_old _ _ _ _ _ (mem_pushEndpoint_old _ _ _ _ _ h),
      fun _ => mem_pushEndpoint_old _ _ _ _ _ (mem_pushEndpoint_new _ _ _),
      fun _ => mem_pushEndpoint_new _ _ _⟩
  · rw [if_pos hl, if_neg hr]
    simp only [h0]
    exact ⟨fun e w h => mem_pushEndpoint_old _ _ _ _ _ h,
      fun _ => mem_pushEndpoint_new _ _ _, fun h => absurd h hr⟩
  · rw [if_neg hl, if_pos hr]
    simp only [h0]
    exact ⟨fun e w h => mem_pushEndpoint_old _ _ _ _ _ h, fun h => absurd h hl,
      fun _ => mem_pushEndpoint_new _ _ _⟩
  · rw [if_neg hl, if_neg hr]
    rw [h0]
    exact ⟨fun e w h => h, fun h => absurd h hl, fun h => absurd h hr⟩

theorem visitCellPins_alias (a : PartitionPortAnalyzer) (cellp : AstCellPins) :
    (visitCellPins a cellp).m_wireAliasMap = a.m_wireAliasMap := by
  unfold visitCellPins
  simp only
  split
  · cases cellp.modp <;> rfl
  · cases cellp.modp <;> rfl

theorem visitCellPins_endpoints (a : PartitionPortAnalyzer) (cellp : AstCellPins) :
    (∀ e w, e ∈ a.m_wireToEndpoints w → e ∈ (visitCellPins a cellp).m_wireToEndpoints w) ∧
    (cellp.name ∉ a.m_partitionInstances → ∀ pinp ∈ cellp.pinsp,
      getCanonicalName pinp.exprp ≠ "" →
        (cellp.name, pinp.name) ∈
          (visitCellPins a cellp).m_wireToEndpoints (getCanonicalName pinp.exprp)) ∧
    (cellp.name ∈ a.m_partitionInstances → cellp.modp ≠ none → ∀ pinp ∈ cellp.pinsp,
      namedNet pinp.exprp = true →
        (cellp.name, pinp.name) ∈
          (visitCellPins a cellp).m_wireToEndpoints (getCanonicalName pinp.exprp)) := by
  unfold visitCellPins
  simp only
  by_cases hin : cellp.name ∈ a.m_partitionInstances
  · rw [if_neg (not_not.2 hin)]
    cases hm : cellp.modp with
    | none =>
      exact ⟨fun e w h => h, fun h => absurd hin h, fun _ h => absurd rfl h⟩
    | some partitionModule =>
      simp only
      obtain ⟨s1, s2⟩ := gatherPartitionPins_spec cellp.name partitionModule cellp.pinsp
        ([], a.m_wireToEndpoints)
      exact ⟨s1, fun h => absurd hin h, fun _ _ => s2⟩
  · rw [if_pos hin]
    cases hm : cellp.modp with
    | none =>
      simp only
      obtain ⟨s1, s2⟩ := gatherOtherPins_spec cellp.name cellp.pinsp a.m_wireToEndpoints
      exact ⟨s1, fun _ => s2, fun h => absurd h hin⟩
    | some modp =>
      simp only
      obtain ⟨s1, s2⟩ := gatherOtherPins_spec cellp.name cellp.pinsp a.m_wireToEndpoints
      exact ⟨s1, fun _ => s2, fun h => absurd h hin⟩

theorem gatherStmt_alias (a : PartitionPortAnalyzer) (s : AstStmt) :
    (gatherStmt a s).m_wireAliasMap =
      match aliasOf s with
      | some lr => mapSet a.m_wireAliasMap lr.1 (some lr.2)
      | none => a.m_wireAliasMap := by
  cases s with
  | assignW l r =>
    simp only [gatherStmt, aliasOf, visitAssignW_alias, recordAlias_alias]
    split <;> rfl
  | assign l r =>
    simp only [gatherStmt, aliasOf, recordAlias_alias]
    split <;> rfl
  | assignDly l r =>
    simp only [gatherStmt, aliasOf, recordAlias_alias]
    split <;> rfl
  | cell c => simp only [gatherStmt, aliasOf, visitCellPins_alias]

theorem gatherStmt_endpoints (a : PartitionPortAnalyzer) (s : AstStmt) (e : String × String)
    (w : String) (h : e ∈ a.m_wireToEndpoints w) : e ∈ (gatherStmt a s).m_wireToEndpoints w := by
  cases s with
  | assignW l r => exact (visitAssignW_endpoints a l r).1 e w h
  | assign l r => simp only [gatherStmt, recordAlias_endpoints]; exact h
  | assignDly l r => simp only [gatherStmt, recordAlias_endpoints]; exact h
  | cell c => exact (visitCellPins_endpoints a c).1 e w h

theorem foldl_gatherStmt_endpoints (stmts : List AstStmt) : ∀ (a : PartitionPortAnalyzer)
    (e : String × String) (w : String), e ∈ a.m_wireToEndpoints w →
    e ∈ (stmts.foldl gatherStmt a).m_wireToEndpoints w := by
  induction stmts with
  | nil => intro a e w h; exact h
  | cons s rest ih =>
    intro a e w h
    rw [List.foldl_cons]
    exact ih _ e w (gatherStmt_endpoints a s e w h)

theorem foldl_gatherStmt_alias (stmts : List AstStmt) (l : String) :
    ∀ (a : PartitionPortAnalyzer), (∀ s ∈ stmts, ∀ r, aliasOf s ≠ some (l, r)) →
    (stmts.foldl gatherStmt a).m_wireAliasMap l = a.m_wireAliasMap l := by
  induction stmts with
  | nil => intro a _; rfl
  | cons s rest ih =>
    intro a h
    rw [List.foldl_cons, ih _ (fun s1 hs1 => h s1 (List.mem_cons_of_mem _ hs1)),
      gatherStmt_alias]
    cases hal : aliasOf s with
    | none => rfl
    | some lr =>
      simp only [mapSet]
      have : ¬ l = lr.1 := by
        intro hl
        apply h s (List.mem_cons_self _ _) lr.2
        rw [hal, hl]
      rw [if_neg this]

theorem foldl_gatherStmt_alias_some (stmts : List AstStmt) (l : String) :
    ∀ (a : PartitionPortAnalyzer), (a.m_wireAliasMap l).isSome = true →
    ((stmts.foldl gatherStmt a).m_wireAliasMap l).isSome = true := by
  induction stmts with
  | nil => intro a h; exact h
  | cons s rest ih =>
    intro a h
    rw [List.foldl_cons]
    apply ih
    rw [gatherStmt_alias]
    cases hal : aliasOf s with
    | none => exact h
    | some lr =>
      simp only [mapSet]
      split
      · rfl
      · exact h

/-- The analyzer state in which Phase 1 visits the parent body. -/
theorem phase1_eq (a : PartitionPortAnalyzer) :
    phase1 a = a.m_parentModule.body.foldl gatherStmt
      { a with
        m_wireToEndpoints :=
          gatherParentPorts a.m_parentModuleName a.m_parentModule.vars a.m_wireToEndpoints } :=
  rfl

theorem phase1_split (parentModule : ParentModule) (partitionInstances : List String)
    (pre post : List AstStmt) (s : AstStmt) (hbody : parentModule.body = pre ++ s :: post) :
    ∃ A : PartitionPortAnalyzer,
      A.m_parentModule = parentModule ∧
      A.m_partitionInstances = stdSort partitionInstances ∧
      phase1 (PartitionPortAnalyzer.new parentModule partitionInstances) =
        post.foldl gatherStmt (gatherStmt A s) := by
  refine ⟨pre.foldl gatherStmt
    { PartitionPortAnalyzer.new parentModule partitionInstances with
      m_wireToEndpoints :=
        gatherParentPorts
          (PartitionPortAnalyzer.new parentModule partitionInstances).m_parentModuleName
          (PartitionPortAnalyzer.new parentModule partitionInstances).m_parentModule.vars
          (PartitionPortAnalyzer.new parentModule partitionInstances).m_wireToEndpoints },
    ?_, ?_, ?_⟩
  · exact (foldl_gatherStmt pre _
      (by intro e he; simp [PartitionPortAnalyzer.new] at he)).2.2.2.2
  · exact (foldl_gatherStmt pre _
      (by intro e he; simp [PartitionPortAnalyzer.new] at he)).2.1
  · rw [phase1_eq]
    have hb : (PartitionPortAnalyzer.new parentModule partitionInstances).m_parentModule.body =
        pre ++ s :: post := hbody
    rw [hb, List.foldl_append, List.foldl_cons]

/-- C28 (amended): after Phase 1, for every assignment of the parent body (continuous,
blocking or non-blocking) whose two sides both have a canonical net name, the alias map
holds an edge from the left net, and that edge leads to the right net unless a later such
assignment to the same left net has replaced it; and for a continuous assignment the
endpoint `(parent, "logic")` is on the endpoint list of the left and of the right net. -/
theorem C28_assignment_records (parentModule : ParentModule) (partitionInstances : List String)
    (pre post : List AstStmt) (s : AstStmt) (l r : String)
    (hbody : parentModule.body = pre ++ s :: post) (hal : aliasOf s = some (l, r)) :
    ((phase1 (PartitionPortAnalyzer.new parentModule partitionInstances)).m_wireAliasMap
      l).isSome = true ∧
    ((∀ s2 ∈ post, ∀ r2, aliasOf s2 ≠ some (l, r2)) →
      (phase1 (PartitionPortAnalyzer.new parentModule partitionInstances)).m_wireAliasMap l =
        some r) ∧
    (∀ lhsp rhsp, s = .assignW lhsp rhsp →
      (parentModule.name, "logic") ∈
        (phase1 (PartitionPortAnalyzer.new parentModule partitionInstances)).m_wireToEndpoints
          l ∧
      (parentModule.name, "logic") ∈
        (phase1 (PartitionPortAnalyzer.new parentModule partitionInstances)).m_wireToEndpoints
          r) := by
  obtain ⟨A, hA, _, hph⟩ := phase1_split parentModule partitionInstances pre post s hbody
  rw [hph]
  have hstep : (gatherStmt A s).m_wireAliasMap l = some r := by
    rw [gatherStmt_alias, hal]
    simp [mapSet]
  refine ⟨?_, ?_, ?_⟩
  · apply foldl_gatherStmt_alias_some
    rw [hstep]
    rfl
  · intro hlater
    rw [foldl_gatherStmt_alias post l _ hlater, hstep]
  · intro lhsp rhsp hs
    subst hs
    simp only [aliasOf] at hal
    split at hal
    · rename_i hne
      simp only [Option.some.injEq, Prod.mk.injEq] at hal
      obtain ⟨e1, e2, e3⟩ := visitAssignW_endpoints A lhsp rhsp
      rw [hA] at e2 e3
      rw [← hal.1, ← hal.2]
      exact ⟨foldl_gatherStmt_endpoints post _ _ _ (e2 hne.1),
        foldl_gatherStmt_endpoints post _ _ _ (e3 hne.2)⟩
    · exact absurd hal (by simp)

/-- C28 (witness): the assignment `assign w = y;` of `exChain`, followed by
`assign x = w;`. -/
theorem C28_assignment_records_witness :
    ((phase1 (PartitionPortAnalyzer.new exChain ["p1", "p2"])).m_wireAliasMap "w").isSome =
      true ∧
    ((∀ s2 ∈ [AstStmt.assignW (.varRef "x") (.varRef "w")], ∀ r2,
        aliasOf s2 ≠ some ("w", r2)) →
      (phase1 (PartitionPortAnalyzer.new exChain ["p1", "p2"])).m_wireAliasMap "w" =
        some "y") ∧
    (∀ lhsp rhsp, AstStmt.assignW (.varRef "w") (.varRef "y") = .assignW lhsp rhsp →
      (exChain.name, "logic") ∈
        (phase1 (PartitionPortAnalyzer.new exChain ["p1", "p2"])).m_wireToEndpoints "w" ∧
      (exChain.name, "logic") ∈
        (phase1 (PartitionPortAnalyzer.new exChain ["p1", "p2"])).m_wireToEndpoints "y") :=
  C28_assignment_records exChain ["p1", "p2"]
    [.cell ⟨"p1", some exModA, [⟨"x", .varRef "x"⟩, ⟨"y", .varRef "y1"⟩]⟩,
     .cell ⟨"p2", some exModA, [⟨"x", .varRef "x2"⟩, ⟨"y", .varRef "y"⟩]⟩]
    [.assignW (.varRef "x") (.varRef "w")] (.assignW (.varRef "w") (.varRef "y")) "w" "y"
    (by decide) (by decide)

/-- C28 (counterexample): in `exProc` the blocking assignment `a = b;` has canonical names
on both sides; Phase 1 records the alias edge from `a` to `b`, but no `(Top, "logic")`
endpoint on net `a` or on net `b`. -/
theorem C28_counterexample :
    aliasOf (.assign (.varRef "a") (.varRef "b")) = some ("a", "b") ∧
    (phase1 (PartitionPortAnalyzer.new exProc ["p1", "p2"])).m_wireAliasMap "a" = some "b" ∧
    ("Top", "logic") ∉
      (phase1 (PartitionPortAnalyzer.new exProc ["p1", "p2"])).m_wireToEndpoints "a" ∧
    ("Top", "logic") ∉
      (phase1 (PartitionPortAnalyzer.new exProc ["p1", "p2"])).m_wireToEndpoints "b" := by
  decide

/-- C29 (amended): after Phase 1, every pin with a non-empty canonical net name of an
instance that is not a partition is on the endpoint list of that net, as `(instance name,
pin name)`; so is every pin of a partition instance with a resolved module that is
connected to a net or a bus bit of non-empty name; and every IO port of the parent with a
non-empty name is on the endpoint list of the net of its own name, as `(parent module name,
port name)`. -/
theorem C29_endpoints_recorded (parentModule : ParentModule) (partitionInstances : List String) :
    (∀ cellp, AstStmt.cell cellp ∈ parentModule.body → cellp.name ∉ partitionInstances →
      ∀ pinp ∈ cellp.pinsp, getCanonicalName pinp.exprp ≠ "" →
        (cellp.name, pinp.name) ∈
          (phase1 (PartitionPortAnalyzer.new parentModule
            partitionInstances)).m_wireToEndpoints (getCanonicalName pinp.exprp)) ∧
    (∀ cellp, AstStmt.cell cellp ∈ parentModule.body → cellp.name ∈ partitionInstances →
      cellp.modp ≠ none → ∀ pinp ∈ cellp.pinsp, namedNet pinp.exprp = true →
        (cellp.name, pinp.name) ∈
          (phase1 (PartitionPortAnalyzer.new parentModule
            partitionInstances)).m_wireToEndpoints (getCanonicalName pinp.exprp)) ∧
    (∀ varp ∈ parentModule.vars, varp.isIO = true → varp.name ≠ "" →
      (parentModule.name, varp.name) ∈
        (phase1 (PartitionPortAnalyzer.new parentModule
          partitionInstances)).m_wireToEndpoints varp.name) := by
  have hperm : ∀ x, x ∈ stdSort partitionInstances ↔ x ∈ partitionInstances :=
    fun x => List.Perm.mem_iff (stdSort_perm partitionInstances)
  refine ⟨?_, ?_, ?_⟩
  · intro cellp hc hnot pinp hp hne
    obtain ⟨pre, post, hbody⟩ := List.append_of_mem hc
    obtain ⟨A, _, hA2, hph⟩ := phase1_split parentModule partitionInstances pre post _ hbody
    rw [hph]
    apply foldl_gatherStmt_endpoints
    exact (visitCellPins_endpoints A cellp).2.1
      (by rw [hA2]; exact fun h => hnot ((hperm _).1 h)) pinp hp hne
  · intro cellp hc hin hmod pinp hp hn
    obtain ⟨pre, post, hbody⟩ := List.append_of_mem hc
    obtain ⟨A, _, hA2, hph⟩ := phase1_split parentModule partitionInstances pre post _ hbody
    rw [hph]
    apply foldl_gatherStmt_endpoints
    exact (visitCellPins_endpoints A cellp).2.2
      (by rw [hA2]; exact (hperm _).2 hin) hmod pinp hp hn
  · intro varp hv hio hne
    rw [phase1_eq]
    apply foldl_gatherStmt_endpoints
    exact (gatherParentPorts_spec _ _ _).2 varp hv hio hne

/-- C29 (counterexample): in `exUnresolved` the cell `p1` is a partition instance whose
module is not resolved; its pin `x` is connected to net `n`, and after Phase 1 the pair
`(p1, x)` is not on the endpoint list of `n`. -/
theorem C29_counterexample :
    AstStmt.cell ⟨"p1", none, [⟨"x", .varRef "n"⟩]⟩ ∈ exUnresolved.body ∧
    getCanonicalName (AstNodeExpr.varRef "n") = "n" ∧
    (phase1 (PartitionPortAnalyzer.new exUnresolved ["p1", "p2"])).m_wireToEndpoints "n" =
      [("p2", "x")] ∧
    ("p1", "x") ∉
      (phase1 (PartitionPortAnalyzer.new exUnresolved ["p1", "p2"])).m_wireToEndpoints "n" := by
  decide

/-! ## Step 2.1: endpoint migration -/

theorem gatherPort_wire (partitionModule : AstNodeModule) (pinp : AstPin)
    (h : (gatherPort partitionModule pinp).1.type = "wire") :
    (gatherPort partitionModule pinp).2 = some (gatherPort partitionModule pinp).1.other_end ∧
      (gatherPort partitionModule pinp).1.name = pinp.name := by
  obtain ⟨pname, e⟩ := pinp
  cases hf : findVarInModule partitionModule pname <;> cases e with
  | null => simp [gatherPort, hf] at h
  | varRef n => simp [gatherPort, hf]
  | const s v => simp [gatherPort, hf] at h
  | other => simp [gatherPort, hf] at h
  | selBit op1 op2 =>
    simp only [gatherPort, hf] at h ⊢
    split at h
    · rename_i hc
      simp only [if_pos hc, and_self]
    · simp at h

theorem gatherPartitionPins_pushed (cellName : String) (partitionModule : AstNodeModule) :
    ∀ (pins : List AstPin) (acc : List Port × (String → List (String × String))),
    ∀ pinp ∈ pins, ∀ w, (gatherPort partitionModule pinp).2 = some w →
      (cellName, pinp.name) ∈ (gatherPartitionPins cellName partitionModule pins acc).2 w := by
  intro pins
  induction pins with
  | nil => intro acc pinp h; exact absurd h (List.not_mem_nil _)
  | cons p rest ih =>
    intro acc pinp hp w hw
    obtain ⟨ports, m⟩ := acc
    simp only [gatherPartitionPins]
    simp only [List.mem_cons] at hp
    rcases hp with rfl | hp
    · apply (gatherPartitionPins_spec cellName partitionModule rest _).1
      simp only [hw]
      exact mem_pushEndpoint_new _ _ _
    · exact ih _ pinp hp w hw

theorem gatherStmt_ownRecorded (a : PartitionPortAnalyzer) (s : AstStmt) (h : OwnRecorded a) :
    OwnRecorded (gatherStmt a s) := by
  intro e he p hp hw
  have hmono := gatherStmt_endpoints a s
  cases s with
  | assignW l r =>
    simp only [gatherStmt, (visitAssignW_data a l r).1] at he
    exact hmono _ _ (h e he p hp hw)
  | assign l r =>
    simp only [gatherStmt, (recordAlias_data a l r).1] at he
    exact hmono _ _ (h e he p hp hw)
  | assignDly l r =>
    simp only [gatherStmt, (recordAlias_data a l r).1] at he
    exact hmono _ _ (h e he p hp hw)
  | cell c =>
    by_cases hin : c.name ∈ a.m_partitionInstances
    · cases hm : c.modp with
      | none =>
        have hd : (gatherStmt a (.cell c)).m_partitionData = a.m_partitionData := by
          simp only [gatherStmt, visitCellPins, hm]
          rw [if_neg (not_not.2 hin)]
        rw [hd] at he
        exact hmono _ _ (h e he p hp hw)
      | some partitionModule =>
        have hd : (gatherStmt a (.cell c)).m_partitionData =
            mapInsert c.name (c.pinsp.map (fun pinp => (gatherPort partitionModule pinp).1))
              a.m_partitionData := by
          simp only [gatherStmt, visitCellPins, hm]
          rw [if_neg (not_not.2 hin)]
          simp only [gatherPartitionPins_ports, List.nil_append]
        have hep : (gatherStmt a (.cell c)).m_wireToEndpoints =
            (gatherPartitionPins c.name partitionModule c.pinsp
              ([], a.m_wireToEndpoints)).2 := by
          simp only [gatherStmt, visitCellPins, hm]
          rw [if_neg (not_not.2 hin)]
        rw [hd] at he
        rcases mem_mapInsert _ _ _ e he with rfl | he2
        · simp only [List.mem_map] at hp
          obtain ⟨pinp, hpin, rfl⟩ := hp
          obtain ⟨g1, g2⟩ := gatherPort_wire partitionModule pinp hw
          rw [hep, g2]
          exact gatherPartitionPins_pushed c.name partitionModule c.pinsp _ pinp hpin _ g1
        · exact hmono _ _ (h e he2 p hp hw)
    · have hd : (gatherStmt a (.cell c)).m_partitionData = a.m_partitionData := by
        simp only [gatherStmt, visitCellPins]
        rw [if_pos hin]
        cases c.modp <;> rfl
      rw [hd] at he
      exact hmono _ _ (h e he p hp hw)

theorem phase1_ownRecorded (parentModule : ParentModule) (partitionInstances : List String) :
    OwnRecorded (afterPhase1 parentModule partitionInstances) := by
  unfold afterPhase1
  rw [phase1_eq]
  have hfold : ∀ (stmts : List AstStmt) (a : PartitionPortAnalyzer), OwnRecorded a →
      OwnRecorded (stmts.foldl gatherStmt a) := by
    intro stmts
    induction stmts with
    | nil => intro a h; exact h
    | cons s rest ih => intro a h; exact ih _ (gatherStmt_ownRecorded a s h)
  apply hfold
  intro e he
  simp [PartitionPortAnalyzer.new] at he

theorem migrateEndpoints_apply (m : String → List (String × String))
    (initialWire finalWire instName portName w : String) :
    migrateEndpoints m initialWire finalWire instName portName w =
      if w = initialWire then
        (m initialWire).filter (fun e => ¬ (e.1 = instName ∧ e.2 = portName))
      else if w = finalWire then
        m finalWire ++ (m initialWire).filter (fun e => e.1 = instName ∧ e.2 = portName)
      else m w := rfl

theorem analyzePort_keep (a : PartitionPortAnalyzer) (instName : String) (p : Port)
    (m : String → List (String × String)) (e : String × String) (w : String)
    (hne : e ≠ (instName, p.name)) (h : e ∈ m w) : e ∈ (analyzePort a instName (p, m)).2 w := by
  by_cases hw : p.type = "wire"
  · rw [(analyzePort_wire_eq a instName p m hw).1]
    split
    · rw [migrateEndpoints_apply]
      split
      · rename_i hwi
        rw [List.mem_filter]
        refine ⟨hwi ▸ h, ?_⟩
        simp only [decide_eq_true_eq]
        exact fun hc => hne (Prod.ext hc.1 hc.2)
      · split
        · rename_i hwf
          exact List.mem_append_left _ (hwf ▸ h)
        · exact h
    · exact h
  · unfold analyzePort
    simp only
    rw [if_neg hw]
    exact h

theorem analyzePorts_keep (a : PartitionPortAnalyzer) (instName : String)
    (e : String × String) (w : String) : ∀ (ps : List Port)
    (m : String → List (String × String)), (∀ p ∈ ps, e ≠ (instName, p.name)) → e ∈ m w →
    e ∈ (analyzePorts a instName ps m).2 w := by
  intro ps
  induction ps with
  | nil => intro m _ h; exact h
  | cons p ps ih =>
    intro m hne h
    simp only [analyzePorts]
    exact ih _ (fun q hq => hne q (List.mem_cons_of_mem _ hq))
      (analyzePort_keep a instName p m e w (hne p (List.mem_cons_self _ _)) h)

theorem analyzeInstances_keep (a : PartitionPortAnalyzer) (e : String × String) (w : String) :
    ∀ (d : List (String × List Port)) (m : String → List (String × String)),
    (∀ ip ∈ d, ∀ p ∈ ip.2, e ≠ (ip.1, p.name)) → e ∈ m w →
    e ∈ (analyzeInstances a d m).2 w := by
  intro d
  induction d with
  | nil => intro m _ h; exact h
  | cons ip d ih =>
    intro m hne h
    simp only [analyzeInstances]
    exact ih _ (fun q hq => hne q (List.mem_cons_of_mem _ hq))
      (analyzePorts_keep a ip.1 e w ip.2 m (hne ip (List.mem_cons_self _ _)) h)

theorem ownPairs_split (pre post : List (String × List Port)) (instName : String)
    (ps1 ps2 : List Port) (p0 : Port)
    (h : (ownPairs (pre ++ (instName, ps1 ++ p0 :: ps2) :: post)).Nodup) :
    (∀ ip ∈ pre, ∀ p ∈ ip.2, (instName, p0.name) ≠ (ip.1, p.name)) ∧
    ∀ p ∈ ps1, (instName, p0.name) ≠ (instName, p.name) := by
  unfold ownPairs at h
  simp only [List.flatMap_append, List.flatMap_cons, List.map_append, List.map_cons] at h
  rw [List.nodup_append] at h
  obtain ⟨_, h2, h3⟩ := h
  rw [List.nodup_append] at h2
  obtain ⟨h4, _, _⟩ := h2
  rw [List.nodup_append] at h4
  obtain ⟨_, h5, h6⟩ := h4
  constructor
  · intro ip hip p hp heq
    refine h3 (a := (instName, p0.name)) ?_ ?_
    · rw [heq, List.mem_flatMap]
      exact ⟨ip, hip, List.mem_map.2 ⟨p, hp, rfl⟩⟩
    · simp
  · intro p hp heq
    refine h6 (a := (instName, p0.name)) ?_ ?_
    · rw [heq]
      exact List.mem_map.2 ⟨p, hp, rfl⟩
    · simp

/-- When the main loop reaches a wire-connected port of the gathered data whose
`(instance, port name)` pair is shared by no other gathered port, the port's own endpoint
is still on the endpoint list of its original net. -/
theorem own_on_original (parentModule : ParentModule) (partitionInstances : List String)
    (pre post : List (String × List Port)) (instName : String) (ps1 ps2 : List Port)
    (p0 : Port)
    (hdata : (afterPhase1 parentModule partitionInstances).m_partitionData =
      pre ++ (instName, ps1 ++ p0 :: ps2) :: post)
    (hdist : (ownPairs (afterPhase1 parentModule partitionInstances).m_partitionData).Nodup)
    (hw : p0.type = "wire") :
    (instName, p0.name) ∈
      mapBefore (afterPhase1 parentModule partitionInstances) pre instName ps1
        (afterPhase1 parentModule partitionInstances).m_wireToEndpoints p0.other_end := by
  have h0 := phase1_ownRecorded parentModule partitionInstances
    (instName, ps1 ++ p0 :: ps2) (by rw [hdata]; simp) p0 (by simp) hw
  rw [hdata] at hdist
  obtain ⟨d1, d2⟩ := ownPairs_split pre post instName ps1 ps2 p0 hdist
  unfold mapBefore
  exact analyzePorts_keep _ _ _ _ ps1 _ d2 (analyzeInstances_keep _ _ _ pre _ d1 h0)

/-- C30 (amended): when the main loop reaches a wire-connected port whose resolved net
differs from its original net, and no other gathered port has the same instance and port
name, then after Step 2.1 the port's own endpoint is on the resolved net's endpoint list
and no longer on the original net's list, the reported net name of the port is the
resolved net, the original net's list is the old one without the own endpoint, the
resolved net's list is the old one followed by the moved endpoint, and the list of every
other net is unchanged. -/
theorem C30_migration (parentModule : ParentModule) (partitionInstances : List String)
    (pre post : List (String × List Port)) (instName : String) (ps1 ps2 : List Port)
    (p0 : Port)
    (hdata : (afterPhase1 parentModule partitionInstances).m_partitionData =
      pre ++ (instName, ps1 ++ p0 :: ps2) :: post)
    (hdist : (ownPairs (afterPhase1 parentModule partitionInstances).m_partitionData).Nodup)
    (hw : p0.type = "wire")
    (hne : p0.other_end ≠
      resolveWireChain (afterPhase1 parentModule partitionInstances).m_wireAliasMap 5
        p0.other_end []) :
    (instName, p0.name) ∈
      mapAfterStep21 (afterPhase1 parentModule partitionInstances) pre instName ps1 p0
        (resolveWireChain (afterPhase1 parentModule partitionInstances).m_wireAliasMap 5
          p0.other_end []) ∧
    (instName, p0.name) ∉
      mapAfterStep21 (afterPhase1 parentModule partitionInstances) pre instName ps1 p0
        p0.other_end ∧
    (∃ port, getPort (analyzeReport parentModule partitionInstances)
        ⟨pre.length, ps1.length, 0⟩ = some port ∧ port.name = p0.name ∧
      port.other_end =
        resolveWireChain (afterPhase1 parentModule partitionInstances).m_wireAliasMap 5
          p0.other_end []) ∧
    mapAfterStep21 (afterPhase1 parentModule partitionInstances) pre instName ps1 p0
        p0.other_end =
      (mapBefore (afterPhase1 parentModule partitionInstances) pre instName ps1
        (afterPhase1 parentModule partitionInstances).m_wireToEndpoints p0.other_end).filter
        (fun e => decide (e ≠ (instName, p0.name))) ∧
    mapAfterStep21 (afterPhase1 parentModule partitionInstances) pre instName ps1 p0
        (resolveWireChain (afterPhase1 parentModule partitionInstances).m_wireAliasMap 5
          p0.other_end []) =
      mapBefore (afterPhase1 parentModule partitionInstances) pre instName ps1
          (afterPhase1 parentModule partitionInstances).m_wireToEndpoints
          (resolveWireChain (afterPhase1 parentModule partitionInstances).m_wireAliasMap 5
            p0.other_end []) ++
        (mapBefore (afterPhase1 parentModule partitionInstances) pre instName ps1
          (afterPhase1 parentModule partitionInstances).m_wireToEndpoints p0.other_end).filter
          (fun e => decide (e = (instName, p0.name))) ∧
    ∀ w, w ≠ p0.other_end →
      w ≠ resolveWireChain (afterPhase1 parentModule partitionInstances).m_wireAliasMap 5
        p0.other_end [] →
      mapAfterStep21 (afterPhase1 parentModule partitionInstances) pre instName ps1 p0 w =
        mapBefore (afterPhase1 parentModule partitionInstances) pre instName ps1
          (afterPhase1 parentModule partitionInstances).m_wireToEndpoints w := by
  have hown := own_on_original parentModule partitionInstances pre post instName ps1 ps2 p0
    hdata hdist hw
  obtain ⟨hm, hp⟩ := analyzePort_wire_eq (afterPhase1 parentModule partitionInstances) instName
    p0 (mapBefore (afterPhase1 parentModule partitionInstances) pre instName ps1
      (afterPhase1 parentModule partitionInstances).m_wireToEndpoints) hw
  rw [if_pos hne] at hm
  have hf1 : ∀ l : List (String × String),
      l.filter (fun e => decide (¬ (e.1 = instName ∧ e.2 = p0.name))) =
        l.filter (fun e => decide (e ≠ (instName, p0.name))) := by
    intro l
    apply List.filter_congr
    intro e _
    simp only [decide_eq_decide]
    constructor
    · intro h hc; exact h ⟨by rw [hc], by rw [hc]⟩
    · intro h hc; exact h (Prod.ext hc.1 hc.2)
  have hf2 : ∀ l : List (String × String),
      l.filter (fun e => decide (e.1 = instName ∧ e.2 = p0.name)) =
        l.filter (fun e => decide (e = (instName, p0.name))) := by
    intro l
    apply List.filter_congr
    intro e _
    simp only [decide_eq_decide]
    constructor
    · intro hc; exact Prod.ext hc.1 hc.2
    · intro hc; exact ⟨by rw [hc], by rw [hc]⟩
  have hne2 : ¬ resolveWireChain (afterPhase1 parentModule partitionInstances).m_wireAliasMap 5
      p0.other_end [] = p0.other_end := fun h => hne h.symm
  have e1 : mapAfterStep21 (afterPhase1 parentModule partitionInstances) pre instName ps1 p0
      p0.other_end =
      (mapBefore (afterPhase1 parentModule partitionInstances) pre instName ps1
        (afterPhase1 parentModule partitionInstances).m_wireToEndpoints p0.other_end).filter
        (fun e => decide (e ≠ (instName, p0.name))) := by
    unfold mapAfterStep21
    rw [hm, migrateEndpoints_apply, if_pos rfl, hf1]
  have e2 : mapAfterStep21 (afterPhase1 parentModule partitionInstances) pre instName ps1 p0
      (resolveWireChain (afterPhase1 parentModule partitionInstances).m_wireAliasMap 5
        p0.other_end []) =
      mapBefore (afterPhase1 parentModule partitionInstances) pre instName ps1
          (afterPhase1 parentModule partitionInstances).m_wireToEndpoints
          (resolveWireChain (afterPhase1 parentModule partitionInstances).m_wireAliasMap 5
            p0.other_end []) ++
        (mapBefore (afterPhase1 parentModule partitionInstances) pre instName ps1
          (afterPhase1 parentModule partitionInstances).m_wireToEndpoints p0.other_end).filter
          (fun e => decide (e = (instName, p0.name))) := by
    unfold mapAfterStep21
    rw [hm, migrateEndpoints_apply, if_neg hne2, if_pos rfl, hf2]
  refine ⟨?_, ?_, ?_, e1, e2, ?_⟩
  · rw [e2]
    apply List.mem_append_right
    rw [List.mem_filter]
    exact ⟨hown, by simp⟩
  · rw [e1, List.mem_filter]
    intro h
    simpa using h.2
  · obtain ⟨port, hget, hport⟩ := analyzeReport_getPort parentModule partitionInstances pre
      post instName ps1 ps2 p0 hdata
    refine ⟨port, hget, ?_, ?_⟩
    · have := congrArg Port.name hport
      rw [hp] at this
      exact this
    · have := congrArg Port.other_end hport
      rw [hp] at this
      exact this
  · intro w hw1 hw2
    unfold mapAfterStep21
    rw [hm, migrateEndpoints_apply, if_neg hw1, if_neg hw2]

/-- C30 (witness): the port `x` of `p1` in `exChain`, gathered on net `x` and resolved to
net `y`. -/
theorem C30_migration_witness :
    ("p1", (exPortOn "x").name) ∈
      mapAfterStep21 (afterPhase1 exChain ["p1", "p2"]) [] "p1" [] (exPortOn "x")
        (resolveWireChain (afterPhase1 exChain ["p1", "p2"]).m_wireAliasMap 5
          (exPortOn "x").other_end []) ∧
    ("p1", (exPortOn "x").name) ∉
      mapAfterStep21 (afterPhase1 exChain ["p1", "p2"]) [] "p1" [] (exPortOn "x")
        (exPortOn "x").other_end ∧
    (∃ port, getPort (analyzeReport exChain ["p1", "p2"])
        ⟨([] : List (String × List Port)).length, ([] : List Port).length, 0⟩ = some port ∧
      port.name = (exPortOn "x").name ∧
      port.other_end =
        resolveWireChain (afterPhase1 exChain ["p1", "p2"]).m_wireAliasMap 5
          (exPortOn "x").other_end []) ∧
    mapAfterStep21 (afterPhase1 exChain ["p1", "p2"]) [] "p1" [] (exPortOn "x")
        (exPortOn "x").other_end =
      (mapBefore (afterPhase1 exChain ["p1", "p2"]) [] "p1" []
        (afterPhase1 exChain ["p1", "p2"]).m_wireToEndpoints (exPortOn "x").other_end).filter
        (fun e => decide (e ≠ ("p1", (exPortOn "x").name))) ∧
    mapAfterStep21 (afterPhase1 exChain ["p1", "p2"]) [] "p1" [] (exPortOn "x")
        (resolveWireChain (afterPhase1 exChain ["p1", "p2"]).m_wireAliasMap 5
          (exPortOn "x").other_end []) =
      mapBefore (afterPhase1 exChain ["p1", "p2"]) [] "p1" []
          (afterPhase1 exChain ["p1", "p2"]).m_wireToEndpoints
          (resolveWireChain (afterPhase1 exChain ["p1", "p2"]).m_wireAliasMap 5
            (exPortOn "x").other_end []) ++
        (mapBefore (afterPhase1 exChain ["p1", "p2"]) [] "p1" []
          (afterPhase1 exChain ["p1", "p2"]).m_wireToEndpoints (exPortOn "x").other_end).filter
          (fun e => decide (e = ("p1", (exPortOn "x").name))) ∧
    ∀ w, w ≠ (exPortOn "x").other_end →
      w ≠ resolveWireChain (afterPhase1 exChain ["p1", "p2"]).m_wireAliasMap 5
        (exPortOn "x").other_end [] →
      mapAfterStep21 (afterPhase1 exChain ["p1", "p2"]) [] "p1" [] (exPortOn "x") w =
        mapBefore (afterPhase1 exChain ["p1", "p2"]) [] "p1" []
          (afterPhase1 exChain ["p1", "p2"]).m_wireToEndpoints w :=
  C30_migration exChain ["p1", "p2"] [] [("p2", [exPortOn "x2", exPortOutOn "y"])] "p1" []
    [exPortOutOn "y1"] (exPortOn "x") (by decide) (by decide) (by decide) (by decide)

/-- C30 (counterexample): in `exTriple` the instance `p1` has three pins named `x`.  The
first port (net `w0`, resolved to `w5`) moves every endpoint `(p1, x)` from `w0` to `w5`,
the second (net `w5`, resolved to `w6`) moves them all on to `w6`; when the third port
(net `w0`, resolved to `w5`) is reached, Step 2.1 finds nothing to move, and afterwards
the port's own endpoint is not on the endpoint list of its resolved net `w5`. -/
theorem C30_counterexample :
    (afterPhase1 exTriple ["p1", "p2"]).m_partitionData =
      [("p1", [exPortOn "w0", exPortOn "w5", exPortOn "w0"]), ("p2", [exPortOn "v"])] ∧
    resolveWireChain (afterPhase1 exTriple ["p1", "p2"]).m_wireAliasMap 5 "w0" [] = "w5" ∧
    mapAfterStep21 (afterPhase1 exTriple ["p1", "p2"]) [] "p1"
        [exPortOn "w0", exPortOn "w5"] (exPortOn "w0") "w5" = [] ∧
    ("p1", "x") ∉
      mapAfterStep21 (afterPhase1 exTriple ["p1", "p2"]) [] "p1"
        [exPortOn "w0", exPortOn "w5"] (exPortOn "w0") "w5" := by
  decide

/-! ## The decimal digits of an integer -/

theorem append_cons_cancel {α : Type} (x : α) : ∀ (a b r1 r2 : List α), x ∉ a → x ∉ b →
    a ++ x :: r1 = b ++ x :: r2 → a = b ∧ r1 = r2 := by
  intro a
  induction a with
  | nil =>
    intro b r1 r2 _ hb h
    cases b with
    | nil => simpa using h
    | cons y b =>
      simp only [List.nil_append, List.cons_append, List.cons.injEq] at h
      exact absurd (h.1 ▸ List.mem_cons_self _ _) hb
  | cons y a ih =>
    intro b r1 r2 ha hb h
    cases b with
    | nil =>
      simp only [List.nil_append, List.cons_append, List.cons.injEq] at h
      exact absurd (h.1 ▸ List.mem_cons_self _ _) ha
    | cons z b =>
      simp only [List.cons_append, List.cons.injEq] at h
      obtain ⟨e1, e2⟩ := ih b r1 r2 (fun hx => ha (List.mem_cons_of_mem _ hx))
        (fun hx => hb (List.mem_cons_of_mem _ hx)) h.2
      exact ⟨by rw [h.1, e1], e2⟩

theorem digitChar_spec : ∀ k, k < 10 →
    Nat.digitChar k ∈ ['0', '1', '2', '3', '4', '5', '6', '7', '8', '9'] ∧
      (Nat.digitChar k).toNat - 48 = k := by
  decide

theorem toDigitsCore_spec : ∀ (fuel n : Nat) (ds : List Char), n < fuel →
    ∃ l, Nat.toDigitsCore 10 fuel n ds = l ++ ds ∧ l ≠ [] ∧
      (∀ c ∈ l, c ∈ ['0', '1', '2', '3', '4', '5', '6', '7', '8', '9']) ∧
      digitsVal l = n := by
  intro fuel
  induction fuel with
  | zero => intro n ds h; omega
  | succ f ih =>
    intro n ds hn
    simp only [Nat.toDigitsCore]
    have hd := digitChar_spec (n % 10) (Nat.mod_lt _ (by decide))
    by_cases h0 : n / 10 = 0
    · rw [if_pos h0]
      refine ⟨[Nat.digitChar (n % 10)], rfl, by simp, ?_, ?_⟩
      · intro c hc
        rw [List.mem_singleton] at hc
        rw [hc]; exact hd.1
      · simp only [digitsVal, List.foldl_cons, List.foldl_nil, hd.2]
        omega
    · rw [if_neg h0]
      obtain ⟨l, hl, _, hall, hval⟩ := ih (n / 10) (Nat.digitChar (n % 10) :: ds) (by omega)
      refine ⟨l ++ [Nat.digitChar (n % 10)], ?_, by simp, ?_, ?_⟩
      · rw [hl]; simp
      · intro c hc
        rw [List.mem_append, List.mem_singleton] at hc
        rcases hc with hc | hc
        · exact hall c hc
        · rw [hc]; exact hd.1
      · unfold digitsVal at hval ⊢
        rw [List.foldl_append, hval]
        simp only [List.foldl_cons, List.foldl_nil, hd.2]
        omega

theorem toDigits_spec (n : Nat) :
    Nat.toDigits 10 n ≠ [] ∧
    (∀ c ∈ Nat.toDigits 10 n, c ∈ ['0', '1', '2', '3', '4', '5', '6', '7', '8', '9']) ∧
    digitsVal (Nat.toDigits 10 n) = n := by
  obtain ⟨l, hl, h1, h2, h3⟩ := toDigitsCore_spec (n + 1) n [] (Nat.lt_succ_self n)
  unfold Nat.toDigits
  rw [hl, List.append_nil]
  exact ⟨h1, h2, h3⟩

theorem cons_peel {α : Type} (a : α) (l1 l2 : List α) : (a :: l1 = a :: l2) = (l1 = l2) := by
  simp

theorem int_toString_data (z : Int) :
    (toString z).data =
      match z with
      | Int.ofNat m => Nat.toDigits 10 m
      | Int.negSucc m => '-' :: Nat.toDigits 10 (m + 1) := by
  cases z <;> rfl

theorem int_toString_chars (z : Int) (c : Char) (hc : c ∈ (toString z).data) :
    c ∈ ['0', '1', '2', '3', '4', '5', '6', '7', '8', '9', '-'] := by
  have hsub : ∀ d, d ∈ ['0', '1', '2', '3', '4', '5', '6', '7', '8', '9'] →
      d ∈ ['0', '1', '2', '3', '4', '5', '6', '7', '8', '9', '-'] := by
    intro d hd
    have : ['0', '1', '2', '3', '4', '5', '6', '7', '8', '9', '-']
        = ['0', '1', '2', '3', '4', '5', '6', '7', '8', '9'] ++ ['-'] := rfl
    rw [this]
    exact List.mem_append_left _ hd
  rw [int_toString_data] at hc
  cases z with
  | ofNat m => exact hsub c ((toDigits_spec m).2.1 c hc)
  | negSucc m =>
    simp only [List.mem_cons] at hc
    rcases hc with hc | hc
    · rw [hc]; decide
    · exact hsub c ((toDigits_spec (m + 1)).2.1 c hc)

theorem toDigits_inj (m1 m2 : Nat) (h : Nat.toDigits 10 m1 = Nat.toDigits 10 m2) :
    m1 = m2 := by
  rw [← (toDigits_spec m1).2.2, ← (toDigits_spec m2).2.2, h]

theorem int_toString_inj (z1 z2 : Int) (h : (toString z1).data = (toString z2).data) :
    z1 = z2 := by
  rw [int_toString_data, int_toString_data] at h
  have hno : ∀ m r, Nat.toDigits 10 m ≠ '-' :: r := by
    intro m r hm
    have := (toDigits_spec m).2.1 '-' (by rw [hm]; exact List.mem_cons_self _ _)
    revert this
    decide
  cases z1 with
  | ofNat m1 =>
    cases z2 with
    | ofNat m2 => rw [toDigits_inj m1 m2 h]
    | negSucc m2 => exact absurd h (hno _ _)
  | negSucc m1 =>
    cases z2 with
    | ofNat m2 => exact absurd h.symm (hno _ _)
    | negSucc m2 =>
      simp only [List.cons.injEq, true_and] at h
      have := toDigits_inj _ _ h
      have h12 : m1 = m2 := by omega
      rw [h12]

theorem int_field (c : Char)
    (hc : c ∉ ['0', '1', '2', '3', '4', '5', '6', '7', '8', '9', '-'])
    (z1 z2 : Int) (r1 r2 : List Char)
    (h : (toString z1).data ++ c :: r1 = (toString z2).data ++ c :: r2) :
    z1 = z2 ∧ r1 = r2 := by
  obtain ⟨e1, e2⟩ := append_cons_cancel c _ _ r1 r2
    (fun hx => hc (int_toString_chars z1 c hx)) (fun hx => hc (int_toString_chars z2 c hx)) h
  exact ⟨int_toString_inj z1 z2 e1, e2⟩

theorem hexVal4_hex4 : ∀ n, n ≤ 31 →
    hexVal4 (Nat.digitChar (n / 4096 % 16)) (Nat.digitChar (n / 256 % 16))
      (Nat.digitChar (n / 16 % 16)) (Nat.digitChar (n % 16)) = some n := by
  decide

theorem jsonUnescape_quote (rest : List Char) :
    jsonUnescape ('"' :: rest) = some ([], rest) := by
  rw [jsonUnescape.eq_def]; rfl

theorem jsonUnescape_simple (e ch : Char) (rest s r : List Char) (he : e ≠ 'u')
    (hs : simpleEscape e = some ch) (h : jsonUnescape rest = some (s, r)) :
    jsonUnescape ('\\' :: e :: rest) = some (ch :: s, r) := by
  rw [jsonUnescape.eq_def]
  simp only [if_neg (show ¬ '\\' = '"' by decide), if_true, if_neg he, hs, h]

theorem jsonUnescape_hex (h1 h2 h3 h4 : Char) (v : Nat) (rest s r : List Char)
    (hv : hexVal4 h1 h2 h3 h4 = some v) (h : jsonUnescape rest = some (s, r)) :
    jsonUnescape ('\\' :: 'u' :: h1 :: h2 :: h3 :: h4 :: rest)
      = some (Char.ofNat v :: s, r) := by
  rw [jsonUnescape.eq_def]
  simp only [if_neg (show ¬ '\\' = '"' by decide), if_true, hv, h]

theorem jsonUnescape_raw (c : Char) (rest s r : List Char) (h1 : c ≠ '"') (h2 : c ≠ '\\')
    (h3 : ¬ c.toNat < 0x20) (h : jsonUnescape rest = some (s, r)) :
    jsonUnescape (c :: rest) = some (c :: s, r) := by
  rw [jsonUnescape.eq_def]
  simp only [if_neg h1, if_neg h2, if_neg h3, h]

theorem jsonEscapeChar_unescape (c : Char) (rest s r : List Char)
    (h : jsonUnescape rest = some (s, r)) :
    jsonUnescape (jsonEscapeChar c ++ rest) = some (c :: s, r) := by
  unfold jsonEscapeChar
  by_cases h1 : c = '"'
  · subst h1; exact jsonUnescape_simple _ _ _ _ _ (by decide) rfl h
  rw [if_neg h1]
  by_cases h2 : c = '\\'
  · subst h2; exact jsonUnescape_simple _ _ _ _ _ (by decide) rfl h
  rw [if_neg h2]
  by_cases h3 : c = '\x08'
  · subst h3; exact jsonUnescape_simple _ _ _ _ _ (by decide) rfl h
  rw [if_neg h3]
  by_cases h4 : c = '\x0c'
  · subst h4; exact jsonUnescape_simple _ _ _ _ _ (by decide) rfl h
  rw [if_neg h4]
  by_cases h5 : c = '\n'
  · subst h5; exact jsonUnescape_simple _ _ _ _ _ (by decide) rfl h
  rw [if_neg h5]
  by_cases h6 : c = '\r'
  · subst h6; exact jsonUnescape_simple _ _ _ _ _ (by decide) rfl h
  rw [if_neg h6]
  by_cases h7 : c = '\t'
  · subst h7; exact jsonUnescape_simple _ _ _ _ _ (by decide) rfl h
  rw [if_neg h7]
  by_cases h8 : c.toNat ≤ 0x1f
  · rw [if_pos h8]
    have := jsonUnescape_hex _ _ _ _ _ rest s r (hexVal4_hex4 c.toNat h8) h
    rw [Char.ofNat_toNat] at this
    exact this
  · rw [if_neg h8]
    exact jsonUnescape_raw c rest s r h1 h2 (by omega) h

theorem jsonUnescape_escape (l rest : List Char) :
    jsonUnescape (l.flatMap jsonEscapeChar ++ '"' :: rest) = some (l, rest) := by
  induction l with
  | nil => exact jsonUnescape_quote rest
  | cons c l ih =>
    rw [List.flatMap_cons, List.append_assoc]
    exact jsonEscapeChar_unescape c _ _ _ ih

theorem jsonEscape_field (s1 s2 : String) (r1 r2 : List Char)
    (h : (jsonEscape s1).data ++ '"' :: r1 = (jsonEscape s2).data ++ '"' :: r2) :
    s1 = s2 ∧ r1 = r2 := by
  have h1 := jsonUnescape_escape s1.data r1
  have h2 := jsonUnescape_escape s2.data r2
  simp only [jsonEscape] at h
  rw [h, h2] at h1
  simp only [Option.some.injEq, Prod.mk.injEq] at h1
  exact ⟨String.ext h1.1.symm, h1.2.symm⟩

/-! ## The report text determines the report -/

theorem jsonPartner_field (q1 q2 : CommunicationPartner) (r1 r2 : List Char)
    (h : jsonPartner q1 ++ r1 = jsonPartner q2 ++ r2) : q1 = q2 ∧ r1 = r2 := by
  simp only [jsonPartner, List.append_assoc, List.cons_append, List.nil_append,
    cons_peel] at h
  obtain ⟨e1, h⟩ := jsonEscape_field _ _ _ _ h
  simp only [cons_peel] at h
  obtain ⟨e2, h⟩ := jsonEscape_field _ _ _ _ h
  simp only [cons_peel] at h
  obtain ⟨e3, h⟩ := jsonEscape_field _ _ _ _ h
  simp only [cons_peel] at h
  obtain ⟨e4, h⟩ := int_field _ (by decide) _ _ _ _ h
  refine ⟨?_, h⟩
  cases q1; cases q2
  simp only at e1 e2 e3 e4
  simp only [e1, e2, e3, e4]

theorem jsonPartner_head (q : CommunicationPartner) :
    ∃ t, jsonPartner q = '\x7b' :: t := by
  simp only [jsonPartner, List.append_assoc, List.cons_append, List.nil_append]
  exact ⟨_, rfl⟩

theorem jsonPartners_field : ∀ (l1 l2 : List CommunicationPartner) (r1 r2 : List Char),
    jsonPartners l1 ++ ']' :: r1 = jsonPartners l2 ++ ']' :: r2 → l1 = l2 ∧ r1 = r2 := by
  intro l1
  induction l1 with
  | nil =>
    intro l2 r1 r2 h
    cases l2 with
    | nil => simpa [jsonPartners] using h
    | cons q2 t2 =>
      obtain ⟨t, ht⟩ := jsonPartner_head q2
      simp only [jsonPartners, List.nil_append, List.append_assoc, ht, List.cons_append,
        List.cons.injEq] at h
      exact absurd h.1 (by decide)
  | cons q1 t1 ih =>
    intro l2 r1 r2 h
    cases l2 with
    | nil =>
      obtain ⟨t, ht⟩ := jsonPartner_head q1
      simp only [jsonPartners, List.nil_append, List.append_assoc, ht, List.cons_append,
        List.cons.injEq] at h
      exact absurd h.1 (by decide)
    | cons q2 t2 =>
      simp only [jsonPartners, List.append_assoc] at h
      obtain ⟨eq, h⟩ := jsonPartner_field _ _ _ _ h
      cases t1 with
      | nil =>
        cases t2 with
        | nil =>
          simp only [List.isEmpty, if_true, jsonPartners, List.nil_append, cons_peel] at h
          exact ⟨by rw [eq], h⟩
        | cons q2b t2b =>
          simp only [List.isEmpty, if_true, jsonPartners, List.nil_append,
            Bool.false_eq_true, if_false, List.cons_append, List.cons.injEq] at h
          exact absurd h.1 (by decide)
      | cons q1b t1b =>
        cases t2 with
        | nil =>
          simp only [List.isEmpty, if_true, jsonPartners, List.nil_append,
            Bool.false_eq_true, if_false, List.cons_append, List.cons.injEq] at h
          exact absurd h.1 (by decide)
        | cons q2b t2b =>
          simp only [List.isEmpty, Bool.false_eq_true, if_false, List.cons_append,
            List.nil_append, cons_peel] at h
          obtain ⟨et, er⟩ := ih _ _ _ h
          exact ⟨by rw [eq, et], er⟩

set_option maxRecDepth 100000 in
theorem jsonPort_field (p1 p2 : Port) (r1 r2 : List Char)
    (h : jsonPort p1 ++ r1 = jsonPort p2 ++ r2) : p1 = p2 ∧ r1 = r2 := by
  simp only [jsonPort, List.append_assoc, List.cons_append, List.nil_append,
    cons_peel] at h
  obtain ⟨e1, h⟩ := jsonEscape_field _ _ _ _ h
  simp only [cons_peel] at h
  obtain ⟨e2, h⟩ := jsonEscape_field _ _ _ _ h
  simp only [cons_peel] at h
  obtain ⟨e3, h⟩ := int_field _ (by decide) _ _ _ _ h
  simp only [cons_peel] at h
  obtain ⟨e4, h⟩ := jsonEscape_field _ _ _ _ h
  simp only [cons_peel] at h
  obtain ⟨e5, h⟩ := jsonEscape_field _ _ _ _ h
  simp only [cons_peel] at h
  obtain ⟨e6, h⟩ := jsonEscape_field _ _ _ _ h
  simp only [cons_peel] at h
  obtain ⟨e7, h⟩ := jsonEscape_field _ _ _ _ h
  simp only [cons_peel] at h
  obtain ⟨e8, h⟩ := int_field _ (by decide) _ _ _ _ h
  simp only [cons_peel] at h
  obtain ⟨e9, h⟩ := jsonEscape_field _ _ _ _ h
  simp only [cons_peel] at h
  obtain ⟨e10, h⟩ := jsonPartners_field _ _ _ _ h
  simp only [cons_peel] at h
  refine ⟨?_, h⟩
  cases p1; cases p2
  simp only at e1 e2 e3 e4 e5 e6 e7 e8 e9 e10
  simp only [e1, e2, e3, e4, e5, e6, e7, e8, e9, e10]

set_option maxRecDepth 100000 in
theorem jsonPort_head (p : Port) :
    ∃ t, jsonPort p = ' ' :: ' ' :: ' ' :: ' ' :: ' ' :: t := by
  simp only [jsonPort, List.append_assoc, List.cons_append, List.nil_append]
  exact ⟨_, rfl⟩

theorem jsonPorts_field : ∀ (l1 l2 : List Port) (r1 r2 : List Char),
    jsonPorts l1 ++ ' ' :: ' ' :: ' ' :: ' ' :: ']' :: r1
      = jsonPorts l2 ++ ' ' :: ' ' :: ' ' :: ' ' :: ']' :: r2 → l1 = l2 ∧ r1 = r2 := by
  intro l1
  induction l1 with
  | nil =>
    intro l2 r1 r2 h
    cases l2 with
    | nil => simpa [jsonPorts] using h
    | cons q2 t2 =>
      obtain ⟨t, ht⟩ := jsonPort_head q2
      simp only [jsonPorts, List.nil_append, List.append_assoc, ht, List.cons_append,
        List.cons.injEq] at h
      exact absurd h.2.2.2.2.1 (by decide)
  | cons q1 t1 ih =>
    intro l2 r1 r2 h
    cases l2 with
    | nil =>
      obtain ⟨t, ht⟩ := jsonPort_head q1
      simp only [jsonPorts, List.nil_append, List.append_assoc, ht, List.cons_append,
        List.cons.injEq] at h
      exact absurd h.2.2.2.2.1 (by decide)
    | cons q2 t2 =>
      simp only [jsonPorts, List.append_assoc] at h
      obtain ⟨eq, h⟩ := jsonPort_field _ _ _ _ h
      cases ht1 : t1.isEmpty <;> cases ht2 : t2.isEmpty <;> rw [ht1, ht2] at h
      · simp only [Bool.false_eq_true, if_false, List.cons_append, List.nil_append,
          cons_peel] at h
        obtain ⟨et, er⟩ := ih _ _ _ h
        exact ⟨by rw [eq, et], er⟩
      · simp only [Bool.false_eq_true, if_false, if_true, List.cons_append,
          List.nil_append, List.cons.injEq] at h
        exact absurd h.1 (by decide)
      · simp only [Bool.false_eq_true, if_false, if_true, List.cons_append,
          List.nil_append, List.cons.injEq] at h
        exact absurd h.1 (by decide)
      · rw [List.isEmpty_iff] at ht1 ht2
        subst ht1 ht2
        simp only [if_true, jsonPorts, List.cons_append, List.nil_append, cons_peel] at h
        exact ⟨by rw [eq], h⟩

theorem jsonInstances_field : ∀ (l1 l2 : List (String × List Port)) (r1 r2 : List Char),
    jsonInstances l1 ++ ' ' :: ' ' :: '\x7d' :: r1
      = jsonInstances l2 ++ ' ' :: ' ' :: '\x7d' :: r2 → l1 = l2 ∧ r1 = r2 := by
  intro l1
  induction l1 with
  | nil =>
    intro l2 r1 r2 h
    cases l2 with
    | nil => simpa [jsonInstances] using h
    | cons q2 t2 =>
      simp only [jsonInstances, List.nil_append, List.append_assoc, List.cons_append,
        List.cons.injEq] at h
      exact absurd h.2.2.1 (by decide)
  | cons q1 t1 ih =>
    intro l2 r1 r2 h
    cases l2 with
    | nil =>
      simp only [jsonInstances, List.nil_append, List.append_assoc, List.cons_append,
        List.cons.injEq] at h
      exact absurd h.2.2.1 (by decide)
    | cons q2 t2 =>
      simp only [jsonInstances, List.nil_append, List.append_assoc, List.cons_append,
        cons_peel] at h
      obtain ⟨en, h⟩ := jsonEscape_field _ _ _ _ h
      simp only [cons_peel] at h
      obtain ⟨ep, h⟩ := jsonPorts_field _ _ _ _ h
      have eq : q1 = q2 := Prod.ext en ep
      cases ht1 : t1.isEmpty <;> cases ht2 : t2.isEmpty <;> rw [ht1, ht2] at h
      · simp only [Bool.false_eq_true, if_false, List.cons_append, List.nil_append,
          cons_peel] at h
        obtain ⟨et, er⟩ := ih _ _ _ h
        exact ⟨by rw [eq, et], er⟩
      · simp only [Bool.false_eq_true, if_false, if_true, List.cons_append,
          List.nil_append, List.cons.injEq] at h
        exact absurd h.1 (by decide)
      · simp only [Bool.false_eq_true, if_false, if_true, List.cons_append,
          List.nil_append, List.cons.injEq] at h
        exact absurd h.1 (by decide)
      · rw [List.isEmpty_iff] at ht1 ht2
        subst ht1 ht2
        simp only [if_true, jsonInstances, List.cons_append, List.nil_append, cons_peel] at h
        exact ⟨by rw [eq], h⟩

theorem writeJsonReport_inj (d1 d2 : List (String × List Port))
    (h : writeJsonReport d1 = writeJsonReport d2) : d1 = d2 := by
  have h := congrArg String.data h
  simp only [writeJsonReport, List.append_assoc, List.cons_append,
    List.nil_append, cons_peel] at h
  exact (jsonInstances_field _ _ _ _ h).1

set_option maxRecDepth 100000 in
theorem writeJsonReport_exJsonA :
    writeJsonReport exJsonA =
      "\x7b\n" ++
      "  \"partitions\": \x7b\n" ++
      "    \"p1\": [\n" ++
      "      \x7b\n" ++
      "        \"port_name\": \"a\\nb\",\n" ++
      "        \"direction\": \"Output\",\n" ++
      "        \"width\": 8,\n" ++
      "        \"active\": \"Yes\",\n" ++
      "        \"type\": \"logic\",\n" ++
      "        \"connecting_wire\": \"top.w[3]\",\n" ++
      "        \"mpi_process\": \"partition_0\",\n" ++
      "        \"mpi_rank\": 1,\n" ++
      "        \"Comm\": \"P2P\",\n" ++
      "        \"with_whom_is_it_communicating\": [\x7b\"instance\": " ++
      "\"u\\\"2\", \"port\": \"in\", \"mpi_process\": \"partition_1\", " ++
      "\"mpi_rank\": 2\x7d, \x7b\"instance\": \"System\", \"port\": \"\\u0001\", " ++
      "\"mpi_process\": \"system\", \"mpi_rank\": -1\x7d]\n" ++
      "      \x7d,\n" ++
      "      \x7b\n" ++
      "        \"port_name\": \"\",\n" ++
      "        \"direction\": \"\",\n" ++
      "        \"width\": 0,\n" ++
      "        \"active\": \"idk\",\n" ++
      "        \"type\": \"idk\",\n" ++
      "        \"connecting_wire\": \"\",\n" ++
      "        \"mpi_process\": \"idk\",\n" ++
      "        \"mpi_rank\": -1,\n" ++
      "        \"Comm\": \"idk\",\n" ++
      "        \"with_whom_is_it_communicating\": []\n" ++
      "      \x7d\n" ++
      "    ],\n" ++
      "    \"p2\": [\n" ++
      "    ]\n" ++
      "  \x7d\n" ++
      "\x7d\n" := by
  decide

/-- C24: two different reports never serialise to the same text: for all lists of
instances with their port lists, whatever the strings and integers in the fields of the
ports and of their partners, `writeJsonReport` writes different texts for different
reports, so the text determines the instance names, every port field and the partner lists
in their order. -/
theorem C24_report_text_determines_report (d1 d2 : List (String × List Port))
    (h : d1 ≠ d2) : writeJsonReport d1 ≠ writeJsonReport d2 :=
  fun he => h (writeJsonReport_inj d1 d2 he)

theorem C24_report_text_determines_report_witness :
    exJsonA ≠ exJsonB ∧ writeJsonReport exJsonA ≠ writeJsonReport exJsonB :=
  ⟨by decide, C24_report_text_determines_report exJsonA exJsonB (by decide)⟩

/-! ## The escaping of strings -/

theorem escapedOK_simple (e : Char) (rest : List Char) (he : e ≠ 'u')
    (hs : (simpleEscape e).isSome = true) (h : escapedOK rest = true) :
    escapedOK ('\\' :: e :: rest) = true := by
  rw [escapedOK.eq_def]
  simp only [if_true, if_neg he, hs, h, Bool.and_self]

theorem escapedOK_hex (h1 h2 h3 h4 : Char) (rest : List Char)
    (hv : (hexVal4 h1 h2 h3 h4).isSome = true) (h : escapedOK rest = true) :
    escapedOK ('\\' :: 'u' :: h1 :: h2 :: h3 :: h4 :: rest) = true := by
  rw [escapedOK.eq_def]
  simp only [if_true, hv, h, Bool.and_self]

theorem escapedOK_raw (c : Char) (rest : List Char) (h1 : c ≠ '"') (h2 : c ≠ '\\')
    (h3 : ¬ c.toNat < 0x20) (h : escapedOK rest = true) :
    escapedOK (c :: rest) = true := by
  rw [escapedOK.eq_def]
  simp only [if_neg h1, if_neg h2, if_neg h3, h]

theorem hex4_spec : ∀ n, n ≤ 31 →
    (hexVal4 (Nat.digitChar (n / 4096 % 16)) (Nat.digitChar (n / 256 % 16))
      (Nat.digitChar (n / 16 % 16)) (Nat.digitChar (n % 16))).isSome = true ∧
    ∀ c ∈ hex4 n, 0x20 ≤ c.toNat := by
  decide

theorem jsonEscapeChar_ok (c : Char) (rest : List Char) (h : escapedOK rest = true) :
    escapedOK (jsonEscapeChar c ++ rest) = true ∧
      ∀ d ∈ jsonEscapeChar c, 0x20 ≤ d.toNat := by
  unfold jsonEscapeChar
  by_cases h1 : c = '"'
  · subst h1; exact ⟨escapedOK_simple _ _ (by decide) rfl h, by decide⟩
  rw [if_neg h1]
  by_cases h2 : c = '\\'
  · subst h2; exact ⟨escapedOK_simple _ _ (by decide) rfl h, by decide⟩
  rw [if_neg h2]
  by_cases h3 : c = '\x08'
  · subst h3; exact ⟨escapedOK_simple _ _ (by decide) rfl h, by decide⟩
  rw [if_neg h3]
  by_cases h4 : c = '\x0c'
  · subst h4; exact ⟨escapedOK_simple _ _ (by decide) rfl h, by decide⟩
  rw [if_neg h4]
  by_cases h5 : c = '\n'
  · subst h5; exact ⟨escapedOK_simple _ _ (by decide) rfl h, by decide⟩
  rw [if_neg h5]
  by_cases h6 : c = '\r'
  · subst h6; exact ⟨escapedOK_simple _ _ (by decide) rfl h, by decide⟩
  rw [if_neg h6]
  by_cases h7 : c = '\t'
  · subst h7; exact ⟨escapedOK_simple _ _ (by decide) rfl h, by decide⟩
  rw [if_neg h7]
  by_cases h8 : c.toNat ≤ 0x1f
  · rw [if_pos h8]
    refine ⟨escapedOK_hex _ _ _ _ _ (hex4_spec c.toNat h8).1 h, ?_⟩
    intro d hd
    simp only [List.mem_cons] at hd
    rcases hd with hd | hd | hd
    · rw [hd]; decide
    · rw [hd]; decide
    · exact (hex4_spec c.toNat h8).2 d hd
  · rw [if_neg h8]
    refine ⟨escapedOK_raw c rest h1 h2 (by omega) h, ?_⟩
    intro d hd
    rw [List.mem_singleton] at hd
    rw [hd]; omega

theorem jsonEscape_ok (l : List Char) :
    escapedOK (l.flatMap jsonEscapeChar) = true ∧
      ∀ d ∈ l.flatMap jsonEscapeChar, 0x20 ≤ d.toNat := by
  induction l with
  | nil => exact ⟨rfl, fun d hd => absurd hd (List.not_mem_nil d)⟩
  | cons c l ih =>
    rw [List.flatMap_cons]
    refine ⟨(jsonEscapeChar_ok c _ ih.1).1, ?_⟩
    intro d hd
    rw [List.mem_append] at hd
    rcases hd with hd | hd
    · exact (jsonEscapeChar_ok c [] rfl).2 d hd
    · exact ih.2 d hd

theorem jsonEscape_example :
    jsonEscape "a\"b\\c\n\x01\x7fd" = "a\\\"b\\\\c\\n\\u0001\x7fd" := by
  decide

/-- C39: `jsonEscape` is an invertible JSON string escaping: for every string `s` the
output is a well-formed JSON string body (a quotation mark or a backslash occurs only
inside an escape sequence), holds no character in 0x00..0x1f, JSON string unescaping of
the output followed by the closing quotation mark returns `s` with nothing left over, and
two strings with the same output are equal. -/
theorem C39_jsonEscape_invertible (s : String) :
    escapedOK (jsonEscape s).data = true ∧
    (∀ c ∈ (jsonEscape s).data, 0x20 ≤ c.toNat) ∧
    jsonUnescape ((jsonEscape s).data ++ ['"']) = some (s.data, []) ∧
    ∀ s2 : String, jsonEscape s = jsonEscape s2 → s = s2 := by
  refine ⟨(jsonEscape_ok s.data).1, (jsonEscape_ok s.data).2,
    jsonUnescape_escape s.data [], ?_⟩
  intro s2 h
  have h1 := jsonUnescape_escape s.data []
  have h2 := jsonUnescape_escape s2.data []
  have h3 : s.data.flatMap jsonEscapeChar = s2.data.flatMap jsonEscapeChar :=
    congrArg String.data h
  rw [h3, h2] at h1
  simp only [Option.some.injEq, Prod.mk.injEq, and_true] at h1
  exact String.ext h1.symm

/-! ## The rank table and the order of the names -/

theorem stringLess_le_trans (a b c : List Char) (h1 : stringLess b a = false)
    (h2 : stringLess c b = false) : stringLess c a = false := by
  cases hca : stringLess c a with
  | false => rfl
  | true =>
    cases hab : stringLess a b with
    | true =>
      have := stringLess_trans c a b hca hab
      rw [this] at h2
      exact absurd h2 (by decide)
    | false =>
      have hEq := stringLess_total a b hab h1
      rw [hEq] at hca
      rw [hca] at h2
      exact absurd h2 (by decide)

theorem sortInsert_sorted (x : String) : ∀ l : List String,
    l.Pairwise (fun a b => stringLess b.data a.data = false) →
    (sortInsert x l).Pairwise (fun a b => stringLess b.data a.data = false) := by
  intro l
  induction l with
  | nil => intro _; simp [sortInsert]
  | cons y ys ih =>
    intro h
    rw [List.pairwise_cons] at h
    simp only [sortInsert]
    by_cases hyx : stringLess y.data x.data = true
    · rw [if_pos hyx, List.pairwise_cons]
      refine ⟨?_, ih h.2⟩
      intro z hz
      have hz1 := (List.Perm.mem_iff (sortInsert_perm x ys)).1 hz
      rw [List.mem_cons] at hz1
      rcases hz1 with hz1 | hz1
      · rw [hz1]; exact stringLess_asymm _ _ hyx
      · exact h.1 z hz1
    · rw [if_neg hyx, List.pairwise_cons, List.pairwise_cons]
      have hxy : stringLess y.data x.data = false := by
        cases hh : stringLess y.data x.data with
        | false => rfl
        | true => exact absurd hh hyx
      refine ⟨?_, h.1, h.2⟩
      intro z hz
      rw [List.mem_cons] at hz
      rcases hz with hz | hz
      · rw [hz]; exact hxy
      · exact stringLess_le_trans _ _ _ hxy (h.1 z hz)

theorem stdSort_sorted : ∀ l : List String,
    (stdSort l).Pairwise (fun a b => stringLess b.data a.data = false) := by
  intro l
  induction l with
  | nil => exact List.Pairwise.nil
  | cons x xs ih => exact sortInsert_sorted x _ ih

theorem sorted_perm_eq : ∀ (l1 l2 : List String), l1.Perm l2 →
    l1.Pairwise (fun a b => stringLess b.data a.data = false) →
    l2.Pairwise (fun a b => stringLess b.data a.data = false) → l1 = l2 := by
  intro l1
  induction l1 with
  | nil => intro l2 h _ _; exact (List.Perm.nil_eq h)
  | cons x xs ih =>
    intro l2 h h1 h2
    cases l2 with
    | nil => exact absurd h.length_eq (by simp)
    | cons y ys =>
      rw [List.pairwise_cons] at h1 h2
      have hx : x ∈ y :: ys := (List.Perm.mem_iff h).1 (List.mem_cons_self _ _)
      have hy : y ∈ x :: xs := (List.Perm.mem_iff h).2 (List.mem_cons_self _ _)
      have hxy : x = y := by
        rw [List.mem_cons] at hx hy
        rcases hx with hx | hx
        · exact hx
        rcases hy with hy | hy
        · exact hy.symm
        exact String.ext (stringLess_total _ _ (h2.1 x hx) (h1.1 y hy))
      subst hxy
      rw [ih ys (List.Perm.cons_inv h) h1.2 h2.2]

theorem stdSort_congr (l1 l2 : List String) (h : l1.Perm l2) : stdSort l1 = stdSort l2 :=
  sorted_perm_eq _ _ (((stdSort_perm l1).trans h).trans (stdSort_perm l2).symm)
    (stdSort_sorted l1) (stdSort_sorted l2)

/-- C38: the rank table does not depend on the order in which the partition instance names
are supplied: for two lists that are permutations of each other the constructor leaves the
same sorted vector and builds the same rank table. -/
theorem C38_rank_order_independent (parentModule : ParentModule) (l1 l2 : List String)
    (h : l1.Perm l2) :
    (PartitionPortAnalyzer.new parentModule l1).m_mpiRankMap =
      (PartitionPortAnalyzer.new parentModule l2).m_mpiRankMap ∧
    (PartitionPortAnalyzer.new parentModule l1).m_partitionInstances =
      (PartitionPortAnalyzer.new parentModule l2).m_partitionInstances ∧
    ∀ k, rankOf (buildRankMap l1) k = rankOf (buildRankMap l2) k := by
  have hs := stdSort_congr l1 l2 h
  have hb : buildRankMap l1 = buildRankMap l2 := by
    unfold buildRankMap
    rw [hs]
  exact ⟨hb, hs, fun k => by rw [hb]⟩

theorem C38_rank_order_independent_witness :
    ["p2", "p10", "p1", "p2"].Perm ["p1", "p2", "p2", "p10"] ∧
    ((PartitionPortAnalyzer.new exChain ["p2", "p10", "p1", "p2"]).m_mpiRankMap =
      (PartitionPortAnalyzer.new exChain ["p1", "p2", "p2", "p10"]).m_mpiRankMap ∧
    (PartitionPortAnalyzer.new exChain ["p2", "p10", "p1", "p2"]).m_partitionInstances =
      (PartitionPortAnalyzer.new exChain ["p1", "p2", "p2", "p10"]).m_partitionInstances ∧
    ∀ k, rankOf (buildRankMap ["p2", "p10", "p1", "p2"]) k =
      rankOf (buildRankMap ["p1", "p2", "p2", "p10"]) k) :=
  ⟨by decide, C38_rank_order_independent exChain _ _ (by decide)⟩

/-! ## Keys, own process and the frame of Phase 3 -/

theorem visitCellPins_keys (a : PartitionPortAnalyzer) (cellp : AstCellPins)
    (h : KeysIn a.m_partitionInstances a.m_partitionData) :
    KeysIn a.m_partitionInstances (visitCellPins a cellp).m_partitionData := by
  unfold visitCellPins
  simp only
  by_cases hin : cellp.name ∉ a.m_partitionInstances
  · rw [if_pos hin]
    cases cellp.modp <;> exact h
  · rw [if_neg hin]
    cases cellp.modp with
    | none => exact h
    | some partitionModule =>
      intro e he
      rcases mem_mapInsert _ _ _ _ he with h1 | h1
      · rw [h1]; exact not_not.1 hin
      · exact h e h1

theorem gatherStmt_keys (a : PartitionPortAnalyzer) (s : AstStmt)
    (h : KeysIn a.m_partitionInstances a.m_partitionData) :
    KeysIn a.m_partitionInstances (gatherStmt a s).m_partitionData := by
  cases s with
  | assignW l r => simp only [gatherStmt]; rw [(visitAssignW_data a l r).1]; exact h
  | assign l r => simp only [gatherStmt]; rw [(recordAlias_data a l r).1]; exact h
  | assignDly l r => simp only [gatherStmt]; rw [(recordAlias_data a l r).1]; exact h
  | cell c => exact visitCellPins_keys a c h

theorem foldl_gatherStmt_keys (stmts : List AstStmt) : ∀ (a : PartitionPortAnalyzer),
    KeysIn a.m_partitionInstances a.m_partitionData →
    KeysIn a.m_partitionInstances (stmts.foldl gatherStmt a).m_partitionData := by
  induction stmts with
  | nil => intro a h; exact h
  | cons s rest ih =>
    intro a h
    simp only [List.foldl_cons]
    have hc := gatherStmt_config a s
    have := ih (gatherStmt a s) (by rw [hc.1]; exact gatherStmt_keys a s h)
    rw [hc.1] at this
    exact this

theorem phase1_keys (parentModule : ParentModule) (partitionInstances : List String) :
    KeysIn partitionInstances
      (phase1 (PartitionPortAnalyzer.new parentModule partitionInstances)).m_partitionData := by
  have h := foldl_gatherStmt_keys parentModule.body
    { PartitionPortAnalyzer.new parentModule partitionInstances with
      m_wireToEndpoints :=
        gatherParentPorts (PartitionPortAnalyzer.new parentModule partitionInstances).m_parentModuleName
          parentModule.vars
          (PartitionPortAnalyzer.new parentModule partitionInstances).m_wireToEndpoints }
    (fun e he => absurd he (List.not_mem_nil e))
  intro e he
  exact (List.Perm.mem_iff (stdSort_perm partitionInstances)).1 (h e he)

theorem analyzeInstances_keys (a : PartitionPortAnalyzer) :
    ∀ (d : List (String × List Port)) (m : String → List (String × String)),
      (analyzeInstances a d m).1.map (fun e => e.1) = d.map (fun e => e.1) := by
  intro d
  induction d with
  | nil => intro m; rfl
  | cons e d ih => intro m; simp only [analyzeInstances, List.map_cons, ih]

theorem eraseReport_keys (data : List (String × List Port)) :
    (eraseReport data).map (fun e => e.1) = data.map (fun e => e.1) := by
  simp only [eraseReport, List.map_map]
  rfl

theorem phase3_keys (data : List (String × List Port)) :
    (phase3 data).map (fun e => e.1) = data.map (fun e => e.1) := by
  rw [← eraseReport_keys (phase3 data), eraseReport_phase3, eraseReport_keys]

theorem analyzeReport_keys (parentModule : ParentModule) (partitionInstances : List String) :
    (analyzeReport parentModule partitionInstances).map (fun e => e.1) =
      (phase1 (PartitionPortAnalyzer.new parentModule
        partitionInstances)).m_partitionData.map (fun e => e.1) := by
  rw [analyzeReport_eq, phase3_keys, analyzeInstances_keys]

/-- C37: after `analyze()`, every key of the report is one of the partition instance names,
and every port under key `I` has own process `I`, own rank the rank-table entry of `I`, and
that rank is at least 1 (whatever the names: no distinctness is needed for this). -/
theorem C37_own_process_and_rank (parentModule : ParentModule)
    (partitionInstances : List String) (e : String × List Port)
    (he : e ∈ analyzeReport parentModule partitionInstances) :
    e.1 ∈ partitionInstances ∧
    ∀ p ∈ e.2, p.mpi_process = e.1 ∧
      p.mpi_rank = rankOf (buildRankMap partitionInstances) e.1 ∧ 1 ≤ p.mpi_rank := by
  have hkey : e.1 ∈ partitionInstances := by
    have h1 : e.1 ∈ (analyzeReport parentModule partitionInstances).map (fun e => e.1) :=
      List.mem_map_of_mem _ he
    rw [analyzeReport_keys, List.mem_map] at h1
    obtain ⟨e0, he0, h0⟩ := h1
    rw [← h0]
    exact phase1_keys parentModule partitionInstances e0 he0
  refine ⟨hkey, ?_⟩
  have hall := analyze_entries parentModule partitionInstances
    (fun inst p => p.mpi_process = inst ∧
      p.mpi_rank = rankOf (buildRankMap partitionInstances) inst)
    (fun inst port k name h => h)
    (by
      intro inst p m _
      have hc := (phase1_new parentModule partitionInstances).2
      have hr : (phase1 (PartitionPortAnalyzer.new parentModule
          partitionInstances)).m_mpiRankMap = buildRankMap partitionInstances := hc.2.1
      unfold analyzePort
      simp only
      split <;> simp only [finalizePort, hr, and_self])
  intro p hp
  obtain ⟨h1, h2⟩ := hall e he p hp
  refine ⟨h1, h2, ?_⟩
  rw [h2]
  exact rank_partition_pos partitionInstances e.1 hkey

theorem C37_own_process_and_rank_witness :
    (("p1", [exChainPort, exChainPortY]) : String × List Port) ∈
      analyzeReport exChain ["p1", "p2"] ∧
    ("p1" ∈ ["p1", "p2"] ∧
      ∀ p ∈ [exChainPort, exChainPortY], p.mpi_process = "p1" ∧
        p.mpi_rank = rankOf (buildRankMap ["p1", "p2"]) "p1" ∧ 1 ≤ p.mpi_rank) :=
  ⟨by decide, C37_own_process_and_rank exChain ["p1", "p2"]
    ("p1", [exChainPort, exChainPortY]) (by decide)⟩

/-- C36: Phase 3 of `analyze()` changes nothing but remote port names of partners: the
report after Phase 3 and the report after the main loop have the same keys in the same
order and, once the remote port names are blanked, are equal (same ports in the same order
with the same name, direction, width, active, type, net name, own process, own rank and
`comm_type`, and the same partners in the same order with the same remote instance,
process and rank); the other members of the analyzer are not touched. -/
theorem C36_phase3_frame (a : PartitionPortAnalyzer) :
    (analyze a).m_partitionData = phase3 (mainLoop (phase1 a)).m_partitionData ∧
    (analyze a).m_partitionData.map (fun e => e.1) =
      (mainLoop (phase1 a)).m_partitionData.map (fun e => e.1) ∧
    eraseReport (analyze a).m_partitionData =
      eraseReport (mainLoop (phase1 a)).m_partitionData ∧
    (∀ ptr, (getPort (analyze a).m_partitionData ptr).map eraseNames =
      (getPort (mainLoop (phase1 a)).m_partitionData ptr).map eraseNames) ∧
    (analyze a).m_wireToEndpoints = (mainLoop (phase1 a)).m_wireToEndpoints ∧
    (analyze a).m_wireAliasMap = (mainLoop (phase1 a)).m_wireAliasMap ∧
    (analyze a).m_mpiRankMap = (mainLoop (phase1 a)).m_mpiRankMap :=
  ⟨rfl, phase3_keys _, eraseReport_phase3 _, fun ptr => getPort_phase3 _ ptr, rfl, rfl, rfl⟩

/-! ## Port widths -/

theorem visitCellPins_gatheredIn (body : List AstStmt) (a : PartitionPortAnalyzer)
    (cellp : AstCellPins) (hmem : AstStmt.cell cellp ∈ body)
    (h : AllEntries (GatheredIn body) a.m_partitionData) :
    AllEntries (GatheredIn body) (visitCellPins a cellp).m_partitionData := by
  unfold visitCellPins
  simp only
  by_cases hin : cellp.name ∉ a.m_partitionInstances
  · rw [if_pos hin]
    cases cellp.modp <;> exact h
  · rw [if_neg hin]
    cases hm : cellp.modp with
    | none => exact h
    | some partitionModule =>
      intro e he p hp
      rcases mem_mapInsert _ _ _ _ he with h1 | h1
      · rw [h1] at hp ⊢
        simp only at hp ⊢
        rw [gatherPartitionPins_ports, List.nil_append, List.mem_map] at hp
        obtain ⟨pinp, hpin, hp2⟩ := hp
        exact ⟨cellp, partitionModule, pinp, hmem, rfl, hm, hpin, hp2.symm⟩
      · exact h e h1 p hp

theorem gatherStmt_gatheredIn (body : List AstStmt) (a : PartitionPortAnalyzer) (s : AstStmt)
    (hmem : s ∈ body) (h : AllEntries (GatheredIn body) a.m_partitionData) :
    AllEntries (GatheredIn body) (gatherStmt a s).m_partitionData := by
  cases s with
  | assignW l r => simp only [gatherStmt]; rw [(visitAssignW_data a l r).1]; exact h
  | assign l r => simp only [gatherStmt]; rw [(recordAlias_data a l r).1]; exact h
  | assignDly l r => simp only [gatherStmt]; rw [(recordAlias_data a l r).1]; exact h
  | cell c => exact visitCellPins_gatheredIn body a c hmem h

theorem foldl_gatherStmt_gatheredIn (body : List AstStmt) (stmts : List AstStmt) :
    ∀ (a : PartitionPortAnalyzer), (∀ s ∈ stmts, s ∈ body) →
    AllEntries (GatheredIn body) a.m_partitionData →
    AllEntries (GatheredIn body) (stmts.foldl gatherStmt a).m_partitionData := by
  induction stmts with
  | nil => intro a _ h; exact h
  | cons s rest ih =>
    intro a hsub h
    simp only [List.foldl_cons]
    exact ih (gatherStmt a s) (fun t ht => hsub t (List.mem_cons_of_mem _ ht))
      (gatherStmt_gatheredIn body a s (hsub s (List.mem_cons_self _ _)) h)

theorem phase1_gatheredIn (parentModule : ParentModule) (partitionInstances : List String) :
    AllEntries (GatheredIn parentModule.body)
      (phase1 (PartitionPortAnalyzer.new parentModule partitionInstances)).m_partitionData :=
  foldl_gatherStmt_gatheredIn parentModule.body parentModule.body _ (fun _ hs => hs)
    (fun e he => absurd he (List.not_mem_nil e))

theorem analyzePorts_entries (a : PartitionPortAnalyzer) (P Q : String → Port → Prop)
    (h : ∀ (inst : String) (p : Port) (m : String → List (String × String)), Q inst p →
      P inst (analyzePort a inst (p, m)).1) (inst : String) :
    ∀ (ps : List Port) (m : String → List (String × String)),
      (∀ p ∈ ps, Q inst p) → ∀ p ∈ (analyzePorts a inst ps m).1, P inst p := by
  intro ps
  induction ps with
  | nil => intro m _ p hp; exact absurd hp (List.not_mem_nil p)
  | cons p0 ps ih =>
    intro m hq p hp
    simp only [analyzePorts, List.mem_cons] at hp
    rcases hp with hp | hp
    · rw [hp]; exact h inst p0 m (hq p0 (List.mem_cons_self _ _))
    · exact ih _ (fun q hq2 => hq q (List.mem_cons_of_mem _ hq2)) p hp

theorem analyzeInstances_entries2 (a : PartitionPortAnalyzer) (P Q : String → Port → Prop)
    (h : ∀ (inst : String) (p : Port) (m : String → List (String × String)), Q inst p →
      P inst (analyzePort a inst (p, m)).1) :
    ∀ (data : List (String × List Port)) (m : String → List (String × String)),
      AllEntries Q data → AllEntries P (analyzeInstances a data m).1 := by
  intro data
  induction data with
  | nil => intro m _ e he; exact absurd he (List.not_mem_nil e)
  | cons e0 data ih =>
    intro m hq e he p hp
    simp only [analyzeInstances, List.mem_cons] at he
    rcases he with he | he
    · rw [he] at hp ⊢
      exact analyzePorts_entries a P Q h e0.1 e0.2 m
        (fun q hq2 => hq e0 (List.mem_cons_self _ _) q hq2) p hp
    · exact ih _ (fun e1 he1 => hq e1 (List.mem_cons_of_mem _ he1)) e he p hp

theorem analyze_entries2 (parentModule : ParentModule) (partitionInstances : List String)
    (P : String → Port → Prop) (hs : RenameStable P)
    (h : ∀ (inst : String) (p : Port) (m : String → List (String × String)),
      GatheredIn parentModule.body inst p →
      P inst
        (analyzePort (phase1 (PartitionPortAnalyzer.new parentModule partitionInstances)) inst
          (p, m)).1) :
    AllEntries P (analyzeReport parentModule partitionInstances) := by
  rw [analyzeReport_eq]
  exact phase3_keeps P hs _
    (analyzeInstances_entries2 _ P (GatheredIn parentModule.body) h _ _
      (phase1_gatheredIn parentModule partitionInstances))

theorem analyzePort_decl (a : PartitionPortAnalyzer) (instName : String) (p : Port)
    (m : String → List (String × String)) :
    (analyzePort a instName (p, m)).1.name = p.name ∧
    (analyzePort a instName (p, m)).1.width = p.width ∧
    (analyzePort a instName (p, m)).1.direction = p.direction := by
  unfold analyzePort
  simp only
  by_cases hw : p.type = "wire"
  · rw [if_pos hw]
    by_cases hne : p.other_end ≠ resolveWireChain a.m_wireAliasMap 5 p.other_end []
    · simp only [if_pos hne, finalizePort, and_self]
    · simp only [if_neg hne, finalizePort, and_self]
  · rw [if_neg hw]
    simp only [finalizePort, and_self]

theorem gatherPort_decl (partitionModule : AstNodeModule) (pinp : AstPin) :
    (gatherPort partitionModule pinp).1.name = pinp.name ∧
    (gatherPort partitionModule pinp).1.width = declaredWidth partitionModule pinp.name := by
  obtain ⟨pname, e⟩ := pinp
  unfold gatherPort declaredWidth
  simp only
  cases hf : findVarInModule partitionModule pname <;> cases e with
  | null => simp
  | varRef n => simp
  | const s n => simp
  | other => simp
  | selBit op1 op2 => simp only; split_ifs <;> simp

theorem getDTypeWidth_pos (dtp : AstNodeDType) : 1 ≤ getDTypeWidth dtp := by
  cases dtp with
  | null => simp [getDTypeWidth]
  | other => simp [getDTypeWidth]
  | basic isRanged left right =>
    cases isRanged
    · simp [getDTypeWidth]
    · simp only [getDTypeWidth]
      split <;> omega

/-- C32 (amended): `getDTypeWidth` returns `|left - right| + 1` for a ranged basic type and
1 for every other or missing type, so it is at least 1; and every port of the report of
`analyze()` comes from a cell of its instance name in the parent body and has the width
`getDTypeWidth` gives for the declaration that `findVarInModule` finds for the port name in
the module of that cell, hence at least 1, or width 0 when no declaration is found. -/
theorem C32_port_width (parentModule : ParentModule) (partitionInstances : List String) :
    (∀ left right, getDTypeWidth (.basic true left right) = |left - right| + 1) ∧
    (∀ left right, getDTypeWidth (.basic false left right) = 1) ∧
    getDTypeWidth .null = 1 ∧ getDTypeWidth .other = 1 ∧
    (∀ dtp, 1 ≤ getDTypeWidth dtp) ∧
    ∀ e ∈ analyzeReport parentModule partitionInstances, ∀ p ∈ e.2,
      ∃ (cellp : AstCellPins) (partitionModule : AstNodeModule),
        AstStmt.cell cellp ∈ parentModule.body ∧ cellp.name = e.1 ∧
        cellp.modp = some partitionModule ∧
        p.width = declaredWidth partitionModule p.name ∧
        (∀ varp, findVarInModule partitionModule p.name = some varp →
          p.width = getDTypeWidth varp.dtypep ∧ 1 ≤ p.width) ∧
        (findVarInModule partitionModule p.name = none → p.width = 0) := by
  refine ⟨?_, fun _ _ => rfl, rfl, rfl, getDTypeWidth_pos, ?_⟩
  · intro left right
    simp only [getDTypeWidth]
    split
    · rw [abs_of_nonneg (by omega)]
    · rw [abs_of_nonpos (by omega)]; omega
  · have hall := analyze_entries2 parentModule partitionInstances
      (fun inst p => ∃ (cellp : AstCellPins) (partitionModule : AstNodeModule),
        AstStmt.cell cellp ∈ parentModule.body ∧ cellp.name = inst ∧
        cellp.modp = some partitionModule ∧
        p.width = declaredWidth partitionModule p.name)
      (fun inst port k name h => h)
      (by
        intro inst p m hg
        obtain ⟨cellp, partitionModule, pinp, h1, h2, h3, _, h5⟩ := hg
        obtain ⟨e1, e2, _⟩ := analyzePort_decl
          (phase1 (PartitionPortAnalyzer.new parentModule partitionInstances)) inst p m
        refine ⟨cellp, partitionModule, h1, h2, h3, ?_⟩
        rw [e1, e2, h5, (gatherPort_decl partitionModule pinp).1,
          (gatherPort_decl partitionModule pinp).2])
    intro e he p hp
    obtain ⟨cellp, partitionModule, h1, h2, h3, h4⟩ := hall e he p hp
    refine ⟨cellp, partitionModule, h1, h2, h3, h4, ?_, ?_⟩
    · intro varp hv
      have h5 : p.width = getDTypeWidth varp.dtypep := by
        rw [h4]; unfold declaredWidth; rw [hv]
      exact ⟨h5, by rw [h5]; exact getDTypeWidth_pos _⟩
    · intro hv
      rw [h4]; unfold declaredWidth; rw [hv]

/-- C32 (counterexample): in `exNoDecl` the pin `z` of `p1` names no variable of its
module; the report lists the port `z` with the default width 0. -/
theorem C32_counterexample :
    ∃ e ∈ analyzeReport exNoDecl ["p1", "p2"], ∃ p ∈ e.2,
      e.1 = "p1" ∧ p.name = "z" ∧ findVarInModule exModA "z" = none ∧ p.width = 0 ∧
        ¬ 1 ≤ p.width := by
  decide

/-! ## Weights and leaf instances -/

theorem leafCount_level0 (blake : String → String) (F : AstCell) :
    ∀ (h hm : String),
      ((levelCells blake 0 F h hm).map (fun q => subtreeLeaves q.2)).sum =
        (leafCount F : Int) := by
  induction F with
  | nil => intro h hm; simp [levelCells, leafCount]
  | cons name modName modDead modCells next _ ihn =>
    intro h hm
    cases modDead with
    | true =>
      rw [levelCells_dead, ihn]
      simp [leafCount]
    | false =>
      rw [levelCells_zero, List.map_cons, List.sum_cons, ihn]
      simp only [subtreeLeaves, leafCount, Bool.false_eq_true, if_false]
      push_cast
      rfl

theorem level0_size (blake : String → String) (F : AstCell) :
    ∀ (h hm : String), ∀ q ∈ levelCells blake 0 F h hm, sizeOf q.2 < sizeOf F := by
  induction F with
  | nil => intro h hm q hq; simp [levelCells] at hq
  | cons name modName modDead modCells next _ ihn =>
    intro h hm q hq
    cases modDead with
    | true =>
      rw [levelCells_dead] at hq
      have := ihn h hm q hq
      simp only [AstCell.cons.sizeOf_spec]
      omega
    | false =>
      rw [levelCells_zero, List.mem_cons] at hq
      simp only [AstCell.cons.sizeOf_spec]
      rcases hq with hq | hq
      · rw [hq]
        simp only
        omega
      · have := ihn h hm q hq
        omega

theorem subtreeLeaves_pos (F : AstCell) : 1 ≤ subtreeLeaves F := by
  unfold subtreeLeaves
  exact le_max_left _ _

theorem sum_pos_of_ne_nil : ∀ (l : List Int), l ≠ [] → (∀ x ∈ l, 1 ≤ x) → 1 ≤ l.sum := by
  intro l
  induction l with
  | nil => intro h _; exact absurd rfl h
  | cons x xs ih =>
    intro _ hall
    rw [List.sum_cons]
    have hx := hall x (List.mem_cons_self _ _)
    by_cases hxs : xs = []
    · rw [hxs]; simpa using hx
    · have := ih hxs (fun y hy => hall y (List.mem_cons_of_mem _ hy))
      omega

theorem instanceCells_adjacency (blake : String → String) (rootp : AstNetlist)
    (hw : wellNamed rootp.topCells = true) (hd : rootp.topDead = false) :
    ∀ d, ∀ p ∈ instanceCellsAt blake rootp d,
      (HierCellsGraphVisitor.new blake rootp).adjacency p.1.hierInstance =
        (levelCells blake 0 p.2 p.1.hierInstance p.1.hierModule).map (fun q => q.1) := by
  obtain ⟨a1, a2⟩ := adj_tree blake rootp.topCells "$root" "$root" hw strip_root
  intro d p hp
  rw [new_adjacency_adjOf blake rootp hd]
  cases d with
  | zero =>
    simp only [instanceCellsAt, List.mem_singleton] at hp
    rw [hp]
    exact a1
  | succ d => exact a2 d p hp

theorem instanceCells_parent (blake : String → String) (rootp : AstNetlist) :
    ∀ d, ∀ p ∈ instanceCellsAt blake rootp (d + 1), ∃ q ∈ instanceCellsAt blake rootp d,
      p ∈ levelCells blake 0 q.2 q.1.hierInstance q.1.hierModule := by
  intro d p hp
  cases d with
  | zero => exact ⟨(rootNode blake, rootp.topCells), List.mem_singleton.2 rfl, hp⟩
  | succ d =>
    simp only [instanceCellsAt] at hp
    rw [levelCells_succ_eq, List.mem_flatMap] at hp
    exact hp

theorem instanceCells_child (blake : String → String) (rootp : AstNetlist) :
    ∀ d, ∀ q ∈ instanceCellsAt blake rootp d,
      ∀ p ∈ levelCells blake 0 q.2 q.1.hierInstance q.1.hierModule,
        p ∈ instanceCellsAt blake rootp (d + 1) := by
  intro d q hq p hp
  cases d with
  | zero =>
    simp only [instanceCellsAt, List.mem_singleton] at hq
    rw [hq] at hp
    exact hp
  | succ d =>
    simp only [instanceCellsAt]
    rw [levelCells_succ_eq, List.mem_flatMap]
    exact ⟨q, hq, hp⟩

theorem instanceCells_reach (blake : String → String) (rootp : AstNetlist)
    (hw : wellNamed rootp.topCells = true) (hd : rootp.topDead = false) :
    ∀ d, ∀ p ∈ instanceCellsAt blake rootp d,
      Reach (HierCellsGraphVisitor.new blake rootp).adjacency p.1.hierInstance := by
  intro d
  induction d with
  | zero =>
    intro p hp
    simp only [instanceCellsAt, List.mem_singleton] at hp
    rw [hp]
    exact Reach.root
  | succ d ih =>
    intro p hp
    obtain ⟨q, hq, hpq⟩ := instanceCells_parent blake rootp d p hp
    apply Reach.step (ih q hq)
    rw [instanceCells_adjacency blake rootp hw hd d q hq]
    exact List.mem_map_of_mem _ hpq

theorem reach_instanceCells (blake : String → String) (rootp : AstNetlist)
    (hw : wellNamed rootp.topCells = true) (hd : rootp.topDead = false) (k : String)
    (hk : Reach (HierCellsGraphVisitor.new blake rootp).adjacency k) :
    ∃ d, ∃ p ∈ instanceCellsAt blake rootp d, p.1.hierInstance = k := by
  induction hk with
  | root => exact ⟨0, (rootNode blake, rootp.topCells), List.mem_singleton.2 rfl, rfl⟩
  | step _ hc ih =>
    obtain ⟨d, q, hq, hqk⟩ := ih
    rw [← hqk, instanceCells_adjacency blake rootp hw hd d q hq, List.mem_map] at hc
    obtain ⟨p, hp, hpc⟩ := hc
    exact ⟨d + 1, p, instanceCells_child blake rootp d q hq p hp, by rw [hpc]⟩

theorem instanceCells_weight (blake : String → String) (rootp : AstNetlist)
    (hw : wellNamed rootp.topCells = true) (hd : rootp.topDead = false)
    (nm : String → Option ModNode)
    (hnm : ∀ k, Reach (HierCellsGraphVisitor.new blake rootp).adjacency k →
        ∃ n, nm k = some n ∧
          n.weight = if ((HierCellsGraphVisitor.new blake rootp).adjacency k).isEmpty then 1
            else sumChildren nm ((HierCellsGraphVisitor.new blake rootp).adjacency k)) :
    ∀ (s d : Nat), ∀ p ∈ instanceCellsAt blake rootp d, sizeOf p.2 < s →
      weightOf nm p.1.hierInstance = subtreeLeaves p.2 := by
  intro s
  induction s with
  | zero => intro d p _ h; omega
  | succ s ih =>
    intro d p hp hs
    obtain ⟨n, hn, hwt⟩ := hnm _ (instanceCells_reach blake rootp hw hd d p hp)
    have hwo : weightOf nm p.1.hierInstance = n.weight := by
      simp only [weightOf, hn]
    rw [hwo, hwt, instanceCells_adjacency blake rootp hw hd d p hp]
    have hL := leafCount_level0 blake p.2 p.1.hierInstance p.1.hierModule
    by_cases hempty : levelCells blake 0 p.2 p.1.hierInstance p.1.hierModule = []
    · rw [hempty] at hL ⊢
      simp only [List.map_nil, List.sum_nil] at hL
      simp only [List.map_nil, List.isEmpty_nil, if_true, subtreeLeaves, ← hL]
      rfl
    · have hne : ((levelCells blake 0 p.2 p.1.hierInstance p.1.hierModule).map
          (fun q => q.1)).isEmpty = false := by
        cases hl : levelCells blake 0 p.2 p.1.hierInstance p.1.hierModule with
        | nil => exact absurd hl hempty
        | cons _ _ => rfl
      rw [hne]
      simp only [Bool.false_eq_true, if_false, sumChildren, List.map_map]
      have hsum : ((levelCells blake 0 p.2 p.1.hierInstance p.1.hierModule).map
            ((fun c => weightOf nm c.hierInstance) ∘ fun q => q.1)).sum =
          ((levelCells blake 0 p.2 p.1.hierInstance p.1.hierModule).map
            (fun q => subtreeLeaves q.2)).sum := by
        congr 1
        apply List.map_congr_left
        intro q hq
        have hsz := level0_size blake p.2 _ _ q hq
        exact ih (d + 1) q (instanceCells_child blake rootp d p hp q hq) (by omega)
      rw [hsum, hL]
      have hpos : (1 : Int) ≤ (leafCount p.2 : Int) := by
        rw [← hL]
        apply sum_pos_of_ne_nil
        · intro h
          exact hempty (List.map_eq_nil_iff.1 h)
        · intro x hx
          obtain ⟨q, _, hq⟩ := List.mem_map.1 hx
          rw [← hq]
          exact subtreeLeaves_pos _
      unfold subtreeLeaves
      rw [max_eq_right hpos]

/-- C31 (amended): on a design whose visited instance names are non-empty, free of `'.'`
and unique among siblings (and whose top module is not dead), `runDFS` returns, and every
node reachable from `$root` is the path of an instance of the design (the synthetic root
at depth 0) whose recorded weight is the number of leaf instances in its subtree, the
instance itself counted when it is a leaf; the weight is therefore at least 1. -/
theorem C31_weight_is_leaf_count (blake : String → String) (rootp : AstNetlist)
    (hw : wellNamed rootp.topCells = true) (hd : rootp.topDead = false) :
    ∃ v, runDFS (HierCellsGraphVisitor.new blake rootp) = some v ∧
      ∀ k, Reach v.adjacency k →
        ∃ n, v.nodeMetadata k = some n ∧ 1 ≤ n.weight ∧
          ∃ d, ∃ p ∈ instanceCellsAt blake rootp d,
            p.1.hierInstance = k ∧ n.weight = subtreeLeaves p.2 := by
  obtain ⟨nm, hrun, _, hnm⟩ := runDFS_new blake rootp
  refine ⟨_, hrun, ?_⟩
  intro k hk
  obtain ⟨n, hn, _⟩ := hnm k hk
  obtain ⟨d, p, hp, hpk⟩ := reach_instanceCells blake rootp hw hd k hk
  have hwt := instanceCells_weight blake rootp hw hd nm hnm (sizeOf p.2 + 1) d p hp
    (Nat.lt_succ_self _)
  rw [hpk] at hwt
  simp only [weightOf, hn] at hwt
  exact ⟨n, hn, by rw [hwt]; exact subtreeLeaves_pos _, d, p, hp, hpk, hwt⟩

theorem length_le_sum : ∀ (l : List String) (s : String), s ∈ l →
    s.length ≤ (l.map (fun x => x.length)).sum := by
  intro l
  induction l with
  | nil => intro s hs; exact absurd hs (List.not_mem_nil s)
  | cons x xs ih =>
    intro s hs
    rw [List.map_cons, List.sum_cons]
    rw [List.mem_cons] at hs
    rcases hs with hs | hs
    · rw [hs]; omega
    · have := ih s hs
      omega

/-- Whatever the instance names, every node reachable from `$root` has a recorded weight of
at least 1 after `runDFS`. -/
theorem runDFS_positive (blake : String → String) (rootp : AstNetlist) :
    ∃ v, runDFS (HierCellsGraphVisitor.new blake rootp) = some v ∧
      ∀ k, Reach v.adjacency k → ∃ n, v.nodeMetadata k = some n ∧ 1 ≤ n.weight := by
  obtain ⟨nm, hrun, _, hnm⟩ := runDFS_new blake rootp
  refine ⟨_, hrun, ?_⟩
  have hlen := new_lengthens blake rootp
  have hB : ∀ k c, c ∈ (HierCellsGraphVisitor.new blake rootp).adjacency k →
      c.hierInstance.length ≤
        (("$root" :: (HierCellsGraphVisitor.new blake rootp).edges.map
          (fun e => e.2)).map (fun x => x.length)).sum :=
    fun k c hc => length_le_sum _ _ (new_universe blake rootp k c hc)
  have key : ∀ (s : Nat) (k : String),
      Reach (HierCellsGraphVisitor.new blake rootp).adjacency k →
      (("$root" :: (HierCellsGraphVisitor.new blake rootp).edges.map
          (fun e => e.2)).map (fun x => x.length)).sum + 1 - k.length < s →
      1 ≤ weightOf nm k := by
    intro s
    induction s with
    | zero => intro k _ h; omega
    | succ s ih =>
      intro k hk hs
      obtain ⟨n, hn, hwt⟩ := hnm k hk
      have hwo : weightOf nm k = n.weight := by simp only [weightOf, hn]
      rw [hwo, hwt]
      cases hA : (HierCellsGraphVisitor.new blake rootp).adjacency k with
      | nil => simp
      | cons c cs =>
        simp only [List.isEmpty_cons, Bool.false_eq_true, if_false, sumChildren]
        apply sum_pos_of_ne_nil
        · simp
        · intro x hx
          obtain ⟨c1, hc1, hx1⟩ := List.mem_map.1 hx
          rw [← hx1]
          have hmem : c1 ∈ (HierCellsGraphVisitor.new blake rootp).adjacency k := by
            rw [hA]; exact hc1
          have h1 := hlen k c1 hmem
          have h2 := hB k c1 hmem
          exact ih c1.hierInstance (Reach.step hk hmem) (by omega)
  intro k hk
  obtain ⟨n, hn, _⟩ := hnm k hk
  have := key _ k hk (Nat.lt_succ_self _)
  simp only [weightOf, hn] at this
  exact ⟨n, hn, this⟩

theorem C31_weight_is_leaf_count_witness :
    wellNamed exTwoA.topCells = true ∧ exTwoA.topDead = false ∧
    ∃ v, runDFS (HierCellsGraphVisitor.new id exTwoA) = some v ∧
      ∀ k, Reach v.adjacency k →
        ∃ n, v.nodeMetadata k = some n ∧ 1 ≤ n.weight ∧
          ∃ d, ∃ p ∈ instanceCellsAt id exTwoA d,
            p.1.hierInstance = k ∧ n.weight = subtreeLeaves p.2 :=
  ⟨by decide, by decide, C31_weight_is_leaf_count id exTwoA (by decide) (by decide)⟩

/-- C31 (counterexample): in `exDotted` the instance `a` holds the two leaf instances `b`
and `c`, and the design has the four leaf instances `q`, `r`, `b`, `c`; the node `$root.a`
is a child of `$root`, and `runDFS` leaves weight 3 on it and weight 5 on `$root`, because
the path `$root.a.b` of `b` is also the path of the sibling instance `a.b`, whose subtree
is counted again. -/
theorem C31_counterexample :
    (instanceCellsAt id exDotted 1).map (fun p => (p.1.hierInstance, subtreeLeaves p.2)) =
      [("$root.a.b", 2), ("$root.a", 2)] ∧
    subtreeLeaves exDotted.topCells = 4 ∧
    "$root.a" ∈ ((HierCellsGraphVisitor.new id exDotted).adjacency "$root").map
      (fun c => c.hierInstance) ∧
    (runDFS (HierCellsGraphVisitor.new id exDotted)).map
      (fun v => (weightOf v.nodeMetadata "$root.a", weightOf v.nodeMetadata "$root")) =
        some (3, 5) := by
  decide

/-! ## The reported instance names -/

/-- C33 (amended): on a design whose visited instance names are non-empty, free of `'.'`
and unique among siblings, when `runBFSCheckDuplicateHashes`, called after `runDFS` with an
empty output list, reports a candidate, the reported list holds the instance names of
exactly the instances at the winning depth whose fingerprint is the winning one, in the
order of that depth, each instance once (the instances of a depth have pairwise distinct
paths), and it has at least two entries. -/
theorem C33_reported_names (blake : String → String) (ord : HashOrder) (rootp : AstNetlist)
    (hw : wellNamed rootp.topCells = true) (out : BfsOut)
    (hp : findPartition blake ord rootp = some (true, out)) :
    ∃ f, findGroup blake ord rootp = some (some f) ∧
      out.o_partitionInstanceNames =
        ((instancesAt blake rootp f.level).filter (fun x => x.hash = f.bestHash)).map
          (fun n => n.instanceName) ∧
      2 ≤ out.o_partitionInstanceNames.length ∧
      ((instancesAt blake rootp f.level).map (fun n => n.hierInstance)).Nodup := by
  obtain ⟨nm, r, hrun, hr, hfa⟩ := findGroup_spec blake ord rootp hw
  have hr0 := hr
  simp only [findGroup, hrun] at hr
  cases r with
  | none =>
    simp [findPartition, hrun, runBFSCheckDuplicateHashes, hr] at hp
  | some f =>
    obtain ⟨_, _, h3, h4, _⟩ := hfa
    cases hb : f.bestNodes with
    | nil => rw [hb] at h4; simp at h4
    | cons n0 ns =>
      simp only [findPartition, hrun, runBFSCheckDuplicateHashes, hr, reportFound, hb,
        Option.some.injEq, Prod.mk.injEq, true_and] at hp
      refine ⟨f, hr0, ?_, ?_, (new_levels blake rootp hw).2.2.1 f.level⟩
      · rw [← h3, hb, ← hp]
        rfl
      · rw [← hp]
        simp only [List.nil_append, List.length_map]
        rw [← hb]
        exact h4

theorem C33_reported_names_witness :
    wellNamed exTwoA.topCells = true ∧
    findPartition id HashOrder.insertion exTwoA =
      some (true, ⟨"A", ["inst1", "inst2"], "$root.top"⟩) ∧
    ∃ f, findGroup id HashOrder.insertion exTwoA = some (some f) ∧
      (⟨"A", ["inst1", "inst2"], "$root.top"⟩ : BfsOut).o_partitionInstanceNames =
        ((instancesAt id exTwoA f.level).filter (fun x => x.hash = f.bestHash)).map
          (fun n => n.instanceName) ∧
      2 ≤ (⟨"A", ["inst1", "inst2"], "$root.top"⟩ : BfsOut).o_partitionInstanceNames.length ∧
      ((instancesAt id exTwoA f.level).map (fun n => n.hierInstance)).Nodup :=
  ⟨by decide, by decide,
    C33_reported_names id HashOrder.insertion exTwoA (by decide) _ (by decide)⟩

/-- C33 (counterexample): in `exDottedThree` the instances `b`, `c`, `d` at depth 1 share
the fingerprint of `$root.T2.T3`, but the reported list is `c`, `d`: the path `$root.a.b`
of `b` is already marked visited for the sibling instance `a.b`, so `b` is omitted. -/
theorem C33_counterexample :
    findPartition id HashOrder.insertion exDottedThree =
      some (true, ⟨"T3", ["c", "d"], "$root.a"⟩) ∧
    (findGroup id HashOrder.insertion exDottedThree).map
      (fun r => r.map (fun f => (f.level, f.bestHash))) = some (some (1, "$root.T2.T3")) ∧
    ((instancesAt id exDottedThree 1).filter (fun x => x.hash = "$root.T2.T3")).map
      (fun n => n.instanceName) = ["b", "c", "d"] := by
  decide

/-! ## Partners before disambiguation -/

theorem filterMap_map_eq {α β γ : Type} (f : α → Option β) (g : β → γ) (g2 : α → γ)
    (h : ∀ e q, f e = some q → g q = g2 e) : ∀ (l : List α),
    (l.filterMap f).map g = (l.filter (fun e => (f e).isSome)).map g2 := by
  intro l
  induction l with
  | nil => rfl
  | cons e l ih =>
    cases hf : f e with
    | none => simp only [List.filterMap_cons, hf, List.filter_cons, Option.isSome_none,
        Bool.false_eq_true, if_false, ih]
    | some q =>
      simp only [List.filterMap_cons, hf, List.filter_cons, Option.isSome_some, if_true,
        List.map_cons, ih, h e q hf]

theorem partnerOf_pair (a : PartitionPortAnalyzer) (instName : String) (port : Port)
    (tos : Bool) (endpoint : String × String) (q : CommunicationPartner)
    (h : partnerOf a instName port tos endpoint = some q) :
    (q.inst, q.port) =
      (endpoint.1,
        if endpoint.1 = a.m_parentModuleName ∧ endpoint.2 = "logic" then "logic_" ++ port.name
        else endpoint.2) := by
  unfold partnerOf at h
  by_cases h1 : endpoint.1 = instName
  · rw [if_pos h1] at h; exact absurd h (by simp)
  · rw [if_neg h1] at h
    simp only at h
    split at h
    · simp only [Option.some.injEq] at h
      rw [← h]
      simp only [decide_eq_true_eq]
    · exact absurd h (by simp)

theorem partnersOf_nodup (a : PartitionPortAnalyzer) (instName : String) (port : Port)
    (endpoints : List (String × String)) (hnd : endpoints.Nodup)
    (hlogic : ¬ ((a.m_parentModuleName, "logic") ∈ endpoints ∧
      (a.m_parentModuleName, "logic_" ++ port.name) ∈ endpoints)) :
    ((partnersOf a instName port endpoints).map (fun q => (q.inst, q.port))).Nodup := by
  unfold partnersOf
  simp only
  rw [filterMap_map_eq _ _
    (fun e : String × String => (e.1,
      if e.1 = a.m_parentModuleName ∧ e.2 = "logic" then "logic_" ++ port.name else e.2))
    (fun e q h => partnerOf_pair a instName port _ e q h)]
  apply List.Nodup.map_on _ (hnd.filter _)
  intro e1 h1 e2 h2 heq
  have m1 := (List.mem_filter.1 h1).1
  have m2 := (List.mem_filter.1 h2).1
  simp only [Prod.mk.injEq] at heq
  obtain ⟨hi, hr⟩ := heq
  by_cases c1 : e1.1 = a.m_parentModuleName ∧ e1.2 = "logic"
  · by_cases c2 : e2.1 = a.m_parentModuleName ∧ e2.2 = "logic"
    · exact Prod.ext hi (by rw [c1.2, c2.2])
    · rw [if_pos c1, if_neg c2] at hr
      exfalso
      apply hlogic
      constructor
      · have : e1 = (a.m_parentModuleName, "logic") := Prod.ext c1.1 c1.2
        rw [← this]; exact m1
      · have : e2 = (a.m_parentModuleName, "logic_" ++ port.name) :=
          Prod.ext (by rw [← hi]; exact c1.1) hr.symm
        rw [← this]; exact m2
  · by_cases c2 : e2.1 = a.m_parentModuleName ∧ e2.2 = "logic"
    · rw [if_neg c1, if_pos c2] at hr
      exfalso
      apply hlogic
      constructor
      · have : e2 = (a.m_parentModuleName, "logic") := Prod.ext c2.1 c2.2
        rw [← this]; exact m2
      · have : e1 = (a.m_parentModuleName, "logic_" ++ port.name) :=
          Prod.ext (by rw [hi]; exact c2.1) hr
        rw [← this]; exact m1
    · rw [if_neg c1, if_neg c2] at hr
      exact Prod.ext hi hr

/-- C35 (amended): before disambiguation, the partner list of a port holds one entry for
every endpoint record of its resolved net that passes the filter of Step 2.2.  When the
endpoint list of the resolved net, as Step 2.2 reads it, holds no record twice, and not
both the parent's `logic` record and a record of a parent port named `logic_<port>`, no
two partners of the port have the same remote instance and remote port; a port that is
not wire-connected has no partner. -/
theorem C35_distinct_partners (parentModule : ParentModule)
    (partitionInstances : List String) (pre post : List (String × List Port))
    (instName : String) (ps1 ps2 : List Port) (p0 : Port)
    (hdata : (afterPhase1 parentModule partitionInstances).m_partitionData =
      pre ++ (instName, ps1 ++ p0 :: ps2) :: post)
    (hnd : (resolvedEndpoints (afterPhase1 parentModule partitionInstances) pre instName ps1
      p0).Nodup)
    (hlogic : ¬ (((afterPhase1 parentModule partitionInstances).m_parentModuleName, "logic") ∈
        resolvedEndpoints (afterPhase1 parentModule partitionInstances) pre instName ps1 p0 ∧
      ((afterPhase1 parentModule partitionInstances).m_parentModuleName,
          "logic_" ++ p0.name) ∈
        resolvedEndpoints (afterPhase1 parentModule partitionInstances) pre instName ps1 p0)) :
    ∃ port, getPort (mainLoop (afterPhase1 parentModule partitionInstances)).m_partitionData
        ⟨pre.length, ps1.length, 0⟩ = some port ∧
      port.name = p0.name ∧
      (p0.type = "wire" → port.with_whom_is_it_communicating =
        partnersOf (afterPhase1 parentModule partitionInstances) instName
          { p0 with
            other_end :=
              resolveWireChain (afterPhase1 parentModule partitionInstances).m_wireAliasMap 5
                p0.other_end [] }
          (resolvedEndpoints (afterPhase1 parentModule partitionInstances) pre instName ps1
            p0)) ∧
      (p0.type ≠ "wire" → port.with_whom_is_it_communicating = []) ∧
      (port.with_whom_is_it_communicating.map (fun q => (q.inst, q.port))).Nodup := by
  have hg := gathered_of_data parentModule partitionInstances pre post instName ps1 ps2 p0 hdata
  have hget : getPort (mainLoop (afterPhase1 parentModule partitionInstances)).m_partitionData
      ⟨pre.length, ps1.length, 0⟩ =
      some (analyzePort (afterPhase1 parentModule partitionInstances) instName
        (p0, mapBefore (afterPhase1 parentModule partitionInstances) pre instName ps1
          (afterPhase1 parentModule partitionInstances).m_wireToEndpoints)).1 := by
    simp only [mainLoop]
    rw [hdata]
    exact analyzeInstances_getPort _ pre post instName ps1 ps2 p0 _ 0
  obtain ⟨_, hname, _, hnw, _⟩ := analyzePort_gathered
    (afterPhase1 parentModule partitionInstances) instName p0
    (mapBefore (afterPhase1 parentModule partitionInstances) pre instName ps1
      (afterPhase1 parentModule partitionInstances).m_wireToEndpoints) hg
  have hwire : p0.type = "wire" →
      (analyzePort (afterPhase1 parentModule partitionInstances) instName
        (p0, mapBefore (afterPhase1 parentModule partitionInstances) pre instName ps1
          (afterPhase1 parentModule partitionInstances).m_wireToEndpoints)).1.with_whom_is_it_communicating =
        partnersOf (afterPhase1 parentModule partitionInstances) instName
          { p0 with
            other_end :=
              resolveWireChain (afterPhase1 parentModule partitionInstances).m_wireAliasMap 5
                p0.other_end [] }
          (resolvedEndpoints (afterPhase1 parentModule partitionInstances) pre instName ps1
            p0) := by
    intro hw
    obtain ⟨_, h1⟩ := analyzePort_wire_eq (afterPhase1 parentModule partitionInstances)
      instName p0 (mapBefore (afterPhase1 parentModule partitionInstances) pre instName ps1
        (afterPhase1 parentModule partitionInstances).m_wireToEndpoints) hw
    rw [h1, (gathered_shape p0 hg).1]
    simp only [finalizePort, List.nil_append]
    rfl
  refine ⟨_, hget, hname, hwire, hnw, ?_⟩
  by_cases hw : p0.type = "wire"
  · rw [hwire hw]
    exact partnersOf_nodup _ _ _ _ hnd hlogic
  · rw [hnw hw]
    exact List.nodup_nil

theorem C35_distinct_partners_witness :
    ∃ port, getPort (mainLoop (afterPhase1 exChain ["p1", "p2"])).m_partitionData
        ⟨([] : List (String × List Port)).length, ([] : List Port).length, 0⟩ = some port ∧
      port.name = (exPortOn "x").name ∧
      ((exPortOn "x").type = "wire" → port.with_whom_is_it_communicating =
        partnersOf (afterPhase1 exChain ["p1", "p2"]) "p1"
          { exPortOn "x" with
            other_end :=
              resolveWireChain (afterPhase1 exChain ["p1", "p2"]).m_wireAliasMap 5
                (exPortOn "x").other_end [] }
          (resolvedEndpoints (afterPhase1 exChain ["p1", "p2"]) [] "p1" [] (exPortOn "x"))) ∧
      ((exPortOn "x").type ≠ "wire" → port.with_whom_is_it_communicating = []) ∧
      (port.with_whom_is_it_communicating.map (fun q => (q.inst, q.port))).Nodup :=
  C35_distinct_partners exChain ["p1", "p2"] [] [("p2", [exPortOn "x2", exPortOutOn "y"])]
    "p1" [] [exPortOutOn "y1"] (exPortOn "x") (by decide) (by decide) (by decide)

/-- C35 (counterexample): in `exTwoAssign` net `w` is read by two continuous assignments,
so Phase 1 records the parent's `logic` endpoint twice on `w`; before disambiguation the
output `o` of `p1` has two partners with the same remote instance `Top` and remote port
`logic_o`, and is classified `"broadcast"`. -/
theorem C35_counterexample :
    (mainLoop (afterPhase1 exTwoAssign ["p1", "p2"])).m_partitionData =
      [("p1", [{ name := "o", direction := "out", width := 1, active := "Yes", type := "wire",
                 other_end := "w", mpi_process := "p1", mpi_rank := 1,
                 comm_type := "broadcast",
                 with_whom_is_it_communicating :=
                   [⟨"Top", "logic_o", "system", 0⟩, ⟨"Top", "logic_o", "system", 0⟩] }]),
       ("p2", [{ name := "o", direction := "out", width := 1, active := "No", type := "wire",
                 other_end := "w2", mpi_process := "p2", mpi_rank := 2, comm_type := "NULL",
                 with_whom_is_it_communicating := [] }])] := by
  decide

theorem partnerOf_other (a : PartitionPortAnalyzer) (instName : String) (port : Port)
    (tos : Bool) (endpoint : String × String) (h1 : endpoint.1 ≠ instName)
    (h2 : endpoint.1 ≠ a.m_parentModuleName) :
    partnerOf a instName port tos endpoint =
      if isValidConnection (sourceDirectionOf port.direction) tos false
          (getPortDirection a endpoint.1 endpoint.2) then
        some { inst := endpoint.1, port := endpoint.2,
               mpi_process :=
                 if endpoint.1 ∈ a.m_partitionInstances then endpoint.1 else "system",
               mpi_rank := rankOf a.m_mpiRankMap
                 (if endpoint.1 ∈ a.m_partitionInstances then endpoint.1 else "system") }
      else none := by
  unfold partnerOf
  rw [if_neg h1]
  have hl : decide (endpoint.1 = a.m_parentModuleName ∧ endpoint.2 = "logic") = false :=
    decide_eq_false (fun h => h2 h.1)
  simp only [hl, Bool.false_eq_true, if_false]

theorem partnersOf_lists (a : PartitionPortAnalyzer) (A : String) (pa : Port)
    (eps : List (String × String)) (B b : String) (hAB : B ≠ A)
    (hB : B ≠ a.m_parentModuleName) :
    (∃ q ∈ partnersOf a A pa eps, q.inst = B ∧ q.port = b) ↔
      ((B, b) ∈ eps ∧
        isValidConnection (sourceDirectionOf pa.direction)
          (trueOutputSourceExists a A pa eps) false (getPortDirection a B b) = true) := by
  rw [partnersOf_eq_filterMap]
  constructor
  · rintro ⟨q, hq, hi, hp⟩
    obtain ⟨e, he, hpe⟩ := List.mem_filterMap.1 hq
    unfold recordedFor at hpe
    have hpair := partnerOf_pair a A pa _ e q hpe
    simp only [Prod.mk.injEq] at hpair
    have he1 : e.1 = B := by rw [← hpair.1, hi]
    have hnl : ¬ (e.1 = a.m_parentModuleName ∧ e.2 = "logic") := fun h => hB (he1 ▸ h.1)
    have he2 : e.2 = b := by
      have := hpair.2
      rw [if_neg hnl] at this
      rw [← this, hp]
    have heq : e = (B, b) := Prod.ext he1 he2
    rw [heq] at he hpe
    refine ⟨he, ?_⟩
    rw [partnerOf_other a A pa _ (B, b) hAB hB] at hpe
    by_cases hv : isValidConnection (sourceDirectionOf pa.direction)
        (trueOutputSourceExists a A pa eps) false (getPortDirection a B b) = true
    · exact hv
    · rw [if_neg hv] at hpe
      exact absurd hpe (by simp)
  · rintro ⟨he, hv⟩
    have hrec : recordedFor a A pa eps (B, b) =
        some { inst := B, port := b,
               mpi_process := if B ∈ a.m_partitionInstances then B else "system",
               mpi_rank := rankOf a.m_mpiRankMap
                 (if B ∈ a.m_partitionInstances then B else "system") } := by
      unfold recordedFor
      rw [partnerOf_other a A pa _ (B, b) hAB hB, if_pos hv]
    exact ⟨_, List.mem_filterMap.2 ⟨(B, b), he, hrec⟩, rfl, rfl⟩

theorem declared_direction (dir : String)
    (h : strFind dir "in" = true ∨ strFind dir "out" = true) :
    sourceDirectionOf dir = directionOfKwd dir ∧
      (directionOfKwd dir = "Input" ∨ directionOfKwd dir = "Output") := by
  unfold sourceDirectionOf directionOfKwd
  by_cases h1 : strFind dir "in" = true
  · simp only [h1, if_true, true_or, and_self]
  · have h2 : strFind dir "out" = true := h.resolve_left h1
    simp only [h1, h2, Bool.false_eq_true, if_false, if_true, or_true, and_self]

/-- Step 2.2 is symmetric where it reads one endpoint list for both ports: for ports of two
different instances (neither named like the parent module) whose direction keywords hold
`in` or `out` and are what `getPortDirection` finds for them, on an endpoint list that
carries both, each lists the other as a partner exactly when the other lists it. -/
theorem partnersOf_symmetric (a : PartitionPortAnalyzer) (A B : String) (pa pb : Port)
    (eps : List (String × String)) (hAB : A ≠ B) (hA : A ≠ a.m_parentModuleName)
    (hB : B ≠ a.m_parentModuleName) (hea : (A, pa.name) ∈ eps) (heb : (B, pb.name) ∈ eps)
    (hda : getPortDirection a A pa.name = directionOfKwd pa.direction)
    (hdb : getPortDirection a B pb.name = directionOfKwd pb.direction)
    (hka : strFind pa.direction "in" = true ∨ strFind pa.direction "out" = true)
    (hkb : strFind pb.direction "in" = true ∨ strFind pb.direction "out" = true) :
    (∃ q ∈ partnersOf a A pa eps, q.inst = B ∧ q.port = pb.name) ↔
      (∃ q ∈ partnersOf a B pb eps, q.inst = A ∧ q.port = pa.name) := by
  rw [partnersOf_lists a A pa eps B pb.name (Ne.symm hAB) hB,
    partnersOf_lists a B pb eps A pa.name hAB hA, hda, hdb]
  obtain ⟨sa, da⟩ := declared_direction pa.direction hka
  obtain ⟨sb, db⟩ := declared_direction pb.direction hkb
  rw [sa, sb]
  simp only [hea, heb, true_and]
  rcases da with da | da <;> rcases db with db | db <;> rw [da, db] <;>
    simp [isValidConnection]

/-- C34 (divergence): before disambiguation, in `exChain` the Input `x` of `p1`, joined to
the Output `y` of `p2` through `assign w = y; assign x = w;`, lists `(p2, y)` and `p2.y`
lists `(p1, x)`.  In `exChainSwapped`, the same design with the partitions exchanged, the
Input `x` of `p2` lists `(p1, y)` but the Output `y` of `p1` does not list `(p2, x)`: when
`p1.y` is analysed, Step 2.1 has not yet moved the endpoint of `p2.x` to net `y`.  In
`exRef`, where the port `r` (keyword `ref`) of `p1` and the Output `y` of `p2` share net
`n`, `p2.y` lists `(p1, r)` but `p1.r` does not list `(p2, y)`: the keyword is `Unknown` for
the port analysed and `Inout` for the same port seen as an endpoint. -/
theorem C34_partner_asymmetry :
    listsPartner (mainLoop (afterPhase1 exChain ["p1", "p2"])).m_partitionData
      "p1" "x" "p2" "y" = true ∧
    listsPartner (mainLoop (afterPhase1 exChain ["p1", "p2"])).m_partitionData
      "p2" "y" "p1" "x" = true ∧
    listsPartner (mainLoop (afterPhase1 exChainSwapped ["p1", "p2"])).m_partitionData
      "p2" "x" "p1" "y" = true ∧
    listsPartner (mainLoop (afterPhase1 exChainSwapped ["p1", "p2"])).m_partitionData
      "p1" "y" "p2" "x" = false ∧
    (mainLoop (afterPhase1 exChainSwapped ["p1", "p2"])).m_partitionData =
      [("p1", [{ name := "x", direction := "in", width := 1, active := "No", type := "wire",
                 other_end := "x1", mpi_process := "p1", mpi_rank := 1, comm_type := "NULL",
                 with_whom_is_it_communicating := [] },
               { name := "y", direction := "out", width := 8, active := "Yes",
                 type := "wire", other_end := "y", mpi_process := "p1", mpi_rank := 1,
                 comm_type := "P2P",
                 with_whom_is_it_communicating := [⟨"Top", "logic_y", "system", 0⟩] }]),
       ("p2", [{ name := "x", direction := "in", width := 1, active := "Yes", type := "wire",
                 other_end := "y", mpi_process := "p2", mpi_rank := 2, comm_type := "P2P",
                 with_whom_is_it_communicating := [⟨"p1", "y", "p1", 1⟩] },
               { name := "y", direction := "out", width := 8, active := "No", type := "wire",
                 other_end := "y2", mpi_process := "p2", mpi_rank := 2, comm_type := "NULL",
                 with_whom_is_it_communicating := [] }])] ∧
    listsPartner (mainLoop (afterPhase1 exRef ["p1", "p2"])).m_partitionData
      "p2" "y" "p1" "r" = true ∧
    listsPartner (mainLoop (afterPhase1 exRef ["p1", "p2"])).m_partitionData
      "p1" "r" "p2" "y" = false := by
  decide

end MetroMPI
